import Mathlib

/-!
# go-capture: stream redirection and result parsing

A shallow embedding of `main.go` of the package `capture`.

* Go strings are byte sequences (`GoString`).
* Machine integers are mathematical integers with an explicit reduction
  modulo `2 ^ w` wherever the Go code converts or may overflow.
* The functions of the Go standard library package `strconv` that `main.go`
  calls (`ParseBool`, `ParseUint`, `ParseInt`, `Atoi`) are transcribed from
  the library source, with the base fixed at 10 as at every call site.
* A value of the Go interface type `error` is an `Option`: `none` is `nil`.
-/

namespace GoCapture

/-! ## Strings and machine integers -/

/-- A Go `string`: an immutable sequence of bytes. -/
abbrev GoString := List UInt8

/-- The bytes of a string literal (its UTF-8 encoding, as in Go source text). -/
def lit (s : String) : GoString := s.data.flatMap String.utf8EncodeChar

/-- Conversion of an integer to a signed `w`-bit Go integer type (`int8(x)`, ...). -/
def wrapInt (w : Nat) (x : Int) : Int := (x + 2 ^ (w - 1)) % 2 ^ w - 2 ^ (w - 1)

/-- Conversion of a natural number to an unsigned `w`-bit Go integer type. -/
def wrapUint (w : Nat) (x : Nat) : Nat := x % 2 ^ w

/-- The constant `strconv.IntSize` (size of `int` and `uint`) on a 64-bit platform. -/
def intSize : Nat := 64

/-! ## Package strconv -/

/-- The sentinel errors `strconv.ErrSyntax` and `strconv.ErrRange`, and the
error built by `bitSizeError`. -/
inductive ConvErr where
  | ErrSyntax
  | ErrRange
  | invalidBitSize (bitSize : Nat)
deriving DecidableEq, Repr

/-- The Go type `strconv.NumError`. -/
structure NumError where
  Func : String
  Num : GoString
  Err : ConvErr
deriving DecidableEq, Repr

/-- The function `syntaxError` of strconv. -/
def syntaxError (fn : String) (str : GoString) : NumError := ⟨fn, str, ConvErr.ErrSyntax⟩

/-- The function `rangeError` of strconv. -/
def rangeError (fn : String) (str : GoString) : NumError := ⟨fn, str, ConvErr.ErrRange⟩

/-- The function `bitSizeError` of strconv. -/
def bitSizeError (fn : String) (str : GoString) (bitSize : Nat) : NumError :=
  ⟨fn, str, ConvErr.invalidBitSize bitSize⟩

/-- The function `strconv.ParseBool`. -/
def ParseBool (str : GoString) : Bool × Option NumError :=
  if str = lit "1" ∨ str = lit "t" ∨ str = lit "T" ∨ str = lit "true" ∨ str = lit "TRUE"
      ∨ str = lit "True" then
    (true, none)
  else if str = lit "0" ∨ str = lit "f" ∨ str = lit "F" ∨ str = lit "false"
      ∨ str = lit "FALSE" ∨ str = lit "False" then
    (false, none)
  else
    (false, some (syntaxError "ParseBool" str))

/-- The helper `lower` of strconv: `c | ('x' - 'X')`. -/
def lower (c : Nat) : Nat := c ||| 32

/-- The constant `maxUint64`. -/
def maxUint64 : Nat := 2 ^ 64 - 1

/-- The body of the `for _, c := range []byte(s)` loop of `strconv.ParseUint`
with `base = 10`: `s0` is the whole argument, `maxVal` the largest value of the
requested size, `n` the value accumulated so far (a `uint64`). -/
def parseUintLoop (s0 : GoString) (maxVal : Nat) : GoString → Nat → Nat × Option NumError
  | [], n => (n, none)
  | c :: cs, n =>
    let c := c.toNat
    let base := 10
    -- cutoff is the smallest number such that cutoff*base > maxUint64
    let cutoff := maxUint64 / 10 + 1
    if 48 ≤ c ∧ c ≤ 57 ∨ 97 ≤ lower c ∧ lower c ≤ 122 then
      let d := if 48 ≤ c ∧ c ≤ 57 then c - 48 else (lower c - 97 + 10) % 256
      if d ≥ base then
        (0, some (syntaxError "ParseUint" s0))
      else if n ≥ cutoff then
        -- n*base overflows
        (maxVal, some (rangeError "ParseUint" s0))
      else
        let n := (n * base) % 2 ^ 64
        let n1 := (n + d) % 2 ^ 64
        if n1 < n ∨ n1 > maxVal then
          -- n+d overflows
          (maxVal, some (rangeError "ParseUint" s0))
        else
          parseUintLoop s0 maxVal cs n1
    else
      (0, some (syntaxError "ParseUint" s0))

/-- The call `strconv.ParseUint(s, 10, bitSize)`. -/
def ParseUint (s : GoString) (bitSize : Nat) : Nat × Option NumError :=
  if s = [] then
    (0, some (syntaxError "ParseUint" s))
  else if bitSize > 64 then
    (0, some (bitSizeError "ParseUint" s bitSize))
  else
    let bitSize := if bitSize = 0 then intSize else bitSize
    -- uint64(1)<<uint(bitSize) - 1
    let maxVal := (2 ^ bitSize % 2 ^ 64 + 2 ^ 64 - 1) % 2 ^ 64
    parseUintLoop s maxVal s 0

/-- The call `strconv.ParseInt(s, 10, bitSize)`. -/
def ParseInt (s : GoString) (bitSize : Nat) : Int × Option NumError :=
  match s with
  | [] => (0, some (syntaxError "ParseInt" s))
  | c :: rest =>
    -- pick off leading sign
    let neg := c = 45
    let body := if c = 43 ∨ c = 45 then rest else s
    -- convert unsigned and check range
    let (un, err) := ParseUint body bitSize
    if err.isSome ∧ err.map NumError.Err ≠ some ConvErr.ErrRange then
      (0, err.map (fun e => ⟨"ParseInt", s, e.Err⟩))
    else
      let bitSize := if bitSize = 0 then intSize else bitSize
      let cutoff := 2 ^ (bitSize - 1) % 2 ^ 64
      if ¬ neg ∧ un ≥ cutoff then
        (wrapInt 64 ((cutoff : Int) - 1), some (rangeError "ParseInt" s))
      else if neg ∧ un > cutoff then
        (wrapInt 64 (-(wrapInt 64 cutoff)), some (rangeError "ParseInt" s))
      else
        let n := wrapInt 64 un
        (if neg then wrapInt 64 (-n) else n, none)

/-- The digit loop of the fast path of `strconv.Atoi`: `n` is an `int`. -/
def atoiLoop (s0 : GoString) : GoString → Int → Int × Option NumError
  | [], n => (n, none)
  | ch :: cs, n =>
    -- ch -= '0'
    let ch := (ch.toNat + 256 - 48) % 256
    if ch > 9 then
      (0, some (syntaxError "Atoi" s0))
    else
      atoiLoop s0 cs (wrapInt intSize (n * 10 + ch))

/-- The function `strconv.Atoi`. -/
def Atoi (s : GoString) : Int × Option NumError :=
  let sLen := s.length
  if (intSize = 32 ∧ (0 < sLen ∧ sLen < 10)) ∨ (intSize = 64 ∧ (0 < sLen ∧ sLen < 19)) then
    -- fast path for small integers that fit int type
    let signed := s.head? = some 45 ∨ s.head? = some 43
    let body := if signed then s.drop 1 else s
    if signed ∧ body.length < 1 then
      (0, some (syntaxError "Atoi" s))
    else
      let (n, err) := atoiLoop s body 0
      match err with
      | some e => (0, some e)
      | none => (if s.head? = some 45 then wrapInt intSize (-n) else n, none)
  else
    -- slow path for invalid, big, or underscored integers
    let (i64, err) := ParseInt s 0
    (wrapInt intSize i64, err.map (fun nerr => ⟨"Atoi", nerr.Num, nerr.Err⟩))

/-! ## The captured result and its scalar conversions (main.go, `Result`) -/

/-- The Go type `Result`: the captured text. -/
structure Result where
  Value : GoString
deriving DecidableEq, Repr

/-- AsBool converts the Result to a bool. -/
def Result.AsBool (o : Result) : Bool × Option NumError :=
  let (result, err) := ParseBool o.Value
  (result, err)

/-- AsString converts the Result to a string. -/
def Result.AsString (o : Result) : GoString := o.Value

/-- AsInt converts the Result to an int. -/
def Result.AsInt (o : Result) : Int × Option NumError :=
  let (result, err) := Atoi o.Value
  (result, err)

/-- AsInt8 converts the Result to an int8. -/
def Result.AsInt8 (o : Result) : Int × Option NumError :=
  let (result, err) := ParseInt o.Value 8
  (wrapInt 8 result, err)

/-- AsInt16 converts the Result to an int16. -/
def Result.AsInt16 (o : Result) : Int × Option NumError :=
  let (result, err) := ParseInt o.Value 16
  (wrapInt 16 result, err)

/-- AsInt32 converts the Result to an int32. -/
def Result.AsInt32 (o : Result) : Int × Option NumError :=
  let (result, err) := ParseInt o.Value 32
  (wrapInt 32 result, err)

/-- AsInt64 converts the Result to an int64. -/
def Result.AsInt64 (o : Result) : Int × Option NumError :=
  let (result, err) := ParseInt o.Value 64
  (result, err)

/-- AsUint converts the Result to an uint. -/
def Result.AsUint (o : Result) : Nat × Option NumError :=
  let (result, err) := ParseUint o.Value 64
  (wrapUint intSize result, err)

/-- AsUint8 converts the Result to an uint8. -/
def Result.AsUint8 (o : Result) : Nat × Option NumError :=
  let (result, err) := ParseUint o.Value 8
  (wrapUint 8 result, err)

/-- AsUint16 converts the Result to an uint16. -/
def Result.AsUint16 (o : Result) : Nat × Option NumError :=
  let (result, err) := ParseUint o.Value 16
  (wrapUint 16 result, err)

/-- AsUint32 converts the Result to an uint32. -/
def Result.AsUint32 (o : Result) : Nat × Option NumError :=
  let (result, err) := ParseUint o.Value 32
  (wrapUint 32 result, err)

/-- AsUint64 converts the Result to an uint64. -/
def Result.AsUint64 (o : Result) : Nat × Option NumError :=
  let (result, err) := ParseUint o.Value 64
  (result, err)

/-- AsUintptr converts the Result to an uintptr. -/
def Result.AsUintptr (o : Result) : Nat × Option NumError :=
  let (result, err) := ParseUint o.Value 64
  (wrapUint intSize result, err)

/-- AsByte converts the Result to a byte. -/
def Result.AsByte (o : Result) : Nat × Option NumError :=
  let (result, err) := ParseUint o.Value 8
  (wrapUint 8 result, err)

/-- AsRune converts the Result to a rune. -/
def Result.AsRune (o : Result) : Int × Option NumError :=
  let (result, err) := ParseInt o.Value 32
  (wrapInt 32 result, err)

/-! ## The process: its two output streams and the files behind them -/

/-- The identity of an open file (a Go `*os.File`). -/
abbrev File := Nat

/-- One of the two process-wide variables `os.Stdout` and `os.Stderr`. -/
inductive Stream where
  | out
  | err
deriving DecidableEq, Repr

/-- What the process does to its streams: an assignment to `os.Stdout` or
`os.Stderr`, or a completed write of some bytes to a file. -/
inductive Event where
  | assign (s : Stream) (f : File)
  | write (f : File) (data : GoString)
deriving DecidableEq, Repr

/-- The process-wide state the package touches: the current values of
`os.Stdout` and `os.Stderr`, and the history of assignments and writes. -/
structure Proc where
  Stdout : File
  Stderr : File
  trace : List Event
deriving DecidableEq, Repr

/-- The file a stream variable currently holds. -/
def Proc.get (p : Proc) : Stream → File
  | Stream.out => p.Stdout
  | Stream.err => p.Stderr

/-- The assignment `os.Stdout = f` or `os.Stderr = f`. -/
def Proc.set (p : Proc) (s : Stream) (f : File) : Proc :=
  match s with
  | Stream.out => ⟨f, p.Stderr, p.trace ++ [Event.assign Stream.out f]⟩
  | Stream.err => ⟨p.Stdout, f, p.trace ++ [Event.assign Stream.err f]⟩

/-- The file an event mentions. -/
def Event.file : Event → File
  | Event.assign _ f => f
  | Event.write f _ => f

/-- The call `os.Pipe()` when it succeeds: a read end and a write end, two new
files, distinct from every file the process has held or written to. -/
def osPipe (p : Proc) : File × File :=
  let top := (p.trace.map Event.file).foldl max (max p.Stdout p.Stderr)
  (top + 1, top + 2)

/-- A value given to `panic`: the error of a failed `os.Pipe()`, or whatever
the callback panics with. -/
inductive PanicValue where
  | osError (errno : Nat)
  | value (v : GoString)
deriving DecidableEq, Repr

/-- What the callback `f func()` does, as far as the two streams can tell: it
writes bytes to `os.Stdout` or `os.Stderr` (`fmt.Println`, `fmt.Fprintln(os.Stderr, ...)`),
or it panics. -/
inductive Op where
  | write (s : Stream) (data : GoString)
  | panic (v : GoString)
deriving DecidableEq, Repr

/-- A callback: the operations it performs, in order. Nothing after a panic runs. -/
abbrev Callback := List Op

/-- What a call does not decide itself: whether `os.Pipe()` fails, how many
bytes the kernel buffers in a pipe, and, when a reader goroutine runs, how
many bytes it moves before each write of the callback. -/
structure Env where
  pipeErr : Option Nat
  capacity : Nat
  sched : List Nat
deriving DecidableEq, Repr

/-- The state of one call of `capture` while the callback runs: the process,
the bytes written to the pipe and not yet read, the bytes `io.Copy` has moved
to `buf`, and what is left of the schedule of the reader. -/
structure Run where
  proc : Proc
  pipe : GoString
  buf : GoString
  sched : List Nat
deriving DecidableEq, Repr

/-- How running the callback ends: it returns, it panics, or it never comes
back from a write to a full pipe that nothing drains. -/
inductive Exec where
  | done (st : Run)
  | panicked (v : PanicValue) (st : Run)
  | blocked
deriving DecidableEq, Repr

/-- How a call of the package ends, with the process state it leaves. -/
inductive Outcome (α : Type) where
  | returned (val : α) (p : Proc)
  | panicked (v : PanicValue) (p : Proc)
  | blocked
deriving DecidableEq, Repr

/-- The result of a call, with the returned value transformed. -/
def Outcome.map {α β : Type} (g : α → β) : Outcome α → Outcome β
  | Outcome.returned v p => Outcome.returned (g v) p
  | Outcome.panicked v p => Outcome.panicked v p
  | Outcome.blocked => Outcome.blocked

/-- A write of `data` to the write end of the pipe. Without a reader the
write completes only if the bytes fit in the pipe buffer, and blocks for ever
otherwise (`none`). With the reader goroutine running, the reader first moves
the bytes its schedule gives it; a write that does not fit then waits while
the reader drains the pipe, and completes. -/
def pipeWrite (reader : Bool) (capacity : Nat) (data : GoString) (st : Run) : Option Run :=
  if reader then
    let k := st.sched.headD 0
    let buf := st.buf ++ st.pipe.take k
    let pipe := st.pipe.drop k
    if pipe.length + data.length ≤ capacity then
      some ⟨st.proc, pipe ++ data, buf, st.sched.tail⟩
    else
      let all := pipe ++ data
      some ⟨st.proc, all.drop (all.length - capacity), buf ++ all.take (all.length - capacity),
        st.sched.tail⟩
  else if st.pipe.length + data.length ≤ capacity then
    some ⟨st.proc, st.pipe ++ data, st.buf, st.sched⟩
  else
    none

/-- The call `f()`: the operations of the callback, one after the other. A
write goes to the file the stream variable holds at that moment: to the pipe
when that is its write end `w`, to the file itself otherwise. -/
def runCallback (reader : Bool) (capacity : Nat) (w : File) : Callback → Run → Exec
  | [], st => Exec.done st
  | Op.panic v :: _, st => Exec.panicked (PanicValue.value v) st
  | Op.write s data :: rest, st =>
    let file := st.proc.get s
    let logged : Proc := ⟨st.proc.Stdout, st.proc.Stderr, st.proc.trace ++ [Event.write file data]⟩
    if file = w then
      match pipeWrite reader capacity data st with
      | none => Exec.blocked
      | some st1 => runCallback reader capacity w rest ⟨logged, st1.pipe, st1.buf, st1.sched⟩
    else
      runCallback reader capacity w rest ⟨logged, st.pipe, st.buf, st.sched⟩

/-- A deferred function of `redirectAndExecute` runs when the callback
returns and when it panics. -/
def Exec.deferred (g : Proc → Proc) : Exec → Exec
  | Exec.done st => Exec.done ⟨g st.proc, st.pipe, st.buf, st.sched⟩
  | Exec.panicked v st => Exec.panicked v ⟨g st.proc, st.pipe, st.buf, st.sched⟩
  | Exec.blocked => Exec.blocked

/-! ## Capture (main.go) -/

/-- The Go type `BufferMethod`, an `int`. -/
abbrev BufferMethod := Int

/-- PipeDirectly uses the default pipe-based capturing (may block on large output). -/
def PipeDirectly : BufferMethod := 0

/-- PipeWithGoroutine uses a goroutine to read and buffer data, avoiding blocking. -/
def PipeWithGoroutine : BufferMethod := 1

/-- The Go type `Capture`. -/
structure Capture where
  captureStdout : Bool
  captureStderr : Bool
  method : BufferMethod
deriving DecidableEq, Repr

/-- UseMethod initializes a new Capture instance with the specified BufferMethod. -/
def UseMethod (method : BufferMethod) : Capture := ⟨false, false, method⟩

/-- The method `redirectAndExecute`: `reader` tells whether the reader
goroutine is running. The deferred restorations run last registered first. -/
def Capture.redirectAndExecute (c : Capture) (reader : Bool) (capacity : Nat) (w : File)
    (f : Callback) (st : Run) : Exec :=
  let stdout := st.proc.Stdout
  let p1 := if c.captureStdout then st.proc.set Stream.out w else st.proc
  let stderr := p1.Stderr
  let p2 := if c.captureStderr then p1.set Stream.err w else p1
  let r := runCallback reader capacity w f ⟨p2, st.pipe, st.buf, st.sched⟩
  let r := if c.captureStderr then r.deferred (fun p => p.set Stream.err stderr) else r
  if c.captureStdout then r.deferred (fun p => p.set Stream.out stdout) else r

/-- The method `capture`. The pipe is created first; a failure of `os.Pipe()`
panics before anything is redirected. Reading the pipe to its end succeeds
once the write end is closed, so `io.Copy` returns no error here; closing `r`
and `w` touches neither stream. -/
def Capture.capture (c : Capture) (env : Env) (f : Callback) (p : Proc) : Outcome GoString :=
  match env.pipeErr with
  | some errno => Outcome.panicked (PanicValue.osError errno) p
  | none =>
    let w := (osPipe p).2
    if c.method = PipeWithGoroutine then
      -- a goroutine copies the pipe to buf while the callback runs
      match c.redirectAndExecute true env.capacity w f ⟨p, [], [], env.sched⟩ with
      | Exec.done st =>
        -- w.Close(); wg.Wait(): the reader reads what is left and sees the end
        Outcome.returned (st.buf ++ st.pipe) st.proc
      | Exec.panicked v st => Outcome.panicked v st.proc
      | Exec.blocked => Outcome.blocked
    else
      match c.redirectAndExecute false env.capacity w f ⟨p, [], [], env.sched⟩ with
      | Exec.done st =>
        -- w.Close(); io.Copy(&buf, r)
        Outcome.returned (st.buf ++ st.pipe) st.proc
      | Exec.panicked v st => Outcome.panicked v st.proc
      | Exec.blocked => Outcome.blocked

/-- The method `(c *Capture) Stdout`: captures stdout. The receiver is a
pointer, so the call also yields the Capture as it leaves it. -/
def Capture.Stdout (c : Capture) (env : Env) (f : Callback) (p : Proc) :
    Capture × Outcome Result :=
  let c1 : Capture := ⟨true, c.captureStderr, c.method⟩
  (c1, (c1.capture env f p).map Result.mk)

/-- The method `(c *Capture) Stderr`: captures stderr. -/
def Capture.Stderr (c : Capture) (env : Env) (f : Callback) (p : Proc) :
    Capture × Outcome Result :=
  let c1 : Capture := ⟨c.captureStdout, true, c.method⟩
  (c1, (c1.capture env f p).map Result.mk)

/-- The method `(c *Capture) Output`: captures stdout and stderr. -/
def Capture.Output (c : Capture) (env : Env) (f : Callback) (p : Proc) :
    Capture × Outcome Result :=
  let c1 : Capture := ⟨true, true, c.method⟩
  (c1, (c1.capture env f p).map Result.mk)

/-- The function `Stdout`: captures stdout. The composite literal leaves
`method` at its zero value. -/
def Stdout (env : Env) (f : Callback) (p : Proc) : Outcome Result :=
  let capture : Capture := ⟨true, false, 0⟩
  (capture.capture env f p).map Result.mk

/-- The function `Stderr`: captures stderr. -/
def Stderr (env : Env) (f : Callback) (p : Proc) : Outcome Result :=
  let capture : Capture := ⟨false, true, 0⟩
  (capture.capture env f p).map Result.mk

/-- The function `Output`: captures stdout and stderr. -/
def Output (env : Env) (f : Callback) (p : Proc) : Outcome Result :=
  let capture : Capture := ⟨true, true, 0⟩
  (capture.capture env f p).map Result.mk

/-! ## What a callback writes (specification side) -/

/-- The bytes the callback writes to the streams selected by `sel`, in the
order of the writes, up to the point where it panics if it does. -/
def written (sel : Stream → Bool) : Callback → GoString
  | [] => []
  | Op.panic _ :: _ => []
  | Op.write s data :: rest => if sel s then data ++ written sel rest else written sel rest

/-- The callback returns normally: it does not panic. -/
def returnsNormally (f : Callback) : Bool := f.all (fun op => match op with
  | Op.panic _ => false
  | Op.write _ _ => true)

/-- The streams a Capture redirects. -/
def Capture.selects (c : Capture) : Stream → Bool
  | Stream.out => c.captureStdout
  | Stream.err => c.captureStderr

/-- The callback that performs the given writes, in order, and returns. -/
def writes (ws : List (Stream × GoString)) : Callback := ws.map (fun x => Op.write x.1 x.2)

/-- The byte strings written to the streams selected by `sel`, concatenated in
the order of the writes. -/
def selected (sel : Stream → Bool) (ws : List (Stream × GoString)) : GoString :=
  ((ws.filter (fun x => sel x.1)).map Prod.snd).flatten

/-- The value the callback panics with, if it panics. -/
def firstPanic : Callback → Option GoString
  | [] => none
  | Op.panic v :: _ => some v
  | Op.write _ _ :: rest => firstPanic rest

/-- The writes the callback completes, each on the file `dest` gives for its stream. -/
def writeEvents (dest : Stream → File) : Callback → List Event
  | [] => []
  | Op.panic _ :: _ => []
  | Op.write s data :: rest => Event.write (dest s) data :: writeEvents dest rest

/-- The assignments that point the selected streams at the file `w`. -/
def redirects (c : Capture) (w : File) : List Event :=
  (if c.captureStdout then [Event.assign Stream.out w] else []) ++
    (if c.captureStderr then [Event.assign Stream.err w] else [])

/-- The assignments that give the selected streams the files of `p` back. -/
def restores (c : Capture) (p : Proc) : List Event :=
  (if c.captureStderr then [Event.assign Stream.err p.Stderr] else []) ++
    (if c.captureStdout then [Event.assign Stream.out p.Stdout] else [])

/-- An event assigns to the stream `s`. -/
def Event.assigns (s : Stream) : Event → Bool
  | Event.assign t _ => decide (t = s)
  | Event.write _ _ => false

/-! ## Decimal texts (specification side) -/

/-- An ASCII decimal digit. -/
def isDigit (c : UInt8) : Bool := decide (48 ≤ c.toNat ∧ c.toNat ≤ 57)

/-- The value of the digits of `s` read in base 10 after the digits worth `n`. -/
def decFrom (n : Nat) (s : GoString) : Nat := s.foldl (fun k c => k * 10 + (c.toNat - 48)) n

/-- The value of a run of decimal digits. -/
def decVal (s : GoString) : Nat := decFrom 0 s

/-- One or more ASCII decimal digits: the well-formed unsigned base-10 texts. -/
def isDecimal (s : GoString) : Bool := !s.isEmpty && s.all isDigit

/-- The text without its leading sign character, if it has one. -/
def unsign : GoString → GoString
  | [] => []
  | c :: rest => if c = 43 ∨ c = 45 then rest else c :: rest

/-- An optional `+` or `-` followed by one or more ASCII decimal digits: the
well-formed signed base-10 texts. -/
def isSignedDecimal (s : GoString) : Bool := isDecimal (unsign s)

/-- The integer a signed base-10 text denotes. -/
def signedVal (s : GoString) : Int :=
  if s.head? = some 45 then -(decVal (unsign s) : Int) else (decVal (unsign s) : Int)

/-- Digits of `n`, most significant first, pushed in front of `acc`. -/
def natTextAux : Nat → Nat → GoString → GoString
  | 0, _, acc => acc
  | fuel + 1, n, acc =>
    if n < 10 then UInt8.ofNat (48 + n % 10) :: acc
    else natTextAux fuel (n / 10) (UInt8.ofNat (48 + n % 10) :: acc)

/-- The base-10 text of a natural number, without leading zeros. -/
def natText (n : Nat) : GoString := natTextAux (n + 1) n []

/-- The base-10 text of an integer, as `strconv.Itoa` and `fmt.Print` write it. -/
def Itoa (v : Int) : GoString := if v < 0 then 45 :: natText v.natAbs else natText v.natAbs

/-! ## The integer conversions, by width -/

/-- The signed conversions of `Result`, each with the width of its type (`int`
is 64 bits wide, `rune` is `int32`). -/
def signedConversions : List (Nat × (Result → Int × Option NumError)) :=
  [(64, Result.AsInt), (8, Result.AsInt8), (16, Result.AsInt16), (32, Result.AsInt32),
    (64, Result.AsInt64), (32, Result.AsRune)]

/-- The unsigned conversions of `Result`, each with the width of its type
(`uint` and `uintptr` are 64 bits wide, `byte` is `uint8`). -/
def unsignedConversions : List (Nat × (Result → Nat × Option NumError)) :=
  [(64, Result.AsUint), (8, Result.AsUint8), (16, Result.AsUint16), (32, Result.AsUint32),
    (64, Result.AsUint64), (64, Result.AsUintptr), (8, Result.AsByte)]

/-- The kind of an error: `ErrSyntax`, `ErrRange`, or none when the error is nil. -/
def errKind (err : Option NumError) : Option ConvErr := err.map NumError.Err

/-! ## Package unicode/utf8 -/

/-- The constant `utf8.RuneError`, the replacement character U+FFFD. -/
def RuneError : Nat := 0xFFFD

/-- The function `utf8.DecodeRune`: the rune at the start of `s` and its width
in bytes; `(RuneError, 0)` for the empty string, `(RuneError, 1)` when the
bytes at the start are not a valid UTF-8 encoding. The size and the range
accepted for the second byte are those of the tables `first` and
`acceptRanges`. -/
def DecodeRune (s : GoString) : Nat × Nat :=
  match s with
  | [] => (RuneError, 0)
  | b0 :: rest =>
    let s0 := b0.toNat
    if s0 < 0x80 then (s0, 1)
    else if s0 < 0xC2 ∨ 0xF4 < s0 then (RuneError, 1)
    else
      let sz := if s0 < 0xE0 then 2 else if s0 < 0xF0 then 3 else 4
      let lo := if s0 = 0xE0 then 0xA0 else if s0 = 0xF0 then 0x90 else 0x80
      let hi := if s0 = 0xED then 0x9F else if s0 = 0xF4 then 0x8F else 0xBF
      if s.length < sz then (RuneError, 1)
      else
        match rest with
        | [] => (RuneError, 1)
        | b1 :: rest1 =>
          let s1 := b1.toNat
          if s1 < lo ∨ hi < s1 then (RuneError, 1)
          else if sz ≤ 2 then (s0 % 32 * 64 + s1 % 64, 2)
          else
            match rest1 with
            | [] => (RuneError, 1)
            | b2 :: rest2 =>
              let s2 := b2.toNat
              if s2 < 0x80 ∨ 0xBF < s2 then (RuneError, 1)
              else if sz ≤ 3 then (s0 % 16 * 4096 + s1 % 64 * 64 + s2 % 64, 3)
              else
                match rest2 with
                | [] => (RuneError, 1)
                | b3 :: _ =>
                  let s3 := b3.toNat
                  if s3 < 0x80 ∨ 0xBF < s3 then (RuneError, 1)
                  else (s0 % 8 * 262144 + s1 % 64 * 4096 + s2 % 64 * 64 + s3 % 64, 4)

/-- The function `utf8.RuneStart`: the byte is not a continuation byte. -/
def RuneStart (b : UInt8) : Bool := decide (b.toNat / 64 ≠ 2)

/-- The function `utf8.DecodeLastRune`: the rune at the end of `s` and its
width. The search for the start of the last rune goes back at most `UTFMax = 4`
bytes. -/
def DecodeLastRune (s : GoString) : Nat × Nat :=
  let n := s.length
  match s.getLast? with
  | none => (RuneError, 0)
  | some last =>
    if last.toNat < 0x80 then (last.toNat, 1)
    else
      let start :=
        if 2 ≤ n ∧ (s.drop (n - 2)).head?.any RuneStart then n - 2
        else if 3 ≤ n ∧ (s.drop (n - 3)).head?.any RuneStart then n - 3
        else if 4 ≤ n ∧ (s.drop (n - 4)).head?.any RuneStart then n - 4
        else n - 5
      let (r, size) := DecodeRune (s.drop start)
      if start + size ≠ n then (RuneError, 1) else (r, size)

/-- The function `utf8.EncodeRune`: the UTF-8 encoding of a rune; a surrogate
or a value past `MaxRune` is encoded as `RuneError`. -/
def EncodeRune (r : Nat) : GoString :=
  if r ≤ 0x7F then [UInt8.ofNat r]
  else if r ≤ 0x7FF then [UInt8.ofNat (0xC0 + r / 64), UInt8.ofNat (0x80 + r % 64)]
  else if 0x10FFFF < r ∨ (0xD800 ≤ r ∧ r ≤ 0xDFFF) then [0xEF, 0xBF, 0xBD]
  else if r ≤ 0xFFFF then
    [UInt8.ofNat (0xE0 + r / 4096), UInt8.ofNat (0x80 + r / 64 % 64), UInt8.ofNat (0x80 + r % 64)]
  else
    [UInt8.ofNat (0xF0 + r / 262144), UInt8.ofNat (0x80 + r / 4096 % 64),
      UInt8.ofNat (0x80 + r / 64 % 64), UInt8.ofNat (0x80 + r % 64)]

/-! ## Package unicode -/

/-- The function `unicode.IsSpace`: the Latin-1 spaces, and past Latin-1 the
runes of the table `White_Space`. -/
def IsSpace (r : Nat) : Bool :=
  if r ≤ 0xFF then
    decide (r = 9 ∨ r = 10 ∨ r = 11 ∨ r = 12 ∨ r = 13 ∨ r = 32 ∨ r = 0x85 ∨ r = 0xA0)
  else
    decide (r = 0x1680 ∨ (0x2000 ≤ r ∧ r ≤ 0x200A) ∨ r = 0x2028 ∨ r = 0x2029 ∨ r = 0x202F ∨
      r = 0x205F ∨ r = 0x3000)

/-! ## Package strings -/

/-- The table `asciiSpace` of package strings: tab, newline, vertical tab,
form feed, carriage return and space. -/
def asciiSpace (c : UInt8) : Bool :=
  decide (c = 9 ∨ c = 10 ∨ c = 11 ∨ c = 12 ∨ c = 13 ∨ c = 32)

/-- The call `strings.TrimLeftFunc(s, unicode.IsSpace)`: the runes of `s` are
read from the start until one is not a space. At most `fuel` runes are read;
the length of `s` is always enough. -/
def trimLeftFuncLoop : Nat → GoString → GoString
  | 0, s => s
  | fuel + 1, s =>
    if s = [] then []
    else if IsSpace (DecodeRune s).1 then trimLeftFuncLoop fuel (s.drop (DecodeRune s).2)
    else s

/-- The call `strings.TrimLeftFunc(s, unicode.IsSpace)`. -/
def TrimLeftFunc (s : GoString) : GoString := trimLeftFuncLoop s.length s

/-- The call `strings.TrimRightFunc(s, unicode.IsSpace)`: the runes of `s` are
read from the end, with `DecodeLastRune`, until one is not a space. At most
`fuel` runes are read; the length of `s` is always enough. -/
def trimRightFuncLoop : Nat → GoString → GoString
  | 0, s => s
  | fuel + 1, s =>
    if s = [] then []
    else if IsSpace (DecodeLastRune s).1 then
      trimRightFuncLoop fuel (s.take (s.length - (DecodeLastRune s).2))
    else s

/-- The call `strings.TrimRightFunc(s, unicode.IsSpace)`. -/
def TrimRightFunc (s : GoString) : GoString := trimRightFuncLoop s.length s

/-- The second loop of `strings.TrimSpace`, on the bytes of `s[start:stop]` in
reverse order: trailing ASCII spaces are dropped; at a byte that is not ASCII
the rest is left to `TrimRightFunc`. -/
def trimSpaceStop : GoString → GoString
  | [] => []
  | c :: r =>
    if c.toNat ≥ 0x80 then TrimRightFunc (c :: r).reverse
    else if asciiSpace c then trimSpaceStop r
    else (c :: r).reverse

/-- The first loop of `strings.TrimSpace`: leading ASCII spaces are dropped;
at a byte that is not ASCII the rest is left to `TrimFunc`. -/
def trimSpaceStart : GoString → GoString
  | [] => []
  | c :: cs =>
    if c.toNat ≥ 0x80 then TrimRightFunc (TrimLeftFunc (c :: cs))
    else if asciiSpace c then trimSpaceStart cs
    else trimSpaceStop (c :: cs).reverse

/-- The function `strings.TrimSpace`. -/
def TrimSpace (s : GoString) : GoString := trimSpaceStart s

/-- The function `strings.Trim` for a cutset of ASCII bytes, as `"[]"` is:
`trimLeftASCII(trimRightASCII(s, &as), &as)`, every leading and every trailing
byte of the cutset is removed. -/
def Trim (s cutset : GoString) : GoString :=
  ((s.reverse.dropWhile (fun c => decide (c ∈ cutset))).reverse).dropWhile
    (fun c => decide (c ∈ cutset))

/-- The function `strings.Contains` for a substring of one byte. -/
def Contains (s : GoString) (substr : UInt8) : Bool := decide (substr ∈ s)

/-- The function `strings.ReplaceAll` for an `old` of one byte: every
occurrence is replaced. -/
def ReplaceAll (s : GoString) (old : UInt8) (new : GoString) : GoString :=
  s.flatMap (fun c => if c = old then new else [c])

/-! ## Package regexp -/

/-- The class `\s` of the regular expressions of Go: `[\t\n\f\r ]`. -/
def isReSpace (c : UInt8) : Bool := decide (c = 9 ∨ c = 10 ∨ c = 12 ∨ c = 13 ∨ c = 32)

/-- The call `re.ReplaceAllString(s, ",")` for the expression
`,\s*,|,\s*$` of `cleanInput`: the matches are found from left to right and
do not overlap. `pending` is `some ws` when a comma and then the spaces `ws`
have been read and the match is still open. A second comma closes a match
`,\s*,`, the end of the text closes a match `,\s*$`, and each match is
replaced by one comma; any other byte shows that no match starts at the first
comma, which is kept with the spaces read after it. -/
def replaceCommas : Option GoString → GoString → GoString
  | none, [] => []
  | some _, [] => [44]
  | none, c :: cs => if c = 44 then replaceCommas (some []) cs else c :: replaceCommas none cs
  | some ws, c :: cs =>
    if c = 44 then 44 :: replaceCommas none cs
    else if isReSpace c then replaceCommas (some (ws ++ [c])) cs
    else 44 :: (ws ++ c :: replaceCommas none cs)

/-! ## The lenient normalization (main.go, `cleanInput`) -/

/-- The function `cleanInput`. -/
def cleanInput (input : GoString) : GoString :=
  -- Remove square brackets and trim any surrounding whitespace.
  let cleaned := TrimSpace input
  let cleaned := Trim cleaned (lit "[]")
  -- Handle space-separated input by replacing spaces with commas.
  let cleaned :=
    if Contains cleaned 32 ∧ ¬ Contains cleaned 44 then ReplaceAll cleaned 32 (lit ",")
    else cleaned
  -- Use a regex to clean up multiple commas or trailing commas.
  let cleaned := replaceCommas none cleaned
  -- Ensure the result is enclosed in square brackets.
  lit "[" ++ cleaned ++ lit "]"

/-! ## Package encoding/json: the scanner (scanner.go) -/

/-- The state functions of the scanner: the value of the field `step`. -/
inductive Step where
  | stateBeginValueOrEmpty
  | stateBeginValue
  | stateBeginStringOrEmpty
  | stateBeginString
  | stateEndValue
  | stateEndTop
  | stateInString
  | stateInStringEsc
  | stateInStringEscU
  | stateInStringEscU1
  | stateInStringEscU12
  | stateInStringEscU123
  | stateNeg
  | state1
  | state0
  | stateDot
  | stateDot0
  | stateE
  | stateESign
  | stateE0
  | stateT
  | stateTr
  | stateTru
  | stateF
  | stateFa
  | stateFal
  | stateFals
  | stateN
  | stateNu
  | stateNul
  | stateError
deriving DecidableEq, Repr

/-- The values pushed on the stack `parseState`. -/
inductive ParseState where
  | parseObjectKey
  | parseObjectValue
  | parseArrayValue
deriving DecidableEq, Repr

/-- The codes a state function returns. -/
inductive Opcode where
  | scanContinue
  | scanBeginLiteral
  | scanBeginObject
  | scanObjectKey
  | scanObjectValue
  | scanEndObject
  | scanBeginArray
  | scanArrayValue
  | scanEndArray
  | scanSkipSpace
  | scanEnd
  | scanError
deriving DecidableEq, Repr

/-- The Go type `scanner`. The stack `parseState` has its top first. The field
`err` is not nil exactly when `step` is `stateError`. -/
structure Scanner where
  step : Step
  endTop : Bool
  parseState : List ParseState
deriving DecidableEq, Repr

/-- The constant `maxNestingDepth`. -/
def maxNestingDepth : Nat := 10000

/-- The function `isSpace` of the scanner: space, tab, carriage return, newline. -/
def isSpace (c : UInt8) : Bool := decide (c = 32 ∨ c = 9 ∨ c = 13 ∨ c = 10)

/-- The method `scanner.reset`. -/
def Scanner.reset : Scanner := ⟨Step.stateBeginValue, false, []⟩

/-- The method `scanner.error`: records the error and moves to `stateError`. -/
def Scanner.error (s : Scanner) : Scanner × Opcode :=
  (⟨Step.stateError, s.endTop, s.parseState⟩, Opcode.scanError)

/-- The method `scanner.pushParseState`, after `step` has been set to `next`. -/
def Scanner.pushParseState (s : Scanner) (next : Step) (newParseState : ParseState)
    (successState : Opcode) : Scanner × Opcode :=
  let s1 : Scanner := ⟨next, s.endTop, newParseState :: s.parseState⟩
  if s1.parseState.length ≤ maxNestingDepth then (s1, successState) else s1.error

/-- The method `scanner.popParseState`. -/
def Scanner.popParseState (s : Scanner) : Scanner :=
  let rest := s.parseState.tail
  if rest.length = 0 then ⟨Step.stateEndTop, true, rest⟩ else ⟨Step.stateEndValue, s.endTop, rest⟩

/-- The function `stateEndTop`: only space may follow the top-level value; any
other byte is an error, reported at the next call. -/
def stateEndTop (s : Scanner) (c : UInt8) : Scanner × Opcode :=
  if ¬ isSpace c then ((s.error).1, Opcode.scanEnd) else (s, Opcode.scanEnd)

/-- The function `stateEndValue`. -/
def stateEndValue (s : Scanner) (c : UInt8) : Scanner × Opcode :=
  match s.parseState with
  | [] =>
    -- Completed top-level before the current byte.
    stateEndTop ⟨Step.stateEndTop, true, s.parseState⟩ c
  | ps :: rest =>
    if isSpace c then (⟨Step.stateEndValue, s.endTop, s.parseState⟩, Opcode.scanSkipSpace)
    else
      match ps with
      | ParseState.parseObjectKey =>
        if c = 58 then
          (⟨Step.stateBeginValue, s.endTop, ParseState.parseObjectValue :: rest⟩,
            Opcode.scanObjectKey)
        else s.error
      | ParseState.parseObjectValue =>
        if c = 44 then
          (⟨Step.stateBeginString, s.endTop, ParseState.parseObjectKey :: rest⟩,
            Opcode.scanObjectValue)
        else if c = 125 then (s.popParseState, Opcode.scanEndObject)
        else s.error
      | ParseState.parseArrayValue =>
        if c = 44 then (⟨Step.stateBeginValue, s.endTop, s.parseState⟩, Opcode.scanArrayValue)
        else if c = 93 then (s.popParseState, Opcode.scanEndArray)
        else s.error

/-- The function `stateBeginValue`. -/
def stateBeginValue (s : Scanner) (c : UInt8) : Scanner × Opcode :=
  if isSpace c then (s, Opcode.scanSkipSpace)
  else if c = 123 then
    s.pushParseState Step.stateBeginStringOrEmpty ParseState.parseObjectKey Opcode.scanBeginObject
  else if c = 91 then
    s.pushParseState Step.stateBeginValueOrEmpty ParseState.parseArrayValue Opcode.scanBeginArray
  else if c = 34 then (⟨Step.stateInString, s.endTop, s.parseState⟩, Opcode.scanBeginLiteral)
  else if c = 45 then (⟨Step.stateNeg, s.endTop, s.parseState⟩, Opcode.scanBeginLiteral)
  else if c = 48 then (⟨Step.state0, s.endTop, s.parseState⟩, Opcode.scanBeginLiteral)
  else if c = 116 then (⟨Step.stateT, s.endTop, s.parseState⟩, Opcode.scanBeginLiteral)
  else if c = 102 then (⟨Step.stateF, s.endTop, s.parseState⟩, Opcode.scanBeginLiteral)
  else if c = 110 then (⟨Step.stateN, s.endTop, s.parseState⟩, Opcode.scanBeginLiteral)
  else if 49 ≤ c.toNat ∧ c.toNat ≤ 57 then
    (⟨Step.state1, s.endTop, s.parseState⟩, Opcode.scanBeginLiteral)
  else s.error

/-- The function `stateBeginValueOrEmpty`. -/
def stateBeginValueOrEmpty (s : Scanner) (c : UInt8) : Scanner × Opcode :=
  if isSpace c then (s, Opcode.scanSkipSpace)
  else if c = 93 then stateEndValue s c
  else stateBeginValue s c

/-- The function `stateBeginString`. -/
def stateBeginString (s : Scanner) (c : UInt8) : Scanner × Opcode :=
  if isSpace c then (s, Opcode.scanSkipSpace)
  else if c = 34 then (⟨Step.stateInString, s.endTop, s.parseState⟩, Opcode.scanBeginLiteral)
  else s.error

/-- The function `stateBeginStringOrEmpty`. -/
def stateBeginStringOrEmpty (s : Scanner) (c : UInt8) : Scanner × Opcode :=
  if isSpace c then (s, Opcode.scanSkipSpace)
  else if c = 125 then
    stateEndValue ⟨s.step, s.endTop, ParseState.parseObjectValue :: s.parseState.tail⟩ c
  else stateBeginString s c

/-- A hexadecimal digit, as the states of a `\u` escape accept it. -/
def isHex (c : UInt8) : Bool :=
  decide ((48 ≤ c.toNat ∧ c.toNat ≤ 57) ∨ (97 ≤ c.toNat ∧ c.toNat ≤ 102) ∨
    (65 ≤ c.toNat ∧ c.toNat ≤ 70))

/-- A decimal digit, as the states of a number accept it. -/
def isNum (c : UInt8) : Bool := decide (48 ≤ c.toNat ∧ c.toNat ≤ 57)

/-- The function `state0`: after the integer part of a number. -/
def state0 (s : Scanner) (c : UInt8) : Scanner × Opcode :=
  if c = 46 then (⟨Step.stateDot, s.endTop, s.parseState⟩, Opcode.scanContinue)
  else if c = 101 ∨ c = 69 then (⟨Step.stateE, s.endTop, s.parseState⟩, Opcode.scanContinue)
  else stateEndValue s c

/-- The function `stateESign`. -/
def stateESign (s : Scanner) (c : UInt8) : Scanner × Opcode :=
  if isNum c then (⟨Step.stateE0, s.endTop, s.parseState⟩, Opcode.scanContinue) else s.error

/-- The step of the scanner on one byte: the state function `s.step` applied
to the scanner and the byte. -/
def Scanner.next (s : Scanner) (c : UInt8) : Scanner × Opcode :=
  let goto (st : Step) : Scanner × Opcode := (⟨st, s.endTop, s.parseState⟩, Opcode.scanContinue)
  match s.step with
  | Step.stateBeginValueOrEmpty => stateBeginValueOrEmpty s c
  | Step.stateBeginValue => stateBeginValue s c
  | Step.stateBeginStringOrEmpty => stateBeginStringOrEmpty s c
  | Step.stateBeginString => stateBeginString s c
  | Step.stateEndValue => stateEndValue s c
  | Step.stateEndTop => stateEndTop s c
  | Step.stateInString =>
    if c = 34 then goto Step.stateEndValue
    else if c = 92 then goto Step.stateInStringEsc
    else if c.toNat < 0x20 then s.error
    else (s, Opcode.scanContinue)
  | Step.stateInStringEsc =>
    if c = 98 ∨ c = 102 ∨ c = 110 ∨ c = 114 ∨ c = 116 ∨ c = 92 ∨ c = 47 ∨ c = 34 then
      goto Step.stateInString
    else if c = 117 then goto Step.stateInStringEscU
    else s.error
  | Step.stateInStringEscU => if isHex c then goto Step.stateInStringEscU1 else s.error
  | Step.stateInStringEscU1 => if isHex c then goto Step.stateInStringEscU12 else s.error
  | Step.stateInStringEscU12 => if isHex c then goto Step.stateInStringEscU123 else s.error
  | Step.stateInStringEscU123 => if isHex c then goto Step.stateInString else s.error
  | Step.stateNeg =>
    if c = 48 then goto Step.state0
    else if 49 ≤ c.toNat ∧ c.toNat ≤ 57 then goto Step.state1
    else s.error
  | Step.state1 => if isNum c then goto Step.state1 else state0 s c
  | Step.state0 => state0 s c
  | Step.stateDot => if isNum c then goto Step.stateDot0 else s.error
  | Step.stateDot0 =>
    if isNum c then (s, Opcode.scanContinue)
    else if c = 101 ∨ c = 69 then goto Step.stateE
    else stateEndValue s c
  | Step.stateE => if c = 43 ∨ c = 45 then goto Step.stateESign else stateESign s c
  | Step.stateESign => stateESign s c
  | Step.stateE0 => if isNum c then (s, Opcode.scanContinue) else stateEndValue s c
  | Step.stateT => if c = 114 then goto Step.stateTr else s.error
  | Step.stateTr => if c = 117 then goto Step.stateTru else s.error
  | Step.stateTru => if c = 101 then goto Step.stateEndValue else s.error
  | Step.stateF => if c = 97 then goto Step.stateFa else s.error
  | Step.stateFa => if c = 108 then goto Step.stateFal else s.error
  | Step.stateFal => if c = 115 then goto Step.stateFals else s.error
  | Step.stateFals => if c = 101 then goto Step.stateEndValue else s.error
  | Step.stateN => if c = 117 then goto Step.stateNu else s.error
  | Step.stateNu => if c = 108 then goto Step.stateNul else s.error
  | Step.stateNul => if c = 108 then goto Step.stateEndValue else s.error
  | Step.stateError => (s, Opcode.scanError)

/-- The method `scanner.eof`: true when the input may end here. -/
def Scanner.eof (s : Scanner) : Bool :=
  if s.step = Step.stateError then false
  else if s.endTop then true
  else ((s.next 32).1).endTop

/-- The loop of `checkValid`: the bytes are given to the scanner one after the
other; `none` as soon as a step returns `scanError`. -/
def scanBytes : Scanner → GoString → Option Scanner
  | s, [] => some s
  | s, c :: cs => if (s.next c).2 = Opcode.scanError then none else scanBytes (s.next c).1 cs

/-- The function `checkValid`: the data is one JSON value, with nothing but
space around it. -/
def checkValid (data : GoString) : Bool :=
  match scanBytes Scanner.reset data with
  | none => false
  | some s => s.eof

/-! ## Package encoding/json: decoding an array of scalars (decode.go) -/

/-- An element of the top-level array, as `decodeState.array` meets it: a
literal (number, string, `true`, `false` or `null`) with its bytes, or the
start of a nested array or object. -/
inductive Elem where
  | literal (item : GoString)
  | array
  | object
deriving DecidableEq, Repr

/-- The reading of the elements of the top-level array: the scanner, the
elements read so far, and the bytes of the literal being read, if one is. -/
structure Reader where
  scan : Scanner
  elems : List Elem
  item : Option GoString
deriving DecidableEq, Repr

/-- One byte of the walk of `decodeState.array` over data that `checkValid`
accepted. A value that begins while only the top-level array is open is an
element; the bytes of a literal run from the byte that returns
`scanBeginLiteral` to the last byte that returns `scanContinue`. -/
def Reader.next (r : Reader) (c : UInt8) : Reader :=
  let depth := r.scan.parseState.length
  let (s1, op) := r.scan.next c
  match op with
  | Opcode.scanBeginLiteral => ⟨s1, r.elems, if depth = 1 then some [c] else none⟩
  | Opcode.scanContinue => ⟨s1, r.elems, r.item.map (fun t => t ++ [c])⟩
  | Opcode.scanBeginArray => ⟨s1, if depth = 1 then r.elems ++ [Elem.array] else r.elems, none⟩
  | Opcode.scanBeginObject => ⟨s1, if depth = 1 then r.elems ++ [Elem.object] else r.elems, none⟩
  | _ =>
    match r.item with
    | some t => ⟨s1, r.elems ++ [Elem.literal t], none⟩
    | none => ⟨s1, r.elems, none⟩

/-- The elements of the top-level array of `data`, in order. -/
def arrayElems (data : GoString) : List Elem :=
  (data.foldl Reader.next ⟨Scanner.reset, [], none⟩).elems

/-- The errors of `json.Unmarshal`: a `SyntaxError` from `checkValid`, an
`UnmarshalTypeError` with the description of the JSON value in its field
`Value`, the error for an empty literal (`invalid use of ,string struct tag`),
and the panic raised when a literal that passed `checkValid` cannot be read
(`phasePanicMsg`). -/
inductive JsonError where
  | SyntaxError
  | UnmarshalTypeError (Value : GoString)
  | invalidStringTag
  | phasePanic
deriving DecidableEq, Repr

/-- What `literalStore` does with the element it is given: it sets it, leaves
it as it is, records an error (`saveError`) and leaves it as it is, or sets it
and records an error as well (`setFail`: a floating-point element, with a
decoder that stores what `ParseFloat` returned before it reports that the
number does not fit). -/
inductive Store (α : Type) where
  | set (v : α)
  | keep
  | fail (e : JsonError)
  | setFail (v : α) (e : JsonError)

/-- The value of a hexadecimal digit, as `getu4` reads it. -/
def hexVal (c : UInt8) : Option Nat :=
  if 48 ≤ c.toNat ∧ c.toNat ≤ 57 then some (c.toNat - 48)
  else if 97 ≤ c.toNat ∧ c.toNat ≤ 102 then some (c.toNat - 97 + 10)
  else if 65 ≤ c.toNat ∧ c.toNat ≤ 70 then some (c.toNat - 65 + 10)
  else none

/-- The function `getu4`: the rune of the escape `\uXXXX` at the start of `s`;
`none` stands for the result -1. -/
def getu4 (s : GoString) : Option Nat :=
  match s with
  | 92 :: 117 :: a :: b :: c :: d :: _ =>
    match hexVal a, hexVal b, hexVal c, hexVal d with
    | some x3, some x2, some x1, some x0 => some (((x3 * 16 + x2) * 16 + x1) * 16 + x0)
    | _, _, _, _ => none
  | _ => none

/-- The first loop of `unquoteBytes`: the number of bytes of `s` before the
first unusual one (a backslash, a quote, a control character, or a byte that
does not start a valid UTF-8 sequence). At most `fuel` runes are read; the
length of `s` is always enough. -/
def unquoteIndex : Nat → GoString → Nat
  | 0, _ => 0
  | _ + 1, [] => 0
  | fuel + 1, c :: rest =>
    if c = 92 ∨ c = 34 ∨ c.toNat < 32 then 0
    else if c.toNat < 0x80 then 1 + unquoteIndex fuel rest
    else
      let (rr, size) := DecodeRune (c :: rest)
      if rr = RuneError ∧ size = 1 then 0
      else size + unquoteIndex fuel ((c :: rest).drop size)

/-- The second loop of `unquoteBytes`, on the bytes from the first unusual
one: the bytes written for them, or `none` when the text is not a valid
string literal. At most `fuel` runes are read; the length of `s` is always
enough. -/
def unquoteLoop : Nat → GoString → Option GoString
  | 0, s => if s = [] then some [] else none
  | _ + 1, [] => some []
  | fuel + 1, c :: rest =>
    if c = 92 then
      match rest with
      | [] => none
      | e :: rest1 =>
        if e = 34 ∨ e = 92 ∨ e = 47 ∨ e = 39 then (unquoteLoop fuel rest1).map (fun t => e :: t)
        else if e = 98 then (unquoteLoop fuel rest1).map (fun t => 8 :: t)
        else if e = 102 then (unquoteLoop fuel rest1).map (fun t => 12 :: t)
        else if e = 110 then (unquoteLoop fuel rest1).map (fun t => 10 :: t)
        else if e = 114 then (unquoteLoop fuel rest1).map (fun t => 13 :: t)
        else if e = 116 then (unquoteLoop fuel rest1).map (fun t => 9 :: t)
        else if e = 117 then
          match getu4 (c :: rest) with
          | none => none
          | some rr =>
            let after := (c :: rest).drop 6
            if 0xD800 ≤ rr ∧ rr < 0xE000 then
              -- utf16.IsSurrogate(rr): a valid pair is consumed, anything else
              -- falls back to the replacement rune.
              match getu4 after with
              | some rr1 =>
                if rr < 0xDC00 ∧ 0xDC00 ≤ rr1 ∧ rr1 < 0xE000 then
                  (unquoteLoop fuel (after.drop 6)).map (fun t =>
                    EncodeRune ((rr - 0xD800) * 1024 + (rr1 - 0xDC00) + 0x10000) ++ t)
                else (unquoteLoop fuel after).map (fun t => EncodeRune RuneError ++ t)
              | none => (unquoteLoop fuel after).map (fun t => EncodeRune RuneError ++ t)
            else (unquoteLoop fuel after).map (fun t => EncodeRune rr ++ t)
        else none
    -- Quote, control characters are invalid.
    else if c = 34 ∨ c.toNat < 32 then none
    -- ASCII
    else if c.toNat < 0x80 then (unquoteLoop fuel rest).map (fun t => c :: t)
    -- Coerce to well-formed UTF-8.
    else
      let (rr, size) := DecodeRune (c :: rest)
      (unquoteLoop fuel ((c :: rest).drop size)).map (fun t => EncodeRune rr ++ t)

/-- The function `unquoteBytes`: the string a quoted JSON literal stands for,
or `none` when `ok` is false. -/
def unquoteBytes (s : GoString) : Option GoString :=
  if s.length < 2 ∨ s.head? ≠ some 34 ∨ s.getLast? ≠ some 34 then none
  else
    let s := (s.drop 1).dropLast
    -- Check for unusual characters. If there are none, no unquoting is needed.
    let r := unquoteIndex s.length s
    if r = s.length then some s
    else (unquoteLoop s.length (s.drop r)).map (fun t => s.take r ++ t)

/-- The record of an `UnmarshalTypeError` with the given description. -/
def typeError {α : Type} (Value : GoString) : Store α :=
  Store.fail (JsonError.UnmarshalTypeError Value)

/-- The method `literalStore` for an element that is not a pointer and has no
unmarshaler: the switch on the first byte of the literal. What is done with a
boolean, with the string of a quoted literal and with a number depends on the
kind of the element, and is given by `bool`, `string` and `number`; `null` is
ignored for an element of a primitive kind. -/
def literalStore {α : Type} (bool : Bool → Store α) (string : GoString → Store α)
    (number : GoString → Store α) (item : GoString) : Store α :=
  match item with
  | [] => Store.fail JsonError.invalidStringTag
  | c :: _ =>
    if c = 110 then Store.keep
    else if c = 116 ∨ c = 102 then bool (decide (c = 116))
    else if c = 34 then
      match unquoteBytes item with
      | none => Store.fail JsonError.phasePanic
      | some s => string s
    else if c ≠ 45 ∧ (c.toNat < 48 ∨ c.toNat > 57) then Store.fail JsonError.phasePanic
    else number item

/-- The method `literalStore` for an element of kind `Int`, `Int8`, `Int16`,
`Int32` or `Int64`, of `bits` bits: a number is read with
`strconv.ParseInt(item, 10, 64)` and must not overflow the element
(`OverflowInt`). -/
def storeInt (bits : Nat) : GoString → Store Int :=
  literalStore (fun _ => typeError (lit "bool")) (fun _ => typeError (lit "string"))
    (fun item =>
      let (n, err) := ParseInt item 64
      if err.isSome ∨ wrapInt bits n ≠ n then typeError (lit "number " ++ item)
      else Store.set n)

/-- The method `literalStore` for an element of kind `Uint`, `Uint8`, `Uint16`,
`Uint32`, `Uint64` or `Uintptr`, of `bits` bits: a number is read with
`strconv.ParseUint(item, 10, 64)` and must not overflow the element
(`OverflowUint`). -/
def storeUint (bits : Nat) : GoString → Store Nat :=
  literalStore (fun _ => typeError (lit "bool")) (fun _ => typeError (lit "string"))
    (fun item =>
      let (n, err) := ParseUint item 64
      if err.isSome ∨ wrapUint bits n ≠ n then typeError (lit "number " ++ item)
      else Store.set n)

/-- The floating-point numbers of one width, with the two functions of the
library that `literalStore` calls on them: `strconv.ParseFloat` at that width
and `reflect.Value.OverflowFloat`. The arithmetic of floating-point numbers is
not part of this development; what is proved holds for every `FloatKind`.

The field `onError` is what the decoder of the library leaves in the element
for a number text that does not convert: nothing (`none`) for the decoder of
`encoding/json` that returns before the element is set, so that the element
keeps the zero value; a value (`some`), such as the infinity `ParseFloat`
returns for a number out of range, for the decoder that sets the element
first and reports the error after. Both decoders report the same
`UnmarshalTypeError`. -/
structure FloatKind where
  F : Type
  zero : F
  ParseFloat : GoString → F × Option NumError
  OverflowFloat : F → Bool
  onError : GoString → Option F

/-- The method `literalStore` for an element of kind `Float32` or `Float64`. -/
def storeFloat (k : FloatKind) : GoString → Store k.F :=
  literalStore (fun _ => typeError (lit "bool")) (fun _ => typeError (lit "string"))
    (fun item =>
      let (n, err) := k.ParseFloat item
      if err.isSome ∨ k.OverflowFloat n then
        match k.onError item with
        | none => typeError (lit "number " ++ item)
        | some v => Store.setFail v (JsonError.UnmarshalTypeError (lit "number " ++ item))
      else Store.set n)

/-- The method `literalStore` for an element of kind `Complex64` or
`Complex128`: the switch on the kind has no case for them, so a number is a
type error, as a boolean and a string are. -/
def storeComplex (k : FloatKind) : GoString → Store (k.F × k.F) :=
  literalStore (fun _ => typeError (lit "bool")) (fun _ => typeError (lit "string"))
    (fun _ => typeError (lit "number"))

/-- The method `literalStore` for an element of kind `Bool`. -/
def storeBool : GoString → Store Bool :=
  literalStore (fun value => Store.set value) (fun _ => typeError (lit "string"))
    (fun _ => typeError (lit "number"))

/-- The method `literalStore` for an element of kind `String`. -/
def storeString : GoString → Store GoString :=
  literalStore (fun _ => typeError (lit "bool")) (fun s => Store.set s)
    (fun _ => typeError (lit "number"))

/-- The decoding of the elements into a slice that starts nil, so that an
element left as it is holds the zero value: the values, one for each element,
and the first error recorded (`saveError` keeps the first). An element that
is an array or an object is skipped with a type error. -/
def decodeElems {α : Type} (store : GoString → Store α) (zero : α) :
    List Elem → List α × Option JsonError
  | [] => ([], none)
  | e :: es =>
    let (vs, err) := decodeElems store zero es
    match e with
    | Elem.literal item =>
      match store item with
      | Store.set v => (v :: vs, err)
      | Store.keep => (zero :: vs, err)
      | Store.fail e1 => (zero :: vs, some e1)
      | Store.setFail v e1 => (v :: vs, some e1)
    | Elem.array => (zero :: vs, some (JsonError.UnmarshalTypeError (lit "array")))
    | Elem.object => (zero :: vs, some (JsonError.UnmarshalTypeError (lit "object")))

/-- The call `json.Unmarshal(data, &result)` for a nil slice `result` of
scalars and data whose first byte is `[`, as `cleanInput` builds it:
`checkValid` first, and when it fails the slice stays nil (`none`); then the
elements of the array are decoded one by one, and the slice is not nil even
when the array is empty. Data that passes `checkValid` and does not start with
`[` is never given to this call by the program; it is answered with a type
error and a nil slice. -/
def Unmarshal {α : Type} (store : GoString → Store α) (zero : α) (data : GoString) :
    Option (List α) × Option JsonError :=
  if ¬ checkValid data then (none, some JsonError.SyntaxError)
  else if data.head? = some 91 then
    let (vs, err) := decodeElems store zero (arrayElems data)
    (some vs, err)
  else (none, some (JsonError.UnmarshalTypeError (lit "value")))

/-! ## The sequence conversions (main.go, `Result`) -/

/-- AsSliceInt converts the Result to a slice of integers. -/
def Result.AsSliceInt (o : Result) : Option (List Int) × Option JsonError :=
  let value := cleanInput o.Value
  Unmarshal (storeInt intSize) 0 value

/-- AsSliceInt8 converts the Result to a slice of int8. -/
def Result.AsSliceInt8 (o : Result) : Option (List Int) × Option JsonError :=
  let value := cleanInput o.Value
  Unmarshal (storeInt 8) 0 value

/-- AsSliceInt16 converts the Result to a slice of int16. -/
def Result.AsSliceInt16 (o : Result) : Option (List Int) × Option JsonError :=
  let value := cleanInput o.Value
  Unmarshal (storeInt 16) 0 value

/-- AsSliceInt32 converts the Result to a slice of int32. -/
def Result.AsSliceInt32 (o : Result) : Option (List Int) × Option JsonError :=
  let value := cleanInput o.Value
  Unmarshal (storeInt 32) 0 value

/-- AsSliceInt64 converts the Result to a slice of int64. -/
def Result.AsSliceInt64 (o : Result) : Option (List Int) × Option JsonError :=
  let value := cleanInput o.Value
  Unmarshal (storeInt 64) 0 value

/-- AsSliceUint converts the Result to a slice of uint. -/
def Result.AsSliceUint (o : Result) : Option (List Nat) × Option JsonError :=
  let value := cleanInput o.Value
  Unmarshal (storeUint intSize) 0 value

/-- AsSliceUint8 converts the Result to a slice of uint8. -/
def Result.AsSliceUint8 (o : Result) : Option (List Nat) × Option JsonError :=
  let value := cleanInput o.Value
  Unmarshal (storeUint 8) 0 value

/-- AsSliceUint16 converts the Result to a slice of uint16. -/
def Result.AsSliceUint16 (o : Result) : Option (List Nat) × Option JsonError :=
  let value := cleanInput o.Value
  Unmarshal (storeUint 16) 0 value

/-- AsSliceUint32 converts the Result to a slice of uint32. -/
def Result.AsSliceUint32 (o : Result) : Option (List Nat) × Option JsonError :=
  let value := cleanInput o.Value
  Unmarshal (storeUint 32) 0 value

/-- AsSliceUint64 converts the Result to a slice of uint64. -/
def Result.AsSliceUint64 (o : Result) : Option (List Nat) × Option JsonError :=
  let value := cleanInput o.Value
  Unmarshal (storeUint 64) 0 value

/-- AsSliceUintptr converts the Result to a slice of uintptr. -/
def Result.AsSliceUintptr (o : Result) : Option (List Nat) × Option JsonError :=
  let value := cleanInput o.Value
  Unmarshal (storeUint intSize) 0 value

/-- AsSliceByte converts the Result to a slice of byte. -/
def Result.AsSliceByte (o : Result) : Option (List Nat) × Option JsonError :=
  let value := cleanInput o.Value
  Unmarshal (storeUint 8) 0 value

/-- AsSliceRune converts the Result to a slice of rune. -/
def Result.AsSliceRune (o : Result) : Option (List Int) × Option JsonError :=
  let value := cleanInput o.Value
  Unmarshal (storeInt 32) 0 value

/-- AsSliceFloat32 converts the Result to a slice of float32; `k` is the
kind `float32`. -/
def Result.AsSliceFloat32 (k : FloatKind) (o : Result) : Option (List k.F) × Option JsonError :=
  let value := cleanInput o.Value
  Unmarshal (storeFloat k) k.zero value

/-- AsSliceFloat64 converts the Result to a slice of float64; `k` is the
kind `float64`. -/
def Result.AsSliceFloat64 (k : FloatKind) (o : Result) : Option (List k.F) × Option JsonError :=
  let value := cleanInput o.Value
  Unmarshal (storeFloat k) k.zero value

/-- AsSliceComplex64 converts the Result to a slice of complex64; `k` is the
kind `float32` of the two parts. -/
def Result.AsSliceComplex64 (k : FloatKind) (o : Result) :
    Option (List (k.F × k.F)) × Option JsonError :=
  let value := cleanInput o.Value
  Unmarshal (storeComplex k) (k.zero, k.zero) value

/-- AsSliceComplex128 converts the Result to a slice of complex128; `k` is
the kind `float64` of the two parts. -/
def Result.AsSliceComplex128 (k : FloatKind) (o : Result) :
    Option (List (k.F × k.F)) × Option JsonError :=
  let value := cleanInput o.Value
  Unmarshal (storeComplex k) (k.zero, k.zero) value

/-- AsSliceBool converts the Result to a slice of bool. -/
def Result.AsSliceBool (o : Result) : Option (List Bool) × Option JsonError :=
  let value := cleanInput o.Value
  Unmarshal storeBool false value

/-- AsSliceString converts the Result to a slice of string. -/
def Result.AsSliceString (o : Result) : Option (List GoString) × Option JsonError :=
  let value := cleanInput o.Value
  Unmarshal storeString [] value

/-! ## Sequence texts (specification side) -/

/-- The function `strings.Join`: the elements with `sep` between them. -/
def Join : List GoString → GoString → GoString
  | [], _ => []
  | [x], _ => x
  | x :: y :: r, sep => x ++ sep ++ Join (y :: r) sep

/-- The text of an array: the elements joined by `sep`, inside square
brackets. -/
def arrayText (elems : List GoString) (sep : GoString) : GoString :=
  lit "[" ++ Join elems sep ++ lit "]"

/-- A square bracket, opening or closing. -/
def isBracket (c : UInt8) : Bool := decide (c = 91 ∨ c = 93)

/-- One layer of enclosing square brackets stripped, if present: the text
between a first byte `[` and a last byte `]`, and the text itself when it is
not enclosed in such a pair. -/
def stripOneLayer (s : GoString) : GoString :=
  if 2 ≤ s.length ∧ s.head? = some 91 ∧ s.getLast? = some 93 then (s.drop 1).dropLast else s

/-- The steps of `cleanInput` that follow the removal of the brackets: spaces
become commas when the text has a space and no comma, and then the matches of
the regular expression are replaced by one comma. -/
def separatorRules (cleaned : GoString) : GoString :=
  replaceCommas none
    (if Contains cleaned 32 ∧ ¬ Contains cleaned 44 then ReplaceAll cleaned 32 (lit ",")
      else cleaned)

/-- A hexadecimal digit in lower case. -/
def hexDigit (n : Nat) : UInt8 := if n < 10 then UInt8.ofNat (48 + n) else UInt8.ofNat (87 + n)

/-- The JSON escape of one byte of a string: the double quote and the
backslash take a backslash, a control character is written `\u00XX`. -/
def escapeByte (c : UInt8) : GoString :=
  if c = 34 ∨ c = 92 then [92, c]
  else if c.toNat < 32 then [92, 117, 48, 48, hexDigit (c.toNat / 16), hexDigit (c.toNat % 16)]
  else [c]

/-- The quoted, JSON-escaped text of a string. -/
def quote (s : GoString) : GoString := 34 :: (s.flatMap escapeByte ++ [34])

/-- An element of an array text: a number, written in base 10, or a string,
written quoted. -/
inductive Tok where
  | num (v : Int)
  | str (s : GoString)
deriving DecidableEq, Repr

/-- The text of an element. -/
def Tok.text : Tok → GoString
  | Tok.num v => Itoa v
  | Tok.str s => quote s

/-- What the regular expression of `cleanInput` makes of the inside of a
quoted string: the commas are taken from left to right, and a comma followed
by spaces and a second comma is replaced, with them, by one comma. `pending` is
`some ws` when a comma and the spaces `ws` have been read and no byte after
them yet. -/
def squeeze : Option GoString → GoString → GoString
  | none, [] => []
  | some ws, [] => 44 :: ws
  | none, c :: cs => if c = 44 then squeeze (some []) cs else c :: squeeze none cs
  | some ws, c :: cs =>
    if c = 44 then 44 :: squeeze none cs
    else if c = 32 then squeeze (some (ws ++ [c])) cs
    else 44 :: (ws ++ c :: squeeze none cs)

/-- The text starts with spaces, none or more, and then a comma. -/
def spacesThenComma : GoString → Bool
  | [] => false
  | c :: cs => if c = 44 then true else if c = 32 then spacesThenComma cs else false

/-- The string has two commas with nothing but spaces between them. -/
def commaPair : GoString → Bool
  | [] => false
  | c :: cs => (decide (c = 44) && spacesThenComma cs) || commaPair cs

/-- The loop of `utf8.ValidString`, written with `DecodeRune`: no position
reached from the start, rune after rune, holds a byte that `DecodeRune` takes
for an invalid encoding (the rune `RuneError` with the width 1). At most `fuel`
runes are read; the length of `s` is always enough. -/
def validLoop : Nat → GoString → Bool
  | 0, s => decide (s = [])
  | _ + 1, [] => true
  | fuel + 1, c :: rest =>
    if (DecodeRune (c :: rest)).1 = RuneError ∧ (DecodeRune (c :: rest)).2 = 1 then false
    else validLoop fuel ((c :: rest).drop (DecodeRune (c :: rest)).2)

/-- The function `utf8.ValidString`: the string is made of valid UTF-8
encodings of runes. -/
def ValidString (s : GoString) : Bool := validLoop s.length s

/-- The element as the regular expression leaves it: a number is unchanged,
a string is squeezed. -/
def Tok.squeezed : Tok → Tok
  | Tok.num v => Tok.num v
  | Tok.str s => Tok.str (squeeze none s)

/-- The elements of an array text after the normalization. A string that is
the only element and has a space and no comma has its spaces turned into
commas first. -/
def normToks : List Tok → List Tok
  | [Tok.str s] =>
    if Contains s 32 ∧ ¬ Contains s 44 then [Tok.str (squeeze none (ReplaceAll s 32 [44]))]
    else [Tok.str (squeeze none s)]
  | toks => toks.map Tok.squeezed

/-- The value an element has in a sequence of signed integers of `bits` bits:
a number in range converts to itself, anything else leaves the zero value. -/
def Tok.asInt (bits : Nat) : Tok → Option Int
  | Tok.num v => if -(2 : Int) ^ (bits - 1) ≤ v ∧ v < (2 : Int) ^ (bits - 1) then some v else none
  | Tok.str _ => none

/-- The value an element has in a sequence of unsigned integers of `bits`
bits. -/
def Tok.asUint (bits : Nat) : Tok → Option Nat
  | Tok.num v => if 0 ≤ v ∧ v < (2 : Int) ^ bits then some v.toNat else none
  | Tok.str _ => none

/-- The signed sequence conversions of `Result`, each with the width of its
element type and the scalar conversion of that type. -/
def signedSlices :
    List (Nat × (Result → Int × Option NumError) ×
      (Result → Option (List Int) × Option JsonError)) :=
  [(64, Result.AsInt, Result.AsSliceInt), (8, Result.AsInt8, Result.AsSliceInt8),
    (16, Result.AsInt16, Result.AsSliceInt16), (32, Result.AsInt32, Result.AsSliceInt32),
    (64, Result.AsInt64, Result.AsSliceInt64), (32, Result.AsRune, Result.AsSliceRune)]

/-- The unsigned sequence conversions of `Result`, each with the width of its
element type and the scalar conversion of that type. -/
def unsignedSlices :
    List (Nat × (Result → Nat × Option NumError) ×
      (Result → Option (List Nat) × Option JsonError)) :=
  [(64, Result.AsUint, Result.AsSliceUint), (8, Result.AsUint8, Result.AsSliceUint8),
    (16, Result.AsUint16, Result.AsSliceUint16), (32, Result.AsUint32, Result.AsSliceUint32),
    (64, Result.AsUint64, Result.AsSliceUint64), (64, Result.AsUintptr, Result.AsSliceUintptr),
    (8, Result.AsByte, Result.AsSliceByte)]

/-- The value `literalStore` leaves in an element that held the zero value. -/
def stored {α : Type} (store : GoString → Store α) (zero : α) (item : GoString) : α :=
  match store item with
  | Store.set v => v
  | Store.keep => zero
  | Store.fail _ => zero
  | Store.setFail v _ => v

/-- The first error that `literalStore` records on the items, if any. -/
def firstError {α : Type} (store : GoString → Store α) : List GoString → Option JsonError
  | [] => none
  | item :: rest =>
    match store item with
    | Store.fail e => some e
    | Store.setFail _ e => some e
    | _ => firstError store rest

/-- The state function reached when the bytes of a literal have been read from
the state `st`, each returning `scanContinue`; none when a byte returns another
code. The stack and the field `endTop` have no part in these steps. -/
def literalRun : Step → GoString → Option Step
  | st, [] => some st
  | st, c :: cs =>
    if ((⟨st, false, [ParseState.parseArrayValue]⟩ : Scanner).next c).2 = Opcode.scanContinue then
      literalRun ((⟨st, false, [ParseState.parseArrayValue]⟩ : Scanner).next c).1.step cs
    else none

/-- The state functions in which a value may end: the byte that follows is
given to `stateEndValue`, unless it continues a number. -/
def endsValue (st : Step) : Bool :=
  decide (st = Step.stateEndValue ∨ st = Step.state0 ∨ st = Step.state1 ∨ st = Step.stateDot0 ∨
    st = Step.stateE0)

/-- A scalar literal for the scanner: a string, a number, `true`, `false` or
`null`, complete and with nothing after it. -/
def isScalar (item : GoString) : Bool :=
  match item with
  | [] => false
  | c :: rest =>
    let r := (⟨Step.stateBeginValue, false, [ParseState.parseArrayValue]⟩ : Scanner).next c
    decide (r.2 = Opcode.scanBeginLiteral) &&
      match literalRun r.1.step rest with
      | some st => endsValue st
      | none => false

/-- An element text that the normalization leaves alone: it is not empty, has
no comma, does not start with a space of the regular expression, and neither
starts nor ends with a square bracket. -/
def isSolid (item : GoString) : Bool :=
  item.all (fun c => decide (c ≠ 44)) &&
    (match item.head? with
      | some c => !isBracket c && !isReSpace c
      | none => false) &&
    (match item.getLast? with
      | some c => !isBracket c
      | none => false)

/-- The value an element has in a sequence of floating-point numbers of the
kind `k`: a number that `ParseFloat` accepts and that does not overflow
converts to what `ParseFloat` returns. -/
def Tok.asFloat (k : FloatKind) : Tok → Option k.F
  | Tok.num v =>
    if (k.ParseFloat (Itoa v)).2.isSome ∨ k.OverflowFloat (k.ParseFloat (Itoa v)).1 then none
    else some (k.ParseFloat (Itoa v)).1
  | Tok.str _ => none

/-- The value that is left in the entry of an element that does not convert,
in a sequence of floating-point numbers of the kind `k`: the zero value for a
string; for a number what the decoder leaves there (`onError`), which is the
zero value when it leaves nothing. -/
def Tok.leftFloat (k : FloatKind) : Tok → k.F
  | Tok.num v => (k.onError (Itoa v)).getD k.zero
  | Tok.str _ => k.zero

/-- The text `[1,...,2]` with `n` commas between the two numbers. -/
def commaText (n : Nat) : GoString := lit "[1" ++ List.replicate n 44 ++ lit "2]"

/-! ## All the sequence conversions at once (specification side) -/

/-- A property that the result of every sequence conversion of `o` has: the
nineteen methods AsSlice*, those with floating-point and complex elements for
every kind of floating-point number. -/
def everySlice (o : Result)
    (P : {α : Type} → Option (List α) × Option JsonError → Prop) : Prop :=
  P o.AsSliceInt ∧ P o.AsSliceInt8 ∧ P o.AsSliceInt16 ∧ P o.AsSliceInt32 ∧ P o.AsSliceInt64 ∧
  P o.AsSliceUint ∧ P o.AsSliceUint8 ∧ P o.AsSliceUint16 ∧ P o.AsSliceUint32 ∧
  P o.AsSliceUint64 ∧ P o.AsSliceUintptr ∧ P o.AsSliceByte ∧ P o.AsSliceRune ∧
  (∀ k : FloatKind, P (Result.AsSliceFloat32 k o)) ∧
  (∀ k : FloatKind, P (Result.AsSliceFloat64 k o)) ∧
  (∀ k : FloatKind, P (Result.AsSliceComplex64 k o)) ∧
  (∀ k : FloatKind, P (Result.AsSliceComplex128 k o)) ∧
  P o.AsSliceBool ∧ P o.AsSliceString

/-! ## JSON arrays of integers with whitespace (specification side) -/

/-- An element of a JSON array of integers as it is written: the integer,
with the whitespace before it and the whitespace after it. -/
structure Padded where
  before : GoString
  val : Int
  after : GoString
deriving DecidableEq, Repr

/-- The text of an element: the whitespace, the integer in base 10, the
whitespace. -/
def Padded.text (p : Padded) : GoString := p.before ++ Itoa p.val ++ p.after

/-- The text between the brackets of a JSON array of integers: the elements
separated by commas, or whitespace alone when the array is empty. -/
def paddedBody (inner : GoString) : List Padded → GoString
  | [] => inner
  | p :: ps => Join ((p :: ps).map Padded.text) (lit ",")

/-- The text of a JSON array of integers with whitespace before it, between
the brackets when it is empty, around the elements, and after it. -/
def paddedArray (pre inner : GoString) (items : List Padded) (post : GoString) : GoString :=
  pre ++ lit "[" ++ paddedBody inner items ++ lit "]" ++ post

/-- The whitespace of JSON: spaces, tabs, carriage returns and newlines. -/
def isJsonSpaces (s : GoString) : Bool := s.all isSpace

/-! ## The literal null among the elements (specification side) -/

/-- What the reader holds of the literals that start with the byte `n`: among
the elements read, such a literal is `null`; the one being read, if any, is
the part of `null` that the state function of the scanner stands for. -/
def Reader.nullsOnly (r : Reader) : Prop :=
  (∀ item, Elem.literal item ∈ r.elems → item.head? = some 110 → item = lit "null") ∧
  (∀ t, r.item = some t → t ≠ [] ∧ (t.head? = some 110 →
    (r.scan.step = Step.stateN ∧ t = lit "n") ∨ (r.scan.step = Step.stateNu ∧ t = lit "nu") ∨
    (r.scan.step = Step.stateNul ∧ t = lit "nul") ∨
    (r.scan.step = Step.stateEndValue ∧ t = lit "null")))

/-! ## Package strconv: floating-point texts (atof.go) -/

/-- A value of a Go floating-point type, as far as this development tells
values apart: the two infinities, NaN, the zero that a failed conversion
returns, and every other number, whose representation `R` and arithmetic are
not part of this development. -/
inductive GoFloat (R : Type) where
  | posInf
  | negInf
  | nan
  | zero
  | finite (x : R)

/-- The function `math.Inf`: positive infinity if `sign >= 0`, negative
infinity otherwise. -/
def math.Inf {R : Type} (sign : Int) : GoFloat R :=
  if sign ≥ 0 then GoFloat.posInf else GoFloat.negInf

/-- The function `math.NaN`. -/
def math.NaN {R : Type} : GoFloat R := GoFloat.nan

/-- The function `commonPrefixLenIgnoreCase` of strconv: the length of the
common beginning of `s` and `pre`, with the character case of `s` ignored;
`pre` is all lower-case. The loop of the source runs an index up to the
shorter of the two lengths and returns it at the first byte that differs. -/
def commonPrefixLenIgnoreCase : GoString → GoString → Nat
  | c :: s, p :: pre =>
    let c := if 65 ≤ c.toNat ∧ c.toNat ≤ 90 then c + 32 else c
    if c ≠ p then 0 else 1 + commonPrefixLenIgnoreCase s pre
  | _, _ => 0

/-- The case `'i', 'I'` of the switch in `special`, which the case `'+', '-'`
falls through to: `s` is the text after the sign, `nsign` the length of the
sign. -/
def specialInf {R : Type} (sign : Int) (nsign : Nat) (s : GoString) : GoFloat R × Nat × Bool :=
  let n := commonPrefixLenIgnoreCase s (lit "infinity")
  -- Anything longer than "inf" is ok, but only "inf" is consumed without "infinity".
  let n := if 3 < n ∧ n < 8 then 3 else n
  if n = 3 ∨ n = 8 then (math.Inf sign, nsign + n, true)
  else (GoFloat.zero, 0, false)

/-- The function `special` of strconv: the value for the special, possibly
signed representations `inf`, `infinity` and `NaN` at the start of `s`, the
length of the representation, and whether there is one. -/
def special {R : Type} (s : GoString) : GoFloat R × Nat × Bool :=
  match s with
  | [] => (GoFloat.zero, 0, false)
  | c :: rest =>
    if c = 43 ∨ c = 45 then
      let sign : Int := if c = 45 then -1 else 1
      specialInf sign 1 rest
    else if c = 105 ∨ c = 73 then specialInf 1 0 s
    else if c = 110 ∨ c = 78 then
      if commonPrefixLenIgnoreCase s (lit "nan") = 3 then (math.NaN, 3, true)
      else (GoFloat.zero, 0, false)
    else (GoFloat.zero, 0, false)

/-- The loop at the end of `underscoreOK`; `saw` is the last character seen:
`^` (94) for the beginning of the number, `0` (48) for a digit or a base
prefix, `_` (95) for an underscore, `!` (33) for none of these. -/
def underscoreLoop (hex : Bool) : GoString → Nat → Bool
  | [], saw => decide (saw ≠ 95)
  | c :: cs, saw =>
    if (48 ≤ c.toNat ∧ c.toNat ≤ 57) ∨
        (hex = true ∧ 97 ≤ lower c.toNat ∧ lower c.toNat ≤ 102) then
      underscoreLoop hex cs 48
    else if c = 95 then
      if saw ≠ 48 then false else underscoreLoop hex cs 95
    else if saw = 95 then false
    else underscoreLoop hex cs 33

/-- The function `underscoreOK` of strconv: whether the underscores in `s` are
allowed, that is, each stands between digits or between a base prefix and a
digit. -/
def underscoreOK (s : GoString) : Bool :=
  let s :=
    match s with
    | c :: rest => if c = 45 ∨ c = 43 then rest else s
    | [] => s
  match s with
  | c0 :: c1 :: rest =>
    if c0 = 48 ∧ (lower c1.toNat = 98 ∨ lower c1.toNat = 111 ∨ lower c1.toNat = 120) then
      underscoreLoop (decide (lower c1.toNat = 120)) rest 48
    else underscoreLoop false s 94
  | _ => underscoreLoop false s 94

/-- The results of `readFloat`: mantissa (a `uint64`), exponent, the flags
`neg`, `trunc` and `hex`, the number `i` of bytes read, and `ok`. -/
structure FloatText where
  mantissa : Nat
  exp : Int
  neg : Bool
  trunc : Bool
  hex : Bool
  i : Nat
  ok : Bool
deriving DecidableEq, Repr

/-- The variables of the digit loop of `readFloat`. The counters `nd`,
`ndMant` and `dp` are of type `int`; they stay within the length of the text
and are not reduced here. -/
structure Digits where
  mantissa : Nat
  trunc : Bool
  underscores : Bool
  sawdot : Bool
  sawdigits : Bool
  nd : Int
  ndMant : Int
  dp : Int
  i : Nat
deriving DecidableEq, Repr

/-- The digit loop of `readFloat` (label `loop`) on the bytes `s[i:]`: the
variables when the loop is left. -/
def readDigits (base : Nat) (maxMantDigits : Int) : GoString → Digits → Digits
  | [], d => d
  | c :: cs, d =>
    if c = 95 then
      readDigits base maxMantDigits cs { d with underscores := true, i := d.i + 1 }
    else if c = 46 then
      if d.sawdot then d
      else readDigits base maxMantDigits cs { d with sawdot := true, dp := d.nd, i := d.i + 1 }
    else if 48 ≤ c.toNat ∧ c.toNat ≤ 57 then
      if c = 48 ∧ d.nd = 0 then
        -- ignore leading zeros
        readDigits base maxMantDigits cs { d with sawdigits := true, dp := d.dp - 1, i := d.i + 1 }
      else if d.ndMant < maxMantDigits then
        readDigits base maxMantDigits cs
          { d with
            sawdigits := true, nd := d.nd + 1
            mantissa := wrapUint 64 (wrapUint 64 (d.mantissa * base) + (c.toNat - 48))
            ndMant := d.ndMant + 1, i := d.i + 1 }
      else if c ≠ 48 then
        readDigits base maxMantDigits cs
          { d with sawdigits := true, nd := d.nd + 1, trunc := true, i := d.i + 1 }
      else
        readDigits base maxMantDigits cs { d with sawdigits := true, nd := d.nd + 1, i := d.i + 1 }
    else if base = 16 ∧ 97 ≤ lower c.toNat ∧ lower c.toNat ≤ 102 then
      if d.ndMant < maxMantDigits then
        readDigits base maxMantDigits cs
          { d with
            sawdigits := true, nd := d.nd + 1
            mantissa := wrapUint 64 (wrapUint 64 (d.mantissa * 16) + (lower c.toNat - 97 + 10))
            ndMant := d.ndMant + 1, i := d.i + 1 }
      else
        readDigits base maxMantDigits cs
          { d with sawdigits := true, nd := d.nd + 1, trunc := true, i := d.i + 1 }
    else d

/-- The loop over the digits of the exponent in `readFloat`, on the bytes
`s[i:]`: the exponent read, the flag `underscores`, and the index reached. -/
def readExpDigits : GoString → Int → Bool → Nat → Int × Bool × Nat
  | [], e, underscores, i => (e, underscores, i)
  | c :: cs, e, underscores, i =>
    if (48 ≤ c.toNat ∧ c.toNat ≤ 57) ∨ c = 95 then
      if c = 95 then readExpDigits cs e true (i + 1)
      else readExpDigits cs (if e < 10000 then e * 10 + c.toNat - 48 else e) underscores (i + 1)
    else (e, underscores, i)

/-- The part of `readFloat` that reads the optional exponent, on the bytes
`rest = s[i:]`: the decimal point moved by the exponent, the flag
`underscores`, the index reached, and false when `readFloat` returns here
with `ok == false` (an exponent without digits, or a hexadecimal mantissa
without exponent). -/
def readExponent (base : Nat) (expChar : Nat) (rest : GoString) (dp : Int) (underscores : Bool)
    (i : Nat) : Int × Bool × Nat × Bool :=
  match rest with
  | c :: r1 =>
    if lower c.toNat = expChar then
      match r1 with
      | [] => (dp, underscores, i + 1, false)
      | c1 :: r2 =>
        let esign : Int := if c1 = 43 then 1 else if c1 = 45 then -1 else 1
        let r3 := if c1 = 43 ∨ c1 = 45 then r2 else r1
        let i3 := if c1 = 43 ∨ c1 = 45 then i + 2 else i + 1
        match r3 with
        | [] => (dp, underscores, i3, false)
        | c2 :: _ =>
          if c2.toNat < 48 ∨ c2.toNat > 57 then (dp, underscores, i3, false)
          else
            let (e, underscores, i4) := readExpDigits r3 0 underscores i3
            (dp + e * esign, underscores, i4, true)
    else if base = 16 then (dp, underscores, i, false)
    else (dp, underscores, i, true)
  | [] =>
    if base = 16 then (dp, underscores, i, false)
    else (dp, underscores, i, true)

/-- The function `readFloat` of strconv: it reads a decimal or hexadecimal
mantissa and exponent from the start of `s`. Where the source returns early,
the results have the values assigned so far and `ok` is false. -/
def readFloat (s : GoString) : FloatText :=
  match s with
  | [] => ⟨0, 0, false, false, false, 0, false⟩
  | c0 :: _ =>
    -- optional sign
    let neg := decide (c0 = 45)
    let i := if c0 = 43 ∨ c0 = 45 then 1 else 0
    -- digits
    let hex := decide (i + 2 < s.length) && decide (s.getD i 0 = 48) &&
      decide (lower (s.getD (i + 1) 0).toNat = 120)
    let base := if hex then 16 else 10
    let maxMantDigits : Int := if hex then 16 else 19
    let expChar := if hex then 112 else 101
    let i := if hex then i + 2 else i
    let d := readDigits base maxMantDigits (s.drop i) ⟨0, false, false, false, false, 0, 0, 0, i⟩
    if ¬ d.sawdigits then ⟨d.mantissa, 0, neg, d.trunc, hex, d.i, false⟩
    else
      let dp := if ¬ d.sawdot then d.nd else d.dp
      let dp := if base = 16 then dp * 4 else dp
      let ndMant := if base = 16 then d.ndMant * 4 else d.ndMant
      let (dp, underscores, i, more) := readExponent base expChar (s.drop d.i) dp d.underscores d.i
      if ¬ more then ⟨d.mantissa, 0, neg, d.trunc, hex, i, false⟩
      else
        let exp := if d.mantissa ≠ 0 then dp - ndMant else 0
        if underscores ∧ ¬ underscoreOK (s.take i) then ⟨d.mantissa, exp, neg, d.trunc, hex, i, false⟩
        else ⟨d.mantissa, exp, neg, d.trunc, hex, i, true⟩

/-- The arithmetic of floating-point numbers that the conversions use and
that is not part of this development. `convert32 s r` and `convert64 s r` are
the value and the error that `atof32` and `atof64` return for the text `s`
once `readFloat` has read `r` from it with `ok == true` (`atofHex`, the exact
and the Eisel-Lemire conversions, and `decimal.floatBits`). `widen` is the
conversion `float64(f)` and `narrow` the conversion `float32(f)` on the
numbers that are not an infinity, NaN or zero. What is proved holds for every
`FloatArith`. -/
structure FloatArith where
  R32 : Type
  R64 : Type
  convert32 : GoString → FloatText → GoFloat R32 × Option NumError
  convert64 : GoString → FloatText → GoFloat R64 × Option NumError
  widen : R32 → R64
  narrow : R64 → GoFloat R32

/-- The conversion `float64(f)` of a `float32`. -/
def FloatArith.float64 (a : FloatArith) : GoFloat a.R32 → GoFloat a.R64
  | GoFloat.posInf => GoFloat.posInf
  | GoFloat.negInf => GoFloat.negInf
  | GoFloat.nan => GoFloat.nan
  | GoFloat.zero => GoFloat.zero
  | GoFloat.finite x => GoFloat.finite (a.widen x)

/-- The conversion `float32(f)` of a `float64`. -/
def FloatArith.float32 (a : FloatArith) : GoFloat a.R64 → GoFloat a.R32
  | GoFloat.posInf => GoFloat.posInf
  | GoFloat.negInf => GoFloat.negInf
  | GoFloat.nan => GoFloat.nan
  | GoFloat.zero => GoFloat.zero
  | GoFloat.finite x => a.narrow x

/-- The function `atof32` of strconv: the value, the number of bytes read and
the error. -/
def atof32 (a : FloatArith) (s : GoString) : GoFloat a.R32 × Nat × Option NumError :=
  let (val, n, ok) := (special s : GoFloat a.R64 × Nat × Bool)
  if ok then (a.float32 val, n, none)
  else
    let r := readFloat s
    if ¬ r.ok then (GoFloat.zero, r.i, some (syntaxError "ParseFloat" s))
    else
      let (f, err) := a.convert32 s r
      (f, r.i, err)

/-- The function `atof64` of strconv: the value, the number of bytes read and
the error. -/
def atof64 (a : FloatArith) (s : GoString) : GoFloat a.R64 × Nat × Option NumError :=
  let (val, n, ok) := (special s : GoFloat a.R64 × Nat × Bool)
  if ok then (val, n, none)
  else
    let r := readFloat s
    if ¬ r.ok then (GoFloat.zero, r.i, some (syntaxError "ParseFloat" s))
    else
      let (f, err) := a.convert64 s r
      (f, r.i, err)

/-- The function `parseFloatPrefix` of strconv. -/
def parseFloatPrefix (a : FloatArith) (s : GoString) (bitSize : Nat) :
    GoFloat a.R64 × Nat × Option NumError :=
  if bitSize = 32 then
    let (f, n, err) := atof32 a s
    (a.float64 f, n, err)
  else atof64 a s

/-- The function `strconv.ParseFloat`: the text must be read to its end,
unless the error is already a syntax error. -/
def ParseFloat (a : FloatArith) (s : GoString) (bitSize : Nat) :
    GoFloat a.R64 × Option NumError :=
  let (f, n, err) := parseFloatPrefix a s bitSize
  if n ≠ s.length ∧ (err = none ∨ err.map NumError.Err ≠ some ConvErr.ErrSyntax) then
    (GoFloat.zero, some (syntaxError "ParseFloat" s))
  else (f, err)

/-- AsFloat32 converts the Result to a float32. -/
def Result.AsFloat32 (a : FloatArith) (o : Result) : GoFloat a.R32 × Option NumError :=
  let (result, err) := ParseFloat a o.Value 32
  (a.float32 result, err)

/-- AsFloat64 converts the Result to a float64. -/
def Result.AsFloat64 (a : FloatArith) (o : Result) : GoFloat a.R64 × Option NumError :=
  let (result, err) := ParseFloat a o.Value 64
  (result, err)

/-! ## Names of the special values (specification side) -/

/-- The byte `c` is the byte `b` in either letter case: it is `b`, or `b` is a
lower-case letter and `c` the same letter in upper case. -/
def sameLetter (c b : UInt8) : Bool :=
  decide (c = b) || (decide (97 ≤ b.toNat ∧ b.toNat ≤ 122) && decide (c.toNat + 32 = b.toNat))

/-- The text `s` is a letter-casing of the lower-case text `name`: the same
bytes, each letter in lower or upper case. -/
def isCasing : GoString → GoString → Bool
  | [], [] => true
  | c :: s, b :: name => sameLetter c b && isCasing s name
  | _, _ => false

/-- The texts that name a special value: `inf` or `infinity` in any
letter-casing, with or without a sign, and `nan` in any letter-casing. -/
def isSpecialName (s : GoString) : Bool :=
  isCasing (unsign s) (lit "inf") || isCasing (unsign s) (lit "infinity") ||
    isCasing s (lit "nan")

/-! ## The goroutines of `capture` (main.go)

The method `capture` again, this time with the goroutine that calls it and
the reader goroutine as two threads that take turns in any order. The state
starts when the pipe exists, `go func()` has run (method PipeWithGoroutine)
and the selected streams point at the write end `w`; which file a stream
variable holds is the subject of the sequential model above and is left out
here: a write of the callback goes to the pipe exactly when its stream is
selected. The pipe is a buffer of the kernel that holds at most `capacity`
bytes: a write waits while it is full, a read waits while it is empty and the
write end is open, and returns the end of the stream when it is empty and the
write end is closed. -/

/-- Where the goroutine that called `capture` stands: in the callback, with
the operations it has not started and the bytes of the current write that
have not reached the pipe; before `w.Close()`; in `wg.Wait()` (method
PipeWithGoroutine); in `io.Copy(&buf, r)` (method PipeDirectly); returned from
`capture` with `buf.String()`; or unwinding with a panic of the callback. -/
inductive Caller where
  | inCallback (ops : Callback) (pending : GoString)
  | closing
  | waiting
  | copying
  | returned (val : GoString)
  | panicked (v : PanicValue)
deriving DecidableEq, Repr

/-- The state the goroutines share: where the caller stands, the bytes in the
pipe, whether the write end `w` is open, the bytes in `buf`, whether a reader
goroutine was started, and whether it has called `wg.Done()`. -/
structure Threads where
  caller : Caller
  pipe : GoString
  wOpen : Bool
  buf : GoString
  reader : Bool
  done : Bool
deriving DecidableEq, Repr

/-- Which goroutine runs next, and how many bytes the kernel moves if the
step is a write to the pipe or a read from it. -/
inductive Turn where
  | caller (k : Nat)
  | reader (k : Nat)
deriving DecidableEq, Repr

/-- One step of `io.Copy(&buf, r)`: a read of `k` bytes that are in the pipe,
appended to `buf`. None when `k` is not a number of bytes a read can return. -/
def copyStep (k : Nat) (st : Threads) : Option Threads :=
  if 1 ≤ k ∧ k ≤ st.pipe.length then
    some { st with buf := st.buf ++ st.pipe.take k, pipe := st.pipe.drop k }
  else none

/-- One step of the goroutine that called `capture`; none when it cannot move:
it waits in a write to a pipe that has no room for `k` more bytes, it waits in
`wg.Wait()` for `wg.Done()`, or it has left `capture`. A write of the callback
to a stream that is not selected goes to another file and completes. -/
def callerStep (c : Capture) (capacity : Nat) (k : Nat) (st : Threads) : Option Threads :=
  match st.caller with
  | Caller.inCallback ops (b :: pending) =>
    -- the write in progress: `k` more bytes go to the pipe if it has room for them
    if 1 ≤ k ∧ k ≤ (b :: pending).length ∧ st.pipe.length + k ≤ capacity then
      some { st with
        caller := Caller.inCallback ops ((b :: pending).drop k)
        pipe := st.pipe ++ (b :: pending).take k }
    else none
  | Caller.inCallback (Op.write s data :: rest) [] =>
    if c.selects s then some { st with caller := Caller.inCallback rest data }
    else some { st with caller := Caller.inCallback rest [] }
  | Caller.inCallback (Op.panic v :: _) [] =>
    some { st with caller := Caller.panicked (PanicValue.value v) }
  | Caller.inCallback [] [] =>
    -- f() returns, the deferred functions restore the streams
    some { st with caller := Caller.closing }
  | Caller.closing =>
    -- w.Close()
    if c.method = PipeWithGoroutine then some { st with caller := Caller.waiting, wOpen := false }
    else some { st with caller := Caller.copying, wOpen := false }
  | Caller.waiting =>
    -- wg.Wait(), then return buf.String()
    if st.done then some { st with caller := Caller.returned st.buf } else none
  | Caller.copying =>
    -- io.Copy(&buf, r) by the caller, then return buf.String()
    if st.pipe ≠ [] then copyStep k st
    else if st.wOpen then none
    else some { st with caller := Caller.returned st.buf }
  | Caller.returned _ => none
  | Caller.panicked _ => none

/-- One step of the reader goroutine `go func() { defer wg.Done(); io.Copy(&buf, r) }`;
none when it cannot move: there is no such goroutine, it has finished, or it
waits in a read from the empty pipe whose write end is open. At the end of the
stream `io.Copy` returns and `wg.Done()` runs. -/
def readerStep (k : Nat) (st : Threads) : Option Threads :=
  if ¬ st.reader ∨ st.done then none
  else if st.pipe ≠ [] then copyStep k st
  else if st.wOpen then none
  else some { st with done := true }

/-- One step of the goroutine whose turn it is. -/
def step (c : Capture) (capacity : Nat) (st : Threads) : Turn → Option Threads
  | Turn.caller k => callerStep c capacity k st
  | Turn.reader k => readerStep k st

/-- The state after the turns of a schedule, none if one of them is the turn
of a goroutine that cannot move. -/
def run (c : Capture) (capacity : Nat) : Threads → List Turn → Option Threads
  | st, [] => some st
  | st, t :: ts =>
    match step c capacity st t with
    | some st1 => run c capacity st1 ts
    | none => none

/-- The state in which `capture` calls `redirectAndExecute`: the pipe is
empty and open, `buf` is empty, and with the method PipeWithGoroutine the
reader goroutine is running (`wg.Add(1)`, `go func()`). -/
def Capture.threads (c : Capture) (f : Callback) : Threads :=
  ⟨Caller.inCallback f [], [], true, [], decide (c.method = PipeWithGoroutine), false⟩

/-! ## Bounds and invariant of the goroutines (specification side) -/

/-- A bound on the steps the operations of a callback take: one to start each
operation, and two for each byte written to a selected stream (into the pipe,
and out of it). -/
def opsWeight (sel : Stream → Bool) : Callback → Nat
  | [] => 0
  | Op.write s data :: rest => 1 + 2 * (if sel s then data.length else 0) + opsWeight sel rest
  | Op.panic _ :: rest => 1 + opsWeight sel rest

/-- A bound on the steps left to the goroutines in a state. -/
def Threads.fuel (sel : Stream → Bool) (st : Threads) : Nat :=
  (match st.caller with
    | Caller.inCallback ops pending => 4 + opsWeight sel ops + 2 * pending.length
    | Caller.closing => 3
    | Caller.waiting => 2
    | Caller.copying => 2
    | Caller.returned _ => 0
    | Caller.panicked _ => 0) +
  st.pipe.length + (if st.reader = true ∧ st.done = false then 1 else 0)

/-- What holds in every state of `capture` with the method PipeWithGoroutine
and the callback `f`: the bytes in `buf`, in the pipe, of the write in
progress and of the operations to come are, in this order, what the callback
writes to the selected streams; the write end is open until `w.Close()`; and
`wg.Done()` has run only when the pipe is closed and empty. -/
def Threads.inv (c : Capture) (capacity : Nat) (f : Callback) (st : Threads) : Prop :=
  st.reader = true ∧ st.pipe.length ≤ capacity ∧
  match st.caller with
  | Caller.inCallback ops pending =>
    st.wOpen = true ∧ st.done = false ∧
      st.buf ++ st.pipe ++ pending ++ written c.selects ops = written c.selects f ∧
      firstPanic ops = firstPanic f
  | Caller.closing =>
    st.wOpen = true ∧ st.done = false ∧ st.buf ++ st.pipe = written c.selects f ∧
      firstPanic f = none
  | Caller.waiting =>
    st.wOpen = false ∧ st.buf ++ st.pipe = written c.selects f ∧ (st.done = true → st.pipe = []) ∧
      firstPanic f = none
  | Caller.copying => False
  | Caller.returned val =>
    st.wOpen = false ∧ st.done = true ∧ st.pipe = [] ∧ st.buf = val ∧
      val = written c.selects f ∧ firstPanic f = none
  | Caller.panicked v =>
    st.wOpen = true ∧ st.done = false ∧ ∃ x, v = PanicValue.value x ∧ firstPanic f = some x

/-! # Theorems -/

/-! ## Package strconv: ParseUint -/

theorem decFrom_nil (n : Nat) : decFrom n [] = n := rfl

theorem decFrom_cons (n : Nat) (c : UInt8) (cs : GoString) :
    decFrom n (c :: cs) = decFrom (n * 10 + (c.toNat - 48)) cs := rfl

theorem le_decFrom (cs : GoString) (n : Nat) : n ≤ decFrom n cs := by
  induction cs generalizing n with
  | nil => simp [decFrom_nil]
  | cons c cs ih =>
    rw [decFrom_cons]
    exact le_trans (by omega) (ih _)

theorem isDigit_iff (c : UInt8) : isDigit c = true ↔ 48 ≤ c.toNat ∧ c.toNat ≤ 57 := by
  simp [isDigit]

theorem parseUintLoop_eq (s0 : GoString) (M : Nat) (hM : M < 2 ^ 64) (cs : GoString) (n : Nat)
    (hn : n ≤ M) :
    parseUintLoop s0 M cs n =
      if M < decFrom n (cs.takeWhile isDigit) then (M, some (rangeError "ParseUint" s0))
      else if cs.all isDigit then (decFrom n cs, none)
      else (0, some (syntaxError "ParseUint" s0)) := by
  induction cs generalizing n with
  | nil => simp [parseUintLoop, decFrom_nil, Nat.not_lt.mpr hn]
  | cons c cs ih =>
    have hc := UInt8.toNat_lt c
    have h64 : (2:Nat) ^ 64 = 18446744073709551616 := by norm_num
    have hcut : maxUint64 / 10 + 1 = 1844674407370955162 := by norm_num [maxUint64]
    by_cases hd : isDigit c = true
    · have hd2 := (isDigit_iff c).1 hd
      have hmono := le_decFrom (cs.takeWhile isDigit) (n * 10 + (c.toNat - 48))
      simp only [List.takeWhile_cons, hd, if_true, List.all_cons, Bool.true_and, decFrom_cons]
      unfold parseUintLoop
      simp only [hd2, and_self, true_or, if_true, hcut]
      rw [h64] at hM ⊢
      have hd9 : ¬ (c.toNat - 48 ≥ 10) := by omega
      rw [if_neg hd9]
      by_cases h1 : n ≥ 1844674407370955162
      · rw [if_pos h1, if_pos (by omega)]
      · rw [if_neg h1]
        have e1 : n * 10 % 18446744073709551616 = n * 10 := Nat.mod_eq_of_lt (by omega)
        rw [e1]
        by_cases h2 : (n * 10 + (c.toNat - 48)) % 18446744073709551616 < n * 10 ∨
            (n * 10 + (c.toNat - 48)) % 18446744073709551616 > M
        · rw [if_pos h2, if_pos (by omega)]
        · rw [if_neg h2]
          have e2 : (n * 10 + (c.toNat - 48)) % 18446744073709551616 = n * 10 + (c.toNat - 48) := by
            omega
          rw [e2] at h2 ⊢
          exact ih _ (by omega)
    · have hd2 : ¬ (48 ≤ c.toNat ∧ c.toNat ≤ 57) := fun h => hd ((isDigit_iff c).2 h)
      have hd3 : isDigit c = false := by simpa using hd
      simp only [List.takeWhile_cons, hd3, List.all_cons, Bool.false_and, Bool.false_eq_true,
        if_false, decFrom_nil]
      rw [if_neg (Nat.not_lt.mpr hn)]
      unfold parseUintLoop
      simp only [hd2, false_or, if_false]
      by_cases hl : 97 ≤ lower c.toNat ∧ lower c.toNat ≤ 122
      · rw [if_pos hl, if_pos (by omega)]
      · rw [if_neg hl]


/-- The largest value of an unsigned integer of `b` bits. -/
theorem maxVal_eq (b : Nat) (hb : b = 8 ∨ b = 16 ∨ b = 32 ∨ b = 64) :
    (2 ^ (if b = 0 then intSize else b) % 2 ^ 64 + 2 ^ 64 - 1) % 2 ^ 64 = 2 ^ b - 1 := by
  rcases hb with h | h | h | h <;> subst h <;> norm_num

theorem ParseUint_eq (s : GoString) (b : Nat) (hb : b = 8 ∨ b = 16 ∨ b = 32 ∨ b = 64) :
    ParseUint s b =
      if s = [] then (0, some (syntaxError "ParseUint" s))
      else if 2 ^ b - 1 < decVal (s.takeWhile isDigit) then
        (2 ^ b - 1, some (rangeError "ParseUint" s))
      else if s.all isDigit then (decVal s, none)
      else (0, some (syntaxError "ParseUint" s)) := by
  unfold ParseUint
  by_cases hs : s = []
  · simp [hs]
  · have hb64 : ¬ b > 64 := by omega
    simp only [hs, if_false, hb64]
    rw [maxVal_eq b hb]
    have hM : 2 ^ b - 1 < 2 ^ 64 := by
      rcases hb with h | h | h | h <;> subst h <;> norm_num
    exact parseUintLoop_eq s (2 ^ b - 1) hM s 0 (Nat.zero_le _)

theorem ParseUint_zero (s : GoString) : ParseUint s 0 = ParseUint s 64 := by
  unfold ParseUint
  simp [intSize]

/-! ## Package strconv: ParseInt -/

theorem unsign_cons (c : UInt8) (rest : GoString) :
    unsign (c :: rest) = if c = 43 ∨ c = 45 then rest else c :: rest := rfl

/-- What ParseInt makes of the result of ParseUint on the text without its sign. -/
theorem ParseInt_of_ParseUint (c : UInt8) (rest body : GoString) (b : Nat) (un : Nat)
    (err : Option NumError) (hbody : unsign (c :: rest) = body)
    (h : ParseUint body b = (un, err)) :
    ParseInt (c :: rest) b =
      if err.isSome ∧ err.map NumError.Err ≠ some ConvErr.ErrRange then
        (0, err.map (fun e => ⟨"ParseInt", c :: rest, e.Err⟩))
      else if ¬ c = 45 ∧ un ≥ 2 ^ ((if b = 0 then intSize else b) - 1) % 2 ^ 64 then
        (wrapInt 64 (((2 ^ ((if b = 0 then intSize else b) - 1) % 2 ^ 64 : Nat) : Int) - 1),
          some (rangeError "ParseInt" (c :: rest)))
      else if c = 45 ∧ un > 2 ^ ((if b = 0 then intSize else b) - 1) % 2 ^ 64 then
        (wrapInt 64 (-(wrapInt 64 ((2 ^ ((if b = 0 then intSize else b) - 1) % 2 ^ 64 : Nat) : Int))),
          some (rangeError "ParseInt" (c :: rest)))
      else (if c = 45 then wrapInt 64 (-(wrapInt 64 un)) else wrapInt 64 un, none) := by
  subst hbody
  simp only [ParseInt, ← unsign_cons, h]


theorem wrapInt64_pred (K : Nat) (h1 : 1 ≤ K) (h2 : K ≤ 9223372036854775808) :
    wrapInt 64 ((K : Int) - 1) = K - 1 := by
  unfold wrapInt
  norm_num
  omega

theorem wrapInt64_neg (v K : Nat) (h1 : v ≤ K) (h2 : K ≤ 9223372036854775808) :
    wrapInt 64 (-(wrapInt 64 (v : Int))) = -(v : Int) := by
  unfold wrapInt
  norm_num
  omega

theorem wrapInt64_pos (v K : Nat) (h1 : v < K) (h2 : K ≤ 9223372036854775808) :
    wrapInt 64 (v : Int) = v := by
  unfold wrapInt
  norm_num
  omega

theorem width_facts (b K : Nat) (hb : b = 8 ∨ b = 16 ∨ b = 32 ∨ b = 64) (hK : K = 2 ^ (b - 1)) :
    2 ≤ K ∧ K ≤ 9223372036854775808 ∧ 2 ^ b - 1 = 2 * K - 1 ∧
      2 ^ ((if b = 0 then intSize else b) - 1) % 2 ^ 64 = K := by
  rcases hb with h | h | h | h <;> subst h <;> subst hK <;> norm_num

/-- ParseInt in terms of the sign, the leading digits and their value; `K` is
`2 ^ (bitSize - 1)`. -/
theorem ParseInt_eq (s : GoString) (b K : Nat) (hb : b = 8 ∨ b = 16 ∨ b = 32 ∨ b = 64)
    (hK : K = 2 ^ (b - 1)) :
    ParseInt s b =
      if s = [] ∨ unsign s = [] then (0, some (syntaxError "ParseInt" s))
      else if 2 * K - 1 < decVal ((unsign s).takeWhile isDigit) then
        (if s.head? = some 45 then -(K : Int) else (K : Int) - 1, some (rangeError "ParseInt" s))
      else if (unsign s).all isDigit then
        if ¬ s.head? = some 45 ∧ decVal (unsign s) ≥ K then
          ((K : Int) - 1, some (rangeError "ParseInt" s))
        else if s.head? = some 45 ∧ decVal (unsign s) > K then
          (-(K : Int), some (rangeError "ParseInt" s))
        else (if s.head? = some 45 then -(decVal (unsign s) : Int) else decVal (unsign s), none)
      else (0, some (syntaxError "ParseInt" s)) := by
  obtain ⟨hK2, hK63, hM, hcut⟩ := width_facts b K hb hK
  cases s with
  | nil => simp [ParseInt]
  | cons c rest =>
    have hPU := ParseUint_eq (unsign (c :: rest)) b hb
    rw [hM] at hPU
    simp only [List.head?_cons, Option.some.injEq, reduceCtorEq, false_or]
    generalize hbd : unsign (c :: rest) = body at hPU
    by_cases h0 : body = []
    · rw [if_pos h0] at hPU
      rw [ParseInt_of_ParseUint c rest body b _ _ hbd hPU, if_pos h0]
      simp [syntaxError]
    · rw [if_neg h0] at hPU
      rw [if_neg h0]
      by_cases h1 : 2 * K - 1 < decVal (body.takeWhile isDigit)
      · rw [if_pos h1] at hPU
        rw [ParseInt_of_ParseUint c rest body b _ _ hbd hPU, if_pos h1, hcut]
        rw [if_neg (by simp [rangeError])]
        by_cases hc : c = 45
        · rw [if_neg (by simp [hc]), if_pos ⟨hc, by omega⟩, if_pos hc,
            wrapInt64_neg K K (le_refl _) hK63]
        · rw [if_pos ⟨hc, by omega⟩, if_neg hc, wrapInt64_pred K (by omega) hK63]
      · rw [if_neg h1] at hPU
        rw [if_neg h1]
        by_cases h2 : body.all isDigit = true
        · rw [if_pos h2] at hPU
          have htw : body.takeWhile isDigit = body :=
            List.takeWhile_eq_self_iff.2 (by simpa using h2)
          rw [htw] at h1
          rw [ParseInt_of_ParseUint c rest body b _ _ hbd hPU, if_pos h2, hcut]
          have e1 := wrapInt64_pred K (by omega) hK63
          have e2 := wrapInt64_neg K K (le_refl _) hK63
          by_cases hc : c = 45
          · by_cases h3 : decVal body > K
            · simp [hc, h3, e2]
            · have e3 := wrapInt64_neg (decVal body) K (by omega) hK63
              simp [hc, h3, e3]
          · by_cases h3 : decVal body ≥ K
            · simp [hc, h3, e1]
            · have e3 := wrapInt64_pos (decVal body) K (by omega) hK63
              simp [hc, h3, e3]
        · rw [if_neg h2] at hPU
          rw [ParseInt_of_ParseUint c rest body b _ _ hbd hPU, if_neg h2]
          simp [syntaxError]

/-! ## Package strconv: Atoi -/

theorem ParseInt_zero (s : GoString) : ParseInt s 0 = ParseInt s 64 := by
  cases s with
  | nil => rfl
  | cons c rest => simp only [ParseInt, ParseUint_zero, intSize, if_true]; rfl

/-- The value ParseInt returns for 64 bits is an int64. -/
theorem ParseInt64_range (s : GoString) :
    -9223372036854775808 ≤ (ParseInt s 64).1 ∧ (ParseInt s 64).1 ≤ 9223372036854775807 := by
  rw [ParseInt_eq s 64 9223372036854775808 (by simp) (by norm_num)]
  split_ifs <;> simp_all <;> omega

theorem decFrom_succ_le (l : GoString) (n : Nat) (h : l.all isDigit = true) :
    decFrom n l + 1 ≤ (n + 1) * 10 ^ l.length := by
  induction l generalizing n with
  | nil => simp [decFrom_nil]
  | cons c cs ih =>
    simp only [List.all_cons, Bool.and_eq_true] at h
    have hd := (isDigit_iff c).1 h.1
    rw [decFrom_cons, List.length_cons, pow_succ]
    have h1 := ih (n * 10 + (c.toNat - 48)) h.2
    have h2 : (n * 10 + (c.toNat - 48) + 1) * 10 ^ cs.length ≤ (n + 1) * 10 * 10 ^ cs.length :=
      Nat.mul_le_mul_right _ (by omega)
    calc decFrom (n * 10 + (c.toNat - 48)) cs + 1
        ≤ (n * 10 + (c.toNat - 48) + 1) * 10 ^ cs.length := h1
      _ ≤ (n + 1) * 10 * 10 ^ cs.length := h2
      _ = (n + 1) * (10 ^ cs.length * 10) := by ring

theorem atoiLoop_eq (s0 : GoString) (body : GoString) (n : Nat)
    (hb : (n + 1) * 10 ^ body.length ≤ 10 ^ 18) :
    atoiLoop s0 body (n : Int) =
      if body.all isDigit then (((decFrom n body : Nat) : Int), none)
      else (0, some (syntaxError "Atoi" s0)) := by
  induction body generalizing n with
  | nil => simp [atoiLoop, decFrom_nil]
  | cons c cs ih =>
    have hc := UInt8.toNat_lt c
    rw [List.length_cons, pow_succ] at hb
    have hP : 0 < 10 ^ cs.length := by positivity
    by_cases hd : isDigit c = true
    · have hd2 := (isDigit_iff c).1 hd
      have e1 : (c.toNat + 256 - 48) % 256 = c.toNat - 48 := by omega
      have h2a : (n * 10 + (c.toNat - 48) + 1) * 10 ^ cs.length ≤ (n + 1) * 10 * 10 ^ cs.length :=
        Nat.mul_le_mul_right _ (by omega)
      have h2b : (n + 1) * 10 * 10 ^ cs.length = (n + 1) * (10 ^ cs.length * 10) := by ring
      have h2 : (n * 10 + (c.toNat - 48) + 1) * 10 ^ cs.length ≤ 10 ^ 18 :=
        le_trans h2a (h2b ▸ hb)
      have h3 : n * 10 + (c.toNat - 48) + 1 ≤ 10 ^ 18 :=
        le_trans (Nat.le_mul_of_pos_right _ hP) h2
      have e2 : wrapInt intSize ((n : Int) * 10 + ((c.toNat - 48 : Nat) : Int)) =
          ((n * 10 + (c.toNat - 48) : Nat) : Int) := by
        unfold wrapInt intSize
        norm_num at h3 ⊢
        omega
      simp only [atoiLoop, e1, List.all_cons, hd, Bool.true_and, decFrom_cons]
      rw [if_neg (by omega), e2]
      exact ih _ h2
    · have hd2 : ¬ (48 ≤ c.toNat ∧ c.toNat ≤ 57) := fun h => hd ((isDigit_iff c).2 h)
      have hd3 : isDigit c = false := by simpa using hd
      simp only [atoiLoop, List.all_cons, hd3, Bool.false_and, Bool.false_eq_true, if_false]
      rw [if_pos (by omega)]


theorem decVal_takeWhile_lt (body : GoString) (h : body.length ≤ 18) :
    decVal (body.takeWhile isDigit) < 10 ^ 18 := by
  have hall : (body.takeWhile isDigit).all isDigit = true := by
    rw [List.all_eq_true]
    intro x hx
    exact List.mem_takeWhile_imp hx
  have h1 := decFrom_succ_le (body.takeWhile isDigit) 0 hall
  have h2 : (body.takeWhile isDigit).length ≤ 18 :=
    le_trans (List.takeWhile_sublist isDigit).length_le h
  have h3 : 10 ^ (body.takeWhile isDigit).length ≤ 10 ^ 18 :=
    Nat.pow_le_pow_right (by norm_num) h2
  unfold decVal
  omega

/-- The fast path of Atoi on a text of fewer than 19 bytes, in terms of the
text without its sign. -/
theorem Atoi_fast (c : UInt8) (rest : GoString) (h : (c :: rest).length < 19) :
    Atoi (c :: rest) =
      if unsign (c :: rest) = [] then (0, some (syntaxError "Atoi" (c :: rest)))
      else if (unsign (c :: rest)).all isDigit then
        (if c = 45 then -(decVal (unsign (c :: rest)) : Int) else decVal (unsign (c :: rest)),
          none)
      else (0, some (syntaxError "Atoi" (c :: rest))) := by
  have hlen : 0 < (c :: rest).length ∧ (c :: rest).length < 19 := ⟨by simp, h⟩
  have hcond : (intSize = 32 ∧ (0 < (c :: rest).length ∧ (c :: rest).length < 10)) ∨
      (intSize = 64 ∧ (0 < (c :: rest).length ∧ (c :: rest).length < 19)) := Or.inr ⟨rfl, hlen⟩
  have hbody : (if (c :: rest).head? = some 45 ∨ (c :: rest).head? = some 43 then
      (c :: rest).drop 1 else c :: rest) = unsign (c :: rest) := by
    rw [unsign_cons]
    by_cases h1 : c = 45
    · simp [h1]
    · by_cases h2 : c = 43
      · simp [h2]
      · simp [h1, h2]
  have hul : (unsign (c :: rest)).length ≤ 18 := by
    rw [unsign_cons]
    simp only [List.length_cons] at h
    split_ifs <;> omega
  unfold Atoi
  simp only [hcond, if_true, hbody]
  generalize hu : unsign (c :: rest) = body at hul
  have hloop := atoiLoop_eq (c :: rest) body 0 (by
    have : 10 ^ body.length ≤ 10 ^ 18 := Nat.pow_le_pow_right (by norm_num) (by omega)
    omega)
  have hloop2 : atoiLoop (c :: rest) body 0 =
      if body.all isDigit then (((decVal body : Nat) : Int), none)
      else (0, some (syntaxError "Atoi" (c :: rest))) := by
    simpa [decVal] using hloop
  by_cases h0 : body = []
  · subst h0
    rw [unsign_cons] at hu
    have hs : c = 43 ∨ c = 45 := by
      by_contra hn
      rw [if_neg hn] at hu
      exact List.cons_ne_nil _ _ hu
    rcases hs with h1 | h1 <;> simp [h1]
  · have hl : ¬ body.length < 1 := by
      cases body with
      | nil => exact absurd rfl h0
      | cons x xs => simp
    rw [if_neg (fun hx => hl hx.2), if_neg h0, hloop2]
    by_cases h2 : body.all isDigit = true
    · have hv : decVal body < 10 ^ 18 := by
        have := decVal_takeWhile_lt body hul
        rwa [List.takeWhile_eq_self_iff.2 (by simpa using h2)] at this
      have e3 : wrapInt intSize (-((decVal body : Nat) : Int)) = -((decVal body : Nat) : Int) := by
        unfold wrapInt intSize
        norm_num at hv ⊢
        omega
      simp only [h2, if_true, List.head?_cons, Option.some.injEq, e3]
    · simp only [h2, Bool.false_eq_true, if_false]


/-- Atoi is ParseInt at 64 bits, with the name of the function in the error replaced. -/
theorem Atoi_eq (s : GoString) :
    Atoi s = ((ParseInt s 64).1, (ParseInt s 64).2.map (fun e => ⟨"Atoi", e.Num, e.Err⟩)) := by
  by_cases hfast : 0 < s.length ∧ s.length < 19
  · cases s with
    | nil => simp at hfast
    | cons c rest =>
      rw [Atoi_fast c rest hfast.2,
        ParseInt_eq (c :: rest) 64 9223372036854775808 (by simp) (by norm_num)]
      have hul : (unsign (c :: rest)).length ≤ 18 := by
        rw [unsign_cons]
        have := hfast.2
        simp only [List.length_cons] at this
        split_ifs <;> omega
      generalize unsign (c :: rest) = body at hul
      have hv := decVal_takeWhile_lt body hul
      by_cases h0 : body = []
      · simp [h0, syntaxError]
      · have h1 : ¬ (2 * 9223372036854775808 - 1 < decVal (body.takeWhile isDigit)) := by
          norm_num at hv ⊢
          omega
        simp only [h0, List.cons_ne_nil, or_self, if_false, h1]
        by_cases h2 : body.all isDigit = true
        · rw [List.takeWhile_eq_self_iff.2 (by simpa using h2)] at hv
          have h3 : ¬ (decVal body ≥ 9223372036854775808) := by
            norm_num at hv
            omega
          have h4 : ¬ (decVal body > 9223372036854775808) := by omega
          simp [h2, h3, h4]
        · simp [h2, syntaxError]
  · have hcond : ¬ ((intSize = 32 ∧ (0 < s.length ∧ s.length < 10)) ∨
        (intSize = 64 ∧ (0 < s.length ∧ s.length < 19))) := by
      simp only [intSize]
      omega
    have hr := ParseInt64_range s
    have hw : wrapInt intSize (ParseInt s 64).1 = (ParseInt s 64).1 := by
      unfold wrapInt intSize
      norm_num
      omega
    unfold Atoi
    simp only [hcond, if_false, ParseInt_zero, hw]

/-! ## The integer conversions and the text of an integer -/

/-- The result of ParseInt followed by the conversion to the type of `b` bits:
value and kind of error. -/
theorem ParseInt_view (s : GoString) (b K : Nat) (hb : b = 8 ∨ b = 16 ∨ b = 32 ∨ b = 64)
    (hK : K = 2 ^ (b - 1)) :
    (wrapInt b (ParseInt s b).1, errKind (ParseInt s b).2) =
      if unsign s = [] then (0, some ConvErr.ErrSyntax)
      else if 2 * K - 1 < decVal ((unsign s).takeWhile isDigit) then
        (if s.head? = some 45 then -(K : Int) else (K : Int) - 1, some ConvErr.ErrRange)
      else if (unsign s).all isDigit then
        if ¬ s.head? = some 45 ∧ decVal (unsign s) ≥ K then
          ((K : Int) - 1, some ConvErr.ErrRange)
        else if s.head? = some 45 ∧ decVal (unsign s) > K then
          (-(K : Int), some ConvErr.ErrRange)
        else (if s.head? = some 45 then -(decVal (unsign s) : Int) else decVal (unsign s), none)
      else (0, some ConvErr.ErrSyntax) := by
  have hw1 : wrapInt b ((K : Int) - 1) = (K : Int) - 1 := by
    rcases hb with h | h | h | h <;> subst h <;> subst hK <;> unfold wrapInt <;> norm_num
  have hw2 : wrapInt b (-(K : Int)) = -(K : Int) := by
    rcases hb with h | h | h | h <;> subst h <;> subst hK <;> unfold wrapInt <;> norm_num
  have hw3 : ∀ v : Nat, v < K → wrapInt b (v : Int) = v := by
    intro v hv
    rcases hb with h | h | h | h <;> subst h <;> subst hK <;> unfold wrapInt <;>
      norm_num at hv ⊢ <;> omega
  have hw4 : ∀ v : Nat, v ≤ K → wrapInt b (-(v : Int)) = -(v : Int) := by
    intro v hv
    rcases hb with h | h | h | h <;> subst h <;> subst hK <;> unfold wrapInt <;>
      norm_num at hv ⊢ <;> omega
  have hw0 : wrapInt b 0 = 0 := by simpa using hw3 0 (by subst hK; positivity)
  rw [ParseInt_eq s b K hb hK]
  by_cases h0 : unsign s = []
  · have h0' : s = [] ∨ unsign s = [] := Or.inr h0
    simp [h0, h0', errKind, syntaxError, hw0]
  · have hs : ¬ s = [] := by
      intro h
      subst h
      exact h0 rfl
    have h0' : ¬ (s = [] ∨ unsign s = []) := by simp [hs, h0]
    rw [if_neg h0', if_neg h0]
    by_cases h1 : 2 * K - 1 < decVal ((unsign s).takeWhile isDigit)
    · rw [if_pos h1, if_pos h1]
      by_cases hc : s.head? = some 45 <;> simp [hc, errKind, rangeError, hw1, hw2]
    · rw [if_neg h1, if_neg h1]
      by_cases h2 : (unsign s).all isDigit = true
      · rw [if_pos h2, if_pos h2]
        by_cases hc : s.head? = some 45
        · by_cases h3 : decVal (unsign s) > K
          · simp [hc, h3, errKind, rangeError, hw2]
          · simp [hc, h3, errKind, hw4 _ (not_lt.1 h3)]
        · by_cases h3 : decVal (unsign s) ≥ K
          · simp [hc, h3, errKind, rangeError, hw1]
          · simp [hc, h3, errKind, hw3 _ (not_le.1 h3)]
      · rw [if_neg h2, if_neg h2]
        simp [errKind, syntaxError, hw0]


theorem wrapInt64_id (x : Int) (h1 : -9223372036854775808 ≤ x) (h2 : x ≤ 9223372036854775807) :
    wrapInt 64 x = x := by
  unfold wrapInt
  norm_num
  omega

/-- Every signed conversion is ParseInt at its width followed by the
conversion to its type. -/
theorem signed_conv_eq (wc : Nat × (Result → Int × Option NumError))
    (h : wc ∈ signedConversions) (o : Result) :
    (wc.1 = 8 ∨ wc.1 = 16 ∨ wc.1 = 32 ∨ wc.1 = 64) ∧
    ((wc.2 o).1, errKind (wc.2 o).2) =
      (wrapInt wc.1 (ParseInt o.Value wc.1).1, errKind (ParseInt o.Value wc.1).2) := by
  have hr := ParseInt64_range o.Value
  have hw := wrapInt64_id _ hr.1 hr.2
  simp only [signedConversions, List.mem_cons, List.mem_singleton, List.not_mem_nil,
    or_false] at h
  rcases h with h | h | h | h | h | h <;> subst h
  · refine ⟨by simp, ?_⟩
    simp only [Result.AsInt, Atoi_eq, hw, errKind, Option.map_map]
    rfl
  · exact ⟨by simp, rfl⟩
  · exact ⟨by simp, rfl⟩
  · exact ⟨by simp, rfl⟩
  · refine ⟨by simp, ?_⟩
    simp only [Result.AsInt64, hw]
  · exact ⟨by simp, rfl⟩

/-- The result of ParseUint followed by the conversion to the type of `b` bits. -/
theorem ParseUint_view (s : GoString) (b : Nat) (hb : b = 8 ∨ b = 16 ∨ b = 32 ∨ b = 64) :
    (wrapUint b (ParseUint s b).1, errKind (ParseUint s b).2) =
      if s = [] then (0, some ConvErr.ErrSyntax)
      else if 2 ^ b - 1 < decVal (s.takeWhile isDigit) then (2 ^ b - 1, some ConvErr.ErrRange)
      else if s.all isDigit then (decVal s, none)
      else (0, some ConvErr.ErrSyntax) := by
  have hpos : 0 < 2 ^ b := by positivity
  rw [ParseUint_eq s b hb]
  by_cases h0 : s = []
  · simp [h0, errKind, syntaxError, wrapUint, Nat.mod_eq_of_lt hpos]
  · rw [if_neg h0, if_neg h0]
    by_cases h1 : 2 ^ b - 1 < decVal (s.takeWhile isDigit)
    · rw [if_pos h1, if_pos h1]
      simp only [errKind, rangeError, wrapUint, Option.map_some']
      rw [Nat.mod_eq_of_lt (by omega)]
    · rw [if_neg h1, if_neg h1]
      by_cases h2 : s.all isDigit = true
      · rw [if_pos h2, if_pos h2]
        rw [List.takeWhile_eq_self_iff.2 (by simpa using h2)] at h1
        simp only [errKind, wrapUint, Option.map_none']
        rw [Nat.mod_eq_of_lt (by omega)]
      · rw [if_neg h2, if_neg h2]
        simp [errKind, syntaxError, wrapUint, Nat.mod_eq_of_lt hpos]

theorem ParseUint64_lt (s : GoString) : (ParseUint s 64).1 < 2 ^ 64 := by
  rw [ParseUint_eq s 64 (by simp)]
  by_cases h0 : s = []
  · simp [h0]
  · rw [if_neg h0]
    by_cases h1 : 2 ^ 64 - 1 < decVal (s.takeWhile isDigit)
    · rw [if_pos h1]
      norm_num
    · rw [if_neg h1]
      by_cases h2 : s.all isDigit = true
      · rw [if_pos h2]
        rw [List.takeWhile_eq_self_iff.2 (by simpa using h2)] at h1
        simp only
        omega
      · rw [if_neg h2]
        norm_num

/-- Every unsigned conversion is ParseUint at its width followed by the
conversion to its type. -/
theorem unsigned_conv_eq (wc : Nat × (Result → Nat × Option NumError))
    (h : wc ∈ unsignedConversions) (o : Result) :
    (wc.1 = 8 ∨ wc.1 = 16 ∨ wc.1 = 32 ∨ wc.1 = 64) ∧
    ((wc.2 o).1, errKind (wc.2 o).2) =
      (wrapUint wc.1 (ParseUint o.Value wc.1).1, errKind (ParseUint o.Value wc.1).2) := by
  have hw : wrapUint 64 (ParseUint o.Value 64).1 = (ParseUint o.Value 64).1 :=
    Nat.mod_eq_of_lt (ParseUint64_lt o.Value)
  simp only [unsignedConversions, List.mem_cons, List.mem_singleton, List.not_mem_nil,
    or_false] at h
  rcases h with h | h | h | h | h | h | h <;> subst h
  · exact ⟨by simp, rfl⟩
  · exact ⟨by simp, rfl⟩
  · exact ⟨by simp, rfl⟩
  · exact ⟨by simp, rfl⟩
  · refine ⟨by simp, ?_⟩
    simp only [Result.AsUint64, hw]
  · exact ⟨by simp, rfl⟩
  · exact ⟨by simp, rfl⟩


/-- Every signed conversion, in terms of the sign, the digits and their value. -/
theorem signed_view (wc : Nat × (Result → Int × Option NumError))
    (h : wc ∈ signedConversions) (o : Result) :
    ((wc.2 o).1, errKind (wc.2 o).2) =
      if unsign o.Value = [] then (0, some ConvErr.ErrSyntax)
      else if 2 * 2 ^ (wc.1 - 1) - 1 < decVal ((unsign o.Value).takeWhile isDigit) then
        (if o.Value.head? = some 45 then -((2 ^ (wc.1 - 1) : Nat) : Int)
          else ((2 ^ (wc.1 - 1) : Nat) : Int) - 1, some ConvErr.ErrRange)
      else if (unsign o.Value).all isDigit then
        if ¬ o.Value.head? = some 45 ∧ decVal (unsign o.Value) ≥ 2 ^ (wc.1 - 1) then
          (((2 ^ (wc.1 - 1) : Nat) : Int) - 1, some ConvErr.ErrRange)
        else if o.Value.head? = some 45 ∧ decVal (unsign o.Value) > 2 ^ (wc.1 - 1) then
          (-((2 ^ (wc.1 - 1) : Nat) : Int), some ConvErr.ErrRange)
        else (if o.Value.head? = some 45 then -(decVal (unsign o.Value) : Int)
          else decVal (unsign o.Value), none)
      else (0, some ConvErr.ErrSyntax) := by
  obtain ⟨hb, he⟩ := signed_conv_eq wc h o
  rw [he]
  exact ParseInt_view o.Value wc.1 (2 ^ (wc.1 - 1)) hb rfl

/-- Every unsigned conversion, in terms of the digits and their value. -/
theorem unsigned_view (wc : Nat × (Result → Nat × Option NumError))
    (h : wc ∈ unsignedConversions) (o : Result) :
    ((wc.2 o).1, errKind (wc.2 o).2) =
      if o.Value = [] then (0, some ConvErr.ErrSyntax)
      else if 2 ^ wc.1 - 1 < decVal (o.Value.takeWhile isDigit) then
        (2 ^ wc.1 - 1, some ConvErr.ErrRange)
      else if o.Value.all isDigit then (decVal o.Value, none)
      else (0, some ConvErr.ErrSyntax) := by
  obtain ⟨hb, he⟩ := unsigned_conv_eq wc h o
  rw [he]
  exact ParseUint_view o.Value wc.1 hb

theorem errKind_eq_none (err : Option NumError) : errKind err = none ↔ err = none := by
  cases err <;> simp [errKind]

theorem digitByte_toNat (d : Nat) (h : d < 10) : (UInt8.ofNat (48 + d)).toNat = 48 + d := by
  interval_cases d <;> rfl

theorem natTextAux_spec (fuel n : Nat) (acc : GoString) (h : n < fuel) :
    (natTextAux fuel n acc).all isDigit = acc.all isDigit ∧
    decFrom 0 (natTextAux fuel n acc) = decFrom n acc ∧
    natTextAux fuel n acc ≠ [] := by
  induction fuel generalizing n acc with
  | zero => omega
  | succ fuel ih =>
    have hd := digitByte_toNat (n % 10) (Nat.mod_lt _ (by norm_num))
    have hdig : isDigit (UInt8.ofNat (48 + n % 10)) = true := by
      rw [isDigit_iff, hd]
      omega
    by_cases hn : n < 10
    · simp only [natTextAux, hn, if_true, List.all_cons, hdig, Bool.true_and, decFrom_cons, hd]
      refine ⟨trivial, ?_, List.cons_ne_nil _ _⟩
      rw [Nat.mod_eq_of_lt hn]
      congr 1
      omega
    · simp only [natTextAux, hn, if_false]
      obtain ⟨h1, h2, h3⟩ := ih (n / 10) (UInt8.ofNat (48 + n % 10) :: acc) (by omega)
      refine ⟨?_, ?_, h3⟩
      · rw [h1, List.all_cons, hdig, Bool.true_and]
      · rw [h2, decFrom_cons, hd]
        congr 1
        omega

theorem natText_spec (n : Nat) :
    (natText n).all isDigit = true ∧ decVal (natText n) = n ∧ natText n ≠ [] := by
  obtain ⟨h1, h2, h3⟩ := natTextAux_spec (n + 1) n [] (Nat.lt_succ_self n)
  exact ⟨by simpa [natText] using h1, by simpa [natText, decVal, decFrom_nil] using h2, h3⟩

theorem unsign_of_digits (s : GoString) (h : s.all isDigit = true) :
    unsign s = s ∧ ¬ s.head? = some 45 := by
  cases s with
  | nil => exact ⟨rfl, by simp⟩
  | cons c rest =>
    simp only [List.all_cons, Bool.and_eq_true] at h
    have hd := (isDigit_iff c).1 h.1
    have h1 : ¬ c = 43 := by
      intro hc
      subst hc
      exact absurd hd (by decide)
    have h2 : ¬ c = 45 := by
      intro hc
      subst hc
      exact absurd hd (by decide)
    exact ⟨by simp [unsign_cons, h1, h2], by simp [h2]⟩

/-- The text of an integer: its sign, its digits and their value. -/
theorem Itoa_spec (v : Int) :
    (unsign (Itoa v)).all isDigit = true ∧ unsign (Itoa v) ≠ [] ∧
    decVal (unsign (Itoa v)) = v.natAbs ∧ ((Itoa v).head? = some 45 ↔ v < 0) := by
  obtain ⟨h1, h2, h3⟩ := natText_spec v.natAbs
  obtain ⟨h4, h5⟩ := unsign_of_digits _ h1
  by_cases hv : v < 0
  · simp only [Itoa, hv, if_true, unsign_cons]
    simp [h1, h2, h3]
  · simp only [Itoa, hv, if_false, h4]
    exact ⟨h1, h3, h2, by simp [h5]⟩

theorem isSignedDecimal_iff (s : GoString) :
    isSignedDecimal s = true ↔ unsign s ≠ [] ∧ (unsign s).all isDigit = true := by
  simp [isSignedDecimal, isDecimal]

theorem isDecimal_iff (s : GoString) :
    isDecimal s = true ↔ s ≠ [] ∧ s.all isDigit = true := by
  simp [isDecimal]

theorem errKind_ne_none (err : Option NumError) (k : ConvErr) (h : errKind err = some k) :
    err ≠ none := by
  intro hn
  rw [hn] at h
  simp [errKind] at h

/-! ## Running a callback behind the pipe -/

/-- How a run of the callback ends, given what it does last. -/
theorem pipeWrite_reader (cap : Nat) (data : GoString) (st : Run) :
    ∃ st1, pipeWrite true cap data st = some st1 ∧ st1.proc = st.proc ∧
      st1.buf ++ st1.pipe = st.buf ++ st.pipe ++ data := by
  unfold pipeWrite
  simp only [if_true]
  split_ifs with h
  · refine ⟨_, rfl, rfl, ?_⟩
    simp only [List.append_assoc]
    rw [← List.append_assoc (List.take _ _), List.take_append_drop]
  · refine ⟨_, rfl, rfl, ?_⟩
    simp only [List.append_assoc]
    rw [List.take_append_drop, ← List.append_assoc (List.take _ _), List.take_append_drop]

theorem runCallback_eq (reader : Bool) (cap : Nat) (w : File) (sel : Stream → Bool) :
    ∀ (f : Callback) (st : Run),
      (∀ s, st.proc.get s = w ↔ sel s = true) →
      (reader = true ∨ st.pipe.length + (written sel f).length ≤ cap) →
      ∃ pipe buf sched, buf ++ pipe = st.buf ++ st.pipe ++ written sel f ∧
        runCallback reader cap w f st =
          (match firstPanic f with
           | none => Exec.done
           | some v => Exec.panicked (PanicValue.value v))
            ⟨⟨st.proc.Stdout, st.proc.Stderr, st.proc.trace ++ writeEvents st.proc.get f⟩,
              pipe, buf, sched⟩ := by
  intro f
  induction f with
  | nil =>
    intro st _ _
    exact ⟨st.pipe, st.buf, st.sched, by simp [written], by simp [runCallback, firstPanic, writeEvents]⟩
  | cons op rest ih =>
    intro st hsel hfit
    cases op with
    | panic v =>
      exact ⟨st.pipe, st.buf, st.sched, by simp [written],
        by simp [runCallback, firstPanic, writeEvents]⟩
    | write s data =>
      by_cases hs : sel s = true
      · have hw : st.proc.get s = w := (hsel s).2 hs
        have hst1 : ∃ st1, pipeWrite reader cap data st = some st1 ∧ st1.proc = st.proc ∧
            st1.buf ++ st1.pipe = st.buf ++ st.pipe ++ data ∧
            (reader = true ∨ st1.pipe.length + (written sel rest).length ≤ cap) := by
          cases reader with
          | true =>
            obtain ⟨st1, h1, h2, h3⟩ := pipeWrite_reader cap data st
            exact ⟨st1, h1, h2, h3, Or.inl rfl⟩
          | false =>
            have hfit2 : st.pipe.length + (written sel (Op.write s data :: rest)).length ≤ cap := by
              simpa using hfit
            simp only [written, hs, if_true, List.length_append] at hfit2
            refine ⟨⟨st.proc, st.pipe ++ data, st.buf, st.sched⟩, ?_, rfl, by simp, Or.inr ?_⟩
            · simp only [pipeWrite, Bool.false_eq_true, if_false]
              rw [if_pos (by omega)]
            · simp only [List.length_append]
              omega
        obtain ⟨st1, h1, _, h3, h4⟩ := hst1
        obtain ⟨pipe, buf, sched, hb, hr⟩ := ih
          ⟨⟨st.proc.Stdout, st.proc.Stderr, st.proc.trace ++ [Event.write (st.proc.get s) data]⟩,
            st1.pipe, st1.buf, st1.sched⟩
          (fun t => hsel t) h4
        refine ⟨pipe, buf, sched, ?_, ?_⟩
        · simp only [written, hs, if_true]
          rw [hb, h3]
          simp [List.append_assoc]
        · simp only [runCallback, hw, if_true, h1, firstPanic, writeEvents]
          rw [hw] at hr
          simpa [Proc.get, List.append_assoc] using hr
      · have hw : ¬ st.proc.get s = w := fun h => hs ((hsel s).1 h)
        obtain ⟨pipe, buf, sched, hb, hr⟩ := ih
          ⟨⟨st.proc.Stdout, st.proc.Stderr, st.proc.trace ++ [Event.write (st.proc.get s) data]⟩,
            st.pipe, st.buf, st.sched⟩
          (fun t => hsel t)
          (by simpa [written, hs] using hfit)
        refine ⟨pipe, buf, sched, ?_, ?_⟩
        · simpa [written, hs] using hb
        · simp only [runCallback, hw, if_false, firstPanic, writeEvents]
          simpa [Proc.get, List.append_assoc] using hr


theorem le_foldl_max (l : List Nat) (a : Nat) : a ≤ l.foldl max a := by
  induction l generalizing a with
  | nil => simp
  | cons x xs ih => exact le_trans (le_max_left a x) (ih _)

theorem osPipe_fresh (p : Proc) : p.Stdout ≠ (osPipe p).2 ∧ p.Stderr ≠ (osPipe p).2 := by
  have h := le_foldl_max (p.trace.map Event.file) (max p.Stdout p.Stderr)
  have ha := le_trans (le_max_left p.Stdout p.Stderr) h
  have hb := le_trans (le_max_right p.Stdout p.Stderr) h
  exact ⟨Nat.ne_of_lt (Nat.lt_succ_of_le (Nat.le_succ_of_le ha)),
    Nat.ne_of_lt (Nat.lt_succ_of_le (Nat.le_succ_of_le hb))⟩

/-- The whole effect of `capture` when the pipe is created and no write blocks. -/
theorem capture_eq (c : Capture) (env : Env) (f : Callback) (p : Proc)
    (hpipe : env.pipeErr = none)
    (hfit : c.method = PipeWithGoroutine ∨ (written c.selects f).length ≤ env.capacity) :
    c.capture env f p =
      (match firstPanic f with
       | none => Outcome.returned (written c.selects f)
       | some v => Outcome.panicked (PanicValue.value v))
        ⟨p.Stdout, p.Stderr, p.trace ++ redirects c (osPipe p).2 ++
          writeEvents (fun s => if c.selects s = true then (osPipe p).2 else p.get s) f ++
          restores c p⟩ := by
  obtain ⟨h1, h2⟩ := osPipe_fresh p
  generalize hw : (osPipe p).2 = w at h1 h2
  obtain ⟨cout, cerr, m⟩ := c
  obtain ⟨po, pe, tr⟩ := p
  simp only at h1 h2
  have key : ∀ reader : Bool, (reader = true ∨ (written (Capture.selects ⟨cout, cerr, m⟩) f).length ≤ env.capacity) →
      ∃ pipe buf sched, buf ++ pipe = written (Capture.selects ⟨cout, cerr, m⟩) f ∧
        Capture.redirectAndExecute ⟨cout, cerr, m⟩ reader env.capacity w f ⟨⟨po, pe, tr⟩, [], [], env.sched⟩ =
          (match firstPanic f with
           | none => Exec.done
           | some v => Exec.panicked (PanicValue.value v))
            ⟨⟨po, pe, tr ++ redirects ⟨cout, cerr, m⟩ w ++
              writeEvents (fun s => if Capture.selects ⟨cout, cerr, m⟩ s = true then w else
                Proc.get ⟨po, pe, tr⟩ s) f ++ restores ⟨cout, cerr, m⟩ ⟨po, pe, tr⟩⟩, pipe, buf, sched⟩ := by
    intro reader hr
    cases cout <;> cases cerr <;>
      simp only [Capture.redirectAndExecute, if_true, if_false, Bool.false_eq_true, Proc.set]
    · obtain ⟨pipe, buf, sched, hb, he⟩ := runCallback_eq reader env.capacity w
        (Capture.selects ⟨false, false, m⟩) f ⟨⟨po, pe, tr⟩, [], [], env.sched⟩
        (by intro s; cases s <;> simp [Proc.get, Capture.selects, h1, h2])
        (by simpa using hr)
      have hd : Proc.get ⟨po, pe, tr⟩ = fun s => if Capture.selects ⟨false, false, m⟩ s = true then w
          else Proc.get ⟨po, pe, tr⟩ s := by
        funext s; cases s <;> simp [Proc.get, Capture.selects]
      rw [hd] at he
      refine ⟨pipe, buf, sched, by simpa using hb, ?_⟩
      rw [he]
      cases firstPanic f <;>
        simp [Exec.deferred, Proc.set, redirects, restores, Capture.selects, Proc.get]
    · obtain ⟨pipe, buf, sched, hb, he⟩ := runCallback_eq reader env.capacity w
        (Capture.selects ⟨false, true, m⟩) f ⟨⟨po, w, (tr ++ [Event.assign Stream.err w])⟩, [], [], env.sched⟩
        (by intro s; cases s <;> simp [Proc.get, Capture.selects, h1, h2])
        (by simpa using hr)
      have hd : Proc.get ⟨po, w, (tr ++ [Event.assign Stream.err w])⟩ = fun s => if Capture.selects ⟨false, true, m⟩ s = true then w
          else Proc.get ⟨po, pe, tr⟩ s := by
        funext s; cases s <;> simp [Proc.get, Capture.selects]
      rw [hd] at he
      refine ⟨pipe, buf, sched, by simpa using hb, ?_⟩
      rw [he]
      cases firstPanic f <;>
        simp [Exec.deferred, Proc.set, redirects, restores, Capture.selects, Proc.get]
    · obtain ⟨pipe, buf, sched, hb, he⟩ := runCallback_eq reader env.capacity w
        (Capture.selects ⟨true, false, m⟩) f ⟨⟨w, pe, (tr ++ [Event.assign Stream.out w])⟩, [], [], env.sched⟩
        (by intro s; cases s <;> simp [Proc.get, Capture.selects, h1, h2])
        (by simpa using hr)
      have hd : Proc.get ⟨w, pe, (tr ++ [Event.assign Stream.out w])⟩ = fun s => if Capture.selects ⟨true, false, m⟩ s = true then w
          else Proc.get ⟨po, pe, tr⟩ s := by
        funext s; cases s <;> simp [Proc.get, Capture.selects]
      rw [hd] at he
      refine ⟨pipe, buf, sched, by simpa using hb, ?_⟩
      rw [he]
      cases firstPanic f <;>
        simp [Exec.deferred, Proc.set, redirects, restores, Capture.selects, Proc.get]
    · obtain ⟨pipe, buf, sched, hb, he⟩ := runCallback_eq reader env.capacity w
        (Capture.selects ⟨true, true, m⟩) f ⟨⟨w, w, (tr ++ [Event.assign Stream.out w] ++ [Event.assign Stream.err w])⟩, [], [], env.sched⟩
        (by intro s; cases s <;> simp [Proc.get, Capture.selects, h1, h2])
        (by simpa using hr)
      have hd : Proc.get ⟨w, w, (tr ++ [Event.assign Stream.out w] ++ [Event.assign Stream.err w])⟩ = fun s => if Capture.selects ⟨true, true, m⟩ s = true then w
          else Proc.get ⟨po, pe, tr⟩ s := by
        funext s; cases s <;> simp [Proc.get, Capture.selects]
      rw [hd] at he
      refine ⟨pipe, buf, sched, by simpa using hb, ?_⟩
      rw [he]
      cases firstPanic f <;>
        simp [Exec.deferred, Proc.set, redirects, restores, Capture.selects, Proc.get]
  simp only [Capture.capture, hpipe, hw]
  by_cases hm : m = PipeWithGoroutine
  · subst hm
    obtain ⟨pipe, buf, sched, hb, he⟩ := key true (Or.inl rfl)
    simp only [if_true]
    rw [he]
    cases firstPanic f <;> simp [hb]
  · obtain ⟨pipe, buf, sched, hb, he⟩ := key false (Or.inr (hfit.resolve_left hm))
    simp only [hm, if_false] at he ⊢
    rw [he]
    cases firstPanic f <;> simp [hb]

/-! ## Claims C1 to C5: the redirector -/

theorem written_writes (sel : Stream → Bool) (ws : List (Stream × GoString)) :
    written sel (writes ws) = selected sel ws := by
  induction ws with
  | nil => rfl
  | cons x xs ih =>
    have ih2 : written sel (List.map (fun x => Op.write x.1 x.2) xs) = selected sel xs := ih
    by_cases h : sel x.1 = true
    · simp [writes, written, selected, h, List.filter_cons, ih2]
    · simp [writes, written, selected, h, List.filter_cons, ih2]

theorem firstPanic_writes (ws : List (Stream × GoString)) : firstPanic (writes ws) = none := by
  induction ws with
  | nil => rfl
  | cons x xs ih => simpa [writes, firstPanic] using ih

theorem firstPanic_of_returnsNormally (f : Callback) (h : returnsNormally f = true) :
    firstPanic f = none := by
  induction f with
  | nil => rfl
  | cons op rest ih =>
    cases op with
    | panic v => simp [returnsNormally] at h
    | write s d =>
      have h2 : returnsNormally rest = true := by
        simp only [returnsNormally, List.all_cons, Bool.true_and] at h ⊢
        exact h
      simpa [firstPanic] using ih h2

/-- C1: for every buffer method and each of the selections Stdout, Stderr and
Output, when the pipe is created and the callback performs the writes `ws` in
order, and the bytes written to the selected streams fit in the pipe buffer,
the call returns and `Result.Value` is the concatenation, in write order, of
the byte strings written to the selected streams; under Output these are all
the writes, to stdout and stderr alike, in the order the callback made them. -/
theorem C1_capture_returns_written (m : BufferMethod) (env : Env)
    (ws : List (Stream × GoString)) (p : Proc) (hpipe : env.pipeErr = none) :
    ((selected (fun s => decide (s = Stream.out)) ws).length ≤ env.capacity →
      ∃ p1, ((UseMethod m).Stdout env (writes ws) p).2 =
        Outcome.returned ⟨selected (fun s => decide (s = Stream.out)) ws⟩ p1) ∧
    ((selected (fun s => decide (s = Stream.err)) ws).length ≤ env.capacity →
      ∃ p1, ((UseMethod m).Stderr env (writes ws) p).2 =
        Outcome.returned ⟨selected (fun s => decide (s = Stream.err)) ws⟩ p1) ∧
    (((ws.map Prod.snd).flatten).length ≤ env.capacity →
      ∃ p1, ((UseMethod m).Output env (writes ws) p).2 =
        Outcome.returned ⟨(ws.map Prod.snd).flatten⟩ p1) := by
  have hall : selected (fun _ => true) ws = (ws.map Prod.snd).flatten := by
    simp [selected]
  have hso : Capture.selects ⟨true, false, m⟩ = fun s => decide (s = Stream.out) := by
    funext s; cases s <;> rfl
  have hse : Capture.selects ⟨false, true, m⟩ = fun s => decide (s = Stream.err) := by
    funext s; cases s <;> rfl
  have hsa : Capture.selects ⟨true, true, m⟩ = fun _ => true := by
    funext s; cases s <;> rfl
  refine ⟨fun h => ?_, fun h => ?_, fun h => ?_⟩
  · have e := capture_eq ⟨true, false, m⟩ env (writes ws) p hpipe
      (Or.inr (by rw [hso, written_writes]; exact h))
    rw [firstPanic_writes, hso, written_writes] at e
    exact ⟨_, by simp only [Capture.Stdout, UseMethod]; rw [e]; rfl⟩
  · have e := capture_eq ⟨false, true, m⟩ env (writes ws) p hpipe
      (Or.inr (by rw [hse, written_writes]; exact h))
    rw [firstPanic_writes, hse, written_writes] at e
    exact ⟨_, by simp only [Capture.Stderr, UseMethod]; rw [e]; rfl⟩
  · have e := capture_eq ⟨true, true, m⟩ env (writes ws) p hpipe
      (Or.inr (by rw [hsa, written_writes, hall]; exact h))
    rw [firstPanic_writes, hsa, written_writes, hall] at e
    exact ⟨_, by simp only [Capture.Output, UseMethod]; rw [e]; rfl⟩


/-- C1 at the input of TestCaptureOutput: `Output` with the direct method
returns both lines, in the order written. -/
theorem C1_capture_returns_written_witness :
    (Env.mk none 65536 []).pipeErr = none ∧
    ((([(Stream.out, lit "Hello, stdout!\n"), (Stream.err, lit "Hello, stderr!\n")] :
        List (Stream × GoString)).map Prod.snd).flatten).length ≤ (Env.mk none 65536 []).capacity ∧
    ∃ p1, ((UseMethod PipeDirectly).Output (Env.mk none 65536 [])
        (writes [(Stream.out, lit "Hello, stdout!\n"), (Stream.err, lit "Hello, stderr!\n")])
        ⟨1, 2, []⟩).2 = Outcome.returned ⟨lit "Hello, stdout!\nHello, stderr!\n"⟩ p1 :=
  ⟨rfl, by decide,
    (C1_capture_returns_written PipeDirectly (Env.mk none 65536 [])
      [(Stream.out, lit "Hello, stdout!\n"), (Stream.err, lit "Hello, stderr!\n")] ⟨1, 2, []⟩
      rfl).2.2 (by decide)⟩

theorem not_assigns_writeEvents (dest : Stream → File) (s : Stream) (f : Callback) :
    ∀ e ∈ writeEvents dest f, e.assigns s = false := by
  induction f with
  | nil => simp [writeEvents]
  | cons op rest ih =>
    cases op with
    | panic v => simp [writeEvents]
    | write t d =>
      intro e he
      simp only [writeEvents, List.mem_cons] at he
      rcases he with rfl | he
      · rfl
      · exact ih e he

/-- C2: for every Capture configuration, every method and every callback that
returns normally, when the pipe is created and no write blocks (the reader
goroutine runs, or the captured bytes fit in the pipe buffer), `capture`
returns, `os.Stdout` and `os.Stderr` then hold the files they held on entry,
and a stream that is not selected is assigned at no point of the call. -/
theorem C2_capture_restores_streams (c : Capture) (env : Env) (f : Callback) (p : Proc)
    (hpipe : env.pipeErr = none) (hret : returnsNormally f = true)
    (hfit : c.method = PipeWithGoroutine ∨ (written c.selects f).length ≤ env.capacity) :
    ∃ val p1 evs, c.capture env f p = Outcome.returned val p1 ∧
      p1.Stdout = p.Stdout ∧ p1.Stderr = p.Stderr ∧ p1.trace = p.trace ++ evs ∧
      (c.captureStdout = false → ∀ e ∈ evs, e.assigns Stream.out = false) ∧
      (c.captureStderr = false → ∀ e ∈ evs, e.assigns Stream.err = false) := by
  have e := capture_eq c env f p hpipe hfit
  rw [firstPanic_of_returnsNormally f hret] at e
  refine ⟨_, _, redirects c (osPipe p).2 ++
    writeEvents (fun s => if c.selects s = true then (osPipe p).2 else p.get s) f ++
    restores c p, e, rfl, rfl, by simp [List.append_assoc], ?_, ?_⟩
  · intro h e he
    simp only [List.mem_append] at he
    rcases he with (he | he) | he
    · cases hc : c.captureStderr <;> simp [redirects, h, hc] at he
      subst he; rfl
    · exact not_assigns_writeEvents _ _ f e he
    · cases hc : c.captureStderr <;> simp [restores, h, hc] at he
      subst he; rfl
  · intro h e he
    simp only [List.mem_append] at he
    rcases he with (he | he) | he
    · cases hc : c.captureStdout <;> simp [redirects, h, hc] at he
      subst he; rfl
    · exact not_assigns_writeEvents _ _ f e he
    · cases hc : c.captureStdout <;> simp [restores, h, hc] at he
      subst he; rfl


/-- C2 at a concrete call: stderr alone is captured by the goroutine method,
from a callback writing more than the pipe holds. -/
theorem C2_capture_restores_streams_witness :
    (Env.mk none 4 [1]).pipeErr = none ∧
    returnsNormally [Op.write Stream.out (lit "A"), Op.write Stream.err (lit "hello world")] = true ∧
    ((Capture.mk false true PipeWithGoroutine).method = PipeWithGoroutine ∨
      (written (Capture.mk false true PipeWithGoroutine).selects
        [Op.write Stream.out (lit "A"), Op.write Stream.err (lit "hello world")]).length ≤
        (Env.mk none 4 [1]).capacity) ∧
    ∃ val p1 evs, (Capture.mk false true PipeWithGoroutine).capture (Env.mk none 4 [1])
        [Op.write Stream.out (lit "A"), Op.write Stream.err (lit "hello world")] ⟨1, 2, []⟩ =
          Outcome.returned val p1 ∧
      p1.Stdout = 1 ∧ p1.Stderr = 2 ∧ p1.trace = [] ++ evs ∧
      ((Capture.mk false true PipeWithGoroutine).captureStdout = false →
        ∀ e ∈ evs, e.assigns Stream.out = false) ∧
      ((Capture.mk false true PipeWithGoroutine).captureStderr = false →
        ∀ e ∈ evs, e.assigns Stream.err = false) :=
  ⟨rfl, by decide, Or.inl rfl,
    C2_capture_restores_streams (Capture.mk false true PipeWithGoroutine) (Env.mk none 4 [1])
      [Op.write Stream.out (lit "A"), Op.write Stream.err (lit "hello world")] ⟨1, 2, []⟩
      rfl (by decide) (Or.inl rfl)⟩

/-- C3: when the callback panics with the value `v` (the pipe is created and
no write before the panic blocks), `capture` does not swallow the failure: the
call ends in a panic with that same value, and by then the deferred
assignments have given every selected stream its saved file back, so that
`os.Stdout` and `os.Stderr` hold the files they held on entry. -/
theorem C3_panic_restores_and_propagates (c : Capture) (env : Env) (f : Callback) (p : Proc)
    (v : GoString) (hpipe : env.pipeErr = none) (hpanic : firstPanic f = some v)
    (hfit : c.method = PipeWithGoroutine ∨ (written c.selects f).length ≤ env.capacity) :
    ∃ p1 evs, c.capture env f p = Outcome.panicked (PanicValue.value v) p1 ∧
      p1.Stdout = p.Stdout ∧ p1.Stderr = p.Stderr ∧
      p1.trace = p.trace ++ evs ++ restores c p := by
  have e := capture_eq c env f p hpipe hfit
  rw [hpanic] at e
  exact ⟨_, redirects c (osPipe p).2 ++
    writeEvents (fun s => if c.selects s = true then (osPipe p).2 else p.get s) f, e, rfl, rfl,
    by simp [List.append_assoc]⟩

/-- C3 at a concrete call: `Output` of a callback that writes and then panics. -/
theorem C3_panic_restores_and_propagates_witness :
    (Env.mk none 16 []).pipeErr = none ∧
    firstPanic [Op.write Stream.out (lit "A"), Op.panic (lit "boom"),
      Op.write Stream.err (lit "B")] = some (lit "boom") ∧
    ∃ p1 evs, (Capture.mk true true PipeDirectly).capture (Env.mk none 16 [])
        [Op.write Stream.out (lit "A"), Op.panic (lit "boom"), Op.write Stream.err (lit "B")]
        ⟨1, 2, []⟩ = Outcome.panicked (PanicValue.value (lit "boom")) p1 ∧
      p1.Stdout = 1 ∧ p1.Stderr = 2 ∧
      p1.trace = [] ++ evs ++ restores (Capture.mk true true PipeDirectly) ⟨1, 2, []⟩ :=
  ⟨rfl, by decide,
    C3_panic_restores_and_propagates (Capture.mk true true PipeDirectly) (Env.mk none 16 [])
      [Op.write Stream.out (lit "A"), Op.panic (lit "boom"), Op.write Stream.err (lit "B")]
      ⟨1, 2, []⟩ (lit "boom") rfl (by decide) (Or.inr (by decide))⟩

/-- C4 (the code at the failing input): on a Capture on which `Stdout` was
called before, `Stderr` redirects `os.Stdout` too and returns the bytes written
to stdout together with those written to stderr. -/
theorem C4_stderr_after_stdout_captures_both :
    ((((UseMethod PipeDirectly).Stdout (Env.mk none 16 []) [] ⟨1, 2, []⟩).1).Stderr
        (Env.mk none 16 [])
        [Op.write Stream.out (lit "A"), Op.write Stream.err (lit "B")] ⟨1, 2, []⟩).2 =
      Outcome.returned ⟨lit "AB"⟩
        ⟨1, 2, [Event.assign Stream.out 4, Event.assign Stream.err 4, Event.write 4 (lit "A"),
          Event.write 4 (lit "B"), Event.assign Stream.err 2, Event.assign Stream.out 1]⟩ ∧
    ((UseMethod PipeDirectly).Stderr (Env.mk none 16 [])
        [Op.write Stream.out (lit "A"), Op.write Stream.err (lit "B")] ⟨1, 2, []⟩).2 =
      Outcome.returned ⟨lit "B"⟩
        ⟨1, 2, [Event.assign Stream.err 4, Event.write 1 (lit "A"), Event.write 4 (lit "B"),
          Event.assign Stream.err 2]⟩ := by
  decide

/-- C5: the package-level `Stdout`, `Stderr` and `Output` are
`UseMethod(PipeDirectly).Stdout`, `.Stderr` and `.Output` on a fresh Capture:
the same outcome, that is the same returned Result and the same final
process state, for every callback, environment and starting state. -/
theorem C5_package_functions_use_direct (env : Env) (f : Callback) (p : Proc) :
    Stdout env f p = ((UseMethod PipeDirectly).Stdout env f p).2 ∧
    Stderr env f p = ((UseMethod PipeDirectly).Stderr env f p).2 ∧
    Output env f p = ((UseMethod PipeDirectly).Output env f p).2 :=
  ⟨rfl, rfl, rfl⟩

/-! ## Claim C6: booleans -/

/-- C6: `AsBool` returns true without error exactly on the six spellings
`1`, `t`, `T`, `true`, `TRUE`, `True`, returns false without error exactly on
`0`, `f`, `F`, `false`, `FALSE`, `False`, and on every other string returns
false together with a syntax error; `tRuE`, `fAlSe` and the empty string are
such strings. -/
theorem C6_AsBool_exact_spellings (o : Result) :
    (o.AsBool = (true, none) ↔
      o.Value ∈ [lit "1", lit "t", lit "T", lit "true", lit "TRUE", lit "True"]) ∧
    (o.AsBool = (false, none) ↔
      o.Value ∈ [lit "0", lit "f", lit "F", lit "false", lit "FALSE", lit "False"]) ∧
    (o.Value ∉ [lit "1", lit "t", lit "T", lit "true", lit "TRUE", lit "True",
        lit "0", lit "f", lit "F", lit "false", lit "FALSE", lit "False"] →
      o.AsBool = (false, some (syntaxError "ParseBool" o.Value))) ∧
    (Result.mk (lit "tRuE")).AsBool = (false, some (syntaxError "ParseBool" (lit "tRuE"))) ∧
    (Result.mk (lit "fAlSe")).AsBool = (false, some (syntaxError "ParseBool" (lit "fAlSe"))) ∧
    (Result.mk (lit "")).AsBool = (false, some (syntaxError "ParseBool" (lit ""))) := by
  refine ⟨?_, ?_, ?_, by decide, by decide, by decide⟩
  · simp only [Result.AsBool, ParseBool, List.mem_cons, List.mem_singleton, List.not_mem_nil,
      or_false]
    split_ifs with h1 h2
    · simp [h1]
    · simp [h1]
    · simp [h1]
  · simp only [Result.AsBool, ParseBool, List.mem_cons, List.mem_singleton, List.not_mem_nil,
      or_false]
    split_ifs with h1 h2
    · have h3 : ¬ (o.Value = lit "0" ∨ o.Value = lit "f" ∨ o.Value = lit "F" ∨
          o.Value = lit "false" ∨ o.Value = lit "FALSE" ∨ o.Value = lit "False") := by
        rcases h1 with h | h | h | h | h | h <;> rw [h] <;> decide
      simp [h3]
    · simp [h2]
    · simp [h2]
  · intro h
    simp only [List.mem_cons, List.mem_singleton, List.not_mem_nil, or_false, not_or] at h
    simp [Result.AsBool, ParseBool, h]

/-! ## Claims C7 to C10: integers -/

/-- C7: for each signed conversion (AsInt at 64 bits, AsInt8, AsInt16,
AsInt32, AsInt64, and AsRune at 32 bits) of width `W`, the base-10 text of every
integer `v` with `-2^(W-1) ≤ v ≤ 2^(W-1) - 1` converts to `v` with no error;
conversely the conversion returns no error only for a text made of an optional
`+` or `-` and one or more ASCII decimal digits whose value lies in that range,
and the value it returns is then exactly that value. -/
theorem C7_signed_text_roundtrip (wc : Nat × (Result → Int × Option NumError))
    (h : wc ∈ signedConversions) :
    (∀ v : Int, -(2 : Int) ^ (wc.1 - 1) ≤ v → v ≤ (2 : Int) ^ (wc.1 - 1) - 1 →
      wc.2 ⟨Itoa v⟩ = (v, none)) ∧
    (∀ o : Result, (wc.2 o).2 = none →
      isSignedDecimal o.Value = true ∧ -(2 : Int) ^ (wc.1 - 1) ≤ signedVal o.Value ∧
        signedVal o.Value ≤ (2 : Int) ^ (wc.1 - 1) - 1 ∧ (wc.2 o).1 = signedVal o.Value) := by
  have hK : ((2 ^ (wc.1 - 1) : Nat) : Int) = (2 : Int) ^ (wc.1 - 1) := by push_cast; rfl
  have hKpos : 0 < 2 ^ (wc.1 - 1) := by positivity
  constructor
  · intro v h1 h2
    have hview := signed_view wc h ⟨Itoa v⟩
    obtain ⟨s1, s2, s3, s4⟩ := Itoa_spec v
    rw [← hK] at h1 h2
    simp only [s2, if_false, List.takeWhile_eq_self_iff.2 (by simpa using s1), s3, s1, if_true,
      s4] at hview
    generalize 2 ^ (wc.1 - 1) = K at hview h1 h2 hKpos
    have hres : ((wc.2 ⟨Itoa v⟩).1, errKind (wc.2 ⟨Itoa v⟩).2) = (v, none) := by
      rw [hview]
      by_cases hv : v < 0
      · rw [if_neg (by omega), if_neg (by omega), if_neg (by omega), if_pos hv]
        congr 1
        omega
      · rw [if_neg (by omega), if_neg (by omega), if_neg (by omega), if_neg hv]
        congr 1
        omega
    have e1 := congrArg Prod.fst hres
    have e2 := (errKind_eq_none _).1 (congrArg Prod.snd hres)
    exact Prod.ext e1 e2
  · intro o hnone
    have hview := signed_view wc h o
    rw [hnone] at hview
    have hsnd := congrArg Prod.snd hview
    have hfst := congrArg Prod.fst hview
    rw [isSignedDecimal_iff, ← hK]
    simp only [signedVal]
    generalize 2 ^ (wc.1 - 1) = K at hview hsnd hfst hKpos
    by_cases h0 : unsign o.Value = []
    · simp [h0, errKind] at hsnd
    · by_cases h1 : 2 * K - 1 < decVal ((unsign o.Value).takeWhile isDigit)
      · simp [h0, h1, errKind] at hsnd
      · by_cases h2 : (unsign o.Value).all isDigit = true
        · by_cases hc : o.Value.head? = some 45
          · by_cases h3 : decVal (unsign o.Value) > K
            · simp [h0, h1, h2, hc, h3, errKind] at hsnd
            · simp only [h0, h1, h2, hc, h3, if_false, if_true, and_false, not_true_eq_false,
                false_and] at hfst
              refine ⟨⟨h0, h2⟩, ?_, ?_, ?_⟩
              · simp only [hc, if_true]; omega
              · simp only [hc, if_true]; omega
              · simp only [hc, if_true]; exact hfst
          · by_cases h3 : decVal (unsign o.Value) ≥ K
            · simp [h0, h1, h2, hc, h3, errKind] at hsnd
            · simp only [h0, h1, h2, hc, h3, if_false, if_true, and_false, not_false_eq_true,
                false_and] at hfst
              refine ⟨⟨h0, h2⟩, ?_, ?_, ?_⟩
              · simp only [hc, if_false]; omega
              · simp only [hc, if_false]; omega
              · simp only [hc, if_false]; exact hfst
        · simp [h0, h1, h2, errKind] at hsnd


/-- C7 at AsInt8 and the text of -128, the least int8. -/
theorem C7_signed_text_roundtrip_witness :
    ((8, Result.AsInt8) : Nat × (Result → Int × Option NumError)) ∈ signedConversions ∧
    Itoa (-128) = lit "-128" ∧
    Result.AsInt8 ⟨Itoa (-128)⟩ = (-128, none) :=
  ⟨by simp [signedConversions], by decide,
    (C7_signed_text_roundtrip (8, Result.AsInt8) (by simp [signedConversions])).1 (-128)
      (by norm_num) (by norm_num)⟩

/-- C8, as stated, fails: `+256` is a well-formed base-10 integer text (a sign
and digits, of value 256) that lies above the range of uint8, but AsUint8
returns 0 with a syntax error, not the maximum 255 with a range error:
`ParseUint` accepts no sign. AsInt8 on the same text does return the
maximum, 127. -/
theorem C8_signed_text_is_not_clamped :
    isSignedDecimal (lit "+256") = true ∧ signedVal (lit "+256") = 256 ∧
    (Result.mk (lit "+256")).AsUint8 = (0, some (syntaxError "ParseUint" (lit "+256"))) ∧
    (Result.mk (lit "+256")).AsByte = (0, some (syntaxError "ParseUint" (lit "+256"))) ∧
    (Result.mk (lit "+256")).AsInt8 = (127, some (rangeError "ParseInt" (lit "+256"))) := by
  decide

/-- C8, amended: for every integer conversion of width `W` and every text that
is well formed for it (an optional sign and digits for a signed conversion,
digits with no sign for an unsigned one) whose value lies outside the range of
the type,
the conversion returns a range error together with the nearest boundary: the
maximum `2^(W-1) - 1` or `2^W - 1` when the value is too large, the minimum
`-2^(W-1)` when a signed value is too small. The value is the boundary, not
the value reduced modulo `2^W`: `128` gives int8 127, `256` gives uint8 255,
`-129` gives int8 -128. -/
theorem C8_out_of_range_is_clamped :
    (∀ wc ∈ signedConversions, ∀ o : Result, isSignedDecimal o.Value = true →
      ((2 : Int) ^ (wc.1 - 1) - 1 < signedVal o.Value →
        (wc.2 o).1 = (2 : Int) ^ (wc.1 - 1) - 1 ∧ errKind (wc.2 o).2 = some ConvErr.ErrRange) ∧
      (signedVal o.Value < -(2 : Int) ^ (wc.1 - 1) →
        (wc.2 o).1 = -(2 : Int) ^ (wc.1 - 1) ∧ errKind (wc.2 o).2 = some ConvErr.ErrRange)) ∧
    (∀ wc ∈ unsignedConversions, ∀ o : Result, isDecimal o.Value = true →
      2 ^ wc.1 - 1 < decVal o.Value →
        (wc.2 o).1 = 2 ^ wc.1 - 1 ∧ errKind (wc.2 o).2 = some ConvErr.ErrRange) ∧
    (Result.mk (lit "128")).AsInt8 = (127, some (rangeError "ParseInt" (lit "128"))) ∧
    (Result.mk (lit "256")).AsUint8 = (255, some (rangeError "ParseUint" (lit "256"))) ∧
    (Result.mk (lit "-129")).AsInt8 = (-128, some (rangeError "ParseInt" (lit "-129"))) := by
  refine ⟨?_, ?_, by decide, by decide, by decide⟩
  · intro wc h o hwf
    have hK : ((2 ^ (wc.1 - 1) : Nat) : Int) = (2 : Int) ^ (wc.1 - 1) := by push_cast; rfl
    have hKpos : 0 < 2 ^ (wc.1 - 1) := by positivity
    have hview := signed_view wc h o
    obtain ⟨h0, h2⟩ := (isSignedDecimal_iff _).1 hwf
    rw [← hK]
    simp only [signedVal]
    simp only [h0, if_false, List.takeWhile_eq_self_iff.2 (by simpa using h2), h2, if_true]
      at hview
    generalize 2 ^ (wc.1 - 1) = K at hview hKpos
    by_cases hc : o.Value.head? = some 45
    · simp only [hc, if_true, not_true_eq_false, false_and, if_false, true_and] at hview ⊢
      constructor
      · intro hgt
        omega
      · intro hlt
        by_cases h1 : 2 * K - 1 < decVal (unsign o.Value)
        · rw [if_pos h1] at hview
          exact ⟨congrArg Prod.fst hview, congrArg Prod.snd hview⟩
        · rw [if_neg h1, if_pos (by omega)] at hview
          exact ⟨congrArg Prod.fst hview, congrArg Prod.snd hview⟩
    · simp only [hc, if_false, not_false_eq_true, true_and, false_and] at hview ⊢
      constructor
      · intro hgt
        by_cases h1 : 2 * K - 1 < decVal (unsign o.Value)
        · rw [if_pos h1] at hview
          exact ⟨congrArg Prod.fst hview, congrArg Prod.snd hview⟩
        · rw [if_neg h1, if_pos (by omega)] at hview
          exact ⟨congrArg Prod.fst hview, congrArg Prod.snd hview⟩
      · intro hlt
        omega
  · intro wc h o hwf hgt
    have hview := unsigned_view wc h o
    obtain ⟨h0, h2⟩ := (isDecimal_iff _).1 hwf
    rw [if_neg h0, List.takeWhile_eq_self_iff.2 (by simpa using h2), if_pos hgt] at hview
    exact ⟨congrArg Prod.fst hview, congrArg Prod.snd hview⟩

/-- C9 (as stated, refuted): the text `999x` is not a well-formed integer, yet
AsUint8 returns 255 and AsInt8 returns 127, each with a range error, not 0:
ParseUint reports the overflow of the leading digits `999` before it reaches
the byte `x`. -/
theorem C9_malformed_text_nonzero_value :
    isDecimal (lit "999x") = false ∧ isSignedDecimal (lit "999x") = false ∧
    (Result.mk (lit "999x")).AsUint8 = (255, some (rangeError "ParseUint" (lit "999x"))) ∧
    (Result.mk (lit "999x")).AsInt8 = (127, some (rangeError "ParseInt" (lit "999x"))) ∧
    ¬ ((Result.mk (lit "999x")).AsUint8).1 = 0 ∧ ¬ ((Result.mk (lit "999x")).AsInt8).1 = 0 := by
  decide

/-- C9 (amended): for every integer conversion of width `W` (all signed and
unsigned widths, byte and rune), a stored string that is not a well-formed
base-10 integer yields a non-nil error. The value is 0, and the error a syntax
error, whenever the digits at the start of the text (after the sign, for a
signed conversion) are worth at most `2^W - 1`, as for `invalid` and the empty
string; when they are worth more, the error is a range error and the value is
the boundary of the type. -/
theorem C9_malformed_text_is_an_error :
    (∀ wc ∈ signedConversions, ∀ o : Result, isSignedDecimal o.Value = false →
      (wc.2 o).2 ≠ none ∧
      (decVal ((unsign o.Value).takeWhile isDigit) ≤ 2 ^ wc.1 - 1 →
        (wc.2 o).1 = 0 ∧ errKind (wc.2 o).2 = some ConvErr.ErrSyntax) ∧
      (2 ^ wc.1 - 1 < decVal ((unsign o.Value).takeWhile isDigit) →
        (wc.2 o).1 = (if o.Value.head? = some 45 then -(2 : Int) ^ (wc.1 - 1)
          else (2 : Int) ^ (wc.1 - 1) - 1) ∧
        errKind (wc.2 o).2 = some ConvErr.ErrRange)) ∧
    (∀ wc ∈ unsignedConversions, ∀ o : Result, isDecimal o.Value = false →
      (wc.2 o).2 ≠ none ∧
      (decVal (o.Value.takeWhile isDigit) ≤ 2 ^ wc.1 - 1 →
        (wc.2 o).1 = 0 ∧ errKind (wc.2 o).2 = some ConvErr.ErrSyntax) ∧
      (2 ^ wc.1 - 1 < decVal (o.Value.takeWhile isDigit) →
        (wc.2 o).1 = 2 ^ wc.1 - 1 ∧ errKind (wc.2 o).2 = some ConvErr.ErrRange)) ∧
    (∀ wc ∈ signedConversions,
      ((wc.2 ⟨lit "invalid"⟩).1 = 0 ∧ errKind (wc.2 ⟨lit "invalid"⟩).2 = some ConvErr.ErrSyntax) ∧
      ((wc.2 ⟨lit ""⟩).1 = 0 ∧ errKind (wc.2 ⟨lit ""⟩).2 = some ConvErr.ErrSyntax)) ∧
    (∀ wc ∈ unsignedConversions,
      ((wc.2 ⟨lit "invalid"⟩).1 = 0 ∧ errKind (wc.2 ⟨lit "invalid"⟩).2 = some ConvErr.ErrSyntax) ∧
      ((wc.2 ⟨lit ""⟩).1 = 0 ∧ errKind (wc.2 ⟨lit ""⟩).2 = some ConvErr.ErrSyntax)) := by
  have signedCase : ∀ wc ∈ signedConversions, ∀ o : Result, isSignedDecimal o.Value = false →
      (decVal ((unsign o.Value).takeWhile isDigit) ≤ 2 ^ wc.1 - 1 →
        (wc.2 o).1 = 0 ∧ errKind (wc.2 o).2 = some ConvErr.ErrSyntax) ∧
      (2 ^ wc.1 - 1 < decVal ((unsign o.Value).takeWhile isDigit) →
        (wc.2 o).1 = (if o.Value.head? = some 45 then -(2 : Int) ^ (wc.1 - 1)
          else (2 : Int) ^ (wc.1 - 1) - 1) ∧
        errKind (wc.2 o).2 = some ConvErr.ErrRange) := by
    intro wc h o hwf
    have hK : ((2 ^ (wc.1 - 1) : Nat) : Int) = (2 : Int) ^ (wc.1 - 1) := by push_cast; rfl
    have hW : 2 * 2 ^ (wc.1 - 1) = 2 ^ wc.1 := by
      obtain ⟨hb, _⟩ := signed_conv_eq wc h o
      rcases hb with e | e | e | e <;> rw [e] <;> norm_num
    have hview := signed_view wc h o
    rw [hW, hK] at hview
    have hnwf : ¬ (unsign o.Value ≠ [] ∧ (unsign o.Value).all isDigit = true) := by
      rw [← isSignedDecimal_iff, hwf]
      simp
    by_cases h0 : unsign o.Value = []
    · rw [if_pos h0] at hview
      refine ⟨fun _ => ⟨congrArg Prod.fst hview, congrArg Prod.snd hview⟩, fun hgt => ?_⟩
      rw [h0] at hgt
      simp [decVal, decFrom_nil] at hgt
    · have h2 : ¬ (unsign o.Value).all isDigit = true := fun h2 => hnwf ⟨h0, h2⟩
      rw [if_neg h0] at hview
      constructor
      · intro hle
        rw [if_neg (by omega), if_neg h2] at hview
        exact ⟨congrArg Prod.fst hview, congrArg Prod.snd hview⟩
      · intro hgt
        rw [if_pos hgt] at hview
        exact ⟨congrArg Prod.fst hview, congrArg Prod.snd hview⟩
  have unsignedCase : ∀ wc ∈ unsignedConversions, ∀ o : Result, isDecimal o.Value = false →
      (decVal (o.Value.takeWhile isDigit) ≤ 2 ^ wc.1 - 1 →
        (wc.2 o).1 = 0 ∧ errKind (wc.2 o).2 = some ConvErr.ErrSyntax) ∧
      (2 ^ wc.1 - 1 < decVal (o.Value.takeWhile isDigit) →
        (wc.2 o).1 = 2 ^ wc.1 - 1 ∧ errKind (wc.2 o).2 = some ConvErr.ErrRange) := by
    intro wc h o hwf
    have hview := unsigned_view wc h o
    have hnwf : ¬ (o.Value ≠ [] ∧ o.Value.all isDigit = true) := by
      rw [← isDecimal_iff, hwf]
      simp
    by_cases h0 : o.Value = []
    · rw [if_pos h0] at hview
      refine ⟨fun _ => ⟨congrArg Prod.fst hview, congrArg Prod.snd hview⟩, fun hgt => ?_⟩
      rw [h0] at hgt
      simp [decVal, decFrom_nil] at hgt
    · have h2 : ¬ o.Value.all isDigit = true := fun h2 => hnwf ⟨h0, h2⟩
      rw [if_neg h0] at hview
      constructor
      · intro hle
        rw [if_neg (by omega), if_neg h2] at hview
        exact ⟨congrArg Prod.fst hview, congrArg Prod.snd hview⟩
      · intro hgt
        rw [if_pos hgt] at hview
        exact ⟨congrArg Prod.fst hview, congrArg Prod.snd hview⟩
  refine ⟨?_, ?_, ?_, ?_⟩
  · intro wc h o hwf
    obtain ⟨h1, h2⟩ := signedCase wc h o hwf
    refine ⟨?_, h1, h2⟩
    by_cases hle : decVal ((unsign o.Value).takeWhile isDigit) ≤ 2 ^ wc.1 - 1
    · exact errKind_ne_none _ _ (h1 hle).2
    · exact errKind_ne_none _ _ (h2 (by omega)).2
  · intro wc h o hwf
    obtain ⟨h1, h2⟩ := unsignedCase wc h o hwf
    refine ⟨?_, h1, h2⟩
    by_cases hle : decVal (o.Value.takeWhile isDigit) ≤ 2 ^ wc.1 - 1
    · exact errKind_ne_none _ _ (h1 hle).2
    · exact errKind_ne_none _ _ (h2 (by omega)).2
  · intro wc h
    exact ⟨(signedCase wc h ⟨lit "invalid"⟩ (by decide)).1 (by
        have : decVal ((unsign (lit "invalid")).takeWhile isDigit) = 0 := by decide
        simp only [this]; exact Nat.zero_le _),
      (signedCase wc h ⟨lit ""⟩ (by decide)).1 (by
        have : decVal ((unsign (lit "")).takeWhile isDigit) = 0 := by decide
        simp only [this]; exact Nat.zero_le _)⟩
  · intro wc h
    exact ⟨(unsignedCase wc h ⟨lit "invalid"⟩ (by decide)).1 (by
        have : decVal ((lit "invalid").takeWhile isDigit) = 0 := by decide
        simp only [this]; exact Nat.zero_le _),
      (unsignedCase wc h ⟨lit ""⟩ (by decide)).1 (by
        have : decVal ((lit "").takeWhile isDigit) = 0 := by decide
        simp only [this]; exact Nat.zero_le _)⟩

/-- C10: for each unsigned conversion of width `W` (AsUint8 and AsByte at 8,
AsUint16, AsUint32, AsUint64, and AsUint and AsUintptr at 64) the base-10 text
of every `v` with `0 ≤ v ≤ 2^W - 1` converts to `v` with no error, and every
text that begins with a sign character `+` or `-`, such as `-1`, returns 0
with a syntax error: it is not clamped to the minimum with a range error. -/
theorem C10_unsigned_text_roundtrip :
    (∀ wc ∈ unsignedConversions,
      (∀ v : Nat, v ≤ 2 ^ wc.1 - 1 → wc.2 ⟨Itoa (v : Int)⟩ = (v, none)) ∧
      (∀ (c : UInt8) (rest : GoString), c = 43 ∨ c = 45 →
        (wc.2 ⟨c :: rest⟩).1 = 0 ∧ errKind (wc.2 ⟨c :: rest⟩).2 = some ConvErr.ErrSyntax)) ∧
    (Result.mk (lit "-1")).AsUint8 = (0, some (syntaxError "ParseUint" (lit "-1"))) ∧
    (Result.mk (lit "-1")).AsByte = (0, some (syntaxError "ParseUint" (lit "-1"))) ∧
    (Result.mk (lit "255")).AsUint8 = (255, none) ∧
    (Result.mk (lit "255")).AsByte = (255, none) := by
  refine ⟨?_, by decide, by decide, by decide, by decide⟩
  intro wc h
  constructor
  · intro v hv
    have hview := unsigned_view wc h ⟨Itoa (v : Int)⟩
    have hI : Itoa (v : Int) = natText v := by
      simp [Itoa]
    obtain ⟨s1, s2, s3⟩ := natText_spec v
    simp only [hI, s3, if_false, List.takeWhile_eq_self_iff.2 (by simpa using s1), s2, s1,
      if_true] at hview
    rw [if_neg (by omega)] at hview
    have e1 := congrArg Prod.fst hview
    have e2 := (errKind_eq_none _).1 (congrArg Prod.snd hview)
    rw [hI]
    exact Prod.ext e1 e2
  · intro c rest hc
    have hview := unsigned_view wc h ⟨c :: rest⟩
    have hnd : isDigit c = false := by
      rcases hc with e | e <;> subst e <;> decide
    simp only [List.cons_ne_nil, if_false, List.takeWhile_cons, hnd, Bool.false_eq_true,
      List.all_cons, Bool.false_and, decVal, decFrom_nil] at hview
    rw [if_neg (by omega)] at hview
    exact ⟨congrArg Prod.fst hview, congrArg Prod.snd hview⟩

/-! ## The normalization of sequence texts -/

theorem lit_open : lit "[" = [91] := by decide

theorem lit_close : lit "]" = [93] := by decide

theorem lit_brackets : lit "[]" = [91, 93] := by decide

theorem lit_comma : lit "," = [44] := by decide

theorem lit_space : lit " " = [32] := by decide

theorem lit_comma_space : lit ", " = [44, 32] := by decide

theorem asciiSpace_iff (c : UInt8) :
    asciiSpace c = true ↔ c = 9 ∨ c = 10 ∨ c = 11 ∨ c = 12 ∨ c = 13 ∨ c = 32 := by
  simp [asciiSpace]

theorem asciiSpace_lt (c : UInt8) (h : asciiSpace c = true) : c.toNat < 128 := by
  rcases (asciiSpace_iff c).1 h with h | h | h | h | h | h <;> subst h <;> decide

/-- The second loop of TrimSpace drops trailing ASCII spaces and stops at the
first byte that is neither a space nor outside ASCII. -/
theorem trimSpaceStop_spaces (trail : GoString) (h : ∀ c ∈ trail, asciiSpace c = true)
    (c0 : UInt8) (r : GoString) (h0 : c0.toNat < 128) (h1 : asciiSpace c0 = false) :
    trimSpaceStop (trail ++ c0 :: r) = (c0 :: r).reverse := by
  induction trail with
  | nil =>
    have h2 : ¬ c0.toNat ≥ 128 := by omega
    simp only [List.nil_append, trimSpaceStop, h2, if_false, h1, Bool.false_eq_true]
  | cons c cs ih =>
    have hc := h c (List.mem_cons_self _ _)
    have h2 : ¬ c.toNat ≥ 128 := by have := asciiSpace_lt c hc; omega
    simp only [List.cons_append, trimSpaceStop, h2, if_false, hc, if_true]
    exact ih (fun x hx => h x (List.mem_cons_of_mem _ hx))

/-- TrimSpace on a text in brackets followed by ASCII spaces: the spaces are
removed. -/
theorem TrimSpace_bracketed (body trail : GoString) (h : ∀ c ∈ trail, asciiSpace c = true) :
    TrimSpace (91 :: (body ++ 93 :: trail)) = 91 :: (body ++ [93]) := by
  have hrev : (91 :: (body ++ 93 :: trail)).reverse =
      trail.reverse ++ 93 :: (91 :: body).reverse := by simp
  have h91 : ¬ (91 : UInt8).toNat ≥ 128 := by decide
  have h91s : asciiSpace 91 = false := by decide
  unfold TrimSpace
  simp only [trimSpaceStart, h91, if_false, h91s, Bool.false_eq_true]
  rw [hrev, trimSpaceStop_spaces trail.reverse (fun c hc => h c (List.mem_reverse.1 hc)) 93 _
    (by decide) (by decide)]
  simp

theorem Trim_eq (s : GoString) :
    Trim s (lit "[]") = ((s.rdropWhile isBracket)).dropWhile isBracket := by
  have hp : (fun c => decide (c ∈ lit "[]")) = isBracket := by
    funext c
    simp [lit_brackets, isBracket]
  unfold Trim
  rw [hp]
  rfl

/-- Trim removes the enclosing pair and goes on with the text inside. -/
theorem Trim_wrap (t : GoString) : Trim (91 :: (t ++ [93])) (lit "[]") = Trim t (lit "[]") := by
  rw [Trim_eq, Trim_eq]
  have h1 : (91 :: (t ++ [93])) = (91 :: t) ++ [93] := by simp
  rw [h1, List.rdropWhile_concat_pos _ _ _ (by decide)]
  by_cases hall : ∀ x ∈ t, isBracket x = true
  · have e1 : List.rdropWhile isBracket t = [] := List.rdropWhile_eq_nil_iff.2 hall
    have e2 : List.rdropWhile isBracket (91 :: t) = [] :=
      List.rdropWhile_eq_nil_iff.2 (by
        intro x hx
        rcases List.mem_cons.1 hx with hx | hx
        · subst hx; decide
        · exact hall x hx)
    rw [e1, e2]
  · have e2 : List.rdropWhile isBracket (91 :: t) = 91 :: List.rdropWhile isBracket t := by
      unfold List.rdropWhile
      rw [List.reverse_cons, List.dropWhile_append]
      have hne : ¬ (List.dropWhile isBracket t.reverse).isEmpty = true := by
        intro he
        apply hall
        intro x hx
        have := List.dropWhile_eq_nil_iff.1 (List.isEmpty_iff.1 he) x (List.mem_reverse.2 hx)
        exact this
      rw [if_neg hne]
      simp
    rw [e2, List.dropWhile_cons_of_pos (by decide)]

/-- Trim leaves a text that neither starts nor ends with a bracket as it is. -/
theorem Trim_id (t : GoString) (h1 : ∀ c, t.head? = some c → isBracket c = false)
    (h2 : ∀ c, t.getLast? = some c → isBracket c = false) : Trim t (lit "[]") = t := by
  rw [Trim_eq]
  have e1 : List.rdropWhile isBracket t = t := by
    rw [List.rdropWhile_eq_self_iff]
    intro hl
    have := h2 _ (List.getLast?_eq_getLast _ hl)
    simp [this]
  rw [e1]
  cases t with
  | nil => rfl
  | cons a l =>
    have := h1 a rfl
    rw [List.dropWhile_cons_of_neg (by simp [this])]

/-- The normalization of a text in brackets, followed by ASCII spaces: the
text inside loses the brackets at its ends and goes through the rules for the
separators. -/
theorem cleanInput_bracketed (body trail : GoString) (h : ∀ c ∈ trail, asciiSpace c = true) :
    cleanInput (91 :: (body ++ 93 :: trail)) =
      91 :: (separatorRules (Trim body (lit "[]")) ++ [93]) := by
  unfold cleanInput separatorRules
  simp only [TrimSpace_bracketed body trail h, Trim_wrap, lit_open, lit_close]
  rfl

/-! ## Joined elements through the rules for the separators -/

theorem Join_cons (x : GoString) (r : List GoString) (sep : GoString) :
    Join (x :: r) sep = x ++ r.flatMap (fun y => sep ++ y) := by
  induction r generalizing x with
  | nil => simp [Join]
  | cons y r ih => simp [Join, ih y]

theorem isSolid_iff (item : GoString) :
    isSolid item = true ↔
      (∀ c ∈ item, c ≠ 44) ∧
      ∃ a l, item = a :: l ∧ isBracket a = false ∧ isReSpace a = false ∧
        ∀ c, (a :: l).getLast? = some c → isBracket c = false := by
  cases item with
  | nil => simp [isSolid]
  | cons a l =>
    cases hl : (a :: l).getLast? with
    | none => simp at hl
    | some z =>
      simp only [isSolid, hl, List.head?_cons, Bool.and_eq_true, List.all_eq_true,
        decide_eq_true_eq, Bool.not_eq_true', List.mem_cons, ne_eq, List.cons.injEq,
        Option.some.injEq]
      constructor
      · rintro ⟨⟨h1, h2, h3⟩, h4⟩
        exact ⟨h1, a, l, ⟨rfl, rfl⟩, h2, h3, fun c hc => by
          rw [hl] at hc
          cases hc
          exact h4⟩
      · rintro ⟨h1, a1, l1, ⟨rfl, rfl⟩, h2, h3, h4⟩
        exact ⟨⟨h1, h2, h3⟩, h4 z hl⟩

theorem replaceCommas_none_cons (c : UInt8) (cs : GoString) (h : c ≠ 44) :
    replaceCommas none (c :: cs) = c :: replaceCommas none cs := by
  simp [replaceCommas, h]

/-- The regular expression leaves a stretch without commas as it is. -/
theorem replaceCommas_append (x t : GoString) (h : ∀ c ∈ x, c ≠ 44) :
    replaceCommas none (x ++ t) = x ++ replaceCommas none t := by
  induction x with
  | nil => rfl
  | cons c cs ih =>
    rw [List.cons_append, replaceCommas_none_cons _ _ (h c (List.mem_cons_self _ _)),
      ih (fun y hy => h y (List.mem_cons_of_mem _ hy))]
    rfl

/-- A comma, with or without a space after it, followed by a solid element is
no match of the regular expression. -/
theorem replaceCommas_sep (ws : GoString) (hws : ws = [] ∨ ws = [32]) (y t : GoString)
    (hy : isSolid y = true) :
    replaceCommas none (44 :: ws ++ y ++ t) = 44 :: ws ++ y ++ replaceCommas none t := by
  obtain ⟨hc, a, l, rfl, -, hsp, -⟩ := (isSolid_iff y).1 hy
  have ha : a ≠ 44 := hc a (List.mem_cons_self _ _)
  have hl : ∀ c ∈ l, c ≠ 44 := fun c h => hc c (List.mem_cons_of_mem _ h)
  rcases hws with rfl | rfl
  · simp only [List.cons_append, List.nil_append, replaceCommas, if_true, ha, if_false, hsp,
      Bool.false_eq_true, List.append_assoc]
    change 44 :: a :: replaceCommas none (l ++ t) = _
    rw [replaceCommas_append l t hl]
  · have h32 : isReSpace 32 = true := by decide
    simp only [List.cons_append, List.nil_append, replaceCommas, if_true, ha, if_false, hsp,
      Bool.false_eq_true, List.append_assoc, h32, show ¬ (32 : UInt8) = 44 by decide]
    change 44 :: 32 :: a :: replaceCommas none (l ++ t) = _
    rw [replaceCommas_append l t hl]

/-- The regular expression leaves solid elements joined by commas as they
are. -/
theorem replaceCommas_tail (ws : GoString) (hws : ws = [] ∨ ws = [32]) (r : List GoString)
    (hr : ∀ y ∈ r, isSolid y = true) :
    replaceCommas none (r.flatMap (fun y => (44 :: ws) ++ y)) =
      r.flatMap (fun y => (44 :: ws) ++ y) := by
  induction r with
  | nil => rfl
  | cons y r ih =>
    rw [List.flatMap_cons, replaceCommas_sep ws hws y _ (hr y (List.mem_cons_self _ _)),
      ih (fun z hz => hr z (List.mem_cons_of_mem _ hz))]

theorem replaceCommas_Join (ws : GoString) (hws : ws = [] ∨ ws = [32]) (items : List GoString)
    (h : ∀ y ∈ items, isSolid y = true) :
    replaceCommas none (Join items (44 :: ws)) = Join items (44 :: ws) := by
  cases items with
  | nil => rfl
  | cons x r =>
    rw [Join_cons]
    obtain ⟨hc, -⟩ := (isSolid_iff x).1 (h x (List.mem_cons_self _ _))
    rw [replaceCommas_append x _ hc,
      replaceCommas_tail ws hws r (fun z hz => h z (List.mem_cons_of_mem _ hz))]

theorem ReplaceAll_id (s : GoString) (old : UInt8) (new : GoString) (h : old ∉ s) :
    ReplaceAll s old new = s := by
  induction s with
  | nil => rfl
  | cons c cs ih =>
    have hc : ¬ c = old := fun e => h (e ▸ List.mem_cons_self _ _)
    have ih2 := ih (fun hm => h (List.mem_cons_of_mem _ hm))
    unfold ReplaceAll at ih2 ⊢
    rw [List.flatMap_cons, if_neg hc, ih2]
    rfl

theorem ReplaceAll_append (s t : GoString) (old : UInt8) (new : GoString) :
    ReplaceAll (s ++ t) old new = ReplaceAll s old new ++ ReplaceAll t old new := by
  unfold ReplaceAll
  rw [List.flatMap_append]

/-- The rule for spaces turns elements joined by spaces into elements joined
by commas. -/
theorem ReplaceAll_Join (items : List GoString) (h : ∀ y ∈ items, (32 : UInt8) ∉ y) :
    ReplaceAll (Join items [32]) 32 [44] = Join items [44] := by
  cases items with
  | nil => rfl
  | cons x r =>
    rw [Join_cons, Join_cons, ReplaceAll_append, ReplaceAll_id x 32 [44] (h x (List.mem_cons_self _ _))]
    congr 1
    have hr : ∀ y ∈ r, (32 : UInt8) ∉ y := fun y hy => h y (List.mem_cons_of_mem _ hy)
    clear h
    induction r with
    | nil => rfl
    | cons y r ih =>
      rw [List.flatMap_cons, List.flatMap_cons, ReplaceAll_append, ReplaceAll_append,
        ReplaceAll_id y 32 [44] (hr y (List.mem_cons_self _ _)),
        ih (fun z hz => hr z (List.mem_cons_of_mem _ hz))]
      rfl

theorem mem_Join (c : UInt8) (items : List GoString) (sep : GoString) :
    c ∈ Join items sep → (∃ y ∈ items, c ∈ y) ∨ (c ∈ sep ∧ 2 ≤ items.length) := by
  cases items with
  | nil => simp [Join]
  | cons x r =>
    rw [Join_cons]
    simp only [List.mem_append, List.mem_flatMap, List.mem_cons, List.length_cons]
    rintro (h | ⟨y, hy, h | h⟩)
    · exact Or.inl ⟨x, Or.inl rfl, h⟩
    · refine Or.inr ⟨h, ?_⟩
      cases r with
      | nil => simp at hy
      | cons z r => simp
    · exact Or.inl ⟨y, Or.inr hy, h⟩

theorem sep_mem_Join (c : UInt8) (items : List GoString) (sep : GoString) (hc : c ∈ sep)
    (h : 2 ≤ items.length) : c ∈ Join items sep := by
  match items, h with
  | x :: y :: r, _ =>
    rw [Join_cons, List.flatMap_cons]
    simp [hc]

/-- Elements that neither start nor end with a bracket, joined by `sep`, are
left as they are by Trim. -/
theorem Trim_Join_framed (items : List GoString) (sep : GoString)
    (h : ∀ y ∈ items, ∃ a l, y = a :: l ∧ isBracket a = false ∧
      ∀ c, (a :: l).getLast? = some c → isBracket c = false) :
    Trim (Join items sep) (lit "[]") = Join items sep := by
  apply Trim_id
  · intro c hc
    cases items with
    | nil => simp [Join] at hc
    | cons x r =>
      obtain ⟨a, l, rfl, hb, -⟩ := h x (List.mem_cons_self _ _)
      rw [Join_cons] at hc
      simp only [List.cons_append, List.head?_cons, Option.some.injEq] at hc
      rw [← hc]
      exact hb
  · intro c hc
    induction items with
    | nil => simp [Join] at hc
    | cons x r ih =>
      cases r with
      | nil =>
        obtain ⟨a, l, rfl, -, hlast⟩ := h x (List.mem_cons_self _ _)
        exact hlast c (by simpa [Join] using hc)
      | cons y r =>
        apply ih (fun z hz => h z (List.mem_cons_of_mem _ hz))
        have hne : Join (y :: r) sep ≠ [] := by
          obtain ⟨a, l, rfl, -, -⟩ := h y (List.mem_cons_of_mem _ (List.mem_cons_self _ _))
          rw [Join_cons]
          simp
        have e : Join (x :: y :: r) sep = (x ++ sep) ++ Join (y :: r) sep := rfl
        rw [e, List.getLast?_append_of_ne_nil _ hne] at hc
        exact hc

/-- Solid elements joined by `sep` neither start nor end with a bracket. -/
theorem Trim_Join (items : List GoString) (sep : GoString) (h : ∀ y ∈ items, isSolid y = true) :
    Trim (Join items sep) (lit "[]") = Join items sep := by
  apply Trim_Join_framed
  intro y hy
  obtain ⟨-, a, l, e, hb, -, hlast⟩ := (isSolid_iff y).1 (h y hy)
  exact ⟨a, l, e, hb, hlast⟩

/-- The rules for the separators on solid elements without spaces: a single
space between them becomes a comma, and a comma, with or without a space
after it, stays. -/
theorem separatorRules_Join (items : List GoString) (sep : GoString)
    (hsep : sep = [32] ∨ sep = [44] ∨ sep = [44, 32])
    (h : ∀ y ∈ items, isSolid y = true)
    (hsp : items.length ≤ 1 ∨ sep = [32] → ∀ y ∈ items, (32 : UInt8) ∉ y) :
    separatorRules (Join items sep) = Join items (if sep = [32] then [44] else sep) := by
  have hcomma : ∀ y ∈ items, (44 : UInt8) ∉ y := by
    intro y hy hm
    exact ((isSolid_iff y).1 (h y hy)).1 44 hm rfl
  unfold separatorRules
  rw [lit_comma]
  by_cases hs : sep = [32]
  · subst hs
    have hnosp := hsp (Or.inr rfl)
    have hC44 : Contains (Join items [32]) 44 = false := by
      simp only [Contains, decide_eq_false_iff_not]
      intro hm
      rcases mem_Join _ _ _ hm with ⟨y, hy, hm2⟩ | ⟨hm2, -⟩
      · exact hcomma y hy hm2
      · simp at hm2
    rw [if_pos rfl]
    by_cases hC32 : Contains (Join items [32]) 32 = true
    · rw [if_pos ⟨hC32, by simp [hC44]⟩, ReplaceAll_Join items hnosp]
      exact replaceCommas_Join [] (Or.inl rfl) items h
    · rw [if_neg (fun hh => hC32 hh.1)]
      have hlen : items.length ≤ 1 := by
        by_contra hlen
        apply hC32
        simp only [Contains, decide_eq_true_eq]
        exact sep_mem_Join 32 items [32] (by simp) (by omega)
      match items, hlen, h with
      | [], _, _ => rfl
      | [x], _, h =>
        obtain ⟨hc, -⟩ := (isSolid_iff x).1 (h x (List.mem_cons_self _ _))
        have := replaceCommas_append x [] hc
        simpa [Join, replaceCommas] using this
  · rw [if_neg hs]
    have hws : ∃ ws, sep = 44 :: ws ∧ (ws = [] ∨ ws = [32]) := by
      rcases hsep with h1 | h1 | h1
      · exact absurd h1 hs
      · exact ⟨[], h1, Or.inl rfl⟩
      · exact ⟨[32], h1, Or.inr rfl⟩
    obtain ⟨ws, rfl, hws⟩ := hws
    have hrule : ¬ (Contains (Join items (44 :: ws)) 32 = true ∧
        ¬ Contains (Join items (44 :: ws)) 44 = true) := by
      rintro ⟨h32, h44⟩
      by_cases hlen : 2 ≤ items.length
      · apply h44
        simp only [Contains, decide_eq_true_eq]
        exact sep_mem_Join 44 items _ (by simp) hlen
      · have hnosp := hsp (Or.inl (by omega))
        simp only [Contains, decide_eq_true_eq] at h32
        rcases mem_Join _ _ _ h32 with ⟨y, hy, hm2⟩ | ⟨-, hl⟩
        · exact hnosp y hy hm2
        · exact hlen hl
    rw [if_neg hrule]
    exact replaceCommas_Join ws hws items h

/-! ## The scanner on scalar literals -/

theorem pushParseState_op (s : Scanner) (next : Step) (p : ParseState) (op : Opcode) :
    (s.pushParseState next p op).2 = op ∨ (s.pushParseState next p op).2 = Opcode.scanError := by
  unfold Scanner.pushParseState
  by_cases h : (p :: s.parseState).length ≤ maxNestingDepth
  · left; simp only [h, if_true]
  · right; simp only [h, if_false]; rfl

theorem stateEndValue_ne_continue (s : Scanner) (c : UInt8) :
    (stateEndValue s c).2 ≠ Opcode.scanContinue := by
  unfold stateEndValue
  rcases s with ⟨st, e, ps⟩
  cases ps with
  | nil =>
    simp only [stateEndTop]
    split <;> (intro h; cases h)
  | cons p rest =>
    cases p <;> simp only [] <;> repeat' split
    all_goals (intro h; cases h)

theorem stateBeginValue_ne_continue (s : Scanner) (c : UInt8) :
    (stateBeginValue s c).2 ≠ Opcode.scanContinue := by
  unfold stateBeginValue
  repeat' split
  · intro h; cases h
  · rcases pushParseState_op s Step.stateBeginStringOrEmpty ParseState.parseObjectKey
      Opcode.scanBeginObject with h | h <;> rw [h] <;> intro h2 <;> cases h2
  · rcases pushParseState_op s Step.stateBeginValueOrEmpty ParseState.parseArrayValue
      Opcode.scanBeginArray with h | h <;> rw [h] <;> intro h2 <;> cases h2
  all_goals (intro h; cases h)

theorem stateBeginString_ne_continue (s : Scanner) (c : UInt8) :
    (stateBeginString s c).2 ≠ Opcode.scanContinue := by
  unfold stateBeginString
  repeat' split
  all_goals (intro h; cases h)

/-- A byte inside a literal moves the scanner from one state function to
another, whatever the stack and the field endTop hold. -/
theorem next_continue (st : Step) (c : UInt8) (e : Bool) (ps : List ParseState)
    (h : ((⟨st, false, [ParseState.parseArrayValue]⟩ : Scanner).next c).2 = Opcode.scanContinue) :
    (⟨st, e, ps⟩ : Scanner).next c =
      (⟨((⟨st, false, [ParseState.parseArrayValue]⟩ : Scanner).next c).1.step, e, ps⟩,
        Opcode.scanContinue) := by
  cases st
  case stateBeginValueOrEmpty =>
    exfalso
    revert h
    simp only [Scanner.next, stateBeginValueOrEmpty]
    repeat' split
    · intro h; cases h
    · exact stateEndValue_ne_continue _ _
    · exact stateBeginValue_ne_continue _ _
  case stateBeginValue => exact absurd h (stateBeginValue_ne_continue _ _)
  case stateBeginStringOrEmpty =>
    exfalso
    revert h
    simp only [Scanner.next, stateBeginStringOrEmpty]
    repeat' split
    · intro h; cases h
    · exact stateEndValue_ne_continue _ _
    · exact stateBeginString_ne_continue _ _
  case stateBeginString => exact absurd h (stateBeginString_ne_continue _ _)
  case stateEndValue => exact absurd h (stateEndValue_ne_continue _ _)
  case stateEndTop =>
    exfalso
    revert h
    simp only [Scanner.next, stateEndTop]
    repeat' split
    all_goals (intro h; cases h)
  case stateError => cases h
  case state1 =>
    revert h
    simp only [Scanner.next, state0]
    repeat' split
    all_goals first
      | (intro _; rfl)
      | (intro h; exact absurd h (stateEndValue_ne_continue _ _))
  case state0 =>
    revert h
    simp only [Scanner.next, state0]
    repeat' split
    all_goals first
      | (intro _; rfl)
      | (intro h; exact absurd h (stateEndValue_ne_continue _ _))
  case stateDot0 =>
    revert h
    simp only [Scanner.next]
    repeat' split
    all_goals first
      | (intro _; rfl)
      | (intro h; exact absurd h (stateEndValue_ne_continue _ _))
  case stateE0 =>
    revert h
    simp only [Scanner.next]
    repeat' split
    all_goals first
      | (intro _; rfl)
      | (intro h; exact absurd h (stateEndValue_ne_continue _ _))
  all_goals
    revert h
    simp only [Scanner.next, stateESign]
    repeat' split
    all_goals first
      | (intro _; rfl)
      | (intro h; cases h)

/-- The first byte of a literal, read where a value may begin. -/
theorem stateBeginValue_literal (s1 s2 : Scanner) (c : UInt8)
    (h : (stateBeginValue s1 c).2 = Opcode.scanBeginLiteral) :
    stateBeginValue s2 c =
      (⟨(stateBeginValue s1 c).1.step, s2.endTop, s2.parseState⟩, Opcode.scanBeginLiteral) ∧
    isSpace c = false ∧ c ≠ 93 := by
  revert h
  unfold stateBeginValue
  by_cases h1 : isSpace c = true
  · simp only [h1, if_true]; intro h; cases h
  simp only [h1, Bool.false_eq_true, if_false]
  by_cases h2 : c = 123
  · simp only [h2, if_true]
    intro h
    rcases pushParseState_op s1 Step.stateBeginStringOrEmpty ParseState.parseObjectKey
      Opcode.scanBeginObject with h3 | h3 <;> rw [h3] at h <;> cases h
  simp only [h2, if_false]
  by_cases h3 : c = 91
  · simp only [h3, if_true]
    intro h
    rcases pushParseState_op s1 Step.stateBeginValueOrEmpty ParseState.parseArrayValue
      Opcode.scanBeginArray with h4 | h4 <;> rw [h4] at h <;> cases h
  simp only [h3, if_false]
  by_cases h4 : c = 34
  · subst h4; intro _; exact ⟨rfl, trivial, by decide⟩
  simp only [h4, if_false]
  by_cases h5 : c = 45
  · subst h5; intro _; exact ⟨rfl, trivial, by decide⟩
  simp only [h5, if_false]
  by_cases h6 : c = 48
  · subst h6; intro _; exact ⟨rfl, trivial, by decide⟩
  simp only [h6, if_false]
  by_cases h7 : c = 116
  · subst h7; intro _; exact ⟨rfl, trivial, by decide⟩
  simp only [h7, if_false]
  by_cases h8 : c = 102
  · subst h8; intro _; exact ⟨rfl, trivial, by decide⟩
  simp only [h8, if_false]
  by_cases h9 : c = 110
  · subst h9; intro _; exact ⟨rfl, trivial, by decide⟩
  simp only [h9, if_false]
  by_cases h10 : 49 ≤ c.toNat ∧ c.toNat ≤ 57
  · simp only [h10, and_self, if_true]
    intro _
    refine ⟨trivial, trivial, ?_⟩
    intro hc
    subst hc
    revert h10
    decide
  · simp only [h10, if_false]
    intro h
    cases h

theorem next_begin (c : UInt8) (e : Bool) (ps : List ParseState)
    (h : ((⟨Step.stateBeginValue, false, [ParseState.parseArrayValue]⟩ : Scanner).next c).2 =
      Opcode.scanBeginLiteral)
    (st : Step) (hst : st = Step.stateBeginValue ∨ st = Step.stateBeginValueOrEmpty) :
    (⟨st, e, ps⟩ : Scanner).next c =
      (⟨((⟨Step.stateBeginValue, false, [ParseState.parseArrayValue]⟩ : Scanner).next c).1.step,
        e, ps⟩, Opcode.scanBeginLiteral) := by
  have key := stateBeginValue_literal
    ⟨Step.stateBeginValue, false, [ParseState.parseArrayValue]⟩ ⟨st, e, ps⟩ c h
  rcases hst with rfl | rfl
  · exact key.1
  · have e1 : (⟨Step.stateBeginValueOrEmpty, e, ps⟩ : Scanner).next c =
        stateBeginValueOrEmpty ⟨Step.stateBeginValueOrEmpty, e, ps⟩ c := rfl
    rw [e1]
    unfold stateBeginValueOrEmpty
    rw [if_neg (by simp [key.2.1]), if_neg key.2.2]
    exact key.1

/-! ## The elements of an array of scalar literals -/

/-- Where a value may end, a comma, a closing bracket or a space is given to
stateEndValue. -/
theorem next_end (st : Step) (c : UInt8) (e : Bool) (ps : List ParseState)
    (hst : endsValue st = true) (hc : c = 44 ∨ c = 93 ∨ c = 32) :
    (⟨st, e, ps⟩ : Scanner).next c = stateEndValue ⟨st, e, ps⟩ c := by
  simp only [endsValue, decide_eq_true_eq] at hst
  rcases hc with rfl | rfl | rfl <;> rcases hst with rfl | rfl | rfl | rfl | rfl <;> rfl

theorem scanBytes_append (s : Scanner) (a b : GoString) :
    scanBytes s (a ++ b) = (scanBytes s a).bind (fun s1 => scanBytes s1 b) := by
  induction a generalizing s with
  | nil => rfl
  | cons c cs ih =>
    simp only [List.cons_append, scanBytes]
    split
    · rfl
    · exact ih _

/-- The bytes of a literal after the first: the scanner goes through them and
the reader collects them. -/
theorem reader_continue (cs : GoString) (st st1 : Step) (e : Bool) (ps : List ParseState)
    (els : List Elem) (it : GoString) (h : literalRun st cs = some st1) :
    cs.foldl Reader.next ⟨⟨st, e, ps⟩, els, some it⟩ = ⟨⟨st1, e, ps⟩, els, some (it ++ cs)⟩ ∧
    scanBytes ⟨st, e, ps⟩ cs = some ⟨st1, e, ps⟩ := by
  induction cs generalizing st it with
  | nil =>
    simp only [literalRun, Option.some.injEq] at h
    subst h
    simp [scanBytes]
  | cons c cs ih =>
    unfold literalRun at h
    by_cases hop : ((⟨st, false, [ParseState.parseArrayValue]⟩ : Scanner).next c).2 =
        Opcode.scanContinue
    · rw [if_pos hop] at h
      have hn := next_continue st c e ps hop
      obtain ⟨ih1, ih2⟩ := ih _ (it ++ [c]) h
      constructor
      · rw [List.foldl_cons]
        have e1 : Reader.next ⟨⟨st, e, ps⟩, els, some it⟩ c =
            ⟨⟨((⟨st, false, [ParseState.parseArrayValue]⟩ : Scanner).next c).1.step, e, ps⟩, els,
              some (it ++ [c])⟩ := by
          simp only [Reader.next, hn, Option.map_some']
        rw [e1, ih1]
        simp
      · simp only [scanBytes, hn]
        rw [if_neg (by intro hh; cases hh)]
        exact ih2
    · rw [if_neg hop] at h
      cases h

/-- A scalar literal read where an element of the top-level array may begin:
the reader holds its bytes, and the scanner is where a value may end. -/
theorem reader_item (item : GoString) (h : isScalar item = true) (st : Step)
    (hst : st = Step.stateBeginValue ∨ st = Step.stateBeginValueOrEmpty) (e : Bool)
    (els : List Elem) :
    ∃ st1, endsValue st1 = true ∧
      item.foldl Reader.next ⟨⟨st, e, [ParseState.parseArrayValue]⟩, els, none⟩ =
        ⟨⟨st1, e, [ParseState.parseArrayValue]⟩, els, some item⟩ ∧
      scanBytes ⟨st, e, [ParseState.parseArrayValue]⟩ item =
        some ⟨st1, e, [ParseState.parseArrayValue]⟩ := by
  cases item with
  | nil => simp [isScalar] at h
  | cons c rest =>
    simp only [isScalar, Bool.and_eq_true, decide_eq_true_eq] at h
    obtain ⟨hop, hrun⟩ := h
    have hn := next_begin c e [ParseState.parseArrayValue] hop st hst
    cases hr : literalRun
        ((⟨Step.stateBeginValue, false, [ParseState.parseArrayValue]⟩ : Scanner).next c).1.step
        rest with
    | none => rw [hr] at hrun; cases hrun
    | some st1 =>
      rw [hr] at hrun
      obtain ⟨h1, h2⟩ := reader_continue rest _ st1 e [ParseState.parseArrayValue] els [c] hr
      refine ⟨st1, hrun, ?_, ?_⟩
      · rw [List.foldl_cons]
        have e1 : Reader.next ⟨⟨st, e, [ParseState.parseArrayValue]⟩, els, none⟩ c =
            ⟨⟨((⟨Step.stateBeginValue, false, [ParseState.parseArrayValue]⟩ :
              Scanner).next c).1.step, e, [ParseState.parseArrayValue]⟩, els, some [c]⟩ := by
          simp only [Reader.next, hn, List.length_singleton, if_true]
        rw [e1, h1]
        rfl
      · simp only [scanBytes, hn]
        rw [if_neg (by intro hh; cases hh)]
        exact h2

/-- A comma, with or without a space after it, ends the element being read. -/
theorem reader_sep (ws : GoString) (hws : ws = [] ∨ ws = [32]) (st : Step)
    (hst : endsValue st = true) (e : Bool) (els : List Elem) (it : GoString) :
    (44 :: ws).foldl Reader.next ⟨⟨st, e, [ParseState.parseArrayValue]⟩, els, some it⟩ =
      ⟨⟨Step.stateBeginValue, e, [ParseState.parseArrayValue]⟩, els ++ [Elem.literal it], none⟩ ∧
    scanBytes ⟨st, e, [ParseState.parseArrayValue]⟩ (44 :: ws) =
      some ⟨Step.stateBeginValue, e, [ParseState.parseArrayValue]⟩ := by
  have hn := next_end st 44 e [ParseState.parseArrayValue] hst (Or.inl rfl)
  have hv : stateEndValue ⟨st, e, [ParseState.parseArrayValue]⟩ 44 =
      (⟨Step.stateBeginValue, e, [ParseState.parseArrayValue]⟩, Opcode.scanArrayValue) := rfl
  rw [hv] at hn
  have e1 : Reader.next ⟨⟨st, e, [ParseState.parseArrayValue]⟩, els, some it⟩ 44 =
      ⟨⟨Step.stateBeginValue, e, [ParseState.parseArrayValue]⟩, els ++ [Elem.literal it],
        none⟩ := by
    simp only [Reader.next, hn]
  have hn2 : (⟨Step.stateBeginValue, e, [ParseState.parseArrayValue]⟩ : Scanner).next 32 =
      (⟨Step.stateBeginValue, e, [ParseState.parseArrayValue]⟩, Opcode.scanSkipSpace) := rfl
  have e2 : Reader.next ⟨⟨Step.stateBeginValue, e, [ParseState.parseArrayValue]⟩,
      els ++ [Elem.literal it], none⟩ 32 =
      ⟨⟨Step.stateBeginValue, e, [ParseState.parseArrayValue]⟩, els ++ [Elem.literal it],
        none⟩ := by
    simp only [Reader.next, hn2]
  rcases hws with rfl | rfl
  · constructor
    · rw [List.foldl_cons, e1]; rfl
    · simp only [scanBytes, hn]
      rw [if_neg (by intro hh; cases hh)]
  · constructor
    · rw [List.foldl_cons, e1, List.foldl_cons, e2]; rfl
    · simp only [scanBytes, hn, hn2]
      rw [if_neg (by intro hh; cases hh), if_neg (by intro hh; cases hh)]

/-- The closing bracket ends the element being read and the array. -/
theorem reader_close (st : Step) (hst : endsValue st = true) (e : Bool) (els : List Elem)
    (it : GoString) :
    Reader.next ⟨⟨st, e, [ParseState.parseArrayValue]⟩, els, some it⟩ 93 =
      ⟨⟨Step.stateEndTop, true, []⟩, els ++ [Elem.literal it], none⟩ ∧
    scanBytes ⟨st, e, [ParseState.parseArrayValue]⟩ [93] = some ⟨Step.stateEndTop, true, []⟩ := by
  have hn := next_end st 93 e [ParseState.parseArrayValue] hst (Or.inr (Or.inl rfl))
  have hv : stateEndValue ⟨st, e, [ParseState.parseArrayValue]⟩ 93 =
      (⟨Step.stateEndTop, true, []⟩, Opcode.scanEndArray) := rfl
  rw [hv] at hn
  constructor
  · simp only [Reader.next, hn]
  · simp only [scanBytes, hn]
    rw [if_neg (by intro hh; cases hh)]

/-- The elements after the first, each after a comma, and the closing
bracket. -/
theorem reader_tail (ws : GoString) (hws : ws = [] ∨ ws = [32]) (r : List GoString)
    (hr : ∀ y ∈ r, isScalar y = true) (st : Step) (hst : endsValue st = true)
    (els : List Elem) (it : GoString) :
    (r.flatMap (fun y => (44 :: ws) ++ y) ++ [93]).foldl Reader.next
        ⟨⟨st, false, [ParseState.parseArrayValue]⟩, els, some it⟩ =
      ⟨⟨Step.stateEndTop, true, []⟩, els ++ Elem.literal it :: r.map Elem.literal, none⟩ ∧
    scanBytes ⟨st, false, [ParseState.parseArrayValue]⟩
        (r.flatMap (fun y => (44 :: ws) ++ y) ++ [93]) =
      some ⟨Step.stateEndTop, true, []⟩ := by
  induction r generalizing st els it with
  | nil =>
    obtain ⟨h1, h2⟩ := reader_close st hst false els it
    exact ⟨by simpa using h1, by simpa using h2⟩
  | cons y r ih =>
    obtain ⟨s1, s2⟩ := reader_sep ws hws st hst false els it
    obtain ⟨st1, hst1, i1, i2⟩ := reader_item y (hr y (List.mem_cons_self _ _))
      Step.stateBeginValue (Or.inl rfl) false (els ++ [Elem.literal it])
    obtain ⟨t1, t2⟩ := ih (fun z hz => hr z (List.mem_cons_of_mem _ hz)) st1 hst1
      (els ++ [Elem.literal it]) y
    have hsplit : (y :: r).flatMap (fun y => (44 :: ws) ++ y) ++ [93] =
        (44 :: ws) ++ (y ++ (r.flatMap (fun y => (44 :: ws) ++ y) ++ [93])) := by
      simp
    rw [hsplit]
    constructor
    · rw [List.foldl_append, s1, List.foldl_append, i1, t1]
      simp
    · rw [scanBytes_append, s2, Option.some_bind, scanBytes_append, i2, Option.some_bind, t2]

/-- The scanner and the reader on the text of an array of scalar literals. -/
theorem reader_array (ws : GoString) (hws : ws = [] ∨ ws = [32]) (items : List GoString)
    (h : ∀ y ∈ items, isScalar y = true) :
    checkValid (91 :: (Join items (44 :: ws) ++ [93])) = true ∧
    arrayElems (91 :: (Join items (44 :: ws) ++ [93])) = items.map Elem.literal := by
  cases items with
  | nil =>
    show checkValid [91, 93] = true ∧ arrayElems [91, 93] = []
    exact ⟨by decide, by decide⟩
  | cons x r =>
    have hn : (Scanner.reset).next 91 =
        (⟨Step.stateBeginValueOrEmpty, false, [ParseState.parseArrayValue]⟩,
          Opcode.scanBeginArray) := by decide
    have e1 : Reader.next ⟨Scanner.reset, [], none⟩ 91 =
        ⟨⟨Step.stateBeginValueOrEmpty, false, [ParseState.parseArrayValue]⟩, [], none⟩ := by
      simp only [Reader.next, hn]
      rfl
    obtain ⟨st1, hst1, i1, i2⟩ := reader_item x (h x (List.mem_cons_self _ _))
      Step.stateBeginValueOrEmpty (Or.inr rfl) false []
    obtain ⟨t1, t2⟩ := reader_tail ws hws r (fun z hz => h z (List.mem_cons_of_mem _ hz)) st1 hst1
      [] x
    rw [Join_cons]
    constructor
    · unfold checkValid
      have : scanBytes Scanner.reset (91 :: (x ++ r.flatMap (fun y => (44 :: ws) ++ y) ++ [93])) =
          some ⟨Step.stateEndTop, true, []⟩ := by
        simp only [scanBytes, hn]
        rw [if_neg (by intro hh; cases hh), List.append_assoc, scanBytes_append, i2,
          Option.some_bind, t2]
      rw [this]
      rfl
    · unfold arrayElems
      rw [List.foldl_cons, e1, List.append_assoc, List.foldl_append, i1, t1]
      rfl

theorem decodeElems_literals {α : Type} (store : GoString → Store α) (zero : α)
    (items : List GoString) :
    decodeElems store zero (items.map Elem.literal) =
      (items.map (stored store zero), firstError store items) := by
  induction items with
  | nil => rfl
  | cons x r ih =>
    simp only [List.map_cons, decodeElems, ih, stored, firstError]
    cases store x <;> rfl

/-- Unmarshal on the text of an array of scalar literals separated by a comma,
with or without a space after it: one value for each literal, and the first
error. -/
theorem Unmarshal_array {α : Type} (store : GoString → Store α) (zero : α) (ws : GoString)
    (hws : ws = [] ∨ ws = [32]) (items : List GoString) (h : ∀ y ∈ items, isScalar y = true) :
    Unmarshal store zero (91 :: (Join items (44 :: ws) ++ [93])) =
      (some (items.map (stored store zero)), firstError store items) := by
  obtain ⟨h1, h2⟩ := reader_array ws hws items h
  unfold Unmarshal
  rw [h1, h2, decodeElems_literals]
  simp

/-! ## The texts of numbers and of plain strings as elements -/

theorem digit_cases (d : UInt8) (h : isDigit d = true) :
    d = 48 ∨ d = 49 ∨ d = 50 ∨ d = 51 ∨ d = 52 ∨ d = 53 ∨ d = 54 ∨ d = 55 ∨ d = 56 ∨ d = 57 := by
  obtain ⟨h2, h3⟩ := (isDigit_iff d).1 h
  have key : ∀ k : UInt8, d.toNat = k.toNat → d = k := fun k hk => UInt8.toNat.inj hk
  have hd : d.toNat = 48 ∨ d.toNat = 49 ∨ d.toNat = 50 ∨ d.toNat = 51 ∨ d.toNat = 52 ∨
      d.toNat = 53 ∨ d.toNat = 54 ∨ d.toNat = 55 ∨ d.toNat = 56 ∨ d.toNat = 57 := by omega
  rcases hd with h | h | h | h | h | h | h | h | h | h
  · exact Or.inl (key 48 h)
  · exact Or.inr (Or.inl (key 49 h))
  · exact Or.inr (Or.inr (Or.inl (key 50 h)))
  · exact Or.inr (Or.inr (Or.inr (Or.inl (key 51 h))))
  · exact Or.inr (Or.inr (Or.inr (Or.inr (Or.inl (key 52 h)))))
  · exact Or.inr (Or.inr (Or.inr (Or.inr (Or.inr (Or.inl (key 53 h))))))
  · exact Or.inr (Or.inr (Or.inr (Or.inr (Or.inr (Or.inr (Or.inl (key 54 h)))))))
  · exact Or.inr (Or.inr (Or.inr (Or.inr (Or.inr (Or.inr (Or.inr (Or.inl (key 55 h))))))))
  · exact Or.inr (Or.inr (Or.inr (Or.inr (Or.inr (Or.inr (Or.inr (Or.inr (Or.inl (key 56 h)))))))))
  · exact Or.inr (Or.inr (Or.inr (Or.inr (Or.inr (Or.inr (Or.inr (Or.inr (Or.inr (key 57 h)))))))))

theorem natTextAux_head (fuel n : Nat) (acc : GoString) (h : n < fuel) (h1 : 1 ≤ n) :
    ∃ d ds, natTextAux fuel n acc = d :: ds ∧ 49 ≤ d.toNat ∧ d.toNat ≤ 57 := by
  induction fuel generalizing n acc with
  | zero => omega
  | succ fuel ih =>
    unfold natTextAux
    by_cases h10 : n < 10
    · rw [if_pos h10]
      refine ⟨_, _, rfl, ?_⟩
      rw [digitByte_toNat (n % 10) (Nat.mod_lt _ (by norm_num))]
      omega
    · rw [if_neg h10]
      exact ih (n / 10) _ (by omega) (by omega)

/-- The text of an integer: an optional minus sign and digits, the first of
which is not zero unless the number is zero. -/
theorem Itoa_shape (v : Int) :
    ∃ ds, ds.all isDigit = true ∧ decVal ds = v.natAbs ∧
      Itoa v = (if v < 0 then 45 :: ds else ds) ∧
      ((∃ d r, ds = d :: r ∧ 49 ≤ d.toNat ∧ d.toNat ≤ 57) ∨ (ds = [48] ∧ v = 0)) := by
  obtain ⟨h1, h2, -⟩ := natText_spec v.natAbs
  refine ⟨natText v.natAbs, h1, h2, rfl, ?_⟩
  by_cases h0 : v = 0
  · right
    subst h0
    exact ⟨rfl, rfl⟩
  · left
    obtain ⟨d, ds, e, hd⟩ := natTextAux_head (v.natAbs + 1) v.natAbs [] (Nat.lt_succ_self _)
      (by omega)
    exact ⟨d, ds, e, hd⟩

theorem literalRun_digits (ds : GoString) (h : ds.all isDigit = true) :
    literalRun Step.state1 ds = some Step.state1 := by
  induction ds with
  | nil => rfl
  | cons d ds ih =>
    simp only [List.all_cons, Bool.and_eq_true] at h
    have hstep : ((⟨Step.state1, false, [ParseState.parseArrayValue]⟩ : Scanner).next d) =
        (⟨Step.state1, false, [ParseState.parseArrayValue]⟩, Opcode.scanContinue) := by
      rcases digit_cases d h.1 with h | h | h | h | h | h | h | h | h | h <;> subst h <;> rfl
    unfold literalRun
    rw [hstep, if_pos rfl]
    exact ih h.2

theorem nonzero_digit_cases (d : UInt8) (h : 49 ≤ d.toNat ∧ d.toNat ≤ 57) :
    d = 49 ∨ d = 50 ∨ d = 51 ∨ d = 52 ∨ d = 53 ∨ d = 54 ∨ d = 55 ∨ d = 56 ∨ d = 57 := by
  rcases digit_cases d ((isDigit_iff d).2 ⟨by omega, h.2⟩) with
    h1 | h1 | h1 | h1 | h1 | h1 | h1 | h1 | h1 | h1
  · subst h1; revert h; decide
  all_goals simp [h1]

theorem isScalar_unsigned (d : UInt8) (r : GoString) (hd : 49 ≤ d.toNat ∧ d.toNat ≤ 57)
    (hr : r.all isDigit = true) : isScalar (d :: r) = true ∧ isScalar (45 :: d :: r) = true := by
  have h1 : ((⟨Step.stateBeginValue, false, [ParseState.parseArrayValue]⟩ : Scanner).next d) =
      (⟨Step.state1, false, [ParseState.parseArrayValue]⟩, Opcode.scanBeginLiteral) := by
    rcases nonzero_digit_cases d hd with h | h | h | h | h | h | h | h | h <;> subst h <;> rfl
  have h2 : ((⟨Step.stateNeg, false, [ParseState.parseArrayValue]⟩ : Scanner).next d) =
      (⟨Step.state1, false, [ParseState.parseArrayValue]⟩, Opcode.scanContinue) := by
    rcases nonzero_digit_cases d hd with h | h | h | h | h | h | h | h | h <;> subst h <;> rfl
  have h3 : ((⟨Step.stateBeginValue, false, [ParseState.parseArrayValue]⟩ : Scanner).next 45) =
      (⟨Step.stateNeg, false, [ParseState.parseArrayValue]⟩, Opcode.scanBeginLiteral) := rfl
  constructor
  · simp only [isScalar, h1, literalRun_digits r hr]
    rfl
  · simp only [isScalar, h3, literalRun, h2, if_true, literalRun_digits r hr]
    rfl

theorem Itoa_isScalar (v : Int) : isScalar (Itoa v) = true := by
  obtain ⟨ds, h1, -, h3, h4⟩ := Itoa_shape v
  rw [h3]
  rcases h4 with ⟨d, r, rfl, hd⟩ | ⟨rfl, rfl⟩
  · simp only [List.all_cons, Bool.and_eq_true] at h1
    split
    · exact (isScalar_unsigned d r hd h1.2).2
    · exact (isScalar_unsigned d r hd h1.2).1
  · decide

theorem digit_facts (c : UInt8) (h : isDigit c = true) :
    c ≠ 44 ∧ c ≠ 32 ∧ isBracket c = false ∧ isReSpace c = false ∧ c ≠ 110 ∧ c ≠ 116 ∧
      c ≠ 102 ∧ c ≠ 34 := by
  rcases digit_cases c h with h | h | h | h | h | h | h | h | h | h <;> subst h <;> decide

theorem Itoa_bytes (v : Int) (c : UInt8) (h : c ∈ Itoa v) : c = 45 ∨ isDigit c = true := by
  obtain ⟨ds, h1, -, h3, -⟩ := Itoa_shape v
  rw [h3] at h
  rw [List.all_eq_true] at h1
  split at h
  · rcases List.mem_cons.1 h with h | h
    · exact Or.inl h
    · exact Or.inr (h1 c h)
  · exact Or.inr (h1 c h)

theorem Itoa_head (v : Int) : ∃ c rest, Itoa v = c :: rest ∧ (c = 45 ∨ isDigit c = true) := by
  obtain ⟨ds, h1, -, h3, h4⟩ := Itoa_shape v
  rw [h3]
  split
  · exact ⟨45, ds, rfl, Or.inl rfl⟩
  · rcases h4 with ⟨d, r, rfl, hd⟩ | ⟨rfl, -⟩
    · exact ⟨d, r, rfl, Or.inr ((isDigit_iff d).2 ⟨by omega, hd.2⟩)⟩
    · exact ⟨48, [], rfl, Or.inr (by decide)⟩

theorem Itoa_last (v : Int) (c : UInt8) (h : (Itoa v).getLast? = some c) : isDigit c = true := by
  obtain ⟨ds, h1, -, h3, h4⟩ := Itoa_shape v
  have hne : ds ≠ [] := by
    rcases h4 with ⟨d, r, rfl, -⟩ | ⟨rfl, -⟩ <;> simp
  have hl : (Itoa v).getLast? = ds.getLast? := by
    rw [h3]
    split
    · exact List.getLast?_append_of_ne_nil [45] hne
    · rfl
  rw [hl] at h
  rw [List.all_eq_true] at h1
  exact h1 c (List.mem_of_getLast?_eq_some h)

theorem Itoa_isSolid (v : Int) : isSolid (Itoa v) = true := by
  rw [isSolid_iff]
  obtain ⟨c, rest, e, hc⟩ := Itoa_head v
  refine ⟨?_, c, rest, e, ?_, ?_, ?_⟩
  · intro x hx
    rcases Itoa_bytes v x hx with h | h
    · subst h; decide
    · exact (digit_facts x h).1
  · rcases hc with h | h
    · subst h; decide
    · exact (digit_facts c h).2.2.1
  · rcases hc with h | h
    · subst h; decide
    · exact (digit_facts c h).2.2.2.1
  · intro x hx
    rw [← e] at hx
    exact (digit_facts x (Itoa_last v x hx)).2.2.1

theorem Itoa_no_space (v : Int) : (32 : UInt8) ∉ Itoa v := by
  intro h
  rcases Itoa_bytes v 32 h with h | h
  · revert h; decide
  · revert h; decide

/-- A literal that starts with a minus sign or a digit is stored as a
number. -/
theorem literalStore_number {α : Type} (bool : Bool → Store α) (string : GoString → Store α)
    (number : GoString → Store α) (c : UInt8) (rest : GoString)
    (hc : c = 45 ∨ isDigit c = true) :
    literalStore bool string number (c :: rest) = number (c :: rest) := by
  have h : c ≠ 110 ∧ ¬ (c = 116 ∨ c = 102) ∧ c ≠ 34 ∧
      ¬ (c ≠ 45 ∧ (c.toNat < 48 ∨ c.toNat > 57)) := by
    rcases hc with h | h
    · subst h; decide
    · have h2 := (isDigit_iff c).1 h
      obtain ⟨-, -, -, -, h3, h4, h5, h6⟩ := digit_facts c h
      refine ⟨h3, ?_, h6, ?_⟩
      · rintro (h7 | h7)
        · exact h4 h7
        · exact h5 h7
      · rintro ⟨-, h7⟩
        omega
  unfold literalStore
  simp only [h.1, if_false, h.2.1, h.2.2.1, h.2.2.2]

/-- ParseInt at 64 bits on the text of an integer. -/
theorem ParseInt_Itoa (v : Int) :
    (-9223372036854775808 ≤ v ∧ v ≤ 9223372036854775807 → ParseInt (Itoa v) 64 = (v, none)) ∧
    (¬ (-9223372036854775808 ≤ v ∧ v ≤ 9223372036854775807) →
      (ParseInt (Itoa v) 64).2.isSome = true) := by
  obtain ⟨s1, s2, s3, s4⟩ := Itoa_spec v
  have hne : Itoa v ≠ [] := by
    intro h
    rw [h] at s2
    exact s2 rfl
  have hP := ParseInt_eq (Itoa v) 64 9223372036854775808 (by simp) (by norm_num)
  simp only [hne, s2, or_self, if_false, List.takeWhile_eq_self_iff.2 (by simpa using s1), s3, s1,
    if_true, s4] at hP
  constructor
  · intro hr
    rw [hP]
    by_cases hv : v < 0
    · rw [if_neg (by omega), if_neg (by omega), if_neg (by omega), if_pos hv]
      congr 1
      omega
    · rw [if_neg (by omega), if_neg (by omega), if_neg (by omega), if_neg hv]
      congr 1
      omega
  · intro hr
    rw [hP]
    by_cases h1 : 2 * 9223372036854775808 - 1 < v.natAbs
    · rw [if_pos h1]; rfl
    · rw [if_neg h1]
      by_cases hv : v < 0
      · rw [if_neg (by omega), if_pos ⟨hv, by omega⟩]; rfl
      · rw [if_pos ⟨hv, by omega⟩]; rfl

/-- What literalStore does with the text of an integer in an element of a
signed integer kind. -/
theorem storeInt_Itoa (b : Nat) (hb : b = 8 ∨ b = 16 ∨ b = 32 ∨ b = 64) (v : Int) :
    storeInt b (Itoa v) =
      if -(2 : Int) ^ (b - 1) ≤ v ∧ v < (2 : Int) ^ (b - 1) then Store.set v
      else typeError (lit "number " ++ Itoa v) := by
  obtain ⟨c, rest, e, hc⟩ := Itoa_head v
  unfold storeInt
  rw [e, literalStore_number _ _ _ c rest hc, ← e]
  obtain ⟨p1, p2⟩ := ParseInt_Itoa v
  by_cases h64 : -9223372036854775808 ≤ v ∧ v ≤ 9223372036854775807
  · simp only [p1 h64, Option.isSome_none, Bool.false_eq_true, false_or]
    have hw : wrapInt b v = v ↔ (-(2 : Int) ^ (b - 1) ≤ v ∧ v < (2 : Int) ^ (b - 1)) := by
      unfold wrapInt
      rcases hb with h | h | h | h <;> subst h <;> norm_num <;> omega
    by_cases hr : -(2 : Int) ^ (b - 1) ≤ v ∧ v < (2 : Int) ^ (b - 1)
    · rw [if_neg (by simpa using hw.2 hr), if_pos hr]
    · rw [if_pos (fun hh => hr (hw.1 hh)), if_neg hr]
  · have hs := p2 h64
    have hr : ¬ (-(2 : Int) ^ (b - 1) ≤ v ∧ v < (2 : Int) ^ (b - 1)) := by
      rcases hb with h | h | h | h <;> subst h <;> norm_num <;> omega
    rw [if_neg hr]
    cases hP : ParseInt (Itoa v) 64 with
    | mk n err =>
      rw [hP] at hs
      simp only [hs, true_or, if_true]

theorem uint_range_facts (b : Nat) (hb : b = 8 ∨ b = 16 ∨ b = 32 ∨ b = 64) (v : Int)
    (hv : ¬ v < 0) :
    (2 ^ 64 - 1 < v.natAbs → ¬ (0 ≤ v ∧ v < (2 : Int) ^ b)) ∧
    (¬ 2 ^ 64 - 1 < v.natAbs →
      (wrapUint b v.natAbs = v.natAbs ↔ (0 ≤ v ∧ v < (2 : Int) ^ b))) := by
  unfold wrapUint
  rcases hb with h | h | h | h <;> subst h <;> norm_num <;> omega

/-- What literalStore does with the text of an integer in an element of an
unsigned integer kind. -/
theorem storeUint_Itoa (b : Nat) (hb : b = 8 ∨ b = 16 ∨ b = 32 ∨ b = 64) (v : Int) :
    storeUint b (Itoa v) =
      if 0 ≤ v ∧ v < (2 : Int) ^ b then Store.set v.toNat
      else typeError (lit "number " ++ Itoa v) := by
  obtain ⟨c, rest, e, hc⟩ := Itoa_head v
  unfold storeUint
  rw [e, literalStore_number _ _ _ c rest hc, ← e]
  obtain ⟨ds, h1, h2, h3, h4⟩ := Itoa_shape v
  have hP := ParseUint_eq (Itoa v) 64 (by simp)
  by_cases hv : v < 0
  · rw [if_pos hv] at h3
    have hr : ¬ (0 ≤ v ∧ v < (2 : Int) ^ b) := by omega
    rw [if_neg hr]
    have htw : (Itoa v).takeWhile isDigit = [] := by rw [h3]; rfl
    have hall : ¬ (Itoa v).all isDigit = true := by
      rw [h3, List.all_cons, Bool.and_eq_true]
      intro hh
      exact absurd hh.1 (by decide)
    rw [htw] at hP
    simp only [h3, reduceCtorEq, if_false, decVal, decFrom_nil, Nat.not_lt_zero] at hP
    rw [← h3] at hP
    rw [if_neg hall] at hP
    rw [hP]
    rfl
  · rw [if_neg hv] at h3
    have hne : Itoa v ≠ [] := by
      rw [h3]
      rcases h4 with ⟨d, r, rfl, -⟩ | ⟨rfl, -⟩ <;> simp
    rw [← h3] at h1 h2
    simp only [hne, if_false, List.takeWhile_eq_self_iff.2 (by simpa using h1), h2, h1, if_true]
      at hP
    rw [hP]
    obtain ⟨f1, f2⟩ := uint_range_facts b hb v hv
    by_cases h64 : 2 ^ 64 - 1 < v.natAbs
    · rw [if_pos h64, if_neg (f1 h64)]
      rfl
    · rw [if_neg h64]
      simp only [Option.isSome_none, Bool.false_eq_true, false_or]
      have hw := f2 h64
      by_cases hr : 0 ≤ v ∧ v < (2 : Int) ^ b
      · have hnat : v.natAbs = v.toNat := by
          clear * - hv
          omega
        rw [if_neg (by simpa using hw.2 hr), if_pos hr, hnat]
      · rw [if_pos (fun hh => hr (hw.1 hh)), if_neg hr]

/-! ## Arrays of solid scalar literals -/

/-- The normalization leaves the text of an array of solid elements, joined
by a comma and a space, as it is; with a single space between the elements
and no space inside them, the elements come out joined by commas. -/
theorem cleanInput_array (items : List GoString) (sep trail : GoString)
    (hsep : sep = [32] ∨ sep = [44] ∨ sep = [44, 32])
    (h : ∀ y ∈ items, isSolid y = true)
    (hsp : items.length ≤ 1 ∨ sep = [32] → ∀ y ∈ items, (32 : UInt8) ∉ y)
    (htrail : ∀ c ∈ trail, asciiSpace c = true) :
    cleanInput (arrayText items sep ++ trail) =
      91 :: (Join items (if sep = [32] then [44] else sep) ++ [93]) := by
  have e : arrayText items sep ++ trail = 91 :: (Join items sep ++ 93 :: trail) := by
    simp [arrayText, lit_open, lit_close]
  rw [e, cleanInput_bracketed _ _ htrail, Trim_Join items sep h,
    separatorRules_Join items sep hsep h hsp]

/-- The sequence conversion of the text of an array of solid scalar
literals: one value for each literal, and the first error. -/
theorem Unmarshal_arrayText {α : Type} (store : GoString → Store α) (zero : α)
    (items : List GoString) (sep trail : GoString)
    (hsep : sep = [32] ∨ sep = [44] ∨ sep = [44, 32])
    (h : ∀ y ∈ items, isSolid y = true) (hs : ∀ y ∈ items, isScalar y = true)
    (hsp : items.length ≤ 1 ∨ sep = [32] → ∀ y ∈ items, (32 : UInt8) ∉ y)
    (htrail : ∀ c ∈ trail, asciiSpace c = true) :
    Unmarshal store zero (cleanInput (arrayText items sep ++ trail)) =
      (some (items.map (stored store zero)), firstError store items) := by
  rw [cleanInput_array items sep trail hsep h hsp htrail]
  rcases hsep with rfl | rfl | rfl
  · rw [if_pos rfl]
    exact Unmarshal_array store zero [] (Or.inl rfl) items hs
  · rw [if_neg (by decide)]
    exact Unmarshal_array store zero [] (Or.inl rfl) items hs
  · rw [if_neg (by decide)]
    exact Unmarshal_array store zero [32] (Or.inr rfl) items hs

/-! ## Quoted strings as elements -/

theorem hexDigit_toNat (n : Nat) (h : n < 16) :
    (hexDigit n).toNat = if n < 10 then 48 + n else 87 + n := by
  interval_cases n <;> rfl

theorem hexDigit_ne (n : Nat) (h : n < 16) (k : UInt8) (hk : k.toNat < 48) : hexDigit n ≠ k := by
  intro e
  have h1 := hexDigit_toNat n h
  rw [e] at h1
  split at h1 <;> omega

theorem next_hex (n : Nat) (h : n < 16) :
    ((⟨Step.stateInStringEscU12, false, [ParseState.parseArrayValue]⟩ : Scanner).next
        (hexDigit n)) =
      (⟨Step.stateInStringEscU123, false, [ParseState.parseArrayValue]⟩, Opcode.scanContinue) ∧
    ((⟨Step.stateInStringEscU123, false, [ParseState.parseArrayValue]⟩ : Scanner).next
        (hexDigit n)) =
      (⟨Step.stateInString, false, [ParseState.parseArrayValue]⟩, Opcode.scanContinue) := by
  interval_cases n <;> exact ⟨rfl, rfl⟩

theorem literalRun_step (st st1 : Step) (c : UInt8) (cs : GoString)
    (h : ((⟨st, false, [ParseState.parseArrayValue]⟩ : Scanner).next c) =
      (⟨st1, false, [ParseState.parseArrayValue]⟩, Opcode.scanContinue)) :
    literalRun st (c :: cs) = literalRun st1 cs := by
  conv_lhs => unfold literalRun
  rw [h, if_pos rfl]

theorem replaceCommas_none_comma (cs : GoString) :
    replaceCommas none (44 :: cs) = replaceCommas (some []) cs := by
  simp [replaceCommas]

theorem replaceCommas_some_comma (ws cs : GoString) :
    replaceCommas (some ws) (44 :: cs) = 44 :: replaceCommas none cs := by
  simp [replaceCommas]

theorem replaceCommas_some_space (ws : GoString) (c : UInt8) (cs : GoString) (h : c ≠ 44)
    (hs : isReSpace c = true) :
    replaceCommas (some ws) (c :: cs) = replaceCommas (some (ws ++ [c])) cs := by
  simp [replaceCommas, h, hs]

theorem replaceCommas_some_other (ws : GoString) (c : UInt8) (cs : GoString) (h : c ≠ 44)
    (hs : isReSpace c = false) :
    replaceCommas (some ws) (c :: cs) = 44 :: (ws ++ c :: replaceCommas none cs) := by
  simp [replaceCommas, h, hs]

/-- The escape of a byte: a comma and a space stay as they are; any other
byte gives bytes that are neither, the first of which is no space of the
regular expression. -/
theorem escapeByte_cases (c : UInt8) :
    (c = 44 ∧ escapeByte c = [44]) ∨ (c = 32 ∧ escapeByte c = [32]) ∨
    (c ≠ 44 ∧ c ≠ 32 ∧ ∃ b0 bs, escapeByte c = b0 :: bs ∧ isReSpace b0 = false ∧
      ∀ b ∈ b0 :: bs, b ≠ 44 ∧ b ≠ 32) := by
  by_cases h44 : c = 44
  · subst h44; exact Or.inl ⟨rfl, rfl⟩
  by_cases h32 : c = 32
  · subst h32; exact Or.inr (Or.inl ⟨rfl, rfl⟩)
  refine Or.inr (Or.inr ⟨h44, h32, ?_⟩)
  unfold escapeByte
  by_cases hq : c = 34 ∨ c = 92
  · rw [if_pos hq]
    refine ⟨92, [c], rfl, by decide, ?_⟩
    intro b hb
    simp only [List.mem_cons, List.mem_singleton, List.not_mem_nil, or_false] at hb
    rcases hb with rfl | rfl
    · exact ⟨by decide, by decide⟩
    · exact ⟨h44, h32⟩
  · rw [if_neg hq]
    by_cases hlt : c.toNat < 32
    · rw [if_pos hlt]
      have d1 : c.toNat / 16 < 16 := by omega
      have d2 : c.toNat % 16 < 16 := by omega
      refine ⟨92, _, rfl, by decide, ?_⟩
      intro b hb
      simp only [List.mem_cons, List.mem_singleton, List.not_mem_nil, or_false] at hb
      rcases hb with rfl | rfl | rfl | rfl | rfl | rfl
      · exact ⟨by decide, by decide⟩
      · exact ⟨by decide, by decide⟩
      · exact ⟨by decide, by decide⟩
      · exact ⟨by decide, by decide⟩
      · exact ⟨hexDigit_ne _ d1 44 (by decide), hexDigit_ne _ d1 32 (by decide)⟩
      · exact ⟨hexDigit_ne _ d2 44 (by decide), hexDigit_ne _ d2 32 (by decide)⟩
    · rw [if_neg hlt]
      refine ⟨c, [], rfl, ?_, ?_⟩
      · simp only [isReSpace, decide_eq_false_iff_not]
        rintro (h | h | h | h | h)
        · subst h; exact hlt (by decide)
        · subst h; exact hlt (by decide)
        · subst h; exact hlt (by decide)
        · subst h; exact hlt (by decide)
        · exact h32 h
      · intro b hb
        rw [List.mem_singleton.1 hb]
        exact ⟨h44, h32⟩

/-- The scanner, inside a string, is inside the string again after the escape
of a byte. -/
theorem literalRun_escapeByte (c : UInt8) (t : GoString) :
    literalRun Step.stateInString (escapeByte c ++ t) = literalRun Step.stateInString t := by
  unfold escapeByte
  by_cases hq : c = 34 ∨ c = 92
  · rw [if_pos hq]
    rcases hq with rfl | rfl <;> rfl
  · rw [if_neg hq]
    by_cases hlt : c.toNat < 32
    · rw [if_pos hlt]
      have d1 : c.toNat / 16 < 16 := by omega
      have d2 : c.toNat % 16 < 16 := by omega
      have s1 : literalRun Step.stateInString
          ([92, 117, 48, 48, hexDigit (c.toNat / 16), hexDigit (c.toNat % 16)] ++ t) =
          literalRun Step.stateInStringEscU12
            (hexDigit (c.toNat / 16) :: hexDigit (c.toNat % 16) :: t) := rfl
      rw [s1, literalRun_step _ _ _ _ (next_hex _ d1).1, literalRun_step _ _ _ _ (next_hex _ d2).2]
    · rw [if_neg hlt]
      have h34 : ¬ c = 34 := fun h => hq (Or.inl h)
      have h92 : ¬ c = 92 := fun h => hq (Or.inr h)
      have hstep : ((⟨Step.stateInString, false, [ParseState.parseArrayValue]⟩ : Scanner).next c) =
          (⟨Step.stateInString, false, [ParseState.parseArrayValue]⟩, Opcode.scanContinue) := by
        simp only [Scanner.next, h34, h92, hlt, if_false]
      rw [List.singleton_append, literalRun_step _ _ _ _ hstep]

/-- The quoted text of any string is a scalar literal for the scanner. -/
theorem quote_isScalar (s : GoString) : isScalar (quote s) = true := by
  have hrun : literalRun Step.stateInString (s.flatMap escapeByte ++ [34]) =
      some Step.stateEndValue := by
    induction s with
    | nil => rfl
    | cons c s ih =>
      rw [List.flatMap_cons, List.append_assoc, literalRun_escapeByte]
      exact ih
  have h1 : ((⟨Step.stateBeginValue, false, [ParseState.parseArrayValue]⟩ : Scanner).next 34) =
      (⟨Step.stateInString, false, [ParseState.parseArrayValue]⟩, Opcode.scanBeginLiteral) := rfl
  unfold quote
  simp only [isScalar, h1, hrun]
  rfl

theorem mem_flatMap_escapeByte (x : UInt8) (hx : x = 44 ∨ x = 32) (s : GoString) :
    x ∈ s.flatMap escapeByte ↔ x ∈ s := by
  induction s with
  | nil => simp
  | cons c s ih =>
    rw [List.flatMap_cons, List.mem_append, ih, List.mem_cons]
    have hc : x ∈ escapeByte c ↔ x = c := by
      rcases escapeByte_cases c with ⟨rfl, e⟩ | ⟨rfl, e⟩ | ⟨h44, h32, b0, bs, e, -, hall⟩
      · rw [e, List.mem_singleton]
      · rw [e, List.mem_singleton]
      · rw [e]
        constructor
        · intro hm
          have := hall x hm
          rcases hx with rfl | rfl
          · exact absurd rfl this.1
          · exact absurd rfl this.2
        · intro hm
          subst hm
          rcases hx with h | h
          · exact absurd h h44
          · exact absurd h h32
    rw [hc]

/-- A comma or a space is in the quoted text of a string exactly when it is
in the string. -/
theorem mem_quote (x : UInt8) (hx : x = 44 ∨ x = 32) (s : GoString) :
    x ∈ quote s ↔ x ∈ s := by
  unfold quote
  rw [List.mem_cons, List.mem_append, List.mem_singleton, mem_flatMap_escapeByte x hx]
  constructor
  · rintro (h | h | h)
    · rcases hx with rfl | rfl <;> exact absurd h (by decide)
    · exact h
    · rcases hx with rfl | rfl <;> exact absurd h (by decide)
  · intro h
    exact Or.inr (Or.inl h)

theorem flatMap_escapeByte_spaces (ws : GoString) (h : ∀ b ∈ ws, b = 32) :
    ws.flatMap escapeByte = ws := by
  induction ws with
  | nil => rfl
  | cons b ws ih =>
    have hb := h b (List.mem_cons_self _ _)
    subst hb
    rw [List.flatMap_cons, ih (fun x hx => h x (List.mem_cons_of_mem _ hx))]
    rfl

/-- The regular expression inside a quoted string, up to the closing quote:
the string is squeezed, and the text after the closing quote is read with no
match open. -/
theorem replaceCommas_quote (s : GoString) (pending : Option GoString)
    (hp : ∀ ws, pending = some ws → ∀ b ∈ ws, b = 32) (rest : GoString) :
    replaceCommas pending (s.flatMap escapeByte ++ 34 :: rest) =
      (squeeze pending s).flatMap escapeByte ++ 34 :: replaceCommas none rest := by
  induction s generalizing pending with
  | nil =>
    cases pending with
    | none =>
      rw [List.flatMap_nil, List.nil_append, replaceCommas_none_cons _ _ (by decide)]
      rfl
    | some ws =>
      have hws := flatMap_escapeByte_spaces ws (hp ws rfl)
      rw [List.flatMap_nil, List.nil_append,
        replaceCommas_some_other _ _ _ (by decide) (by decide)]
      simp only [squeeze, List.flatMap_cons, hws]
      rfl
  | cons c s ih =>
    rw [List.flatMap_cons, List.append_assoc]
    rcases escapeByte_cases c with ⟨rfl, e⟩ | ⟨rfl, e⟩ | ⟨h44, h32, b0, bs, e, hsp, hall⟩
    · rw [e, List.singleton_append]
      cases pending with
      | none =>
        rw [replaceCommas_none_comma, ih (some []) (by intro ws h b hb; cases h; cases hb)]
        simp only [squeeze, if_true]
      | some ws =>
        rw [replaceCommas_some_comma, ih none (by intro ws h; cases h)]
        simp only [squeeze, if_true, List.flatMap_cons, e]
        rfl
    · rw [e, List.singleton_append]
      cases pending with
      | none =>
        rw [replaceCommas_none_cons _ _ (by decide), ih none (by intro ws h; cases h)]
        simp only [squeeze, show ¬ (32 : UInt8) = 44 by decide, if_false, List.flatMap_cons, e]
        rfl
      | some ws =>
        rw [replaceCommas_some_space _ _ _ (by decide) (by decide),
          ih (some (ws ++ [32])) (by
            intro ws1 h b hb
            cases h
            rcases List.mem_append.1 hb with hb | hb
            · exact hp ws rfl b hb
            · exact List.mem_singleton.1 hb)]
        simp only [squeeze, show ¬ (32 : UInt8) = 44 by decide, if_false, if_true]
    · rw [e, List.cons_append]
      have hb0 : b0 ≠ 44 := (hall b0 (List.mem_cons_self _ _)).1
      have hbs : ∀ b ∈ bs, b ≠ 44 := fun b hb => (hall b (List.mem_cons_of_mem _ hb)).1
      have hrest : replaceCommas none (bs ++ (s.flatMap escapeByte ++ 34 :: rest)) =
          bs ++ ((squeeze none s).flatMap escapeByte ++ 34 :: replaceCommas none rest) := by
        rw [replaceCommas_append bs _ hbs, ih none (by intro ws h; cases h)]
      cases pending with
      | none =>
        rw [replaceCommas_none_cons _ _ hb0, hrest]
        simp only [squeeze, h44, if_false, List.flatMap_cons, e, List.cons_append,
          List.append_assoc]
      | some ws =>
        have hws := flatMap_escapeByte_spaces ws (hp ws rfl)
        have e44 : escapeByte 44 = [44] := rfl
        rw [replaceCommas_some_other _ _ _ hb0 hsp, hrest]
        simp only [squeeze, h44, h32, if_false, List.flatMap_cons, List.flatMap_append, e, hws,
          e44, List.cons_append, List.append_assoc, List.singleton_append, List.nil_append]

/-- Turning the spaces of a quoted text into commas gives the quoted text of
the string with its spaces turned into commas. -/
theorem ReplaceAll_quote (s : GoString) :
    ReplaceAll (quote s) 32 [44] = quote (ReplaceAll s 32 [44]) := by
  have hE : ReplaceAll (s.flatMap escapeByte) 32 [44] =
      (ReplaceAll s 32 [44]).flatMap escapeByte := by
    induction s with
    | nil => rfl
    | cons c s ih =>
      rw [List.flatMap_cons, ReplaceAll_append, ih]
      have hc : ReplaceAll (escapeByte c) 32 [44] = (ReplaceAll [c] 32 [44]).flatMap escapeByte := by
        rcases escapeByte_cases c with ⟨rfl, e⟩ | ⟨rfl, e⟩ | ⟨h44, h32, b0, bs, e, -, hall⟩
        · rfl
        · rfl
        · rw [ReplaceAll_id _ 32 [44] (fun hm => (hall 32 (e ▸ hm)).2 rfl),
            ReplaceAll_id [c] 32 [44] (by simpa using Ne.symm h32)]
          simp
      rw [hc, ← List.flatMap_append, ← ReplaceAll_append]
      rfl
  unfold quote
  have e1 : (34 :: (s.flatMap escapeByte ++ [34])) = [34] ++ (s.flatMap escapeByte ++ [34]) := rfl
  rw [e1, ReplaceAll_append, ReplaceAll_append, hE]
  rfl

/-! ## Decoding and encoding a rune -/

theorem ofNat_toNat (c : UInt8) : UInt8.ofNat c.toNat = c := by
  apply UInt8.toNat.inj
  rw [UInt8.toNat_ofNat_of_lt (UInt8.toNat_lt c)]

theorem ofNat_eq (n : Nat) (c : UInt8) (h : n = c.toNat) : UInt8.ofNat n = c := by
  rw [h, ofNat_toNat]

theorem DecodeRune_ascii (c : UInt8) (rest : GoString) (h : c.toNat < 0x80) :
    DecodeRune (c :: rest) = (c.toNat, 1) := by
  simp only [DecodeRune, h, if_true]

theorem DecodeRune_two (c b1 : UInt8) (t : GoString) (h0 : 0xC2 ≤ c.toNat ∧ c.toNat < 0xE0)
    (h1 : 0x80 ≤ b1.toNat ∧ b1.toNat ≤ 0xBF) :
    DecodeRune (c :: b1 :: t) = (c.toNat % 32 * 64 + b1.toNat % 64, 2) := by
  have a1 : ¬ c.toNat < 0x80 := by omega
  have a2 : ¬ (c.toNat < 0xC2 ∨ 0xF4 < c.toNat) := by omega
  have a3 : c.toNat < 0xE0 := h0.2
  have a4 : ¬ c.toNat = 0xE0 := by omega
  have a5 : ¬ c.toNat = 0xF0 := by omega
  have a6 : ¬ c.toNat = 0xED := by omega
  have a7 : ¬ c.toNat = 0xF4 := by omega
  have a8 : ¬ (c :: b1 :: t).length < 2 := by simp
  have a9 : ¬ (b1.toNat < 0x80 ∨ 0xBF < b1.toNat) := by omega
  simp only [DecodeRune, a1, a2, a3, a4, a5, a6, a7, a8, a9, if_true, if_false, le_refl]

theorem DecodeRune_three (c b1 b2 : UInt8) (t : GoString)
    (h0 : 0xE0 ≤ c.toNat ∧ c.toNat < 0xF0)
    (h1 : (if c.toNat = 0xE0 then 0xA0 else 0x80) ≤ b1.toNat ∧
      b1.toNat ≤ (if c.toNat = 0xED then 0x9F else 0xBF))
    (h2 : 0x80 ≤ b2.toNat ∧ b2.toNat ≤ 0xBF) :
    DecodeRune (c :: b1 :: b2 :: t) =
      (c.toNat % 16 * 4096 + b1.toNat % 64 * 64 + b2.toNat % 64, 3) := by
  have a1 : ¬ c.toNat < 0x80 := by omega
  have a2 : ¬ (c.toNat < 0xC2 ∨ 0xF4 < c.toNat) := by omega
  have a3 : ¬ c.toNat < 0xE0 := by omega
  have a4 : c.toNat < 0xF0 := h0.2
  have a5 : ¬ c.toNat = 0xF0 := by omega
  have a7 : ¬ c.toNat = 0xF4 := by omega
  have a8 : ¬ (c :: b1 :: b2 :: t).length < 3 := by simp
  have a9 : ¬ (b2.toNat < 0x80 ∨ 0xBF < b2.toNat) := by omega
  have a10 : ¬ (b1.toNat < (if c.toNat = 0xE0 then 0xA0 else 0x80) ∨
      (if c.toNat = 0xED then 0x9F else 0xBF) < b1.toNat) := by omega
  have a11 : ¬ 3 ≤ 2 := by omega
  simp only [DecodeRune, a1, a2, a3, a4, a5, a7, a8, a9, a10, a11, if_true, if_false, le_refl]

theorem DecodeRune_four (c b1 b2 b3 : UInt8) (t : GoString)
    (h0 : 0xF0 ≤ c.toNat ∧ c.toNat ≤ 0xF4)
    (h1 : (if c.toNat = 0xF0 then 0x90 else 0x80) ≤ b1.toNat ∧
      b1.toNat ≤ (if c.toNat = 0xF4 then 0x8F else 0xBF))
    (h2 : 0x80 ≤ b2.toNat ∧ b2.toNat ≤ 0xBF) (h3 : 0x80 ≤ b3.toNat ∧ b3.toNat ≤ 0xBF) :
    DecodeRune (c :: b1 :: b2 :: b3 :: t) =
      (c.toNat % 8 * 262144 + b1.toNat % 64 * 4096 + b2.toNat % 64 * 64 + b3.toNat % 64, 4) := by
  have a1 : ¬ c.toNat < 0x80 := by omega
  have a2 : ¬ (c.toNat < 0xC2 ∨ 0xF4 < c.toNat) := by omega
  have a3 : ¬ c.toNat < 0xE0 := by omega
  have a4 : ¬ c.toNat < 0xF0 := by omega
  have a5 : ¬ c.toNat = 0xE0 := by omega
  have a7 : ¬ c.toNat = 0xED := by omega
  have a8 : ¬ (c :: b1 :: b2 :: b3 :: t).length < 4 := by simp
  have a9 : ¬ (b2.toNat < 0x80 ∨ 0xBF < b2.toNat) := by omega
  have a10 : ¬ (b1.toNat < (if c.toNat = 0xF0 then 0x90 else 0x80) ∨
      (if c.toNat = 0xF4 then 0x8F else 0xBF) < b1.toNat) := by omega
  have a11 : ¬ 4 ≤ 2 := by omega
  have a12 : ¬ 4 ≤ 3 := by omega
  have a13 : ¬ (b3.toNat < 0x80 ∨ 0xBF < b3.toNat) := by omega
  simp only [DecodeRune, a1, a2, a3, a4, a5, a7, a8, a9, a10, a11, a12, a13, if_true, if_false,
    le_refl]

/-- The results of DecodeRune at a byte that is not ASCII: an invalid
encoding, or a rune of two, three or four bytes. -/
theorem DecodeRune_cases (c : UInt8) (rest : GoString) (hc : 0x80 ≤ c.toNat) :
    DecodeRune (c :: rest) = (RuneError, 1) ∨
    (∃ b1 t, rest = b1 :: t ∧ (0xC2 ≤ c.toNat ∧ c.toNat < 0xE0) ∧
      (0x80 ≤ b1.toNat ∧ b1.toNat ≤ 0xBF)) ∨
    (∃ b1 b2 t, rest = b1 :: b2 :: t ∧ (0xE0 ≤ c.toNat ∧ c.toNat < 0xF0) ∧
      ((if c.toNat = 0xE0 then 0xA0 else 0x80) ≤ b1.toNat ∧
        b1.toNat ≤ (if c.toNat = 0xED then 0x9F else 0xBF)) ∧
      (0x80 ≤ b2.toNat ∧ b2.toNat ≤ 0xBF)) ∨
    (∃ b1 b2 b3 t, rest = b1 :: b2 :: b3 :: t ∧ (0xF0 ≤ c.toNat ∧ c.toNat ≤ 0xF4) ∧
      ((if c.toNat = 0xF0 then 0x90 else 0x80) ≤ b1.toNat ∧
        b1.toNat ≤ (if c.toNat = 0xF4 then 0x8F else 0xBF)) ∧
      (0x80 ≤ b2.toNat ∧ b2.toNat ≤ 0xBF) ∧ (0x80 ≤ b3.toNat ∧ b3.toNat ≤ 0xBF)) := by
  have a1 : ¬ c.toNat < 0x80 := by omega
  by_cases a2 : c.toNat < 0xC2 ∨ 0xF4 < c.toNat
  · left
    simp only [DecodeRune, a1, a2, if_true, if_false]
  by_cases r2 : c.toNat < 0xE0
  · -- two bytes
    have a4 : ¬ c.toNat = 0xE0 := by omega
    have a5 : ¬ c.toNat = 0xF0 := by omega
    have a6 : ¬ c.toNat = 0xED := by omega
    have a7 : ¬ c.toNat = 0xF4 := by omega
    cases rest with
    | nil =>
      left
      simp [DecodeRune, a1, a2, r2]
    | cons b1 t =>
      by_cases a9 : b1.toNat < 0x80 ∨ 0xBF < b1.toNat
      · left
        have a8 : ¬ (c :: b1 :: t).length < 2 := by simp
        simp only [DecodeRune, a1, a2, r2, a4, a5, a6, a7, a8, a9, if_true, if_false]
      · right; left
        exact ⟨b1, t, rfl, ⟨by omega, r2⟩, by omega⟩
  by_cases r3 : c.toNat < 0xF0
  · have a5 : ¬ c.toNat = 0xF0 := by omega
    have a7 : ¬ c.toNat = 0xF4 := by omega
    have a11 : ¬ 3 ≤ 2 := by omega
    match rest with
    | [] =>
      left
      simp [DecodeRune, a1, a2, r2, r3]
    | [b1] =>
      left
      simp [DecodeRune, a1, a2, r2, r3]
    | b1 :: b2 :: t =>
      have a8 : ¬ (c :: b1 :: b2 :: t).length < 3 := by simp
      by_cases a10 : b1.toNat < (if c.toNat = 0xE0 then 0xA0 else 0x80) ∨
          (if c.toNat = 0xED then 0x9F else 0xBF) < b1.toNat
      · left
        simp only [DecodeRune, a1, a2, r2, r3, a5, a7, a8, a10, if_true, if_false]
      by_cases a9 : b2.toNat < 0x80 ∨ 0xBF < b2.toNat
      · left
        simp only [DecodeRune, a1, a2, r2, r3, a5, a7, a8, a9, a10, a11, if_true, if_false]
      · right; right; left
        exact ⟨b1, b2, t, rfl, ⟨by omega, r3⟩, by omega, by omega⟩
  · have a5 : ¬ c.toNat = 0xE0 := by omega
    have a7 : ¬ c.toNat = 0xED := by omega
    have a11 : ¬ 4 ≤ 2 := by omega
    have a12 : ¬ 4 ≤ 3 := by omega
    match rest with
    | [] =>
      left
      simp [DecodeRune, a1, a2, r2, r3]
    | [b1] =>
      left
      simp [DecodeRune, a1, a2, r2, r3]
    | [b1, b2] =>
      left
      simp [DecodeRune, a1, a2, r2, r3]
    | b1 :: b2 :: b3 :: t =>
      have a8 : ¬ (c :: b1 :: b2 :: b3 :: t).length < 4 := by simp
      by_cases a10 : b1.toNat < (if c.toNat = 0xF0 then 0x90 else 0x80) ∨
          (if c.toNat = 0xF4 then 0x8F else 0xBF) < b1.toNat
      · left
        simp only [DecodeRune, a1, a2, r2, r3, a5, a7, a8, a10, if_true, if_false]
      by_cases a9 : b2.toNat < 0x80 ∨ 0xBF < b2.toNat
      · left
        simp only [DecodeRune, a1, a2, r2, r3, a5, a7, a8, a9, a10, a11, if_true, if_false]
      by_cases a13 : b3.toNat < 0x80 ∨ 0xBF < b3.toNat
      · left
        simp only [DecodeRune, a1, a2, r2, r3, a5, a7, a8, a9, a10, a11, a12, a13, if_true,
          if_false]
      · right; right; right
        exact ⟨b1, b2, b3, t, rfl, ⟨by omega, by omega⟩, by omega, by omega, by omega⟩

theorem EncodeRune_two (c b1 : UInt8) (h0 : 0xC2 ≤ c.toNat ∧ c.toNat < 0xE0)
    (h1 : 0x80 ≤ b1.toNat ∧ b1.toNat ≤ 0xBF) :
    EncodeRune (c.toNat % 32 * 64 + b1.toNat % 64) = [c, b1] := by
  unfold EncodeRune
  rw [if_neg (by omega), if_pos (by omega), ofNat_eq _ c (by omega), ofNat_eq _ b1 (by omega)]

theorem EncodeRune_three (c b1 b2 : UInt8) (h0 : 0xE0 ≤ c.toNat ∧ c.toNat < 0xF0)
    (h1 : (if c.toNat = 0xE0 then 0xA0 else 0x80) ≤ b1.toNat ∧
      b1.toNat ≤ (if c.toNat = 0xED then 0x9F else 0xBF))
    (h2 : 0x80 ≤ b2.toNat ∧ b2.toNat ≤ 0xBF) :
    EncodeRune (c.toNat % 16 * 4096 + b1.toNat % 64 * 64 + b2.toNat % 64) = [c, b1, b2] := by
  have hb1 : 0x80 ≤ b1.toNat ∧ b1.toNat ≤ 0xBF := by
    split_ifs at h1 <;> omega
  have hlo : c.toNat = 0xE0 → 0xA0 ≤ b1.toNat := by
    intro h; rw [if_pos h] at h1; exact h1.1
  have hhi : c.toNat = 0xED → b1.toNat ≤ 0x9F := by
    intro h; rw [if_pos h] at h1; exact h1.2
  clear h1
  unfold EncodeRune
  rw [if_neg (by omega), if_neg (by omega), if_neg (by omega), if_pos (by omega),
    ofNat_eq _ c (by omega), ofNat_eq _ b1 (by omega), ofNat_eq _ b2 (by omega)]

theorem EncodeRune_four (c b1 b2 b3 : UInt8) (h0 : 0xF0 ≤ c.toNat ∧ c.toNat ≤ 0xF4)
    (h1 : (if c.toNat = 0xF0 then 0x90 else 0x80) ≤ b1.toNat ∧
      b1.toNat ≤ (if c.toNat = 0xF4 then 0x8F else 0xBF))
    (h2 : 0x80 ≤ b2.toNat ∧ b2.toNat ≤ 0xBF) (h3 : 0x80 ≤ b3.toNat ∧ b3.toNat ≤ 0xBF) :
    EncodeRune (c.toNat % 8 * 262144 + b1.toNat % 64 * 4096 + b2.toNat % 64 * 64 +
      b3.toNat % 64) = [c, b1, b2, b3] := by
  have hb1 : 0x80 ≤ b1.toNat ∧ b1.toNat ≤ 0xBF := by
    split_ifs at h1 <;> omega
  have hlo : c.toNat = 0xF0 → 0x90 ≤ b1.toNat := by
    intro h; rw [if_pos h] at h1; exact h1.1
  have hhi : c.toNat = 0xF4 → b1.toNat ≤ 0x8F := by
    intro h; rw [if_pos h] at h1; exact h1.2
  clear h1
  unfold EncodeRune
  rw [if_neg (by omega), if_neg (by omega), if_neg (by omega), if_neg (by omega),
    ofNat_eq _ c (by omega), ofNat_eq _ b1 (by omega), ofNat_eq _ b2 (by omega),
    ofNat_eq _ b3 (by omega)]

/-- A valid encoding of more than one byte at the start of a text: the bytes
of the encoding, none of them ASCII, are what EncodeRune writes for the rune,
and DecodeRune reads them the same way whatever follows. -/
theorem DecodeRune_valid (c : UInt8) (rest : GoString) (hc : 0x80 ≤ c.toNat)
    (hv : ¬ ((DecodeRune (c :: rest)).1 = RuneError ∧ (DecodeRune (c :: rest)).2 = 1)) :
    ∃ chunk tail rr, c :: rest = c :: chunk ++ tail ∧ 1 ≤ chunk.length ∧
      (∀ b ∈ c :: chunk, 0x80 ≤ b.toNat) ∧ EncodeRune rr = c :: chunk ∧
      ∀ t, DecodeRune (c :: chunk ++ t) = (rr, (c :: chunk).length) := by
  rcases DecodeRune_cases c rest hc with h | ⟨b1, t, rfl, h0, h1⟩ | ⟨b1, b2, t, rfl, h0, h1, h2⟩ |
    ⟨b1, b2, b3, t, rfl, h0, h1, h2, h3⟩
  · rw [h] at hv
    exact absurd ⟨rfl, rfl⟩ hv
  · refine ⟨[b1], t, _, rfl, by simp, ?_, EncodeRune_two c b1 h0 h1, fun t2 => DecodeRune_two c b1 t2 h0 h1⟩
    intro b hb
    simp only [List.mem_cons, List.mem_singleton, List.not_mem_nil, or_false] at hb
    rcases hb with rfl | rfl <;> omega
  · have hb1 : 0x80 ≤ b1.toNat := by
      split_ifs at h1 <;> omega
    refine ⟨[b1, b2], t, _, rfl, by simp, ?_, EncodeRune_three c b1 b2 h0 h1 h2,
      fun t2 => DecodeRune_three c b1 b2 t2 h0 h1 h2⟩
    intro b hb
    simp only [List.mem_cons, List.mem_singleton, List.not_mem_nil, or_false] at hb
    rcases hb with rfl | rfl | rfl <;> omega
  · have hb1 : 0x80 ≤ b1.toNat := by
      split_ifs at h1 <;> omega
    refine ⟨[b1, b2, b3], t, _, rfl, by simp, ?_, EncodeRune_four c b1 b2 b3 h0 h1 h2 h3,
      fun t2 => DecodeRune_four c b1 b2 b3 t2 h0 h1 h2 h3⟩
    intro b hb
    simp only [List.mem_cons, List.mem_singleton, List.not_mem_nil, or_false] at hb
    rcases hb with rfl | rfl | rfl | rfl <;> omega

theorem validLoop_ascii (n : Nat) (c : UInt8) (rest : GoString) (hc : c.toNat < 0x80)
    (h : validLoop (n + 1) (c :: rest) = true) : validLoop n rest = true := by
  have hne : ¬ (c.toNat = RuneError ∧ 1 = 1) := by
    unfold RuneError
    omega
  rw [validLoop, DecodeRune_ascii c rest hc, if_neg hne] at h
  exact h

theorem validLoop_multi (n : Nat) (c : UInt8) (rest : GoString) (hc : 0x80 ≤ c.toNat)
    (h : validLoop (n + 1) (c :: rest) = true) :
    ∃ chunk tail rr, c :: rest = c :: chunk ++ tail ∧ 1 ≤ chunk.length ∧
      (∀ b ∈ c :: chunk, 0x80 ≤ b.toNat) ∧ EncodeRune rr = c :: chunk ∧
      (∀ t, DecodeRune (c :: chunk ++ t) = (rr, (c :: chunk).length)) ∧
      validLoop n tail = true := by
  rw [validLoop] at h
  by_cases hv : (DecodeRune (c :: rest)).1 = RuneError ∧ (DecodeRune (c :: rest)).2 = 1
  · rw [if_pos hv] at h
    cases h
  · rw [if_neg hv] at h
    obtain ⟨chunk, tail, rr, e, hl, hb, he, hd⟩ := DecodeRune_valid c rest hc hv
    refine ⟨chunk, tail, rr, e, hl, hb, he, hd, ?_⟩
    rw [e, hd tail] at h
    simpa using h

theorem validLoop_mono (n : Nat) (s : GoString) (h : validLoop n s = true) :
    validLoop (n + 1) s = true := by
  induction n generalizing s with
  | zero =>
    have : s = [] := by simpa [validLoop] using h
    subst this
    rfl
  | succ n ih =>
    cases s with
    | nil => rfl
    | cons c rest =>
      rw [validLoop] at h ⊢
      by_cases hv : (DecodeRune (c :: rest)).1 = RuneError ∧ (DecodeRune (c :: rest)).2 = 1
      · rw [if_pos hv] at h
        cases h
      · rw [if_neg hv] at h ⊢
        exact ih _ h

/-! ## The string of a quoted string -/

theorem hexVal_hexDigit (n : Nat) (h : n < 16) : hexVal (hexDigit n) = some n := by
  interval_cases n <;> rfl

theorem unquoteLoop_nil (fuel : Nat) : unquoteLoop fuel [] = some [] := by
  cases fuel <;> rfl

theorem escapeByte_quote (c : UInt8) (h : c = 34 ∨ c = 92) : escapeByte c = [92, c] := by
  unfold escapeByte
  rw [if_pos h]

theorem escapeByte_control (c : UInt8) (h : ¬ (c = 34 ∨ c = 92)) (hlt : c.toNat < 32) :
    escapeByte c = [92, 117, 48, 48, hexDigit (c.toNat / 16), hexDigit (c.toNat % 16)] := by
  unfold escapeByte
  rw [if_neg h, if_pos hlt]

theorem escapeByte_other (c : UInt8) (h : ¬ (c = 34 ∨ c = 92)) (hlt : ¬ c.toNat < 32) :
    escapeByte c = [c] := by
  unfold escapeByte
  rw [if_neg h, if_neg hlt]

theorem length_le_flatMap_escapeByte (s : GoString) : s.length ≤ (s.flatMap escapeByte).length := by
  induction s with
  | nil => simp
  | cons c s ih =>
    rw [List.flatMap_cons, List.length_append, List.length_cons]
    have : 1 ≤ (escapeByte c).length := by
      by_cases hq : c = 34 ∨ c = 92
      · rw [escapeByte_quote c hq]; simp
      · by_cases hlt : c.toNat < 32
        · rw [escapeByte_control c hq hlt]; simp
        · rw [escapeByte_other c hq hlt]; simp
    omega

theorem unquoteLoop_quote (fuel : Nat) (e : UInt8) (rest : GoString) (he : e = 34 ∨ e = 92) :
    unquoteLoop (fuel + 1) (92 :: e :: rest) = (unquoteLoop fuel rest).map (fun t => e :: t) := by
  rcases he with rfl | rfl <;> simp [unquoteLoop]

theorem unquoteLoop_u (fuel : Nat) (a b c d : UInt8) (rest : GoString) (rr : Nat)
    (hu : getu4 (92 :: 117 :: a :: b :: c :: d :: rest) = some rr) (hrr : rr < 0xD800) :
    unquoteLoop (fuel + 1) (92 :: 117 :: a :: b :: c :: d :: rest) =
      (unquoteLoop fuel rest).map (fun t => EncodeRune rr ++ t) := by
  have hsur : ¬ (0xD800 ≤ rr ∧ rr < 0xE000) := by omega
  simp only [unquoteLoop, if_true,
    show ¬ ((117 : UInt8) = 34 ∨ (117 : UInt8) = 92 ∨ (117 : UInt8) = 47 ∨
      (117 : UInt8) = 39) by decide,
    show ¬ (117 : UInt8) = 98 by decide, show ¬ (117 : UInt8) = 102 by decide,
    show ¬ (117 : UInt8) = 110 by decide, show ¬ (117 : UInt8) = 114 by decide,
    show ¬ (117 : UInt8) = 116 by decide, if_false, hu, List.drop_succ_cons, List.drop_zero,
    hsur]

theorem unquoteLoop_ascii (fuel : Nat) (c : UInt8) (rest : GoString) (h92 : ¬ c = 92)
    (h3 : ¬ (c = 34 ∨ c.toNat < 32)) (hc : c.toNat < 128) :
    unquoteLoop (fuel + 1) (c :: rest) = (unquoteLoop fuel rest).map (fun t => c :: t) := by
  simp only [unquoteLoop, h92, if_false, h3, hc, if_true]

theorem unquoteLoop_multi (fuel : Nat) (c : UInt8) (rest : GoString) (hc : 0x80 ≤ c.toNat) :
    unquoteLoop (fuel + 1) (c :: rest) =
      (unquoteLoop fuel ((c :: rest).drop (DecodeRune (c :: rest)).2)).map
        (fun t => EncodeRune (DecodeRune (c :: rest)).1 ++ t) := by
  have h92 : ¬ c = 92 := by
    rintro rfl
    exact absurd hc (by decide)
  have h3 : ¬ (c = 34 ∨ c.toNat < 32) := by
    rintro (rfl | h)
    · exact absurd hc (by decide)
    · omega
  have h4 : ¬ c.toNat < 0x80 := by omega
  simp only [unquoteLoop, h92, if_false, h3, h4]

theorem unquoteIndex_multi (fuel : Nat) (c : UInt8) (rest : GoString) (hc : 0x80 ≤ c.toNat)
    (hv : ¬ ((DecodeRune (c :: rest)).1 = RuneError ∧ (DecodeRune (c :: rest)).2 = 1)) :
    unquoteIndex (fuel + 1) (c :: rest) =
      (DecodeRune (c :: rest)).2 +
        unquoteIndex fuel ((c :: rest).drop (DecodeRune (c :: rest)).2) := by
  have h3 : ¬ (c = 92 ∨ c = 34 ∨ c.toNat < 32) := by
    rintro (rfl | rfl | h)
    · exact absurd hc (by decide)
    · exact absurd hc (by decide)
    · omega
  have h4 : ¬ c.toNat < 0x80 := by omega
  simp only [unquoteIndex, h3, if_false, h4, hv]

theorem flatMap_escapeByte_high (chunk : GoString) (h : ∀ b ∈ chunk, 0x80 ≤ b.toNat) :
    chunk.flatMap escapeByte = chunk := by
  induction chunk with
  | nil => rfl
  | cons c r ih =>
    have hc := h c (List.mem_cons_self _ _)
    have hq : ¬ (c = 34 ∨ c = 92) := by
      rintro (rfl | rfl) <;> exact absurd hc (by decide)
    rw [List.flatMap_cons, escapeByte_other c hq (by omega),
      ih (fun b hb => h b (List.mem_cons_of_mem _ hb))]
    rfl

/-- The second loop of unquoteBytes reads the escapes of a valid string back
into the string. -/
theorem unquoteLoop_escape (n : Nat) (s : GoString) (hn : s.length ≤ n)
    (h : validLoop n s = true) (fuel : Nat) (hf : s.length ≤ fuel) :
    unquoteLoop fuel (s.flatMap escapeByte) = some s := by
  induction n generalizing s fuel with
  | zero =>
    have : s = [] := by simpa [validLoop] using h
    subst this
    exact unquoteLoop_nil fuel
  | succ n ih =>
    cases s with
    | nil => exact unquoteLoop_nil fuel
    | cons c s =>
      cases fuel with
      | zero => simp at hf
      | succ fuel =>
        have hn1 : s.length ≤ n := by simpa using hn
        have hf1 : s.length ≤ fuel := by simpa using hf
        by_cases hc : c.toNat < 0x80
        · have ih1 := ih s hn1 (validLoop_ascii n c s hc h) fuel hf1
          rw [List.flatMap_cons]
          by_cases hq : c = 34 ∨ c = 92
          · rw [escapeByte_quote c hq, List.cons_append, List.cons_append, List.nil_append,
              unquoteLoop_quote _ _ _ hq, ih1]
            rfl
          · have h34 : ¬ c = 34 := fun h => hq (Or.inl h)
            have h92 : ¬ c = 92 := fun h => hq (Or.inr h)
            by_cases hlt : c.toNat < 32
            · have d1 : c.toNat / 16 < 16 := by omega
              have d2 : c.toNat % 16 < 16 := by omega
              have hu : getu4 (92 :: 117 :: 48 :: 48 :: hexDigit (c.toNat / 16) ::
                  hexDigit (c.toNat % 16) :: s.flatMap escapeByte) = some c.toNat := by
                have h0 : hexVal 48 = some 0 := rfl
                simp only [getu4, h0, hexVal_hexDigit _ d1, hexVal_hexDigit _ d2,
                  Option.some.injEq]
                omega
              have henc : EncodeRune c.toNat = [c] := by
                unfold EncodeRune
                rw [if_pos (by omega), ofNat_toNat]
              rw [escapeByte_control c hq hlt]
              simp only [List.cons_append, List.nil_append]
              rw [unquoteLoop_u _ _ _ _ _ _ _ hu (by omega), ih1, henc]
              rfl
            · have h3 : ¬ (c = 34 ∨ c.toNat < 32) := by
                rintro (h | h)
                · exact h34 h
                · exact hlt h
              rw [escapeByte_other c hq hlt, List.singleton_append,
                unquoteLoop_ascii _ _ _ h92 h3 hc, ih1]
              rfl
        · have hc1 : 0x80 ≤ c.toNat := by omega
          obtain ⟨chunk, tail, rr, e, hcl, hb, he, hd, hvt⟩ := validLoop_multi n c s hc1 h
          have hlen : tail.length ≤ s.length := by
            have := congrArg List.length e
            simp only [List.length_cons, List.length_append] at this
            omega
          have ih1 := ih tail (le_trans hlen hn1) hvt fuel (le_trans hlen hf1)
          have hE : (c :: s).flatMap escapeByte = c :: chunk ++ tail.flatMap escapeByte := by
            rw [e, List.flatMap_append, flatMap_escapeByte_high _ hb]
          rw [hE, List.cons_append, unquoteLoop_multi _ _ _ hc1, ← List.cons_append,
            hd (tail.flatMap escapeByte)]
          simp only [List.drop_left, ih1, he, Option.map_some', e]

/-- The two loops of unquoteBytes on the escaped text of a valid string. -/
theorem unquote_escape (n : Nat) (s : GoString) (hn : s.length ≤ n) (h : validLoop n s = true)
    (f1 f2 : Nat)
    (h1 : (s.flatMap escapeByte).length ≤ f1) (h2 : (s.flatMap escapeByte).length ≤ f2) :
    (unquoteLoop f2 ((s.flatMap escapeByte).drop (unquoteIndex f1 (s.flatMap escapeByte)))).map
        (fun t => (s.flatMap escapeByte).take (unquoteIndex f1 (s.flatMap escapeByte)) ++ t) =
      some s ∧
    (unquoteIndex f1 (s.flatMap escapeByte) = (s.flatMap escapeByte).length →
      s.flatMap escapeByte = s) := by
  induction n generalizing s f1 f2 with
  | zero =>
    have : s = [] := by simpa [validLoop] using h
    subst this
    have e0 : unquoteIndex f1 [] = 0 := by cases f1 <;> rfl
    simp [e0, unquoteLoop_nil]
  | succ n ih =>
    cases s with
    | nil =>
      have e0 : unquoteIndex f1 [] = 0 := by cases f1 <;> rfl
      simp [e0, unquoteLoop_nil]
    | cons c s =>
      have hlen := length_le_flatMap_escapeByte (c :: s)
      have hn1 : s.length ≤ n := by simpa using hn
      by_cases hsp : c = 34 ∨ c = 92 ∨ c.toNat < 32
      · -- the escape of the byte starts with a backslash: the first loop stops
        have hE : ∃ rest, (c :: s).flatMap escapeByte = 92 :: rest := by
          rw [List.flatMap_cons]
          by_cases hq : c = 34 ∨ c = 92
          · rw [escapeByte_quote c hq]; exact ⟨_, rfl⟩
          · have hlt : c.toNat < 32 := by
              rcases hsp with h | h | h
              · exact absurd (Or.inl h) hq
              · exact absurd (Or.inr h) hq
              · exact h
            rw [escapeByte_control c hq hlt]
            exact ⟨_, rfl⟩
        obtain ⟨rest, hrest⟩ := hE
        have hidx : unquoteIndex f1 ((c :: s).flatMap escapeByte) = 0 := by
          rw [hrest]
          cases f1 with
          | zero => rfl
          | succ f => simp [unquoteIndex]
        rw [hidx]
        constructor
        · rw [List.drop_zero, List.take_zero,
            unquoteLoop_escape (n + 1) (c :: s) hn h f2 (le_trans hlen h2)]
          rfl
        · intro h0
          rw [hrest] at h0
          simp at h0
      · have h34 : ¬ c = 34 := fun h => hsp (Or.inl h)
        have h92 : ¬ c = 92 := fun h => hsp (Or.inr (Or.inl h))
        have hlt : ¬ c.toNat < 32 := fun h => hsp (Or.inr (Or.inr h))
        have h3 : ¬ (c = 92 ∨ c = 34 ∨ c.toNat < 32) := by
          rintro (h | h | h)
          · exact h92 h
          · exact h34 h
          · exact hlt h
        by_cases hc : c.toNat < 0x80
        · -- a plain ASCII byte: both loops go on
          have hE : (c :: s).flatMap escapeByte = c :: s.flatMap escapeByte := by
            rw [List.flatMap_cons,
              escapeByte_other c (by rintro (h | h); exact h34 h; exact h92 h) hlt]
            rfl
          rw [hE] at h1 h2 ⊢
          cases f1 with
          | zero => simp at h1
          | succ f =>
            have hidx : unquoteIndex (f + 1) (c :: s.flatMap escapeByte) =
                1 + unquoteIndex f (s.flatMap escapeByte) := by
              simp only [unquoteIndex, h3, if_false, hc, if_true]
            obtain ⟨i1, i2⟩ := ih s hn1 (validLoop_ascii n c s hc h) f f2 (by simpa using h1)
              (le_trans (Nat.le_succ _) (by simpa using h2))
            rw [hidx]
            constructor
            · have e1 : 1 + unquoteIndex f (s.flatMap escapeByte) =
                  unquoteIndex f (s.flatMap escapeByte) + 1 := by omega
              rw [e1, List.drop_succ_cons, List.take_succ_cons]
              cases hl : unquoteLoop f2 (List.drop (unquoteIndex f (s.flatMap escapeByte))
                  (s.flatMap escapeByte)) with
              | none => rw [hl] at i1; cases i1
              | some t =>
                rw [hl] at i1
                simp only [Option.map_some', Option.some.injEq] at i1 ⊢
                rw [List.cons_append, i1]
            · intro hh
              simp only [List.length_cons] at hh
              rw [i2 (by omega)]
        · -- a rune of more than one byte: both loops go on after it
          have hc1 : 0x80 ≤ c.toNat := by omega
          obtain ⟨chunk, tail, rr, e, hcl, hb, he, hd, hvt⟩ := validLoop_multi n c s hc1 h
          have htl : tail.length ≤ s.length := by
            have := congrArg List.length e
            simp only [List.length_cons, List.length_append] at this
            omega
          have hE : (c :: s).flatMap escapeByte = c :: chunk ++ tail.flatMap escapeByte := by
            rw [e, List.flatMap_append, flatMap_escapeByte_high _ hb]
          rw [hE] at h1 h2 ⊢
          cases f1 with
          | zero => simp at h1
          | succ f =>
            have hdd := hd (tail.flatMap escapeByte)
            have hv : ¬ ((DecodeRune (c :: (chunk ++ tail.flatMap escapeByte))).1 = RuneError ∧
                (DecodeRune (c :: (chunk ++ tail.flatMap escapeByte))).2 = 1) := by
              rw [← List.cons_append, hdd]
              have : (c :: chunk).length ≠ 1 := by
                simp only [List.length_cons]
                omega
              exact fun hh => this hh.2
            have hidx : unquoteIndex (f + 1) (c :: chunk ++ tail.flatMap escapeByte) =
                (c :: chunk).length + unquoteIndex f (tail.flatMap escapeByte) := by
              rw [List.cons_append, unquoteIndex_multi _ _ _ hc1 hv, ← List.cons_append, hdd]
              simp only [List.drop_left]
            have hl1 : (tail.flatMap escapeByte).length ≤ f := by
              simp only [List.length_cons, List.length_append] at h1
              omega
            have hl2 : (tail.flatMap escapeByte).length ≤ f2 := by
              simp only [List.length_cons, List.length_append] at h2
              omega
            obtain ⟨i1, i2⟩ := ih tail (le_trans htl hn1) hvt f f2 hl1 hl2
            rw [hidx]
            constructor
            · rw [List.drop_append, List.take_append]
              cases hl : unquoteLoop f2 (List.drop (unquoteIndex f (tail.flatMap escapeByte))
                  (tail.flatMap escapeByte)) with
              | none => rw [hl] at i1; cases i1
              | some t =>
                rw [hl] at i1
                simp only [Option.map_some', Option.some.injEq] at i1 ⊢
                rw [List.append_assoc, i1, e]
            · intro hh
              simp only [List.length_cons, List.length_append] at hh
              rw [i2 (by omega), e]

/-- The string of the quoted text of a valid string is the string. -/
theorem unquoteBytes_quote (s : GoString) (h : ValidString s = true) :
    unquoteBytes (quote s) = some s := by
  unfold quote
  have hlast : (34 :: (s.flatMap escapeByte ++ [34])).getLast? = some 34 := by
    rw [← List.cons_append, List.getLast?_concat]
  have hmid : (List.drop 1 (34 :: (s.flatMap escapeByte ++ [34]))).dropLast =
      s.flatMap escapeByte := by
    simp
  obtain ⟨u1, u2⟩ := unquote_escape s.length s (le_refl _) h _ _ (le_refl _) (le_refl _)
  unfold unquoteBytes
  rw [if_neg (by
    rw [hlast]
    simp only [List.length_cons, List.length_append, List.length_singleton, List.head?_cons,
      ne_eq, not_true_eq_false, or_false]
    omega)]
  simp only [hmid]
  by_cases hr : unquoteIndex (s.flatMap escapeByte).length (s.flatMap escapeByte) =
      (s.flatMap escapeByte).length
  · rw [if_pos hr, u2 hr]
  · rw [if_neg hr]
    exact u1

/-- A quoted valid string is stored as its string. -/
theorem literalStore_quote {α : Type} (bool : Bool → Store α) (string : GoString → Store α)
    (number : GoString → Store α) (s : GoString) (h : ValidString s = true) :
    literalStore bool string number (quote s) = string s := by
  have hu := unquoteBytes_quote s h
  unfold quote at hu ⊢
  unfold literalStore
  simp only [show ¬ (34 : UInt8) = 110 by decide, if_false,
    show ¬ ((34 : UInt8) = 116 ∨ (34 : UInt8) = 102) by decide, if_true, hu]

/-- A quoted string is an error for an element that takes no string. -/
theorem literalStore_quote_fail {α : Type} (bool : Bool → Store α) (v : GoString)
    (number : GoString → Store α) (s : GoString) :
    ∃ e, literalStore bool (fun _ => typeError v) number (quote s) = Store.fail e := by
  unfold quote literalStore
  simp only [show ¬ (34 : UInt8) = 110 by decide, if_false,
    show ¬ ((34 : UInt8) = 116 ∨ (34 : UInt8) = 102) by decide, if_true]
  cases unquoteBytes (34 :: (s.flatMap escapeByte ++ [34])) with
  | none => exact ⟨_, rfl⟩
  | some t => exact ⟨_, rfl⟩

/-! ## Strings that the regular expression leaves alone -/

theorem squeeze_id (s : GoString) :
    (∀ ws, spacesThenComma s = false → commaPair s = false →
      squeeze (some ws) s = 44 :: (ws ++ s)) ∧
    (commaPair s = false → squeeze none s = s) := by
  induction s with
  | nil => exact ⟨fun ws _ _ => by simp [squeeze], fun _ => rfl⟩
  | cons c s ih =>
    obtain ⟨i1, i2⟩ := ih
    constructor
    · intro ws h1 h2
      by_cases h44 : c = 44
      · simp [spacesThenComma, h44] at h1
      · simp only [commaPair, h44, decide_False, Bool.false_and, Bool.false_or] at h2
        by_cases h32 : c = 32
        · subst h32
          simp only [spacesThenComma, h44, if_false, if_true] at h1
          simp only [squeeze, h44, if_false, if_true, i1 _ h1 h2]
          simp
        · simp only [squeeze, h44, h32, if_false, i2 h2]
    · intro h2
      by_cases h44 : c = 44
      · subst h44
        simp only [commaPair, decide_True, Bool.true_and, Bool.or_eq_false_iff] at h2
        simp only [squeeze, if_true, i1 [] h2.1 h2.2, List.nil_append]
      · simp only [commaPair, h44, decide_False, Bool.false_and, Bool.false_or] at h2
        simp only [squeeze, h44, if_false, i2 h2]

/-! ## The normalization of arrays of numbers and quoted strings -/

/-- The text of an element starts with a byte that is no comma, no space of
the regular expression and no bracket, and does not end with a bracket. -/
theorem Tok_text_framed (t : Tok) :
    ∃ a l, t.text = a :: l ∧ a ≠ 44 ∧ isReSpace a = false ∧ isBracket a = false ∧
      ∀ c, (a :: l).getLast? = some c → isBracket c = false := by
  cases t with
  | num v =>
    obtain ⟨hc, a, l, e, hb, hs, hlast⟩ := (isSolid_iff (Itoa v)).1 (Itoa_isSolid v)
    exact ⟨a, l, e, hc a (e ▸ List.mem_cons_self _ _), hs, hb, hlast⟩
  | str s =>
    refine ⟨34, s.flatMap escapeByte ++ [34], rfl, by decide, by decide, by decide, ?_⟩
    intro c hc
    rw [← List.cons_append, List.getLast?_concat] at hc
    cases hc
    decide

theorem Tok_text_isScalar (t : Tok) : isScalar t.text = true := by
  cases t with
  | num v => exact Itoa_isScalar v
  | str s => exact quote_isScalar s

/-- The regular expression on the text of an element, followed by more text
that begins after it: a number is left as it is, a string is squeezed. -/
theorem replaceCommas_tok (t : Tok) (rest : GoString) :
    replaceCommas none (t.text ++ rest) = t.squeezed.text ++ replaceCommas none rest := by
  cases t with
  | num v =>
    obtain ⟨hc, -⟩ := (isSolid_iff (Itoa v)).1 (Itoa_isSolid v)
    exact replaceCommas_append (Itoa v) rest hc
  | str s =>
    have e : (Tok.str s).text ++ rest = 34 :: (s.flatMap escapeByte ++ 34 :: rest) := by
      simp [Tok.text, quote]
    rw [e, replaceCommas_none_cons _ _ (by decide),
      replaceCommas_quote s none (by intro ws h; cases h)]
    simp [Tok.squeezed, Tok.text, quote]

theorem replaceCommas_Join_toks (toks : List Tok) :
    replaceCommas none (Join (toks.map Tok.text) [44, 32]) =
      Join ((toks.map Tok.squeezed).map Tok.text) [44, 32] := by
  induction toks with
  | nil => rfl
  | cons x r ih =>
    cases r with
    | nil =>
      have := replaceCommas_tok x []
      simpa [Join, replaceCommas] using this
    | cons y r =>
      have e : Join ((x :: y :: r).map Tok.text) [44, 32] =
          x.text ++ ([44, 32] ++ Join ((y :: r).map Tok.text) [44, 32]) := by
        simp [Join]
      have e2 : Join (((x :: y :: r).map Tok.squeezed).map Tok.text) [44, 32] =
          x.squeezed.text ++ ([44, 32] ++ Join (((y :: r).map Tok.squeezed).map Tok.text)
            [44, 32]) := by
        simp [Join]
      obtain ⟨a, l, hy, ha, hs, -, -⟩ := Tok_text_framed y
      have hJ : ∃ l2, Join ((y :: r).map Tok.text) [44, 32] = a :: l2 := by
        rw [List.map_cons, Join_cons, hy]
        exact ⟨_, rfl⟩
      obtain ⟨l2, hl2⟩ := hJ
      rw [e, e2, replaceCommas_tok, ← ih, hl2]
      congr 1
      have h32 : isReSpace 32 = true := by decide
      rw [List.cons_append, List.cons_append, List.nil_append, replaceCommas_none_comma,
        replaceCommas_some_space _ _ _ (by decide) h32, List.nil_append,
        replaceCommas_some_other _ _ _ ha hs, replaceCommas_none_cons _ _ ha]
      rfl

theorem normToks_cons_cons (x y : Tok) (r : List Tok) :
    normToks (x :: y :: r) = (x :: y :: r).map Tok.squeezed := by
  cases x <;> rfl

theorem normToks_str (s : GoString) :
    normToks [Tok.str s] =
      if Contains s 32 ∧ ¬ Contains s 44 then [Tok.str (squeeze none (ReplaceAll s 32 [44]))]
      else [Tok.str (squeeze none s)] := rfl

theorem forall_mem_of_map_eq {l1 l2 : List Tok} (p : Tok → Bool) (h : l1.map p = l2.map p) :
    (∀ t ∈ l1, p t = true) ↔ ∀ t ∈ l2, p t = true := by
  have key : ∀ l : List Tok, (∀ t ∈ l, p t = true) ↔ ∀ b ∈ l.map p, b = true := by
    intro l
    simp
  rw [key, key, h]

/-- The rules for the separators on the elements joined by a comma and a
space. -/
theorem separatorRules_toks (toks : List Tok) :
    separatorRules (Join (toks.map Tok.text) [44, 32]) =
      Join ((normToks toks).map Tok.text) [44, 32] := by
  unfold separatorRules
  rw [lit_comma]
  match toks with
  | [] => rfl
  | [Tok.num v] =>
    have h32 : Contains (Join ([Tok.num v].map Tok.text) [44, 32]) 32 = false := by
      simp only [Contains, decide_eq_false_iff_not]
      exact Itoa_no_space v
    have hn : ¬ (Contains (Join ([Tok.num v].map Tok.text) [44, 32]) 32 = true ∧
        ¬ Contains (Join ([Tok.num v].map Tok.text) [44, 32]) 44 = true) := by
      intro hh
      rw [h32] at hh
      exact absurd hh.1 (by decide)
    rw [if_neg hn]
    exact replaceCommas_Join_toks [Tok.num v]
  | [Tok.str s] =>
    have hJ : Join ([Tok.str s].map Tok.text) [44, 32] = quote s := rfl
    have c32 : Contains (quote s) 32 = Contains s 32 := by
      simp only [Contains, mem_quote 32 (Or.inr rfl) s]
    have c44 : Contains (quote s) 44 = Contains s 44 := by
      simp only [Contains, mem_quote 44 (Or.inl rfl) s]
    rw [hJ, c32, c44]
    by_cases hr : Contains s 32 = true ∧ ¬ Contains s 44 = true
    · rw [if_pos hr, ReplaceAll_quote]
      have := replaceCommas_Join_toks [Tok.str (ReplaceAll s 32 [44])]
      rw [normToks_str, if_pos hr]
      exact this
    · rw [if_neg hr]
      have := replaceCommas_Join_toks [Tok.str s]
      rw [normToks_str, if_neg hr]
      exact this
  | x :: y :: r =>
    have h44 : Contains (Join ((x :: y :: r).map Tok.text) [44, 32]) 44 = true := by
      simp only [Contains, decide_eq_true_eq]
      exact sep_mem_Join 44 _ _ (by simp) (by simp)
    have hn : ¬ (Contains (Join ((x :: y :: r).map Tok.text) [44, 32]) 32 = true ∧
        ¬ Contains (Join ((x :: y :: r).map Tok.text) [44, 32]) 44 = true) := fun hh => hh.2 h44
    rw [if_neg hn, normToks_cons_cons]
    exact replaceCommas_Join_toks (x :: y :: r)

/-- The normalization of the text of an array of numbers and quoted strings:
the text of the array of the normalized elements. -/
theorem cleanInput_toks (toks : List Tok) :
    cleanInput (arrayText (toks.map Tok.text) (lit ", ")) =
      91 :: (Join ((normToks toks).map Tok.text) [44, 32] ++ [93]) := by
  have e : arrayText (toks.map Tok.text) (lit ", ") =
      91 :: (Join (toks.map Tok.text) [44, 32] ++ 93 :: []) := by
    simp [arrayText, lit_open, lit_close, lit_comma_space]
  have hT : Trim (Join (toks.map Tok.text) [44, 32]) (lit "[]") =
      Join (toks.map Tok.text) [44, 32] := by
    apply Trim_Join_framed
    intro y hy
    obtain ⟨t, -, rfl⟩ := List.mem_map.1 hy
    obtain ⟨a, l, e1, -, -, hb, hlast⟩ := Tok_text_framed t
    exact ⟨a, l, e1, hb, hlast⟩
  rw [e, cleanInput_bracketed _ _ (by simp), hT, separatorRules_toks]

/-- The normalization changes the inside of strings only: what depends on
the kind of each element alone is the same before and after. -/
theorem normToks_map {β : Type} (f : Tok → β) (hf : ∀ s s1, f (Tok.str s) = f (Tok.str s1))
    (toks : List Tok) : (normToks toks).map f = toks.map f := by
  have hsq : ∀ t : Tok, f t.squeezed = f t := by
    intro t
    cases t with
    | num v => rfl
    | str s => exact hf _ _
  have hmap : ∀ l : List Tok, (l.map Tok.squeezed).map f = l.map f := by
    intro l
    rw [List.map_map]
    exact List.map_congr_left (fun t _ => hsq t)
  match toks with
  | [] => rfl
  | [Tok.num v] => rfl
  | [Tok.str s] =>
    rw [normToks_str]
    split_ifs <;> simp [hf _ s]
  | x :: y :: r =>
    rw [normToks_cons_cons]
    exact hmap (x :: y :: r)

theorem toks_decode {α : Type} (store : GoString → Store α) (zero : α) (conv : Tok → Option α)
    (toks : List Tok)
    (h : ∀ t ∈ toks, (∃ x, conv t = some x ∧ store t.text = Store.set x) ∨
      (conv t = none ∧ ∃ e, store t.text = Store.fail e)) :
    (toks.map Tok.text).map (stored store zero) = toks.map (fun t => (conv t).getD zero) ∧
    (firstError store (toks.map Tok.text) = none ↔ ∀ t ∈ toks, (conv t).isSome = true) := by
  induction toks with
  | nil => simp [firstError]
  | cons t r ih =>
    obtain ⟨i1, i2⟩ := ih (fun u hu => h u (List.mem_cons_of_mem _ hu))
    rcases h t (List.mem_cons_self _ _) with ⟨x, hx, hs⟩ | ⟨hx, e, hs⟩
    · constructor
      · simp only [List.map_cons, i1, stored, hs, hx, Option.getD_some]
      · simp only [List.map_cons, firstError, hs, i2, List.mem_cons, forall_eq_or_imp, hx,
          Option.isSome_some, true_and]
    · constructor
      · simp only [List.map_cons, i1, stored, hs, hx, Option.getD_none]
      · simp only [List.map_cons, firstError, hs, List.mem_cons, forall_eq_or_imp, hx,
          Option.isSome_none, Bool.false_eq_true, false_and, reduceCtorEq]

/-- A sequence conversion on the text of an array of numbers and quoted
strings, separated by a comma and a space: one entry for each element, the
converted value or the zero value, and an error exactly when an element does
not convert. `conv` tells what an element converts to; it is the same for all
strings. -/
theorem Unmarshal_toks {α : Type} (store : GoString → Store α) (zero : α) (conv : Tok → Option α)
    (hconv : ∀ s s1, conv (Tok.str s) = conv (Tok.str s1))
    (toks : List Tok)
    (h : ∀ t : Tok, (∃ x, conv t = some x ∧ store t.text = Store.set x) ∨
      (conv t = none ∧ ∃ e, store t.text = Store.fail e)) :
    (Unmarshal store zero (cleanInput (arrayText (toks.map Tok.text) (lit ", ")))).1 =
      some (toks.map (fun t => (conv t).getD zero)) ∧
    ((Unmarshal store zero (cleanInput (arrayText (toks.map Tok.text) (lit ", ")))).2 = none ↔
      ∀ t ∈ toks, (conv t).isSome = true) := by
  have hU := Unmarshal_array store zero [32] (Or.inr rfl) ((normToks toks).map Tok.text) (by
    intro y hy
    obtain ⟨t, -, rfl⟩ := List.mem_map.1 hy
    exact Tok_text_isScalar t)
  obtain ⟨d1, d2⟩ := toks_decode store zero conv (normToks toks) (fun t _ => h t)
  have m1 := normToks_map (fun t => (conv t).getD zero)
    (fun s s1 => by simp only [hconv s s1]) toks
  have m2 := normToks_map (fun t => (conv t).isSome) (fun s s1 => by simp only [hconv s s1]) toks
  have hall : (∀ t ∈ normToks toks, (conv t).isSome = true) ↔
      ∀ t ∈ toks, (conv t).isSome = true := by
    exact forall_mem_of_map_eq (fun t => (conv t).isSome) m2
  rw [cleanInput_toks, hU, d1, m1]
  exact ⟨rfl, d2.trans hall⟩

/-- The values and the first error of `toks_decode`, for a store that may
set the element beside the error: `left` is the value of the entry where the
element does not convert. -/
theorem toks_decode_left {α : Type} (store : GoString → Store α) (zero : α)
    (conv : Tok → Option α) (left : Tok → α) (toks : List Tok)
    (h : ∀ t ∈ toks, (∃ x, conv t = some x ∧ store t.text = Store.set x) ∨
      (conv t = none ∧ ((left t = zero ∧ ∃ e, store t.text = Store.fail e) ∨
        ∃ e, store t.text = Store.setFail (left t) e))) :
    (toks.map Tok.text).map (stored store zero) = toks.map (fun t => (conv t).getD (left t)) ∧
    (firstError store (toks.map Tok.text) = none ↔ ∀ t ∈ toks, (conv t).isSome = true) := by
  induction toks with
  | nil => simp [firstError]
  | cons t r ih =>
    obtain ⟨i1, i2⟩ := ih (fun u hu => h u (List.mem_cons_of_mem _ hu))
    rcases h t (List.mem_cons_self _ _) with ⟨x, hx, hs⟩ | ⟨hx, ⟨hl, e, hs⟩ | ⟨e, hs⟩⟩
    · constructor
      · simp only [List.map_cons, i1, stored, hs, hx, Option.getD_some]
      · simp only [List.map_cons, firstError, hs, i2, List.mem_cons, forall_eq_or_imp, hx,
          Option.isSome_some, true_and]
    · constructor
      · simp only [List.map_cons, i1, stored, hs, hx, Option.getD_none, hl]
      · simp only [List.map_cons, firstError, hs, List.mem_cons, forall_eq_or_imp, hx,
          Option.isSome_none, Bool.false_eq_true, false_and, reduceCtorEq]
    · constructor
      · simp only [List.map_cons, i1, stored, hs, hx, Option.getD_none]
      · simp only [List.map_cons, firstError, hs, List.mem_cons, forall_eq_or_imp, hx,
          Option.isSome_none, Bool.false_eq_true, false_and, reduceCtorEq]

/-- The sequence conversion of `Unmarshal_toks`, for a store that may set the
element beside the error: the entry of an element that does not convert is
`left` of it, the same for all strings. -/
theorem Unmarshal_toks_left {α : Type} (store : GoString → Store α) (zero : α)
    (conv : Tok → Option α) (left : Tok → α)
    (hconv : ∀ s s1, conv (Tok.str s) = conv (Tok.str s1))
    (hleft : ∀ s s1, left (Tok.str s) = left (Tok.str s1))
    (toks : List Tok)
    (h : ∀ t : Tok, (∃ x, conv t = some x ∧ store t.text = Store.set x) ∨
      (conv t = none ∧ ((left t = zero ∧ ∃ e, store t.text = Store.fail e) ∨
        ∃ e, store t.text = Store.setFail (left t) e))) :
    (Unmarshal store zero (cleanInput (arrayText (toks.map Tok.text) (lit ", ")))).1 =
      some (toks.map (fun t => (conv t).getD (left t))) ∧
    ((Unmarshal store zero (cleanInput (arrayText (toks.map Tok.text) (lit ", ")))).2 = none ↔
      ∀ t ∈ toks, (conv t).isSome = true) := by
  have hU := Unmarshal_array store zero [32] (Or.inr rfl) ((normToks toks).map Tok.text) (by
    intro y hy
    obtain ⟨t, -, rfl⟩ := List.mem_map.1 hy
    exact Tok_text_isScalar t)
  obtain ⟨d1, d2⟩ := toks_decode_left store zero conv left (normToks toks) (fun t _ => h t)
  have m1 := normToks_map (fun t => (conv t).getD (left t))
    (fun s s1 => by simp only [hconv s s1, hleft s s1]) toks
  have m2 := normToks_map (fun t => (conv t).isSome) (fun s s1 => by simp only [hconv s s1]) toks
  have hall : (∀ t ∈ normToks toks, (conv t).isSome = true) ↔
      ∀ t ∈ toks, (conv t).isSome = true := by
    exact forall_mem_of_map_eq (fun t => (conv t).isSome) m2
  rw [cleanInput_toks, hU, d1, m1]
  exact ⟨rfl, d2.trans hall⟩

theorem signedSlices_eq
    (c : Nat × (Result → Int × Option NumError) × (Result → Option (List Int) × Option JsonError))
    (hc : c ∈ signedSlices) :
    (c.1 = 8 ∨ c.1 = 16 ∨ c.1 = 32 ∨ c.1 = 64) ∧ (c.1, c.2.1) ∈ signedConversions ∧
      ∀ o, c.2.2 o = Unmarshal (storeInt c.1) 0 (cleanInput o.Value) := by
  simp only [signedSlices, List.mem_cons, List.mem_singleton, List.not_mem_nil, or_false] at hc
  rcases hc with rfl | rfl | rfl | rfl | rfl | rfl <;>
    refine ⟨by simp, by simp [signedConversions], fun o => ?_⟩ <;>
    simp only [Result.AsSliceInt, Result.AsSliceInt8, Result.AsSliceInt16, Result.AsSliceInt32,
      Result.AsSliceInt64, Result.AsSliceRune, intSize]

theorem unsignedSlices_eq
    (c : Nat × (Result → Nat × Option NumError) × (Result → Option (List Nat) × Option JsonError))
    (hc : c ∈ unsignedSlices) :
    (c.1 = 8 ∨ c.1 = 16 ∨ c.1 = 32 ∨ c.1 = 64) ∧ (c.1, c.2.1) ∈ unsignedConversions ∧
      ∀ o, c.2.2 o = Unmarshal (storeUint c.1) 0 (cleanInput o.Value) := by
  simp only [unsignedSlices, List.mem_cons, List.mem_singleton, List.not_mem_nil, or_false] at hc
  rcases hc with rfl | rfl | rfl | rfl | rfl | rfl | rfl <;>
    refine ⟨by simp, by simp [unsignedConversions], fun o => ?_⟩ <;>
    simp only [Result.AsSliceUint, Result.AsSliceUint8, Result.AsSliceUint16,
      Result.AsSliceUint32, Result.AsSliceUint64, Result.AsSliceUintptr, Result.AsSliceByte,
      intSize]

theorem storeInt_tok (b : Nat) (hb : b = 8 ∨ b = 16 ∨ b = 32 ∨ b = 64) (t : Tok) :
    (∃ x, t.asInt b = some x ∧ storeInt b t.text = Store.set x) ∨
      (t.asInt b = none ∧ ∃ e, storeInt b t.text = Store.fail e) := by
  cases t with
  | num v =>
    simp only [Tok.asInt, Tok.text, storeInt_Itoa b hb v]
    by_cases hr : -(2 : Int) ^ (b - 1) ≤ v ∧ v < (2 : Int) ^ (b - 1)
    · left; exact ⟨v, by rw [if_pos hr], by rw [if_pos hr]⟩
    · right
      exact ⟨by rw [if_neg hr], JsonError.UnmarshalTypeError (lit "number " ++ Itoa v), by
        rw [if_neg hr]; rfl⟩
  | str s => exact Or.inr ⟨rfl, literalStore_quote_fail _ _ _ s⟩

theorem storeUint_tok (b : Nat) (hb : b = 8 ∨ b = 16 ∨ b = 32 ∨ b = 64) (t : Tok) :
    (∃ x, t.asUint b = some x ∧ storeUint b t.text = Store.set x) ∨
      (t.asUint b = none ∧ ∃ e, storeUint b t.text = Store.fail e) := by
  cases t with
  | num v =>
    simp only [Tok.asUint, Tok.text, storeUint_Itoa b hb v]
    by_cases hr : 0 ≤ v ∧ v < (2 : Int) ^ b
    · left; exact ⟨v.toNat, by rw [if_pos hr], by rw [if_pos hr]⟩
    · right
      exact ⟨by rw [if_neg hr], JsonError.UnmarshalTypeError (lit "number " ++ Itoa v), by
        rw [if_neg hr]; rfl⟩
  | str s => exact Or.inr ⟨rfl, literalStore_quote_fail _ _ _ s⟩

theorem storeFloat_tok (k : FloatKind) (t : Tok) :
    (∃ x, t.asFloat k = some x ∧ storeFloat k t.text = Store.set x) ∨
      (t.asFloat k = none ∧ ((t.leftFloat k = k.zero ∧ ∃ e, storeFloat k t.text = Store.fail e) ∨
        ∃ e, storeFloat k t.text = Store.setFail (t.leftFloat k) e)) := by
  cases t with
  | num v =>
    obtain ⟨c, rest, e, hc⟩ := Itoa_head v
    have hs : storeFloat k (Itoa v) =
        if (k.ParseFloat (Itoa v)).2.isSome ∨ k.OverflowFloat (k.ParseFloat (Itoa v)).1 then
          match k.onError (Itoa v) with
          | none => typeError (lit "number " ++ Itoa v)
          | some x => Store.setFail x (JsonError.UnmarshalTypeError (lit "number " ++ Itoa v))
        else Store.set (k.ParseFloat (Itoa v)).1 := by
      unfold storeFloat
      rw [e, literalStore_number _ _ _ c rest hc]
    simp only [Tok.asFloat, Tok.leftFloat, Tok.text, hs]
    by_cases hr : (k.ParseFloat (Itoa v)).2.isSome ∨ k.OverflowFloat (k.ParseFloat (Itoa v)).1
    · right
      refine ⟨by rw [if_pos hr], ?_⟩
      rw [if_pos hr]
      cases hx : k.onError (Itoa v) with
      | none =>
        exact Or.inl ⟨rfl, JsonError.UnmarshalTypeError (lit "number " ++ Itoa v), rfl⟩
      | some x =>
        exact Or.inr ⟨JsonError.UnmarshalTypeError (lit "number " ++ Itoa v), rfl⟩
    · left; exact ⟨_, by rw [if_neg hr], by rw [if_neg hr]⟩
  | str s => exact Or.inr ⟨rfl, Or.inl ⟨rfl, literalStore_quote_fail _ _ _ s⟩⟩

theorem storeComplex_tok (k : FloatKind) (t : Tok) :
    (∃ x, (fun _ => (none : Option (k.F × k.F))) t = some x ∧
        storeComplex k t.text = Store.set x) ∨
      ((fun _ => (none : Option (k.F × k.F))) t = none ∧
        ∃ e, storeComplex k t.text = Store.fail e) := by
  right
  refine ⟨rfl, ?_⟩
  cases t with
  | num v =>
    obtain ⟨c, rest, e, hc⟩ := Itoa_head v
    refine ⟨JsonError.UnmarshalTypeError (lit "number"), ?_⟩
    simp only [Tok.text]
    unfold storeComplex
    rw [e, literalStore_number _ _ _ c rest hc]
    rfl
  | str s => exact literalStore_quote_fail _ _ _ s

/-! ## The scalar conversions on the text of an integer -/

/-- A signed conversion on the text of an integer: the integer when it is in
range, the nearest bound and a range error when it is not. -/
theorem signed_Itoa (wc : Nat × (Result → Int × Option NumError))
    (h : wc ∈ signedConversions) (v : Int) :
    ((wc.2 ⟨Itoa v⟩).1, errKind (wc.2 ⟨Itoa v⟩).2) =
      if v < -(2 : Int) ^ (wc.1 - 1) then (-(2 : Int) ^ (wc.1 - 1), some ConvErr.ErrRange)
      else if (2 : Int) ^ (wc.1 - 1) ≤ v then ((2 : Int) ^ (wc.1 - 1) - 1, some ConvErr.ErrRange)
      else (v, none) := by
  have hK : ((2 ^ (wc.1 - 1) : Nat) : Int) = (2 : Int) ^ (wc.1 - 1) := by push_cast; rfl
  have hKpos : 0 < 2 ^ (wc.1 - 1) := by positivity
  have hview := signed_view wc h ⟨Itoa v⟩
  obtain ⟨s1, s2, s3, s4⟩ := Itoa_spec v
  simp only [s2, if_false, List.takeWhile_eq_self_iff.2 (by simpa using s1), s3, s1, if_true,
    s4] at hview
  rw [hview, ← hK]
  generalize 2 ^ (wc.1 - 1) = K at hKpos ⊢
  split_ifs <;> first
    | rfl
    | (exfalso; omega)
    | (congr 1; omega)

/-- An unsigned conversion on the text of an integer: the integer when it is
in range, an error when it is not. -/
theorem unsigned_Itoa (wc : Nat × (Result → Nat × Option NumError))
    (h : wc ∈ unsignedConversions) (v : Int) :
    (0 ≤ v ∧ v < (2 : Int) ^ wc.1 → wc.2 ⟨Itoa v⟩ = (v.toNat, none)) ∧
    (¬ (0 ≤ v ∧ v < (2 : Int) ^ wc.1) → (wc.2 ⟨Itoa v⟩).2 ≠ none) := by
  have hpow : (2 : Int) ^ wc.1 = ((2 ^ wc.1 : Nat) : Int) := by push_cast; rfl
  have hpos : 0 < 2 ^ wc.1 := by positivity
  have hview := unsigned_view wc h ⟨Itoa v⟩
  obtain ⟨ds, h1, h2, h3, h4⟩ := Itoa_shape v
  rw [hpow]
  generalize 2 ^ wc.1 = M at hview hpos ⊢
  by_cases hv : v < 0
  · rw [if_pos hv] at h3
    constructor
    · intro hr
      clear h4
      omega
    · intro _ hnone
      have htw : (Itoa v).takeWhile isDigit = [] := by rw [h3]; rfl
      have hall : ¬ (Itoa v).all isDigit = true := by
        rw [h3, List.all_cons, Bool.and_eq_true]
        intro hh
        exact absurd hh.1 (by decide)
      have hne : ¬ Itoa v = [] := by rw [h3]; simp
      simp only [hne, if_false, htw, decVal, decFrom_nil, Nat.not_lt_zero, hall, hnone, errKind,
        Option.map_none', Prod.mk.injEq, reduceCtorEq, and_false] at hview
  · rw [if_neg hv] at h3
    have hne : ¬ Itoa v = [] := by
      rw [h3]
      rcases h4 with ⟨d, r, rfl, -⟩ | ⟨rfl, -⟩ <;> simp
    rw [← h3] at h1 h2
    simp only [hne, if_false, List.takeWhile_eq_self_iff.2 (by simpa using h1), h2, h1, if_true]
      at hview
    clear h4 h3 h2 h1 hne
    constructor
    · intro hr
      rw [if_neg (by omega)] at hview
      have e1 := congrArg Prod.fst hview
      have e2 := (errKind_eq_none _).1 (congrArg Prod.snd hview)
      simp only at e1
      exact Prod.ext (by rw [e1]; omega) e2
    · intro hr hnone
      rw [if_pos (by omega), hnone] at hview
      simp [errKind] at hview

/-! ## Empty and invalid texts, runs of commas, brackets -/

theorem Unmarshal_empty {α : Type} (store : GoString → Store α) (zero : α) :
    Unmarshal store zero (cleanInput (lit "[]")) = (some [], none) := by
  have e : cleanInput (lit "[]") = 91 :: (Join [] (44 :: []) ++ [93]) := by decide
  rw [e, Unmarshal_array store zero [] (Or.inl rfl) [] (by simp)]
  rfl

theorem Unmarshal_invalid {α : Type} (store : GoString → Store α) (zero : α) (data : GoString)
    (h : checkValid data = false) :
    Unmarshal store zero data = (none, some JsonError.SyntaxError) := by
  unfold Unmarshal
  rw [if_pos (by simp [h])]

/-- The regular expression on a run of commas: the commas are taken two by
two, and each pair becomes one comma. -/
theorem replaceCommas_run (n : Nat) (r : GoString) :
    replaceCommas none (List.replicate n 44 ++ 50 :: r) =
      List.replicate ((n + 1) / 2) 44 ++ 50 :: replaceCommas none r := by
  induction n using Nat.strong_induction_on with
  | _ n ih =>
    match n with
    | 0 => rfl
    | 1 => rfl
    | m + 2 =>
      have e : (m + 2 + 1) / 2 = (m + 1) / 2 + 1 := by omega
      rw [e, List.replicate_succ, List.replicate_succ, List.replicate_succ]
      have step : replaceCommas none (44 :: 44 :: List.replicate m 44 ++ 50 :: r) =
          44 :: replaceCommas none (List.replicate m 44 ++ 50 :: r) := by
        simp [replaceCommas]
      rw [step, ih m (by omega)]
      rfl

theorem commaText_eq (m : Nat) :
    commaText m = 91 :: ((49 :: (List.replicate m 44 ++ [50])) ++ 93 :: []) := by
  have e1 : lit "[1" = [91, 49] := by decide
  have e2 : lit "2]" = [50, 93] := by decide
  simp [commaText, e1, e2]

/-- The normalization halves a run of commas, rounding up. -/
theorem cleanInput_commaText (n : Nat) : cleanInput (commaText n) = commaText ((n + 1) / 2) := by
  rw [commaText_eq, commaText_eq, cleanInput_bracketed _ _ (by simp)]
  have hT : Trim (49 :: (List.replicate n 44 ++ [50])) (lit "[]") =
      49 :: (List.replicate n 44 ++ [50]) := by
    apply Trim_id
    · intro c hc
      simp only [List.head?_cons, Option.some.injEq] at hc
      subst hc
      decide
    · intro c hc
      rw [← List.cons_append, List.getLast?_concat] at hc
      cases hc
      decide
  have h32 : Contains (49 :: (List.replicate n 44 ++ [50])) 32 = false := by
    simp only [Contains, decide_eq_false_iff_not, List.mem_cons, List.mem_append,
      List.mem_replicate, List.mem_singleton, List.not_mem_nil, or_false]
    rintro (h | ⟨-, h⟩ | h) <;> revert h <;> decide
  rw [hT]
  unfold separatorRules
  rw [if_neg (by simp [h32]), replaceCommas_none_cons _ _ (by decide), replaceCommas_run]
  rfl

/-- Three commas or more between two numbers leave two adjacent commas, and
the text is not a JSON array. -/
theorem checkValid_commaText (k : Nat) : checkValid (commaText (k + 2)) = false := by
  have e : commaText (k + 2) = [91, 49, 44, 44] ++ (List.replicate k 44 ++ [50, 93]) := by
    rw [commaText_eq, List.replicate_succ, List.replicate_succ]
    simp
  have h : scanBytes Scanner.reset [91, 49, 44, 44] = none := by decide
  unfold checkValid
  rw [e, scanBytes_append, h]
  rfl

theorem rdropWhile_append_rtakeWhile (p : UInt8 → Bool) (l : GoString) :
    l.rdropWhile p ++ l.rtakeWhile p = l := by
  unfold List.rdropWhile List.rtakeWhile
  rw [← List.reverse_append, List.takeWhile_append_dropWhile, List.reverse_reverse]

/-- The text that Trim leaves: all brackets at the start and at the end are
gone, and no other byte. -/
theorem Trim_decompose (t : GoString) :
    ∃ pre post, t = pre ++ Trim t (lit "[]") ++ post ∧ pre.all isBracket = true ∧
      post.all isBracket = true ∧
      (∀ c, (Trim t (lit "[]")).head? = some c → isBracket c = false) ∧
      (∀ c, (Trim t (lit "[]")).getLast? = some c → isBracket c = false) := by
  rw [Trim_eq]
  refine ⟨(t.rdropWhile isBracket).takeWhile isBracket, t.rtakeWhile isBracket, ?_, ?_, ?_, ?_, ?_⟩
  · rw [List.takeWhile_append_dropWhile, rdropWhile_append_rtakeWhile]
  · exact List.all_takeWhile
  · rw [List.all_eq_true]
    intro x hx
    exact List.mem_rtakeWhile_imp hx
  · intro c hc
    have := List.head?_dropWhile_not isBracket (t.rdropWhile isBracket)
    rw [hc] at this
    simpa using this
  · intro c hc
    have hne : List.dropWhile isBracket (t.rdropWhile isBracket) ≠ [] := by
      intro h
      rw [h] at hc
      cases hc
    have hne2 : t.rdropWhile isBracket ≠ [] := by
      intro h
      rw [h] at hne
      exact hne rfl
    have hl : (t.rdropWhile isBracket).getLast? = some c := by
      rw [← List.takeWhile_append_dropWhile isBracket (t.rdropWhile isBracket),
        List.getLast?_append_of_ne_nil _ hne]
      exact hc
    have hlast := List.rdropWhile_last_not isBracket t hne2
    rw [List.getLast?_eq_getLast _ hne2, Option.some.injEq] at hl
    rw [← hl]
    simpa using hlast

theorem cleanInput_wrap (t : GoString) :
    cleanInput (lit "[" ++ t ++ lit "]") =
      lit "[" ++ separatorRules (Trim t (lit "[]")) ++ lit "]" := by
  have e : lit "[" ++ t ++ lit "]" = 91 :: (t ++ 93 :: []) := by simp [lit_open, lit_close]
  rw [e, cleanInput_bracketed t [] (by simp)]
  simp [lit_open, lit_close]

theorem ints_decode (b : Nat) (hb : b = 8 ∨ b = 16 ∨ b = 32 ∨ b = 64) (xs : List Int)
    (hxs : ∀ x ∈ xs, -(2 : Int) ^ (b - 1) ≤ x ∧ x < (2 : Int) ^ (b - 1)) :
    (xs.map Itoa).map (stored (storeInt b) 0) = xs ∧
      firstError (storeInt b) (xs.map Itoa) = none := by
  induction xs with
  | nil => exact ⟨rfl, rfl⟩
  | cons x r ih =>
    obtain ⟨i1, i2⟩ := ih (fun y hy => hxs y (List.mem_cons_of_mem _ hy))
    have hs := storeInt_Itoa b hb x
    rw [if_pos (hxs x (List.mem_cons_self _ _))] at hs
    constructor
    · simp only [List.map_cons, stored, hs, i1]
    · simp only [List.map_cons, firstError, hs, i2]

/-! ## Claims C11 to C20: sequences, strings and runes -/

/-- C11: for every list `xs` of ints (64 bits wide) and each separator among a
single space, a comma, and a comma followed by a space, AsSliceInt on the text
`[` + `xs` joined by the separator + `]`, followed or not by a newline,
returns exactly `xs` and no error; in particular the space-separated text
gives the same sequence as the comma-separated one. -/
theorem C11_AsSliceInt_joined (xs : List Int) (sep tail : GoString)
    (hxs : ∀ x ∈ xs, -(2 : Int) ^ 63 ≤ x ∧ x < (2 : Int) ^ 63)
    (hsep : sep = lit " " ∨ sep = lit "," ∨ sep = lit ", ")
    (htail : tail = [] ∨ tail = [10]) :
    Result.AsSliceInt ⟨arrayText (xs.map Itoa) sep ++ tail⟩ = (some xs, none) ∧
    Result.AsSliceInt ⟨arrayText (xs.map Itoa) (lit " ")⟩ =
      Result.AsSliceInt ⟨arrayText (xs.map Itoa) (lit ",")⟩ := by
  have key : ∀ sep1 tail1 : GoString, (sep1 = [32] ∨ sep1 = [44] ∨ sep1 = [44, 32]) →
      (tail1 = [] ∨ tail1 = [10]) →
      Result.AsSliceInt ⟨arrayText (xs.map Itoa) sep1 ++ tail1⟩ = (some xs, none) := by
    intro sep1 tail1 h1 h2
    have hsolid : ∀ y ∈ xs.map Itoa, isSolid y = true := by
      intro y hy
      obtain ⟨x, -, rfl⟩ := List.mem_map.1 hy
      exact Itoa_isSolid x
    have hscalar : ∀ y ∈ xs.map Itoa, isScalar y = true := by
      intro y hy
      obtain ⟨x, -, rfl⟩ := List.mem_map.1 hy
      exact Itoa_isScalar x
    have hspace : ∀ y ∈ xs.map Itoa, (32 : UInt8) ∉ y := by
      intro y hy
      obtain ⟨x, -, rfl⟩ := List.mem_map.1 hy
      exact Itoa_no_space x
    have htrail : ∀ c ∈ tail1, asciiSpace c = true := by
      rcases h2 with rfl | rfl
      · simp
      · intro c hc
        simp only [List.mem_singleton] at hc
        subst hc
        decide
    obtain ⟨d1, d2⟩ := ints_decode 64 (by simp) xs hxs
    show Unmarshal (storeInt intSize) 0 (cleanInput (arrayText (xs.map Itoa) sep1 ++ tail1)) = _
    rw [Unmarshal_arrayText _ _ _ sep1 tail1 h1 hsolid hscalar (fun _ => hspace) htrail]
    exact Prod.ext (congrArg some d1) d2
  rw [lit_space, lit_comma, lit_comma_space] at hsep
  refine ⟨key sep tail hsep htail, ?_⟩
  have k1 := key [32] [] (Or.inl rfl) (Or.inl rfl)
  have k2 := key [44] [] (Or.inr (Or.inl rfl)) (Or.inl rfl)
  rw [List.append_nil] at k1 k2
  rw [lit_space, lit_comma, k1, k2]

/-- C11 at the list 1, 2, 3 joined by spaces and followed by a newline. -/
theorem C11_AsSliceInt_joined_witness :
    arrayText ([1, 2, 3].map Itoa) (lit " ") ++ [10] = lit "[1 2 3]" ++ [10] ∧
    Result.AsSliceInt ⟨arrayText ([1, 2, 3].map Itoa) (lit " ") ++ [10]⟩ =
      (some [1, 2, 3], none) :=
  ⟨by decide,
    (C11_AsSliceInt_joined [1, 2, 3] (lit " ") [10]
      (by
        intro x hx
        simp only [List.mem_cons, List.mem_singleton, List.not_mem_nil, or_false] at hx
        rcases hx with rfl | rfl | rfl <;> norm_num)
      (Or.inl rfl) (Or.inr rfl)).1⟩

/-- C12: for every sequence conversion AsSlice*, complex and string element
types included, the stored string `[]` yields an empty sequence that is not
nil, and no error. -/
theorem C12_empty_array_all_conversions :
    Result.AsSliceInt ⟨lit "[]"⟩ = (some [], none) ∧
    Result.AsSliceInt8 ⟨lit "[]"⟩ = (some [], none) ∧
    Result.AsSliceInt16 ⟨lit "[]"⟩ = (some [], none) ∧
    Result.AsSliceInt32 ⟨lit "[]"⟩ = (some [], none) ∧
    Result.AsSliceInt64 ⟨lit "[]"⟩ = (some [], none) ∧
    Result.AsSliceUint ⟨lit "[]"⟩ = (some [], none) ∧
    Result.AsSliceUint8 ⟨lit "[]"⟩ = (some [], none) ∧
    Result.AsSliceUint16 ⟨lit "[]"⟩ = (some [], none) ∧
    Result.AsSliceUint32 ⟨lit "[]"⟩ = (some [], none) ∧
    Result.AsSliceUint64 ⟨lit "[]"⟩ = (some [], none) ∧
    Result.AsSliceUintptr ⟨lit "[]"⟩ = (some [], none) ∧
    Result.AsSliceByte ⟨lit "[]"⟩ = (some [], none) ∧
    Result.AsSliceRune ⟨lit "[]"⟩ = (some [], none) ∧
    (∀ k : FloatKind, Result.AsSliceFloat32 k ⟨lit "[]"⟩ = (some [], none)) ∧
    (∀ k : FloatKind, Result.AsSliceFloat64 k ⟨lit "[]"⟩ = (some [], none)) ∧
    (∀ k : FloatKind, Result.AsSliceComplex64 k ⟨lit "[]"⟩ = (some [], none)) ∧
    (∀ k : FloatKind, Result.AsSliceComplex128 k ⟨lit "[]"⟩ = (some [], none)) ∧
    Result.AsSliceBool ⟨lit "[]"⟩ = (some [], none) ∧
    Result.AsSliceString ⟨lit "[]"⟩ = (some [], none) :=
  ⟨Unmarshal_empty (storeInt intSize) 0, Unmarshal_empty (storeInt 8) 0,
    Unmarshal_empty (storeInt 16) 0, Unmarshal_empty (storeInt 32) 0,
    Unmarshal_empty (storeInt 64) 0, Unmarshal_empty (storeUint intSize) 0,
    Unmarshal_empty (storeUint 8) 0, Unmarshal_empty (storeUint 16) 0,
    Unmarshal_empty (storeUint 32) 0, Unmarshal_empty (storeUint 64) 0,
    Unmarshal_empty (storeUint intSize) 0, Unmarshal_empty (storeUint 8) 0,
    Unmarshal_empty (storeInt 32) 0, fun k => Unmarshal_empty (storeFloat k) k.zero,
    fun k => Unmarshal_empty (storeFloat k) k.zero,
    fun k => Unmarshal_empty (storeComplex k) (k.zero, k.zero),
    fun k => Unmarshal_empty (storeComplex k) (k.zero, k.zero),
    Unmarshal_empty storeBool false, Unmarshal_empty storeString []⟩

/-- C13, as stated, fails: `[ 1 ]` is a well-formed array text whose only
element is a number valid for int8 (json.Unmarshal alone reads it as the
sequence 1 with no error), but the normalization turns it into `[,1,]` and
AsSliceInt8 returns a nil sequence and an error, not one entry per element. -/
theorem C13_padded_array_is_rejected :
    Unmarshal (storeInt 8) 0 (lit "[ 1 ]") = (some [1], none) ∧
    cleanInput (lit "[ 1 ]") = lit "[,1,]" ∧
    Result.AsSliceInt8 ⟨lit "[ 1 ]"⟩ = (none, some JsonError.SyntaxError) := by
  decide

/-- C13, amended: for every numeric sequence conversion and every array text
`[` + elements joined by a comma and a space + `]` whose elements are base-10
integers or quoted (JSON-escaped) strings, the conversion returns a sequence
with one entry per element, and the error is nil exactly when every element
converts. The entry is the converted value where the element converts; where
it does not, it is the zero value, except that in a sequence of floating-point
numbers the entry of a number that does not convert is what the decoder of the
library leaves there: the zero value with a decoder that leaves the element
alone, a value such as the infinity ParseFloat returns for a number out of
range with a decoder that stores it before it reports the error. An integer
converts for an integer element type when it is in the
range of the type, for a floating-point element type when ParseFloat accepts
it, and never for a complex element type; a string never converts. The array
of the strings hello and world and the number 1, read as a sequence of int8,
gives the zero value twice, then 1, and an error. -/
theorem C13_one_entry_per_element (toks : List Tok) :
    (∀ c ∈ signedSlices,
      (c.2.2 ⟨arrayText (toks.map Tok.text) (lit ", ")⟩).1 =
        some (toks.map (fun t => (t.asInt c.1).getD 0)) ∧
      ((c.2.2 ⟨arrayText (toks.map Tok.text) (lit ", ")⟩).2 = none ↔
        ∀ t ∈ toks, (t.asInt c.1).isSome = true)) ∧
    (∀ c ∈ unsignedSlices,
      (c.2.2 ⟨arrayText (toks.map Tok.text) (lit ", ")⟩).1 =
        some (toks.map (fun t => (t.asUint c.1).getD 0)) ∧
      ((c.2.2 ⟨arrayText (toks.map Tok.text) (lit ", ")⟩).2 = none ↔
        ∀ t ∈ toks, (t.asUint c.1).isSome = true)) ∧
    (∀ k : FloatKind,
      (Result.AsSliceFloat32 k ⟨arrayText (toks.map Tok.text) (lit ", ")⟩).1 =
        some (toks.map (fun t => (t.asFloat k).getD (t.leftFloat k))) ∧
      ((Result.AsSliceFloat32 k ⟨arrayText (toks.map Tok.text) (lit ", ")⟩).2 = none ↔
        ∀ t ∈ toks, (t.asFloat k).isSome = true) ∧
      (Result.AsSliceFloat64 k ⟨arrayText (toks.map Tok.text) (lit ", ")⟩).1 =
        some (toks.map (fun t => (t.asFloat k).getD (t.leftFloat k))) ∧
      ((Result.AsSliceFloat64 k ⟨arrayText (toks.map Tok.text) (lit ", ")⟩).2 = none ↔
        ∀ t ∈ toks, (t.asFloat k).isSome = true)) ∧
    (∀ k : FloatKind,
      (Result.AsSliceComplex64 k ⟨arrayText (toks.map Tok.text) (lit ", ")⟩).1 =
        some (toks.map (fun _ => (k.zero, k.zero))) ∧
      ((Result.AsSliceComplex64 k ⟨arrayText (toks.map Tok.text) (lit ", ")⟩).2 = none ↔
        toks = []) ∧
      (Result.AsSliceComplex128 k ⟨arrayText (toks.map Tok.text) (lit ", ")⟩).1 =
        some (toks.map (fun _ => (k.zero, k.zero))) ∧
      ((Result.AsSliceComplex128 k ⟨arrayText (toks.map Tok.text) (lit ", ")⟩).2 = none ↔
        toks = [])) ∧
    (Result.AsSliceInt8 ⟨lit "[\"hello\", \"world\", 1]"⟩).1 = some [0, 0, 1] ∧
    (Result.AsSliceInt8 ⟨lit "[\"hello\", \"world\", 1]"⟩).2 ≠ none := by
  refine ⟨?_, ?_, ?_, ?_, by decide, by decide⟩
  · intro c hc
    obtain ⟨hb, -, he⟩ := signedSlices_eq c hc
    rw [he]
    exact Unmarshal_toks (storeInt c.1) 0 (Tok.asInt c.1) (fun _ _ => rfl) toks
      (storeInt_tok c.1 hb)
  · intro c hc
    obtain ⟨hb, -, he⟩ := unsignedSlices_eq c hc
    rw [he]
    exact Unmarshal_toks (storeUint c.1) 0 (Tok.asUint c.1) (fun _ _ => rfl) toks
      (storeUint_tok c.1 hb)
  · intro k
    have h := Unmarshal_toks_left (storeFloat k) k.zero (Tok.asFloat k) (Tok.leftFloat k)
      (fun _ _ => rfl) (fun _ _ => rfl) toks (storeFloat_tok k)
    exact ⟨h.1, h.2, h.1, h.2⟩
  · intro k
    have h := Unmarshal_toks (storeComplex k) (k.zero, k.zero) (fun _ => none) (fun _ _ => rfl)
      toks (storeComplex_tok k)
    have hnil : (∀ t ∈ toks, (none : Option (k.F × k.F)).isSome = true) ↔ toks = [] := by
      constructor
      · intro hall
        cases toks with
        | nil => rfl
        | cons t r => exact absurd (hall t (List.mem_cons_self _ _)) (by simp)
      · rintro rfl t ht
        cases ht
    have h1 : (Unmarshal (storeComplex k) (k.zero, k.zero)
        (cleanInput (arrayText (toks.map Tok.text) (lit ", ")))).1 =
        some (toks.map (fun _ => (k.zero, k.zero))) := h.1
    exact ⟨h1, h.2.trans hnil, h1, h.2.trans hnil⟩

/-- C14: for every sequence conversion, when the normalized text is not a
well-formed JSON value (and so no well-formed sequence literal), the conversion
returns a nil sequence and a syntax error; the element type plays no part, no
element is converted. The input `invalid` is such a text. -/
theorem C14_invalid_text_gives_nil (o : Result)
    (h : checkValid (cleanInput o.Value) = false) :
    (∀ (α : Type) (store : GoString → Store α) (zero : α),
      Unmarshal store zero (cleanInput o.Value) = (none, some JsonError.SyntaxError)) ∧
    o.AsSliceInt = (none, some JsonError.SyntaxError) ∧
    o.AsSliceInt8 = (none, some JsonError.SyntaxError) ∧
    o.AsSliceInt16 = (none, some JsonError.SyntaxError) ∧
    o.AsSliceInt32 = (none, some JsonError.SyntaxError) ∧
    o.AsSliceInt64 = (none, some JsonError.SyntaxError) ∧
    o.AsSliceUint = (none, some JsonError.SyntaxError) ∧
    o.AsSliceUint8 = (none, some JsonError.SyntaxError) ∧
    o.AsSliceUint16 = (none, some JsonError.SyntaxError) ∧
    o.AsSliceUint32 = (none, some JsonError.SyntaxError) ∧
    o.AsSliceUint64 = (none, some JsonError.SyntaxError) ∧
    o.AsSliceUintptr = (none, some JsonError.SyntaxError) ∧
    o.AsSliceByte = (none, some JsonError.SyntaxError) ∧
    o.AsSliceRune = (none, some JsonError.SyntaxError) ∧
    (∀ k : FloatKind, Result.AsSliceFloat32 k o = (none, some JsonError.SyntaxError)) ∧
    (∀ k : FloatKind, Result.AsSliceFloat64 k o = (none, some JsonError.SyntaxError)) ∧
    (∀ k : FloatKind, Result.AsSliceComplex64 k o = (none, some JsonError.SyntaxError)) ∧
    (∀ k : FloatKind, Result.AsSliceComplex128 k o = (none, some JsonError.SyntaxError)) ∧
    o.AsSliceBool = (none, some JsonError.SyntaxError) ∧
    o.AsSliceString = (none, some JsonError.SyntaxError) :=
  ⟨fun _ store zero => Unmarshal_invalid store zero _ h,
    Unmarshal_invalid (storeInt intSize) 0 _ h, Unmarshal_invalid (storeInt 8) 0 _ h,
    Unmarshal_invalid (storeInt 16) 0 _ h, Unmarshal_invalid (storeInt 32) 0 _ h,
    Unmarshal_invalid (storeInt 64) 0 _ h, Unmarshal_invalid (storeUint intSize) 0 _ h,
    Unmarshal_invalid (storeUint 8) 0 _ h, Unmarshal_invalid (storeUint 16) 0 _ h,
    Unmarshal_invalid (storeUint 32) 0 _ h, Unmarshal_invalid (storeUint 64) 0 _ h,
    Unmarshal_invalid (storeUint intSize) 0 _ h, Unmarshal_invalid (storeUint 8) 0 _ h,
    Unmarshal_invalid (storeInt 32) 0 _ h,
    fun k => Unmarshal_invalid (storeFloat k) k.zero _ h,
    fun k => Unmarshal_invalid (storeFloat k) k.zero _ h,
    fun k => Unmarshal_invalid (storeComplex k) (k.zero, k.zero) _ h,
    fun k => Unmarshal_invalid (storeComplex k) (k.zero, k.zero) _ h,
    Unmarshal_invalid storeBool false _ h, Unmarshal_invalid storeString [] _ h⟩

/-- C14 at the input `invalid`, normalized to `[invalid]`. -/
theorem C14_invalid_text_gives_nil_witness :
    cleanInput (lit "invalid") = lit "[invalid]" ∧
    checkValid (cleanInput (lit "invalid")) = false ∧
    Result.AsSliceString ⟨lit "invalid"⟩ = (none, some JsonError.SyntaxError) :=
  ⟨by decide, by decide,
    (C14_invalid_text_gives_nil ⟨lit "invalid"⟩ (by decide)).2.2.2.2.2.2.2.2.2.2.2.2.2.2.2.2.2.2.2⟩

/-- C15, as stated, fails: the normalization of `[[1,2]]` is `[1,2]`, the
inner pair of brackets is removed with the outer one, where stripping one layer
leaves `[[1,2]]`; and `[1,2`, which has no enclosing pair, loses its bracket
and is normalized to `[1,2]`, where stripping one layer leaves `[[1,2]`. -/
theorem C15_inner_brackets_are_stripped :
    cleanInput (lit "[[1,2]]") = lit "[1,2]" ∧
    lit "[" ++ separatorRules (stripOneLayer (TrimSpace (lit "[[1,2]]"))) ++ lit "]" =
      lit "[[1,2]]" ∧
    cleanInput (lit "[1,2") = lit "[1,2]" ∧
    lit "[" ++ separatorRules (stripOneLayer (TrimSpace (lit "[1,2"))) ++ lit "]" =
      lit "[[1,2]" := by
  decide

/-- C15, amended: the normalization strips every square bracket at the two
ends, not one layer. For every text `t`, normalizing `[` + `t` + `]` removes
the outer pair together with all the brackets that `t` starts with and all
those it ends with: `t` is `pre` + `core` + `post`, where `pre` and `post` are
made of brackets and `core` neither starts nor ends with one, and the result is
`[` + the rules for the separators applied to `core` + `]`. The outer pair
alone is removed when `t` neither starts nor ends with a bracket. -/
theorem C15_end_brackets_are_stripped (t : GoString) :
    (∃ pre core post, t = pre ++ core ++ post ∧ pre.all isBracket = true ∧
      post.all isBracket = true ∧
      (∀ c, core.head? = some c → isBracket c = false) ∧
      (∀ c, core.getLast? = some c → isBracket c = false) ∧
      cleanInput (lit "[" ++ t ++ lit "]") = lit "[" ++ separatorRules core ++ lit "]") ∧
    ((∀ c, t.head? = some c → isBracket c = false) →
      (∀ c, t.getLast? = some c → isBracket c = false) →
      cleanInput (lit "[" ++ t ++ lit "]") = lit "[" ++ separatorRules t ++ lit "]") := by
  constructor
  · obtain ⟨pre, post, h1, h2, h3, h4, h5⟩ := Trim_decompose t
    exact ⟨pre, Trim t (lit "[]"), post, h1, h2, h3, h4, h5, cleanInput_wrap t⟩
  · intro h1 h2
    rw [cleanInput_wrap, Trim_id t h1 h2]

/-- C16: three commas between two numbers are not collapsed to one. The
normalization takes the commas of a run two by two and turns each pair into one
comma, so a run of `n` commas leaves `(n + 1) / 2` of them: `[1,,,2]` becomes
`[1,,2]`, and AsSliceInt returns a nil sequence and a syntax error for every run
of three commas or more; a run of two is collapsed and parses to 1, 2. -/
theorem C16_comma_runs_are_halved (n : Nat) :
    cleanInput (commaText n) = commaText ((n + 1) / 2) ∧
    Result.AsSliceInt ⟨commaText (n + 3)⟩ = (none, some JsonError.SyntaxError) ∧
    commaText 3 = lit "[1,,,2]" ∧
    cleanInput (lit "[1,,,2]") = lit "[1,,2]" ∧
    Result.AsSliceInt ⟨lit "[1,,,2]"⟩ = (none, some JsonError.SyntaxError) ∧
    Result.AsSliceInt ⟨lit "[1,,2]"⟩ = (some [1, 2], none) := by
  refine ⟨cleanInput_commaText n, ?_, by decide, by decide, by decide, by decide⟩
  show Unmarshal (storeInt intSize) 0 (cleanInput (commaText (n + 3))) = _
  have e : (n + 3 + 1) / 2 = n / 2 + 2 := by omega
  rw [cleanInput_commaText, e]
  exact Unmarshal_invalid _ _ _ (checkValid_commaText (n / 2))

/-- C17, as stated, fails: the token `1` has no space, comma or bracket, and
AsBool converts it to true with no error, but AsSliceBool on `[1]` returns the
sequence with the one entry false and an error: an element is decoded as a JSON
value, not by the scalar rule. In the same way AsInt accepts `+5`, and
AsSliceInt on `[+5]` returns a nil sequence and an error. -/
theorem C17_bool_element_is_not_ParseBool :
    Result.AsBool ⟨lit "1"⟩ = (true, none) ∧
    Result.AsSliceBool ⟨lit "[1]"⟩ =
      (some [false], some (JsonError.UnmarshalTypeError (lit "number"))) ∧
    (Result.AsInt ⟨lit "+5"⟩).1 = 5 ∧ (Result.AsInt ⟨lit "+5"⟩).2 = none ∧
    Result.AsSliceInt ⟨lit "[+5]"⟩ = (none, some JsonError.SyntaxError) := by
  decide

/-- C17, amended: for every integer element type (the signed and the unsigned
widths, byte and rune) and the base-10 text `t` of every integer, as Itoa
writes it, the sequence conversion on `[` + `t` + `]` returns the one-element
sequence of `x` with no error exactly when the scalar conversion on `t` returns
`x` with no error. -/
theorem C17_integer_element_matches_scalar (v : Int) :
    (∀ c ∈ signedSlices, ∀ x : Int,
      c.2.2 ⟨lit "[" ++ Itoa v ++ lit "]"⟩ = (some [x], none) ↔ c.2.1 ⟨Itoa v⟩ = (x, none)) ∧
    (∀ c ∈ unsignedSlices, ∀ x : Nat,
      c.2.2 ⟨lit "[" ++ Itoa v ++ lit "]"⟩ = (some [x], none) ↔ c.2.1 ⟨Itoa v⟩ = (x, none)) := by
  have htext : lit "[" ++ Itoa v ++ lit "]" = arrayText [Itoa v] (lit ", ") ++ [] := by
    simp [arrayText, Join]
  have hU : ∀ {α : Type} (store : GoString → Store α) (zero : α),
      Unmarshal store zero (cleanInput (lit "[" ++ Itoa v ++ lit "]")) =
        (some [stored store zero (Itoa v)], firstError store [Itoa v]) := by
    intro α store zero
    rw [htext, Unmarshal_arrayText store zero [Itoa v] (lit ", ") []
      (Or.inr (Or.inr lit_comma_space))
      (by intro y hy; rw [List.mem_singleton.1 hy]; exact Itoa_isSolid v)
      (by intro y hy; rw [List.mem_singleton.1 hy]; exact Itoa_isScalar v)
      (by intro _ y hy; rw [List.mem_singleton.1 hy]; exact Itoa_no_space v)
      (by simp)]
    rfl
  constructor
  · intro c hc x
    obtain ⟨hb, hmem, he⟩ := signedSlices_eq c hc
    have hs := storeInt_Itoa c.1 hb v
    have hv := signed_Itoa (c.1, c.2.1) hmem v
    simp only at hv
    rw [he, hU]
    by_cases hr : -(2 : Int) ^ (c.1 - 1) ≤ v ∧ v < (2 : Int) ^ (c.1 - 1)
    · rw [if_pos hr] at hs
      rw [if_neg (by omega), if_neg (by omega)] at hv
      have e1 := congrArg Prod.fst hv
      have e2 := (errKind_eq_none _).1 (congrArg Prod.snd hv)
      simp only at e1
      have hres : c.2.1 ⟨Itoa v⟩ = (v, none) := Prod.ext e1 e2
      simp only [stored, firstError, hs, hres, Prod.mk.injEq, Option.some.injEq,
        List.cons.injEq, and_true]
    · rw [if_neg hr] at hs
      have hne : (c.2.1 ⟨Itoa v⟩).2 ≠ none := by
        intro hn
        rw [hn] at hv
        by_cases h1 : v < -(2 : Int) ^ (c.1 - 1)
        · rw [if_pos h1] at hv
          simp [errKind] at hv
        · rw [if_neg h1, if_pos (by omega)] at hv
          simp [errKind] at hv
      simp only [stored, firstError, hs, typeError, Prod.mk.injEq, reduceCtorEq, and_false,
        false_iff]
      intro hh
      rw [hh] at hne
      exact hne rfl
  · intro c hc x
    obtain ⟨hb, hmem, he⟩ := unsignedSlices_eq c hc
    have hs := storeUint_Itoa c.1 hb v
    obtain ⟨u1, u2⟩ := unsigned_Itoa (c.1, c.2.1) hmem v
    simp only at u1 u2
    rw [he, hU]
    by_cases hr : 0 ≤ v ∧ v < (2 : Int) ^ c.1
    · rw [if_pos hr] at hs
      simp only [stored, firstError, hs, u1 hr, Prod.mk.injEq, Option.some.injEq,
        List.cons.injEq, and_true]
    · rw [if_neg hr] at hs
      have hne := u2 hr
      simp only [stored, firstError, hs, typeError, Prod.mk.injEq, reduceCtorEq, and_false,
        false_iff]
      intro hh
      rw [hh] at hne
      exact hne rfl

/-- C18, as stated, fails: for the list of the one string `hello world`, the
array text holds the quoted string alone; it has a space and no comma, the
normalization turns the space into a comma, and AsSliceString returns
`hello,world`. For the strings `a,,b` and `c`, the regular expression takes the
two commas inside the first string for one, and AsSliceString returns `a,b`
and `c`. For the string of the one byte 0xFF, which is not valid UTF-8, the
decoder writes the replacement character U+FFFD. -/
theorem C18_strings_are_rewritten :
    arrayText ([lit "hello world"].map quote) (lit ", ") = lit "[\"hello world\"]" ∧
    Result.AsSliceString ⟨arrayText ([lit "hello world"].map quote) (lit ", ")⟩ =
      (some [lit "hello,world"], none) ∧
    arrayText ([lit "a,,b", lit "c"].map quote) (lit ", ") = lit "[\"a,,b\", \"c\"]" ∧
    Result.AsSliceString ⟨arrayText ([lit "a,,b", lit "c"].map quote) (lit ", ")⟩ =
      (some [lit "a,b", lit "c"], none) ∧
    arrayText ([[0xFF]].map quote) (lit ", ") = [91, 34, 0xFF, 34, 93] ∧
    Result.AsSliceString ⟨arrayText ([[0xFF]].map quote) (lit ", ")⟩ =
      (some [[0xEF, 0xBF, 0xBD]], none) := by
  decide

/-- C18, amended: for every list `ss` of valid UTF-8 strings in which no
string has two commas with nothing but spaces between them, and which is not
one single string with a space and no comma, AsSliceString applied to the
array text whose elements are the quoted (JSON-escaped) strings of `ss`
separated by a comma and a space, inside square brackets, returns exactly `ss`
and no error. -/
theorem C18_strings_roundtrip (ss : List GoString)
    (h1 : ∀ s ∈ ss, ValidString s = true ∧ commaPair s = false)
    (h2 : ∀ s, ss = [s] → Contains s 32 = true → Contains s 44 = true) :
    Result.AsSliceString ⟨arrayText (ss.map quote) (lit ", ")⟩ = (some ss, none) := by
  have htext : ss.map quote = (ss.map Tok.str).map Tok.text := by
    rw [List.map_map]
    rfl
  have hsq : ∀ l : List GoString, (∀ s ∈ l, commaPair s = false) →
      (l.map Tok.str).map Tok.squeezed = l.map Tok.str := by
    intro l hl
    rw [List.map_map]
    apply List.map_congr_left
    intro s hs
    show Tok.str (squeeze none s) = Tok.str s
    rw [(squeeze_id s).2 (hl s hs)]
  have hnorm : normToks (ss.map Tok.str) = ss.map Tok.str := by
    match ss, h1, h2 with
    | [], _, _ => rfl
    | [s], h1, h2 =>
      have hn : ¬ (Contains s 32 = true ∧ ¬ Contains s 44 = true) :=
        fun hh => hh.2 (h2 s rfl hh.1)
      show normToks [Tok.str s] = [Tok.str s]
      rw [normToks_str, if_neg hn, (squeeze_id s).2 (h1 s (List.mem_singleton_self s)).2]
    | x :: y :: r, h1, _ =>
      show normToks (Tok.str x :: Tok.str y :: r.map Tok.str) = _
      rw [normToks_cons_cons]
      exact hsq (x :: y :: r) (fun s hs => (h1 s hs).2)
  have hscalar : ∀ y ∈ ss.map quote, isScalar y = true := by
    intro y hy
    obtain ⟨s, -, rfl⟩ := List.mem_map.1 hy
    exact quote_isScalar s
  have hdec : (ss.map quote).map (stored storeString []) = ss ∧
      firstError storeString (ss.map quote) = none := by
    clear h2 hscalar hnorm htext
    induction ss with
    | nil => exact ⟨rfl, rfl⟩
    | cons s r ih =>
      obtain ⟨i1, i2⟩ := ih (fun y hy => h1 y (List.mem_cons_of_mem _ hy))
      have hs : storeString (quote s) = Store.set s :=
        literalStore_quote _ _ _ s (h1 s (List.mem_cons_self _ _)).1
      constructor
      · simp only [List.map_cons, stored, hs, i1]
      · simp only [List.map_cons, firstError, hs, i2]
  have hU := Unmarshal_array storeString [] [32] (Or.inr rfl) (ss.map quote) hscalar
  show Unmarshal storeString [] (cleanInput (arrayText (ss.map quote) (lit ", "))) = _
  rw [htext, cleanInput_toks, hnorm, ← htext, hU]
  exact Prod.ext (congrArg some hdec.1) hdec.2

/-- C18 at the strings `say "hi"`, with its quotes escaped, `a, b` and
`né`. -/
theorem C18_strings_roundtrip_witness :
    arrayText ([lit "say \"hi\"", lit "a, b", lit "né"].map quote) (lit ", ") =
      lit "[\"say \\\"hi\\\"\", \"a, b\", \"né\"]" ∧
    lit "né" = [110, 195, 169] ∧
    Result.AsSliceString
        ⟨arrayText ([lit "say \"hi\"", lit "a, b", lit "né"].map quote) (lit ", ")⟩ =
      (some [lit "say \"hi\"", lit "a, b", lit "né"], none) :=
  ⟨by decide, by decide,
    C18_strings_roundtrip [lit "say \"hi\"", lit "a, b", lit "né"]
      (by
        intro s hs
        simp only [List.mem_cons, List.mem_singleton, List.not_mem_nil, or_false] at hs
        rcases hs with rfl | rfl | rfl <;> decide)
      (by
        intro s hl
        cases hl)⟩

/-- C19: AsString returns the stored Value unchanged, for every Result; it
has no error result, so it never fails. -/
theorem C19_AsString_is_Value (o : Result) : o.AsString = o.Value := rfl

/-- C20: AsRune is the signed 32-bit conversion. For every stored string it
returns the same value and the same error as AsInt32; the text of every
integer in the int32 range converts to that integer with no error (`-1` gives
-1 and `1114111` gives 1114111), and the text of an integer out of that range
gives the nearest bound of the range and a range error. -/
theorem C20_AsRune_is_AsInt32 (o : Result) :
    o.AsRune = o.AsInt32 ∧
    (∀ v : Int, -(2 : Int) ^ 31 ≤ v → v ≤ (2 : Int) ^ 31 - 1 →
      Result.AsRune ⟨Itoa v⟩ = (v, none)) ∧
    Result.AsRune ⟨lit "-1"⟩ = (-1, none) ∧
    Result.AsRune ⟨lit "1114111"⟩ = (1114111, none) ∧
    (∀ v : Int, (2 : Int) ^ 31 - 1 < v →
      (Result.AsRune ⟨Itoa v⟩).1 = (2 : Int) ^ 31 - 1 ∧
        errKind (Result.AsRune ⟨Itoa v⟩).2 = some ConvErr.ErrRange) ∧
    (∀ v : Int, v < -(2 : Int) ^ 31 →
      (Result.AsRune ⟨Itoa v⟩).1 = -(2 : Int) ^ 31 ∧
        errKind (Result.AsRune ⟨Itoa v⟩).2 = some ConvErr.ErrRange) := by
  have hmem : ((32, Result.AsRune) : Nat × (Result → Int × Option NumError)) ∈
      signedConversions := by simp [signedConversions]
  refine ⟨rfl, ?_, by decide, by decide, ?_, ?_⟩
  · intro v h1 h2
    have hv := signed_Itoa (32, Result.AsRune) hmem v
    simp only at hv
    rw [if_neg (by norm_num; omega), if_neg (by norm_num; omega)] at hv
    have e1 := congrArg Prod.fst hv
    have e2 := (errKind_eq_none _).1 (congrArg Prod.snd hv)
    exact Prod.ext e1 e2
  · intro v h1
    have hv := signed_Itoa (32, Result.AsRune) hmem v
    simp only at hv
    rw [if_neg (by norm_num; omega), if_pos (by norm_num; omega)] at hv
    exact ⟨congrArg Prod.fst hv, congrArg Prod.snd hv⟩
  · intro v h1
    have hv := signed_Itoa (32, Result.AsRune) hmem v
    simp only at hv
    rw [if_pos (by norm_num; omega)] at hv
    exact ⟨congrArg Prod.fst hv, congrArg Prod.snd hv⟩

/-! ## The conversions of native width -/

/-- C21: the conversions of native width are the 64-bit ones. For every stored
string, AsUint and AsUintptr return what AsUint64 returns, value and error
alike; AsInt returns the value of AsInt64, an error of the same kind, and it
fails exactly when AsInt64 fails. The text `18446744073709551615` converts to
2^64-1 with no error, and `18446744073709551616` fails, with a range error and
the value 2^64-1. -/
theorem C21_native_width_is_64 (o : Result) :
    o.AsUint = o.AsUint64 ∧ o.AsUintptr = o.AsUint64 ∧
    (o.AsInt).1 = (o.AsInt64).1 ∧ errKind (o.AsInt).2 = errKind (o.AsInt64).2 ∧
    ((o.AsInt).2 = none ↔ (o.AsInt64).2 = none) ∧
    Result.AsUint ⟨lit "18446744073709551615"⟩ = (2 ^ 64 - 1, none) ∧
    Result.AsUintptr ⟨lit "18446744073709551615"⟩ = (2 ^ 64 - 1, none) ∧
    Result.AsUint64 ⟨lit "18446744073709551615"⟩ = (2 ^ 64 - 1, none) ∧
    (Result.AsUint ⟨lit "18446744073709551616"⟩).1 = 2 ^ 64 - 1 ∧
    errKind (Result.AsUint ⟨lit "18446744073709551616"⟩).2 = some ConvErr.ErrRange ∧
    (Result.AsUintptr ⟨lit "18446744073709551616"⟩).1 = 2 ^ 64 - 1 ∧
    errKind (Result.AsUintptr ⟨lit "18446744073709551616"⟩).2 = some ConvErr.ErrRange ∧
    (Result.AsUint64 ⟨lit "18446744073709551616"⟩).1 = 2 ^ 64 - 1 ∧
    errKind (Result.AsUint64 ⟨lit "18446744073709551616"⟩).2 = some ConvErr.ErrRange := by
  have hw : wrapUint 64 (ParseUint o.Value 64).1 = (ParseUint o.Value 64).1 :=
    Nat.mod_eq_of_lt (ParseUint64_lt o.Value)
  have hu : o.AsUint = o.AsUint64 := by
    simp only [Result.AsUint, Result.AsUint64, intSize, hw]
  have hp : o.AsUintptr = o.AsUint64 := by
    simp only [Result.AsUintptr, Result.AsUint64, intSize, hw]
  have h1 := (signed_conv_eq (64, Result.AsInt) (by simp [signedConversions]) o).2
  have h2 := (signed_conv_eq (64, Result.AsInt64) (by simp [signedConversions]) o).2
  have h12 := h1.trans h2.symm
  have hv : (o.AsInt).1 = (o.AsInt64).1 := (Prod.mk.inj h12).1
  have he : errKind (o.AsInt).2 = errKind (o.AsInt64).2 := (Prod.mk.inj h12).2
  refine ⟨hu, hp, hv, he, ?_, by decide, by decide, by decide, by decide, by decide, by decide,
    by decide, by decide, by decide⟩
  rw [← errKind_eq_none, ← errKind_eq_none, he]

/-! ## Claim C24: the reader goroutine -/

theorem inv_threads (c : Capture) (capacity : Nat) (f : Callback)
    (hm : c.method = PipeWithGoroutine) : (c.threads f).inv c capacity f := by
  simp [Threads.inv, Capture.threads, hm]

theorem copyStep_some (k : Nat) (st st1 : Threads) (h : copyStep k st = some st1) :
    1 ≤ k ∧ k ≤ st.pipe.length ∧
      st1 = { st with buf := st.buf ++ st.pipe.take k, pipe := st.pipe.drop k } := by
  unfold copyStep at h
  by_cases hk : 1 ≤ k ∧ k ≤ st.pipe.length
  · rw [if_pos hk] at h
    exact ⟨hk.1, hk.2, (Option.some.inj h).symm⟩
  · rw [if_neg hk] at h
    cases h

/-- A step of the reader goroutine keeps the invariant. -/
theorem inv_readerStep (c : Capture) (capacity : Nat) (f : Callback) (k : Nat)
    (st st1 : Threads) (hinv : st.inv c capacity f) (h : readerStep k st = some st1) :
    st1.inv c capacity f := by
  obtain ⟨caller, pipe, wOpen, buf, reader, done⟩ := st
  unfold readerStep at h
  by_cases h1 : ¬ reader = true ∨ done = true
  · simp only [h1, if_true] at h
    cases h
  · simp only [h1, if_false] at h
    obtain ⟨hr, hlen, hrest⟩ := hinv
    simp only at hr hlen hrest
    by_cases hp : pipe ≠ []
    · simp only [hp, ne_eq, not_false_eq_true, if_true] at h
      obtain ⟨hk1, hk2, rfl⟩ := copyStep_some k _ _ h
      have happ : (buf ++ List.take k pipe) ++ List.drop k pipe = buf ++ pipe := by
        rw [List.append_assoc, List.take_append_drop]
      have hne : List.drop k pipe = [] → pipe = [] → False := fun _ hp0 => hp hp0
      refine ⟨hr, ?_, ?_⟩
      · simp only [List.length_drop]
        omega
      · cases caller with
        | inCallback ops pending =>
          simp only at hrest ⊢
          rw [happ]
          exact hrest
        | closing =>
          simp only at hrest ⊢
          rw [happ]
          exact hrest
        | waiting =>
          simp only at hrest ⊢
          rw [happ]
          refine ⟨hrest.1, hrest.2.1, fun hd => ?_, hrest.2.2.2⟩
          exact absurd (hrest.2.2.1 hd) hp
        | copying => exact hrest
        | returned val =>
          simp only at hrest
          exact absurd hrest.2.2.1 hp
        | panicked v => exact hrest
    · have hp0 : pipe = [] := not_not.1 hp
      subst hp0
      simp only [ne_eq, not_true_eq_false, if_false] at h
      by_cases hw : wOpen = true
      · simp only [hw, if_true] at h
        cases h
      · simp only [hw, Bool.false_eq_true, if_false] at h
        have h := (Option.some.inj h).symm
        subst h
        refine ⟨hr, hlen, ?_⟩
        cases caller with
        | inCallback ops pending => exact absurd hrest.1 hw
        | closing => exact absurd hrest.1 hw
        | waiting => exact ⟨rfl, hrest.2.1, fun _ => rfl, hrest.2.2.2⟩
        | copying => exact hrest
        | returned val =>
          simp only at hrest
          exact absurd hrest.2.1 (fun hd => h1 (Or.inr hd))
        | panicked v => exact absurd hrest.1 hw

/-- A step of the goroutine that called `capture` keeps the invariant. -/
theorem inv_callerStep (c : Capture) (capacity : Nat) (f : Callback) (k : Nat)
    (hm : c.method = PipeWithGoroutine)
    (st st1 : Threads) (hinv : st.inv c capacity f) (h : callerStep c capacity k st = some st1) :
    st1.inv c capacity f := by
  obtain ⟨caller, pipe, wOpen, buf, reader, done⟩ := st
  obtain ⟨hr, hlen, hrest⟩ := hinv
  simp only at hr hlen hrest
  cases caller with
  | inCallback ops pending =>
    obtain ⟨hw, hd, hcat, hpanic⟩ := hrest
    cases pending with
    | cons b pending =>
      simp only [callerStep] at h
      by_cases hk : 1 ≤ k ∧ k ≤ (b :: pending).length ∧ pipe.length + k ≤ capacity
      · rw [if_pos hk] at h
        have h := (Option.some.inj h).symm
        subst h
        refine ⟨hr, ?_, hw, hd, ?_, hpanic⟩
        · simp only [List.length_append, List.length_take]
          omega
        · show buf ++ (pipe ++ List.take k (b :: pending)) ++ List.drop k (b :: pending) ++
            written c.selects ops = written c.selects f
          rw [← hcat]
          simp only [List.append_assoc, List.take_append_drop]
      · rw [if_neg hk] at h
        cases h
    | nil =>
      cases ops with
      | nil =>
        simp only [callerStep] at h
        have h := (Option.some.inj h).symm
        subst h
        refine ⟨hr, hlen, hw, hd, ?_, ?_⟩
        · simpa [written] using hcat
        · simpa [firstPanic] using hpanic.symm
      | cons op rest =>
        cases op with
        | write s data =>
          simp only [callerStep] at h
          by_cases hs : c.selects s = true
          · rw [if_pos hs] at h
            have h := (Option.some.inj h).symm
            subst h
            refine ⟨hr, hlen, hw, hd, ?_, ?_⟩
            · show buf ++ pipe ++ data ++ written c.selects rest = written c.selects f
              rw [← hcat]
              simp only [written, hs, if_true, List.append_assoc, List.append_nil,
                List.nil_append]
            · simpa [firstPanic] using hpanic
          · rw [if_neg hs] at h
            have h := (Option.some.inj h).symm
            subst h
            refine ⟨hr, hlen, hw, hd, ?_, ?_⟩
            · show buf ++ pipe ++ [] ++ written c.selects rest = written c.selects f
              rw [← hcat]
              simp only [written, hs, Bool.false_eq_true, if_false]
            · simpa [firstPanic] using hpanic
        | panic v =>
          simp only [callerStep] at h
          have h := (Option.some.inj h).symm
          subst h
          refine ⟨hr, hlen, hw, hd, v, rfl, ?_⟩
          simpa [firstPanic] using hpanic.symm
  | closing =>
    obtain ⟨hw, hd, hcat, hpanic⟩ := hrest
    simp only [callerStep, hm, if_true] at h
    have h := (Option.some.inj h).symm
    subst h
    refine ⟨hr, hlen, rfl, hcat, fun hd1 => ?_, hpanic⟩
    simp only at hd1
    rw [hd] at hd1
    cases hd1
  | waiting =>
    obtain ⟨hw, hcat, hpipe, hpanic⟩ := hrest
    simp only [callerStep] at h
    by_cases hd : done = true
    · rw [if_pos hd] at h
      have h := (Option.some.inj h).symm
      subst h
      have hp := hpipe hd
      subst hp
      refine ⟨hr, hlen, hw, hd, rfl, rfl, ?_, hpanic⟩
      simpa using hcat
    · rw [if_neg hd] at h
      cases h
  | copying => exact absurd hrest id
  | returned val =>
    simp only [callerStep] at h
    cases h
  | panicked v =>
    simp only [callerStep] at h
    cases h

theorem inv_step (c : Capture) (capacity : Nat) (f : Callback)
    (hm : c.method = PipeWithGoroutine) (t : Turn)
    (st st1 : Threads) (hinv : st.inv c capacity f) (h : step c capacity st t = some st1) :
    st1.inv c capacity f := by
  cases t with
  | caller k => exact inv_callerStep c capacity f k hm st st1 hinv h
  | reader k => exact inv_readerStep c capacity f k st st1 hinv h

theorem run_cons (c : Capture) (capacity : Nat) (st st2 : Threads) (t : Turn) (ts : List Turn)
    (h : run c capacity st (t :: ts) = some st2) :
    ∃ st1, step c capacity st t = some st1 ∧ run c capacity st1 ts = some st2 := by
  simp only [run] at h
  cases hs : step c capacity st t with
  | none => rw [hs] at h; cases h
  | some st1 => rw [hs] at h; exact ⟨st1, rfl, h⟩

/-- The invariant holds after every schedule. -/
theorem inv_run (c : Capture) (capacity : Nat) (f : Callback)
    (hm : c.method = PipeWithGoroutine) (turns : List Turn) (st st2 : Threads)
    (hinv : st.inv c capacity f) (h : run c capacity st turns = some st2) :
    st2.inv c capacity f := by
  induction turns generalizing st with
  | nil =>
    simp only [run] at h
    exact (Option.some.inj h) ▸ hinv
  | cons t ts ih =>
    obtain ⟨st1, h1, h2⟩ := run_cons c capacity st st2 t ts h
    exact ih st1 (inv_step c capacity f hm t st st1 hinv h1) h2

theorem fuel_copyStep (sel : Stream → Bool) (k : Nat) (st st1 : Threads)
    (h : copyStep k st = some st1) : st1.fuel sel < st.fuel sel := by
  obtain ⟨hk1, hk2, rfl⟩ := copyStep_some k st st1 h
  simp only [Threads.fuel, List.length_drop]
  omega

/-- Every step uses up some of the bound. -/
theorem fuel_step (c : Capture) (capacity : Nat) (t : Turn) (st st1 : Threads)
    (h : step c capacity st t = some st1) : st1.fuel c.selects < st.fuel c.selects := by
  cases t with
  | reader k =>
    simp only [step, readerStep] at h
    by_cases h1 : ¬ st.reader = true ∨ st.done = true
    · rw [if_pos h1] at h
      cases h
    · rw [if_neg h1] at h
      by_cases hp : st.pipe ≠ []
      · rw [if_pos hp] at h
        exact fuel_copyStep _ k st st1 h
      · rw [if_neg hp] at h
        by_cases hw : st.wOpen = true
        · rw [if_pos hw] at h
          cases h
        · rw [if_neg hw] at h
          have h := (Option.some.inj h).symm
          subst h
          have hr : st.reader = true ∧ st.done = false := by
            constructor
            · by_contra hn
              exact h1 (Or.inl hn)
            · cases hd : st.done with
              | true => exact absurd (Or.inr hd) h1
              | false => rfl
          simp only [Threads.fuel, hr, and_self, if_true]
          simp
  | caller k =>
    obtain ⟨caller, pipe, wOpen, buf, reader, done⟩ := st
    simp only [step] at h
    cases caller with
    | inCallback ops pending =>
      cases pending with
      | cons b pending =>
        simp only [callerStep] at h
        by_cases hk : 1 ≤ k ∧ k ≤ (b :: pending).length ∧ pipe.length + k ≤ capacity
        · rw [if_pos hk] at h
          have h := (Option.some.inj h).symm
          subst h
          simp only [Threads.fuel, List.length_append, List.length_take, List.length_drop]
          omega
        · rw [if_neg hk] at h
          cases h
      | nil =>
        cases ops with
        | nil =>
          simp only [callerStep] at h
          have h := (Option.some.inj h).symm
          subst h
          simp only [Threads.fuel, opsWeight, List.length_nil]
          omega
        | cons op rest =>
          cases op with
          | write s data =>
            simp only [callerStep] at h
            by_cases hs : c.selects s = true
            · rw [if_pos hs] at h
              have h := (Option.some.inj h).symm
              subst h
              simp only [Threads.fuel, opsWeight, hs, if_true, List.length_nil]
              omega
            · rw [if_neg hs] at h
              have h := (Option.some.inj h).symm
              subst h
              simp only [Threads.fuel, opsWeight, List.length_nil]
              omega
          | panic v =>
            simp only [callerStep] at h
            have h := (Option.some.inj h).symm
            subst h
            simp only [Threads.fuel, opsWeight, List.length_nil]
            omega
    | closing =>
      simp only [callerStep] at h
      by_cases hm : c.method = PipeWithGoroutine
      · rw [if_pos hm] at h
        have h := (Option.some.inj h).symm
        subst h
        simp only [Threads.fuel]
        omega
      · rw [if_neg hm] at h
        have h := (Option.some.inj h).symm
        subst h
        simp only [Threads.fuel]
        omega
    | waiting =>
      simp only [callerStep] at h
      by_cases hd : done = true
      · rw [if_pos hd] at h
        have h := (Option.some.inj h).symm
        subst h
        simp only [Threads.fuel]
        omega
      · rw [if_neg hd] at h
        cases h
    | copying =>
      simp only [callerStep] at h
      by_cases hp : pipe ≠ []
      · rw [if_pos hp] at h
        exact fuel_copyStep _ k _ st1 h
      · rw [if_neg hp] at h
        by_cases hw : wOpen = true
        · rw [if_pos hw] at h
          cases h
        · rw [if_neg hw] at h
          have h := (Option.some.inj h).symm
          subst h
          simp only [Threads.fuel]
          omega
    | returned val =>
      simp only [callerStep] at h
      cases h
    | panicked v =>
      simp only [callerStep] at h
      cases h

/-- A schedule is no longer than the bound of the state it starts in. -/
theorem fuel_run (c : Capture) (capacity : Nat) (turns : List Turn) (st st2 : Threads)
    (h : run c capacity st turns = some st2) :
    turns.length + st2.fuel c.selects ≤ st.fuel c.selects := by
  induction turns generalizing st with
  | nil =>
    simp only [run] at h
    rw [Option.some.inj h]
    simp
  | cons t ts ih =>
    obtain ⟨st1, h1, h2⟩ := run_cons c capacity st st2 t ts h
    have := ih st1 h2
    have := fuel_step c capacity t st st1 h1
    simp only [List.length_cons]
    omega

/-- With the reader goroutine running and a pipe that holds at least one
byte, some goroutine can move in every state in which the caller has neither
returned nor panicked. -/
theorem step_isSome (c : Capture) (capacity : Nat) (f : Callback) (hcap : 0 < capacity)
    (st : Threads) (hinv : st.inv c capacity f)
    (hfin : ¬ ((∃ val, st.caller = Caller.returned val) ∨ ∃ v, st.caller = Caller.panicked v)) :
    ∃ t, (step c capacity st t).isSome = true := by
  obtain ⟨caller, pipe, wOpen, buf, reader, done⟩ := st
  obtain ⟨hr, hlen, hrest⟩ := hinv
  simp only at hr hlen hrest hfin
  have hread : pipe ≠ [] → done = false →
      ∃ t, (step c capacity ⟨caller, pipe, wOpen, buf, reader, done⟩ t).isSome = true := by
    intro hp hd
    have hl : 1 ≤ pipe.length := by
      cases pipe with
      | nil => exact absurd rfl hp
      | cons x xs => simp
    refine ⟨Turn.reader 1, ?_⟩
    simp only [step, readerStep, hr, hd, not_true_eq_false, Bool.false_eq_true, or_self, if_false,
      ne_eq, hp, not_false_eq_true, if_true, copyStep, le_refl, hl, and_self, Option.isSome_some]
  cases caller with
  | inCallback ops pending =>
    obtain ⟨hw, hd, -, -⟩ := hrest
    cases pending with
    | cons b pending =>
      by_cases hroom : pipe.length + 1 ≤ capacity
      · refine ⟨Turn.caller 1, ?_⟩
        simp only [step, callerStep, le_refl, List.length_cons, Nat.le_add_left, hroom, and_self,
          if_true, Option.isSome_some]
      · exact hread (by
          intro hp
          rw [hp] at hroom
          simp only [List.length_nil] at hroom
          omega) hd
    | nil =>
      cases ops with
      | nil => exact ⟨Turn.caller 0, by simp only [step, callerStep, Option.isSome_some]⟩
      | cons op rest =>
        cases op with
        | write s data =>
          by_cases hs : c.selects s = true
          · exact ⟨Turn.caller 0, by simp only [step, callerStep, hs, if_true, Option.isSome_some]⟩
          · exact ⟨Turn.caller 0, by
              simp only [step, callerStep, hs, Bool.false_eq_true, if_false, Option.isSome_some]⟩
        | panic v => exact ⟨Turn.caller 0, by simp only [step, callerStep, Option.isSome_some]⟩
  | closing =>
    by_cases hm : c.method = PipeWithGoroutine
    · exact ⟨Turn.caller 0, by simp only [step, callerStep, hm, if_true, Option.isSome_some]⟩
    · exact ⟨Turn.caller 0, by simp only [step, callerStep, hm, if_false, Option.isSome_some]⟩
  | waiting =>
    obtain ⟨hw, -, -, -⟩ := hrest
    cases hd : done with
    | true => exact ⟨Turn.caller 0, by simp only [step, callerStep, if_true, Option.isSome_some]⟩
    | false =>
      by_cases hp : pipe = []
      · refine ⟨Turn.reader 0, ?_⟩
        simp only [step, readerStep, hr, hp, hw, not_true_eq_false, Bool.false_eq_true, or_self,
          if_false, ne_eq, Option.isSome_some]
      · rw [hd] at hread
        exact hread hp rfl
  | copying => exact absurd hrest id
  | returned val => exact absurd (Or.inl ⟨val, rfl⟩) hfin
  | panicked v => exact absurd (Or.inr ⟨v, rfl⟩) hfin

theorem step_exists (c : Capture) (capacity : Nat) (f : Callback) (hcap : 0 < capacity)
    (st : Threads) (hinv : st.inv c capacity f)
    (hfin : ¬ ((∃ val, st.caller = Caller.returned val) ∨ ∃ v, st.caller = Caller.panicked v)) :
    ∃ t st1, step c capacity st t = some st1 := by
  obtain ⟨t, ht⟩ := step_isSome c capacity f hcap st hinv hfin
  exact ⟨t, Option.isSome_iff_exists.1 ht⟩

/-- From every state of the goroutine method the goroutines can go on until
the caller has returned or panicked. -/
theorem run_completes (c : Capture) (capacity : Nat) (f : Callback)
    (hm : c.method = PipeWithGoroutine) (hcap : 0 < capacity) (n : Nat) :
    ∀ st : Threads, st.fuel c.selects ≤ n → st.inv c capacity f →
      ∃ more st1, run c capacity st more = some st1 ∧
        ((∃ val, st1.caller = Caller.returned val) ∨ ∃ v, st1.caller = Caller.panicked v) := by
  induction n with
  | zero =>
    intro st hn hinv
    by_cases hfin : (∃ val, st.caller = Caller.returned val) ∨ ∃ v, st.caller = Caller.panicked v
    · exact ⟨[], st, rfl, hfin⟩
    · obtain ⟨t, st1, hs⟩ := step_exists c capacity f hcap st hinv hfin
      have := fuel_step c capacity t st st1 hs
      omega
  | succ n ih =>
    intro st hn hinv
    by_cases hfin : (∃ val, st.caller = Caller.returned val) ∨ ∃ v, st.caller = Caller.panicked v
    · exact ⟨[], st, rfl, hfin⟩
    · obtain ⟨t, st1, hs⟩ := step_exists c capacity f hcap st hinv hfin
      have hlt := fuel_step c capacity t st st1 hs
      obtain ⟨more, st2, hrun, hfin2⟩ := ih st1 (by omega) (inv_step c capacity f hm t st st1 hinv hs)
      refine ⟨t :: more, st2, ?_, hfin2⟩
      simp only [run, hs, hrun]

/-- C24: with the method PipeWithGoroutine and a pipe that holds at least one
byte, whatever the callback writes and in whatever order the two goroutines
take their turns, in every state the schedule reaches: if `capture` has
returned, the reader goroutine has seen the end of the stream (`wg.Done()`
has run), the pipe is empty and closed, and the value returned is every byte
the callback wrote to the selected streams, in order; the reader sees the end
of the stream only when the pipe is closed and empty; when a write of the
callback cannot go on, the pipe is full and the reader goroutine can read, so
the write does not wait for ever; some goroutine can move unless the caller
has returned or panicked; the schedule is no longer than a bound given by the
callback; and it can be continued until the caller has returned or, only if
the callback panics, panicked. With the method PipeDirectly a callback that
writes five bytes to a pipe of two is stuck after two bytes: no goroutine can
move. -/
theorem C24_reader_drains_pipe (c : Capture) (capacity : Nat) (f : Callback)
    (hm : c.method = PipeWithGoroutine) (hcap : 0 < capacity) :
    (∀ turns st, run c capacity (c.threads f) turns = some st →
      (∀ val, st.caller = Caller.returned val →
        st.done = true ∧ st.pipe = [] ∧ st.wOpen = false ∧ st.buf = val ∧
          val = written c.selects f) ∧
      (st.done = true → st.pipe = [] ∧ st.wOpen = false) ∧
      (∀ ops pending, st.caller = Caller.inCallback ops pending → pending ≠ [] →
        (∀ k, step c capacity st (Turn.caller k) = none) →
        st.pipe.length = capacity ∧ (step c capacity st (Turn.reader 1)).isSome = true) ∧
      ((∀ t, step c capacity st t = none) →
        (∃ val, st.caller = Caller.returned val) ∨ ∃ v, st.caller = Caller.panicked v) ∧
      turns.length ≤ 5 + opsWeight c.selects f ∧
      (∃ more st1, run c capacity st more = some st1 ∧
        ((∃ val, st1.caller = Caller.returned val) ∨ ∃ v, st1.caller = Caller.panicked v)) ∧
      (∀ v, st.caller = Caller.panicked v → ∃ x, v = PanicValue.value x ∧ firstPanic f = some x)) ∧
    (run (Capture.mk true false PipeDirectly) 2
        ((Capture.mk true false PipeDirectly).threads [Op.write Stream.out (lit "hello")])
        [Turn.caller 0, Turn.caller 2] =
      some ⟨Caller.inCallback [] (lit "llo"), lit "he", true, [], false, false⟩ ∧
      ∀ t, step (Capture.mk true false PipeDirectly) 2
        ⟨Caller.inCallback [] (lit "llo"), lit "he", true, [], false, false⟩ t = none) := by
  refine ⟨?_, by decide, ?_⟩
  · intro turns st hrun
    have hinv := inv_run c capacity f hm turns _ st (inv_threads c capacity f hm) hrun
    have hfuel := fuel_run c capacity turns _ st hrun
    refine ⟨?_, ?_, ?_, ?_, ?_, ?_, ?_⟩
    · intro val hval
      obtain ⟨-, -, hrest⟩ := hinv
      rw [hval] at hrest
      exact ⟨hrest.2.1, hrest.2.2.1, hrest.1, hrest.2.2.2.1, hrest.2.2.2.2.1⟩
    · intro hd
      obtain ⟨caller, pipe, wOpen, buf, reader, done⟩ := st
      obtain ⟨-, -, hrest⟩ := hinv
      simp only at hd hrest ⊢
      cases caller with
      | inCallback ops pending => rw [hrest.2.1] at hd; cases hd
      | closing => rw [hrest.2.1] at hd; cases hd
      | waiting => exact ⟨hrest.2.2.1 hd, hrest.1⟩
      | copying => exact absurd hrest id
      | returned val => exact ⟨hrest.2.2.1, hrest.1⟩
      | panicked v => rw [hrest.2.1] at hd; cases hd
    · intro ops pending hc hp hblocked
      obtain ⟨caller, pipe, wOpen, buf, reader, done⟩ := st
      obtain ⟨hr, hlen, hrest⟩ := hinv
      simp only at hc hr hlen hrest ⊢
      subst hc
      obtain ⟨-, hd, -, -⟩ := hrest
      cases pending with
      | nil => exact absurd rfl hp
      | cons b pending =>
        have h1 := hblocked 1
        simp only [step, callerStep, le_refl, List.length_cons, Nat.le_add_left, true_and,
          ite_eq_right_iff, reduceCtorEq, imp_false, not_le] at h1
        have hfull : pipe.length = capacity := by omega
        have hl : 1 ≤ pipe.length := by omega
        have hne : pipe ≠ [] := by
          intro h0
          rw [h0] at hl
          simp at hl
        refine ⟨hfull, ?_⟩
        simp only [step, readerStep, hr, hd, not_true_eq_false, Bool.false_eq_true, or_self,
          if_false, ne_eq, hne, not_false_eq_true, if_true, copyStep, le_refl, hl, and_self,
          Option.isSome_some]
    · intro hnone
      by_contra hfin
      obtain ⟨t, st1, hs⟩ := step_exists c capacity f hcap st hinv hfin
      rw [hnone t] at hs
      cases hs
    · have h0 : (c.threads f).fuel c.selects = 5 + opsWeight c.selects f := by
        simp only [Threads.fuel, Capture.threads, hm, decide_True, List.length_nil, and_self,
          if_true]
        omega
      omega
    · exact run_completes c capacity f hm hcap _ st (le_refl _) hinv
    · intro v hv
      obtain ⟨-, -, hrest⟩ := hinv
      rw [hv] at hrest
      exact hrest.2.2
  · intro t
    cases t with
    | caller k =>
      have h3 : (lit "llo").length = 3 := by decide
      have h2 : (lit "he").length = 2 := by decide
      have hl : lit "llo" = 108 :: lit "lo" := by decide
      rw [hl] at h3 ⊢
      simp only [step, callerStep, h2, ite_eq_right_iff, reduceCtorEq, imp_false, not_and, not_le]
      intro hk1 _
      omega
    | reader k => rfl

/-- C24 at a concrete call: stdout captured by the goroutine method through a
pipe of two bytes, from a callback that writes five bytes, with a schedule in
which the two goroutines alternate. -/
theorem C24_reader_drains_pipe_witness :
    (Capture.mk true false PipeWithGoroutine).method = PipeWithGoroutine ∧ 0 < 2 ∧
    run (Capture.mk true false PipeWithGoroutine) 2
        ((Capture.mk true false PipeWithGoroutine).threads [Op.write Stream.out (lit "hello")])
        [Turn.caller 0, Turn.caller 2, Turn.reader 1, Turn.caller 1, Turn.reader 2,
          Turn.caller 2, Turn.caller 0, Turn.caller 0, Turn.reader 2, Turn.reader 0,
          Turn.caller 0] =
      some ⟨Caller.returned (lit "hello"), [], false, lit "hello", true, true⟩ ∧
    ((⟨Caller.returned (lit "hello"), [], false, lit "hello", true, true⟩ : Threads).done = true ∧
      (⟨Caller.returned (lit "hello"), [], false, lit "hello", true, true⟩ : Threads).pipe = [] ∧
      (⟨Caller.returned (lit "hello"), [], false, lit "hello", true, true⟩ : Threads).wOpen =
        false ∧
      (⟨Caller.returned (lit "hello"), [], false, lit "hello", true, true⟩ : Threads).buf =
        lit "hello" ∧
      lit "hello" = written (Capture.mk true false PipeWithGoroutine).selects
        [Op.write Stream.out (lit "hello")]) :=
  ⟨rfl, by decide, by decide,
    ((C24_reader_drains_pipe (Capture.mk true false PipeWithGoroutine) 2
      [Op.write Stream.out (lit "hello")] rfl (by decide)).1
        [Turn.caller 0, Turn.caller 2, Turn.reader 1, Turn.caller 1, Turn.reader 2,
          Turn.caller 2, Turn.caller 0, Turn.caller 0, Turn.reader 2, Turn.reader 0,
          Turn.caller 0]
        ⟨Caller.returned (lit "hello"), [], false, lit "hello", true, true⟩ (by decide)).1
      (lit "hello") rfl⟩

/-! ## TrimSpace on texts with ASCII spaces around them -/

theorem trimSpaceStart_spaces (lead rest : GoString) (h : ∀ c ∈ lead, asciiSpace c = true) :
    trimSpaceStart (lead ++ rest) = trimSpaceStart rest := by
  induction lead with
  | nil => rfl
  | cons c cs ih =>
    have hc := h c (List.mem_cons_self _ _)
    have h2 : ¬ c.toNat ≥ 128 := by have := asciiSpace_lt c hc; omega
    simp only [List.cons_append, trimSpaceStart, h2, if_false, hc, if_true]
    exact ih (fun x hx => h x (List.mem_cons_of_mem _ hx))

/-- TrimSpace on a text made of ASCII spaces: nothing is left. -/
theorem TrimSpace_spaces (s : GoString) (h : ∀ c ∈ s, asciiSpace c = true) : TrimSpace s = [] := by
  have := trimSpaceStart_spaces s [] h
  rw [List.append_nil] at this
  unfold TrimSpace
  rw [this]
  rfl

/-- TrimSpace on a text that starts and ends with ASCII bytes that are not
spaces, with ASCII spaces before and after it: the spaces are removed. -/
theorem TrimSpace_padded (lead trail : GoString) (a : UInt8) (l : GoString) (z : UInt8)
    (hl : ∀ c ∈ lead, asciiSpace c = true) (ht : ∀ c ∈ trail, asciiSpace c = true)
    (ha : a.toNat < 128) (has : asciiSpace a = false)
    (hz : (a :: l).getLast? = some z) (hz1 : z.toNat < 128) (hz2 : asciiSpace z = false) :
    TrimSpace (lead ++ (a :: l) ++ trail) = a :: l := by
  unfold TrimSpace
  rw [List.append_assoc, trimSpaceStart_spaces lead _ hl]
  have h2 : ¬ a.toNat ≥ 128 := by omega
  have e1 : trimSpaceStart (a :: l ++ trail) = trimSpaceStop (a :: l ++ trail).reverse := by
    simp only [List.cons_append, trimSpaceStart, h2, if_false, has, Bool.false_eq_true]
    rfl
  obtain ⟨init, hinit⟩ : ∃ init, a :: l = init ++ [z] := by
    have hne : a :: l ≠ [] := List.cons_ne_nil _ _
    refine ⟨(a :: l).dropLast, ?_⟩
    have h1 := List.dropLast_append_getLast hne
    rw [List.getLast?_eq_getLast _ hne, Option.some.injEq] at hz
    rw [hz] at h1
    exact h1.symm
  have e2 : (a :: l ++ trail).reverse = trail.reverse ++ z :: init.reverse := by
    rw [hinit]
    simp
  rw [e1, e2, trimSpaceStop_spaces trail.reverse (fun c hc => ht c (List.mem_reverse.1 hc)) z _
    hz1 hz2, hinit]
  simp

/-- The normalization, step by step. -/
theorem cleanInput_eq (input : GoString) :
    cleanInput input = 91 :: (separatorRules (Trim (TrimSpace input) (lit "[]")) ++ [93]) := by
  unfold cleanInput separatorRules
  simp only [lit_open, lit_close]
  rfl

/-- The normalization of a text made of ASCII spaces, the empty text among
them: the empty array. -/
theorem cleanInput_spaces (s : GoString) (h : ∀ c ∈ s, asciiSpace c = true) :
    cleanInput s = lit "[]" := by
  rw [cleanInput_eq, TrimSpace_spaces s h]
  decide

theorem Itoa_ends (v : Int) :
    ∃ a l z, Itoa v = a :: l ∧ a.toNat < 128 ∧ asciiSpace a = false ∧
      (a :: l).getLast? = some z ∧ z.toNat < 128 ∧ asciiSpace z = false := by
  obtain ⟨a, l, e, ha⟩ := Itoa_head v
  have hne : Itoa v ≠ [] := by rw [e]; exact List.cons_ne_nil _ _
  have hz := Itoa_last v _ (List.getLast?_eq_getLast _ hne)
  have dig : ∀ c : UInt8, isDigit c = true → c.toNat < 128 ∧ asciiSpace c = false := by
    intro c hc
    rcases digit_cases c hc with h | h | h | h | h | h | h | h | h | h <;> subst h <;> decide
  refine ⟨a, l, (Itoa v).getLast hne, e, ?_, ?_, ?_, (dig _ hz).1, (dig _ hz).2⟩
  · rcases ha with rfl | ha
    · decide
    · exact (dig a ha).1
  · rcases ha with rfl | ha
    · decide
    · exact (dig a ha).2
  · rw [← e]
    exact List.getLast?_eq_getLast _ hne

/-- The normalization of integers joined by commas, without brackets, with
ASCII spaces before and after: the text in brackets. -/
theorem cleanInput_bare (lead trail : GoString) (xs : List Int)
    (hl : ∀ c ∈ lead, asciiSpace c = true) (ht : ∀ c ∈ trail, asciiSpace c = true) :
    cleanInput (lead ++ Join (xs.map Itoa) [44] ++ trail) =
      91 :: (Join (xs.map Itoa) [44] ++ [93]) := by
  have hsolid : ∀ y ∈ xs.map Itoa, isSolid y = true := by
    intro y hy
    obtain ⟨x, -, rfl⟩ := List.mem_map.1 hy
    exact Itoa_isSolid x
  have hspace : ∀ y ∈ xs.map Itoa, (32 : UInt8) ∉ y := by
    intro y hy
    obtain ⟨x, -, rfl⟩ := List.mem_map.1 hy
    exact Itoa_no_space x
  have hrules := separatorRules_Join (xs.map Itoa) [44] (Or.inr (Or.inl rfl)) hsolid
    (fun _ => hspace)
  rw [if_neg (by decide)] at hrules
  cases xs with
  | nil =>
    have e : lead ++ Join (([] : List Int).map Itoa) [44] ++ trail = lead ++ trail := by
      simp [Join]
    rw [e, cleanInput_spaces (lead ++ trail) (by
      intro c hc
      rcases List.mem_append.1 hc with h | h
      · exact hl c h
      · exact ht c h)]
    decide
  | cons x r =>
    obtain ⟨a, l, e⟩ : ∃ a l, Join ((x :: r).map Itoa) [44] = a :: l := by
      obtain ⟨a, l, _, e, _⟩ := Itoa_ends x
      rw [List.map_cons, Join_cons, e]
      exact ⟨a, _, rfl⟩
    have hfirst : a.toNat < 128 ∧ asciiSpace a = false := by
      obtain ⟨a1, l1, _, e1, h1, h2, _⟩ := Itoa_ends x
      rw [List.map_cons, Join_cons, e1] at e
      have : a1 = a := by
        simp only [List.cons_append, List.cons.injEq] at e
        exact e.1
      rw [← this]
      exact ⟨h1, h2⟩
    have hlast : ∃ z, (a :: l).getLast? = some z ∧ z.toNat < 128 ∧ asciiSpace z = false := by
      rw [← e]
      clear e hfirst hrules hsolid hspace
      induction r generalizing x with
      | nil =>
        obtain ⟨a1, l1, z, e1, _, _, h3, h4, h5⟩ := Itoa_ends x
        refine ⟨z, ?_, h4, h5⟩
        show (Itoa x).getLast? = some z
        rw [e1]
        exact h3
      | cons y r ih =>
        obtain ⟨z, h3, h4, h5⟩ := ih y
        refine ⟨z, ?_, h4, h5⟩
        have e2 : Join ((x :: y :: r).map Itoa) [44] =
            (Itoa x ++ [44]) ++ Join ((y :: r).map Itoa) [44] := by
          simp [Join]
        have hne : Join ((y :: r).map Itoa) [44] ≠ [] := by
          intro hh
          rw [hh] at h3
          cases h3
        rw [e2, List.getLast?_append_of_ne_nil _ hne]
        exact h3
    obtain ⟨z, hz, hz1, hz2⟩ := hlast
    rw [cleanInput_eq, e, TrimSpace_padded lead trail a l z hl ht hfirst.1 hfirst.2 hz hz1 hz2,
      ← e, Trim_Join _ _ hsolid, hrules]

/-- What holds of json.Unmarshal on the normalized text, whatever the element
type, holds of every sequence conversion. -/
theorem everySlice_of_Unmarshal (o : Result)
    (P : {α : Type} → Option (List α) × Option JsonError → Prop)
    (h : ∀ (α : Type) (store : GoString → Store α) (zero : α),
      P (Unmarshal store zero (cleanInput o.Value))) : everySlice o P :=
  ⟨h _ _ _, h _ _ _, h _ _ _, h _ _ _, h _ _ _, h _ _ _, h _ _ _, h _ _ _, h _ _ _, h _ _ _,
    h _ _ _, h _ _ _, h _ _ _, fun _ => h _ _ _, fun _ => h _ _ _, fun _ => h _ _ _,
    fun _ => h _ _ _, h _ _ _, h _ _ _⟩

/-! ## TrimSpace on texts made of Unicode spaces -/

theorem IsSpace_cases (r : Nat) (h : IsSpace r = true) :
    r = 9 ∨ r = 10 ∨ r = 11 ∨ r = 12 ∨ r = 13 ∨ r = 32 ∨ r = 0x85 ∨ r = 0xA0 ∨ r = 0x1680 ∨
    r = 0x2000 ∨ r = 0x2001 ∨ r = 0x2002 ∨ r = 0x2003 ∨ r = 0x2004 ∨ r = 0x2005 ∨ r = 0x2006 ∨
    r = 0x2007 ∨ r = 0x2008 ∨ r = 0x2009 ∨ r = 0x200A ∨ r = 0x2028 ∨ r = 0x2029 ∨ r = 0x202F ∨
    r = 0x205F ∨ r = 0x3000 := by
  unfold IsSpace at h
  by_cases h1 : r ≤ 0xFF
  · rw [if_pos h1, decide_eq_true_eq] at h
    omega
  · rw [if_neg h1, decide_eq_true_eq] at h
    omega

/-- A rune of three bytes is read back from its encoding, whatever follows. -/
theorem DecodeRune_EncodeRune_three (r : Nat) (h1 : 0x800 ≤ r) (h2 : r ≤ 0xFFFF)
    (h3 : ¬ (0xD800 ≤ r ∧ r ≤ 0xDFFF)) :
    ∃ b0 b1 b2, EncodeRune r = [b0, b1, b2] ∧ 128 ≤ b0.toNat ∧
      ∀ t, DecodeRune (b0 :: b1 :: b2 :: t) = (r, 3) := by
  have e0 : (UInt8.ofNat (0xE0 + r / 4096)).toNat = 0xE0 + r / 4096 :=
    UInt8.toNat_ofNat_of_lt (by simp only [UInt8.size]; omega)
  have e1 : (UInt8.ofNat (0x80 + r / 64 % 64)).toNat = 0x80 + r / 64 % 64 :=
    UInt8.toNat_ofNat_of_lt (by simp only [UInt8.size]; omega)
  have e2 : (UInt8.ofNat (0x80 + r % 64)).toNat = 0x80 + r % 64 :=
    UInt8.toNat_ofNat_of_lt (by simp only [UInt8.size]; omega)
  refine ⟨UInt8.ofNat (0xE0 + r / 4096), UInt8.ofNat (0x80 + r / 64 % 64),
    UInt8.ofNat (0x80 + r % 64), ?_, by omega, ?_⟩
  · unfold EncodeRune
    rw [if_neg (by omega), if_neg (by omega), if_neg (by omega), if_pos h2]
  · intro t
    rw [DecodeRune_three _ _ _ t (by omega) (by
      rw [e0, e1]
      split_ifs <;> omega) (by omega), e0, e1, e2]
    congr 1
    omega

theorem EncodeRune_three_parts (r : Nat) (h1 : 0x800 ≤ r) (h2 : r ≤ 0xFFFF)
    (h3 : ¬ (0xD800 ≤ r ∧ r ≤ 0xDFFF)) :
    ∃ b0 bs, EncodeRune r = b0 :: bs ∧
      (∀ t, DecodeRune (b0 :: bs ++ t) = (r, bs.length + 1)) ∧
      ((asciiSpace b0 = true ∧ bs = []) ∨ 128 ≤ b0.toNat) := by
  obtain ⟨b0, b1, b2, e, hb, hd⟩ := DecodeRune_EncodeRune_three r h1 h2 h3
  exact ⟨b0, [b1, b2], e, hd, Or.inr hb⟩

/-- The encoding of a space rune: one ASCII space, or bytes outside ASCII
that DecodeRune reads back as the rune, whatever follows. -/
theorem EncodeRune_space (r : Nat) (h : IsSpace r = true) :
    ∃ b0 bs, EncodeRune r = b0 :: bs ∧
      (∀ t, DecodeRune (b0 :: bs ++ t) = (r, bs.length + 1)) ∧
      ((asciiSpace b0 = true ∧ bs = []) ∨ 128 ≤ b0.toNat) := by
  rcases IsSpace_cases r h with h | h | h | h | h | h | h | h | h | h | h | h | h | h | h | h | h |
    h | h | h | h | h | h | h | h <;> subst h
  case inl => exact ⟨9, [], by decide, fun t => DecodeRune_ascii 9 t (by decide), Or.inl (by decide)⟩
  case inr.inl =>
    exact ⟨10, [], by decide, fun t => DecodeRune_ascii 10 t (by decide), Or.inl (by decide)⟩
  case inr.inr.inl =>
    exact ⟨11, [], by decide, fun t => DecodeRune_ascii 11 t (by decide), Or.inl (by decide)⟩
  case inr.inr.inr.inl =>
    exact ⟨12, [], by decide, fun t => DecodeRune_ascii 12 t (by decide), Or.inl (by decide)⟩
  case inr.inr.inr.inr.inl =>
    exact ⟨13, [], by decide, fun t => DecodeRune_ascii 13 t (by decide), Or.inl (by decide)⟩
  case inr.inr.inr.inr.inr.inl =>
    exact ⟨32, [], by decide, fun t => DecodeRune_ascii 32 t (by decide), Or.inl (by decide)⟩
  case inr.inr.inr.inr.inr.inr.inl =>
    exact ⟨0xC2, [0x85], by decide,
      fun t => DecodeRune_two 0xC2 0x85 t (by decide) (by decide), Or.inr (by decide)⟩
  case inr.inr.inr.inr.inr.inr.inr.inl =>
    exact ⟨0xC2, [0xA0], by decide,
      fun t => DecodeRune_two 0xC2 0xA0 t (by decide) (by decide), Or.inr (by decide)⟩
  all_goals exact EncodeRune_three_parts _ (by norm_num) (by norm_num) (by norm_num)

theorem length_le_flatMap_EncodeRune (rs : List Nat) (h : ∀ r ∈ rs, IsSpace r = true) :
    rs.length ≤ (rs.flatMap EncodeRune).length := by
  induction rs with
  | nil => simp
  | cons r rs ih =>
    obtain ⟨b0, bs, e, -, -⟩ := EncodeRune_space r (h r (List.mem_cons_self _ _))
    have := ih (fun x hx => h x (List.mem_cons_of_mem _ hx))
    rw [List.flatMap_cons, e]
    simp only [List.length_cons, List.length_append]
    omega

theorem trimLeftFuncLoop_spaces (rs : List Nat) (h : ∀ r ∈ rs, IsSpace r = true) (fuel : Nat)
    (hf : rs.length ≤ fuel) : trimLeftFuncLoop fuel (rs.flatMap EncodeRune) = [] := by
  induction rs generalizing fuel with
  | nil => cases fuel <;> rfl
  | cons r rs ih =>
    cases fuel with
    | zero => simp at hf
    | succ fuel =>
      obtain ⟨b0, bs, e, hd, -⟩ := EncodeRune_space r (h r (List.mem_cons_self _ _))
      have hr := h r (List.mem_cons_self _ _)
      rw [List.flatMap_cons, e, trimLeftFuncLoop, if_neg (by simp), hd, if_pos hr]
      have hdrop : List.drop (bs.length + 1) (b0 :: bs ++ rs.flatMap EncodeRune) =
          rs.flatMap EncodeRune := by
        have : (b0 :: bs).length = bs.length + 1 := rfl
        rw [← this, List.drop_left]
      simp only [hdrop]
      exact ih (fun x hx => h x (List.mem_cons_of_mem _ hx)) fuel (by simpa using hf)

/-- TrimSpace on a text made of spaces, those of Unicode included: nothing is
left. -/
theorem TrimSpace_unicode_spaces (rs : List Nat) (h : ∀ r ∈ rs, IsSpace r = true) :
    TrimSpace (rs.flatMap EncodeRune) = [] := by
  unfold TrimSpace
  induction rs with
  | nil => rfl
  | cons r rs ih =>
    obtain ⟨b0, bs, e, -, hb⟩ := EncodeRune_space r (h r (List.mem_cons_self _ _))
    rcases hb with ⟨hsp, rfl⟩ | hb
    · have h2 : ¬ b0.toNat ≥ 128 := by have := asciiSpace_lt b0 hsp; omega
      rw [List.flatMap_cons, e]
      simp only [List.singleton_append, trimSpaceStart, h2, if_false, hsp, if_true]
      exact ih (fun x hx => h x (List.mem_cons_of_mem _ hx))
    · have hl := trimLeftFuncLoop_spaces (r :: rs) h ((r :: rs).flatMap EncodeRune).length
        (length_le_flatMap_EncodeRune (r :: rs) h)
      have hstart : trimSpaceStart ((r :: rs).flatMap EncodeRune) =
          TrimRightFunc (TrimLeftFunc ((r :: rs).flatMap EncodeRune)) := by
        rw [List.flatMap_cons, e]
        simp only [List.cons_append, trimSpaceStart, hb, ge_iff_le, if_true]
        rfl
      rw [hstart]
      unfold TrimLeftFunc
      rw [hl]
      rfl

/-- The normalization of a text made of spaces: the empty array. -/
theorem cleanInput_unicode_spaces (rs : List Nat) (h : ∀ r ∈ rs, IsSpace r = true) :
    cleanInput (rs.flatMap EncodeRune) = lit "[]" := by
  rw [cleanInput_eq, TrimSpace_unicode_spaces rs h]
  decide

/-! ## JSON arrays of integers with whitespace -/

theorem isSpace_cases (c : UInt8) (h : isSpace c = true) : c = 32 ∨ c = 9 ∨ c = 13 ∨ c = 10 := by
  simpa [isSpace] using h

theorem isSpace_facts (c : UInt8) (h : isSpace c = true) :
    asciiSpace c = true ∧ isReSpace c = true ∧ c ≠ 44 ∧ isBracket c = false := by
  rcases isSpace_cases c h with h | h | h | h <;> subst h <;> decide

/-- Where a value may end, whitespace is given to stateEndValue. -/
theorem next_end_space (st : Step) (c : UInt8) (e : Bool) (ps : List ParseState)
    (hst : endsValue st = true) (hc : isSpace c = true) :
    (⟨st, e, ps⟩ : Scanner).next c = stateEndValue ⟨st, e, ps⟩ c := by
  simp only [endsValue, decide_eq_true_eq] at hst
  rcases isSpace_cases c hc with rfl | rfl | rfl | rfl <;>
    rcases hst with rfl | rfl | rfl | rfl | rfl <;> rfl

/-- Whitespace between the elements of the top-level array, where no literal
is being read, changes nothing. -/
theorem reader_skip (ws : GoString) (hws : ∀ c ∈ ws, isSpace c = true) (st : Step)
    (hst : st = Step.stateBeginValue ∨ st = Step.stateBeginValueOrEmpty ∨
      st = Step.stateEndValue) (e : Bool) (els : List Elem) :
    ws.foldl Reader.next ⟨⟨st, e, [ParseState.parseArrayValue]⟩, els, none⟩ =
      ⟨⟨st, e, [ParseState.parseArrayValue]⟩, els, none⟩ ∧
    scanBytes ⟨st, e, [ParseState.parseArrayValue]⟩ ws =
      some ⟨st, e, [ParseState.parseArrayValue]⟩ := by
  induction ws with
  | nil => exact ⟨rfl, rfl⟩
  | cons c ws ih =>
    obtain ⟨i1, i2⟩ := ih (fun x hx => hws x (List.mem_cons_of_mem _ hx))
    have hn : (⟨st, e, [ParseState.parseArrayValue]⟩ : Scanner).next c =
        (⟨st, e, [ParseState.parseArrayValue]⟩, Opcode.scanSkipSpace) := by
      rcases isSpace_cases c (hws c (List.mem_cons_self _ _)) with rfl | rfl | rfl | rfl <;>
        rcases hst with rfl | rfl | rfl <;> rfl
    constructor
    · rw [List.foldl_cons]
      have e1 : Reader.next ⟨⟨st, e, [ParseState.parseArrayValue]⟩, els, none⟩ c =
          ⟨⟨st, e, [ParseState.parseArrayValue]⟩, els, none⟩ := by
        simp only [Reader.next, hn]
      rw [e1, i1]
    · simp only [scanBytes, hn]
      rw [if_neg (by intro hh; cases hh)]
      exact i2

/-- Whitespace after an element ends the element; the scanner then waits for
a comma or the closing bracket. -/
theorem reader_after (ws : GoString) (hws : ∀ c ∈ ws, isSpace c = true) (st : Step)
    (hst : endsValue st = true) (e : Bool) (els : List Elem) (it : GoString) :
    ∃ st1 item1 els1, endsValue st1 = true ∧
      ws.foldl Reader.next ⟨⟨st, e, [ParseState.parseArrayValue]⟩, els, some it⟩ =
        ⟨⟨st1, e, [ParseState.parseArrayValue]⟩, els1, item1⟩ ∧
      scanBytes ⟨st, e, [ParseState.parseArrayValue]⟩ ws =
        some ⟨st1, e, [ParseState.parseArrayValue]⟩ ∧
      els1 ++ item1.toList.map Elem.literal = els ++ [Elem.literal it] := by
  cases ws with
  | nil => exact ⟨st, some it, els, hst, rfl, rfl, rfl⟩
  | cons c ws =>
    have hc := hws c (List.mem_cons_self _ _)
    have hn := next_end_space st c e [ParseState.parseArrayValue] hst hc
    have hv : stateEndValue ⟨st, e, [ParseState.parseArrayValue]⟩ c =
        (⟨Step.stateEndValue, e, [ParseState.parseArrayValue]⟩, Opcode.scanSkipSpace) := by
      rcases isSpace_cases c hc with rfl | rfl | rfl | rfl <;> rfl
    rw [hv] at hn
    obtain ⟨i1, i2⟩ := reader_skip ws (fun x hx => hws x (List.mem_cons_of_mem _ hx))
      Step.stateEndValue (Or.inr (Or.inr rfl)) e (els ++ [Elem.literal it])
    refine ⟨Step.stateEndValue, none, els ++ [Elem.literal it], by decide, ?_, ?_, by simp⟩
    · rw [List.foldl_cons]
      have e1 : Reader.next ⟨⟨st, e, [ParseState.parseArrayValue]⟩, els, some it⟩ c =
          ⟨⟨Step.stateEndValue, e, [ParseState.parseArrayValue]⟩, els ++ [Elem.literal it],
            none⟩ := by
        simp only [Reader.next, hn]
      rw [e1, i1]
    · simp only [scanBytes, hn]
      rw [if_neg (by intro hh; cases hh)]
      exact i2

/-- A comma where a value may end: the element being read, if one is, is
complete, and the next one may begin. -/
theorem reader_comma (st : Step) (hst : endsValue st = true) (e : Bool) (els : List Elem)
    (item : Option GoString) :
    Reader.next ⟨⟨st, e, [ParseState.parseArrayValue]⟩, els, item⟩ 44 =
      ⟨⟨Step.stateBeginValue, e, [ParseState.parseArrayValue]⟩,
        els ++ item.toList.map Elem.literal, none⟩ ∧
    scanBytes ⟨st, e, [ParseState.parseArrayValue]⟩ [44] =
      some ⟨Step.stateBeginValue, e, [ParseState.parseArrayValue]⟩ := by
  have hn := next_end st 44 e [ParseState.parseArrayValue] hst (Or.inl rfl)
  have hv : stateEndValue ⟨st, e, [ParseState.parseArrayValue]⟩ 44 =
      (⟨Step.stateBeginValue, e, [ParseState.parseArrayValue]⟩, Opcode.scanArrayValue) := rfl
  rw [hv] at hn
  constructor
  · cases item <;> simp [Reader.next, hn]
  · simp only [scanBytes, hn]
    rw [if_neg (by intro hh; cases hh)]

/-- The closing bracket where a value may end: the element being read, if one
is, is complete, and so is the array. -/
theorem reader_bracket (st : Step) (hst : endsValue st = true) (e : Bool) (els : List Elem)
    (item : Option GoString) :
    Reader.next ⟨⟨st, e, [ParseState.parseArrayValue]⟩, els, item⟩ 93 =
      ⟨⟨Step.stateEndTop, true, []⟩, els ++ item.toList.map Elem.literal, none⟩ ∧
    scanBytes ⟨st, e, [ParseState.parseArrayValue]⟩ [93] = some ⟨Step.stateEndTop, true, []⟩ := by
  have hn := next_end st 93 e [ParseState.parseArrayValue] hst (Or.inr (Or.inl rfl))
  have hv : stateEndValue ⟨st, e, [ParseState.parseArrayValue]⟩ 93 =
      (⟨Step.stateEndTop, true, []⟩, Opcode.scanEndArray) := rfl
  rw [hv] at hn
  constructor
  · cases item <;> simp [Reader.next, hn]
  · simp only [scanBytes, hn]
    rw [if_neg (by intro hh; cases hh)]

/-- What follows an element of an array of integers with whitespace: the
whitespace after it, the other elements, each after a comma, and the closing
bracket. -/
theorem reader_padded_tail (r : List Padded)
    (hr : ∀ p ∈ r, isJsonSpaces p.before = true ∧ isJsonSpaces p.after = true)
    (after : GoString) (hafter : isJsonSpaces after = true) (st : Step)
    (hst : endsValue st = true) (els : List Elem) (it : GoString) :
    (after ++ (r.flatMap (fun y => 44 :: y.text) ++ [93])).foldl Reader.next
        ⟨⟨st, false, [ParseState.parseArrayValue]⟩, els, some it⟩ =
      ⟨⟨Step.stateEndTop, true, []⟩,
        els ++ Elem.literal it :: r.map (fun y => Elem.literal (Itoa y.val)), none⟩ ∧
    scanBytes ⟨st, false, [ParseState.parseArrayValue]⟩
        (after ++ (r.flatMap (fun y => 44 :: y.text) ++ [93])) =
      some ⟨Step.stateEndTop, true, []⟩ := by
  induction r generalizing after st els it with
  | nil =>
    obtain ⟨st1, item1, els1, hst1, a1, a2, a3⟩ := reader_after after
      (by simpa [isJsonSpaces] using hafter) st hst false els it
    obtain ⟨b1, b2⟩ := reader_bracket st1 hst1 false els1 item1
    constructor
    · rw [List.flatMap_nil, List.nil_append, List.foldl_append, a1, List.foldl_cons,
        List.foldl_nil, b1, a3]
      simp
    · rw [List.flatMap_nil, List.nil_append, scanBytes_append, a2, Option.some_bind, b2]
  | cons y r ih =>
    obtain ⟨hy, hyr⟩ : (isJsonSpaces y.before = true ∧ isJsonSpaces y.after = true) ∧
        ∀ p ∈ r, isJsonSpaces p.before = true ∧ isJsonSpaces p.after = true :=
      ⟨hr y (List.mem_cons_self _ _), fun p hp => hr p (List.mem_cons_of_mem _ hp)⟩
    obtain ⟨st1, item1, els1, hst1, a1, a2, a3⟩ := reader_after after
      (by simpa [isJsonSpaces] using hafter) st hst false els it
    obtain ⟨b1, b2⟩ := reader_comma st1 hst1 false els1 item1
    obtain ⟨c1, c2⟩ := reader_skip y.before (by simpa [isJsonSpaces] using hy.1)
      Step.stateBeginValue (Or.inl rfl) false (els ++ [Elem.literal it])
    obtain ⟨st2, hst2, d1, d2⟩ := reader_item (Itoa y.val) (Itoa_isScalar y.val)
      Step.stateBeginValue (Or.inl rfl) false (els ++ [Elem.literal it])
    obtain ⟨t1, t2⟩ := ih hyr y.after hy.2 st2 hst2 (els ++ [Elem.literal it]) (Itoa y.val)
    have hsplit : after ++ ((y :: r).flatMap (fun y => 44 :: y.text) ++ [93]) =
        after ++ ([44] ++ (y.before ++ (Itoa y.val ++
          (y.after ++ (r.flatMap (fun y => 44 :: y.text) ++ [93]))))) := by
      simp [Padded.text]
    rw [hsplit]
    constructor
    · rw [List.foldl_append, a1, List.foldl_append, List.foldl_cons, List.foldl_nil, b1, a3,
        List.foldl_append, c1, List.foldl_append, d1, t1]
      simp
    · rw [scanBytes_append, a2, Option.some_bind, scanBytes_append, b2, Option.some_bind,
        scanBytes_append, c2, Option.some_bind, scanBytes_append, d2, Option.some_bind, t2]

theorem paddedBody_cons (inner : GoString) (x : Padded) (r : List Padded) :
    paddedBody inner (x :: r) ++ [93] =
      x.before ++ (Itoa x.val ++ (x.after ++ (r.flatMap (fun y => 44 :: y.text) ++ [93]))) := by
  simp only [paddedBody, lit_comma, List.map_cons, Join_cons, Padded.text, List.flatMap_map]
  simp

/-- The scanner and the reader on the text of a JSON array of integers with
whitespace. -/
theorem reader_padded (inner : GoString) (hinner : isJsonSpaces inner = true)
    (items : List Padded)
    (h : ∀ p ∈ items, isJsonSpaces p.before = true ∧ isJsonSpaces p.after = true) :
    checkValid (91 :: (paddedBody inner items ++ [93])) = true ∧
    arrayElems (91 :: (paddedBody inner items ++ [93])) =
      items.map (fun y => Elem.literal (Itoa y.val)) := by
  have hn : (Scanner.reset).next 91 =
      (⟨Step.stateBeginValueOrEmpty, false, [ParseState.parseArrayValue]⟩,
        Opcode.scanBeginArray) := by decide
  have e1 : Reader.next ⟨Scanner.reset, [], none⟩ 91 =
      ⟨⟨Step.stateBeginValueOrEmpty, false, [ParseState.parseArrayValue]⟩, [], none⟩ := by
    simp only [Reader.next, hn]
    rfl
  cases items with
  | nil =>
    obtain ⟨c1, c2⟩ := reader_skip inner (by simpa [isJsonSpaces] using hinner)
      Step.stateBeginValueOrEmpty (Or.inr (Or.inl rfl)) false []
    have hn2 : (⟨Step.stateBeginValueOrEmpty, false, [ParseState.parseArrayValue]⟩ :
        Scanner).next 93 = (⟨Step.stateEndTop, true, []⟩, Opcode.scanEndArray) := rfl
    constructor
    · unfold checkValid
      have : scanBytes Scanner.reset (91 :: (paddedBody inner [] ++ [93])) =
          some ⟨Step.stateEndTop, true, []⟩ := by
        simp only [scanBytes, hn, paddedBody]
        rw [if_neg (by intro hh; cases hh), scanBytes_append, c2, Option.some_bind]
        simp only [scanBytes, hn2]
        rw [if_neg (by intro hh; cases hh)]
      rw [this]
      rfl
    · unfold arrayElems
      simp only [paddedBody]
      rw [List.foldl_cons, e1, List.foldl_append, c1]
      simp [Reader.next, hn2]
  | cons x r =>
    obtain ⟨hx, hxr⟩ : (isJsonSpaces x.before = true ∧ isJsonSpaces x.after = true) ∧
        ∀ p ∈ r, isJsonSpaces p.before = true ∧ isJsonSpaces p.after = true :=
      ⟨h x (List.mem_cons_self _ _), fun p hp => h p (List.mem_cons_of_mem _ hp)⟩
    obtain ⟨c1, c2⟩ := reader_skip x.before (by simpa [isJsonSpaces] using hx.1)
      Step.stateBeginValueOrEmpty (Or.inr (Or.inl rfl)) false []
    obtain ⟨st2, hst2, d1, d2⟩ := reader_item (Itoa x.val) (Itoa_isScalar x.val)
      Step.stateBeginValueOrEmpty (Or.inr rfl) false []
    obtain ⟨t1, t2⟩ := reader_padded_tail r hxr x.after hx.2 st2 hst2 [] (Itoa x.val)
    rw [paddedBody_cons]
    constructor
    · unfold checkValid
      have : scanBytes Scanner.reset (91 :: (x.before ++ (Itoa x.val ++
          (x.after ++ (r.flatMap (fun y => 44 :: y.text) ++ [93]))))) =
          some ⟨Step.stateEndTop, true, []⟩ := by
        simp only [scanBytes, hn]
        rw [if_neg (by intro hh; cases hh), scanBytes_append, c2, Option.some_bind,
          scanBytes_append, d2, Option.some_bind, t2]
      rw [this]
      rfl
    · unfold arrayElems
      rw [List.foldl_cons, e1, List.foldl_append, c1, List.foldl_append, d1, t1]
      rfl

theorem replaceCommas_some_spaces (ws0 ws : GoString) (hws : ∀ c ∈ ws, isSpace c = true)
    (a : UInt8) (t : GoString) (ha : a ≠ 44) (has : isReSpace a = false) :
    replaceCommas (some ws0) (ws ++ a :: t) = 44 :: (ws0 ++ ws ++ a :: replaceCommas none t) := by
  induction ws generalizing ws0 with
  | nil =>
    rw [List.nil_append, replaceCommas_some_other _ _ _ ha has, List.append_nil]
  | cons c ws ih =>
    obtain ⟨-, h1, h2, -⟩ := isSpace_facts c (hws c (List.mem_cons_self _ _))
    rw [List.cons_append, replaceCommas_some_space _ _ _ h2 h1,
      ih (ws0 ++ [c]) (fun x hx => hws x (List.mem_cons_of_mem _ hx))]
    simp

theorem Padded_text_bytes (p : Padded)
    (hp : isJsonSpaces p.before = true ∧ isJsonSpaces p.after = true) (c : UInt8)
    (hc : c ∈ p.text) : isSpace c = true ∨ c = 45 ∨ isDigit c = true := by
  simp only [Padded.text, List.mem_append] at hc
  simp only [isJsonSpaces, List.all_eq_true] at hp
  rcases hc with (hc | hc) | hc
  · exact Or.inl (hp.1 c hc)
  · exact Or.inr (Itoa_bytes p.val c hc)
  · exact Or.inl (hp.2 c hc)

theorem Padded_text_no_comma (p : Padded)
    (hp : isJsonSpaces p.before = true ∧ isJsonSpaces p.after = true) :
    ∀ c ∈ p.text, c ≠ 44 := by
  intro c hc
  rcases Padded_text_bytes p hp c hc with h | h | h
  · exact (isSpace_facts c h).2.2.1
  · subst h; decide
  · exact (digit_facts c h).1

/-- The regular expression leaves the elements of a JSON array of integers
with whitespace, each after a comma, as they are. -/
theorem replaceCommas_padded_tail (r : List Padded)
    (hr : ∀ p ∈ r, isJsonSpaces p.before = true ∧ isJsonSpaces p.after = true) :
    replaceCommas none (r.flatMap (fun y => 44 :: y.text)) =
      r.flatMap (fun y => 44 :: y.text) := by
  induction r with
  | nil => rfl
  | cons y r ih =>
    have hy := hr y (List.mem_cons_self _ _)
    obtain ⟨a, l, e, ha⟩ := Itoa_head y.val
    have ha44 : a ≠ 44 ∧ isReSpace a = false := by
      rcases ha with rfl | ha
      · exact ⟨by decide, by decide⟩
      · exact ⟨(digit_facts a ha).1, (digit_facts a ha).2.2.2.1⟩
    have hl : ∀ c ∈ l ++ y.after, c ≠ 44 := by
      intro c hc
      apply Padded_text_no_comma y hy c
      simp only [Padded.text, List.mem_append, e, List.mem_cons] at hc ⊢
      rcases hc with hc | hc
      · exact Or.inl (Or.inr (Or.inr hc))
      · exact Or.inr hc
    have hsplit : (y :: r).flatMap (fun y => 44 :: y.text) =
        44 :: (y.before ++ a :: ((l ++ y.after) ++ r.flatMap (fun y => 44 :: y.text))) := by
      simp [Padded.text, e]
    rw [hsplit, replaceCommas_none_comma,
      replaceCommas_some_spaces [] y.before (by simpa [isJsonSpaces] using hy.1) a _ ha44.1
        ha44.2,
      replaceCommas_append _ _ hl, ih (fun p hp => hr p (List.mem_cons_of_mem _ hp))]
    simp

theorem paddedBody_bytes (inner : GoString) (hinner : isJsonSpaces inner = true)
    (items : List Padded)
    (h : ∀ p ∈ items, isJsonSpaces p.before = true ∧ isJsonSpaces p.after = true) (c : UInt8)
    (hc : c ∈ paddedBody inner items) :
    isSpace c = true ∨ c = 45 ∨ isDigit c = true ∨ c = 44 := by
  cases items with
  | nil =>
    simp only [paddedBody] at hc
    simp only [isJsonSpaces, List.all_eq_true] at hinner
    exact Or.inl (hinner c hc)
  | cons x r =>
    simp only [paddedBody, lit_comma] at hc
    rcases mem_Join c _ _ hc with ⟨y, hy, hcy⟩ | ⟨hcs, -⟩
    · obtain ⟨p, hp, rfl⟩ := List.mem_map.1 hy
      rcases Padded_text_bytes p (h p hp) c hcy with h1 | h1 | h1
      · exact Or.inl h1
      · exact Or.inr (Or.inl h1)
      · exact Or.inr (Or.inr (Or.inl h1))
    · simp only [List.mem_singleton] at hcs
      exact Or.inr (Or.inr (Or.inr hcs))

/-- The normalization leaves a JSON array of integers with whitespace as it
is, without the whitespace around it, when it has two elements or more, or no
space between its brackets. -/
theorem cleanInput_padded (pre inner post : GoString) (items : List Padded)
    (hpre : isJsonSpaces pre = true) (hinner : isJsonSpaces inner = true)
    (hpost : isJsonSpaces post = true)
    (h : ∀ p ∈ items, isJsonSpaces p.before = true ∧ isJsonSpaces p.after = true)
    (hsp : 2 ≤ items.length ∨ (32 : UInt8) ∉ paddedBody inner items) :
    cleanInput (paddedArray pre inner items post) = 91 :: (paddedBody inner items ++ [93]) := by
  have hsp1 : ∀ s : GoString, isJsonSpaces s = true → ∀ c ∈ s, asciiSpace c = true := by
    intro s hs c hc
    simp only [isJsonSpaces, List.all_eq_true] at hs
    exact (isSpace_facts c (hs c hc)).1
  have hbr : ∀ c ∈ paddedBody inner items, isBracket c = false := by
    intro c hc
    rcases paddedBody_bytes inner hinner items h c hc with h1 | h1 | h1 | h1
    · exact (isSpace_facts c h1).2.2.2
    · subst h1; decide
    · exact (digit_facts c h1).2.2.1
    · subst h1; decide
  have e : paddedArray pre inner items post =
      pre ++ (91 :: (paddedBody inner items ++ [93])) ++ post := by
    simp [paddedArray, lit_open, lit_close]
  have hlast : (91 :: (paddedBody inner items ++ [93])).getLast? = some 93 := by
    rw [← List.cons_append, List.getLast?_concat]
  have hT : Trim (paddedBody inner items) (lit "[]") = paddedBody inner items := by
    apply Trim_id
    · intro c hc
      exact hbr c (List.mem_of_mem_head? hc)
    · intro c hc
      exact hbr c (List.mem_of_getLast?_eq_some hc)
  have hrules : separatorRules (paddedBody inner items) = paddedBody inner items := by
    unfold separatorRules
    have hno : ¬ (Contains (paddedBody inner items) 32 = true ∧
        ¬ Contains (paddedBody inner items) 44 = true) := by
      rintro ⟨h32, h44⟩
      rcases hsp with h2 | h2
      · apply h44
        simp only [Contains, decide_eq_true_eq]
        cases items with
        | nil => simp at h2
        | cons x r =>
          simp only [paddedBody, lit_comma]
          exact sep_mem_Join 44 _ [44] (by simp) (by simpa using h2)
      · simp only [Contains, decide_eq_true_eq] at h32
        exact h2 h32
    rw [if_neg hno]
    cases items with
    | nil =>
      simp only [paddedBody]
      have := replaceCommas_append inner [] (by
        intro c hc
        simp only [isJsonSpaces, List.all_eq_true] at hinner
        exact (isSpace_facts c (hinner c hc)).2.2.1)
      simpa [replaceCommas] using this
    | cons x r =>
      simp only [paddedBody, lit_comma, List.map_cons, Join_cons, List.flatMap_map]
      have e2 : (fun y : Padded => [44] ++ y.text) = (fun y => 44 :: y.text) := rfl
      rw [e2, replaceCommas_append _ _ (Padded_text_no_comma x (h x (List.mem_cons_self _ _))),
        replaceCommas_padded_tail r (fun p hp => h p (List.mem_cons_of_mem _ hp))]
  rw [cleanInput_eq, e,
    TrimSpace_padded pre post 91 _ 93 (hsp1 pre hpre) (hsp1 post hpost) (by decide) (by decide)
      hlast (by decide) (by decide),
    Trim_wrap, hT, hrules]

/-! ## A trailing comma -/

theorem replaceCommas_none_spaces (w : GoString) (hw : ∀ c ∈ w, asciiSpace c = true) :
    replaceCommas none w = w := by
  have := replaceCommas_append w [] (by
    intro c hc
    have := hw c hc
    rintro rfl
    exact absurd this (by decide))
  simpa [replaceCommas] using this

theorem replaceCommas_pending_spaces (ws0 w : GoString) (hw : ∀ c ∈ w, asciiSpace c = true) :
    replaceCommas (some ws0) w = [44] ∨ replaceCommas (some ws0) w = 44 :: (ws0 ++ w) := by
  induction w generalizing ws0 with
  | nil => exact Or.inl rfl
  | cons c w ih =>
    have hc := hw c (List.mem_cons_self _ _)
    have hw1 : ∀ x ∈ w, asciiSpace x = true := fun x hx => hw x (List.mem_cons_of_mem _ hx)
    have h44 : c ≠ 44 := by
      rintro rfl
      exact absurd hc (by decide)
    by_cases hs : isReSpace c = true
    · rw [replaceCommas_some_space _ _ _ h44 hs]
      rcases ih (ws0 ++ [c]) hw1 with h | h
      · exact Or.inl h
      · right
        rw [h]
        simp
    · right
      rw [replaceCommas_some_other _ _ _ h44 (by simpa using hs), replaceCommas_none_spaces w hw1]

/-- The regular expression on a text that ends with a comma and ASCII spaces:
the result ends with a comma, followed by nothing or by the same spaces. -/
theorem replaceCommas_trailing (body w : GoString) (hw : ∀ c ∈ w, asciiSpace c = true)
    (pending : Option GoString) :
    ∃ head w1, replaceCommas pending (body ++ 44 :: w) = head ++ 44 :: w1 ∧
      (w1 = [] ∨ w1 = w) := by
  induction body generalizing pending with
  | nil =>
    cases pending with
    | none =>
      rw [List.nil_append, replaceCommas_none_comma]
      rcases replaceCommas_pending_spaces [] w hw with h | h
      · exact ⟨[], [], by rw [h]; rfl, Or.inl rfl⟩
      · exact ⟨[], w, by rw [h]; rfl, Or.inr rfl⟩
    | some ws =>
      rw [List.nil_append, replaceCommas_some_comma, replaceCommas_none_spaces w hw]
      exact ⟨[], w, rfl, Or.inr rfl⟩
  | cons c cs ih =>
    rw [List.cons_append]
    cases pending with
    | none =>
      by_cases h44 : c = 44
      · subst h44
        rw [replaceCommas_none_comma]
        exact ih (some [])
      · rw [replaceCommas_none_cons _ _ h44]
        obtain ⟨head, w1, e, hw1⟩ := ih none
        exact ⟨c :: head, w1, by rw [e]; rfl, hw1⟩
    | some ws =>
      by_cases h44 : c = 44
      · subst h44
        rw [replaceCommas_some_comma]
        obtain ⟨head, w1, e, hw1⟩ := ih none
        exact ⟨44 :: head, w1, by rw [e]; rfl, hw1⟩
      · by_cases hs : isReSpace c = true
        · rw [replaceCommas_some_space _ _ _ h44 hs]
          exact ih (some (ws ++ [c]))
        · rw [replaceCommas_some_other _ _ _ h44 (by simpa using hs)]
          obtain ⟨head, w1, e, hw1⟩ := ih none
          exact ⟨44 :: (ws ++ c :: head), w1, by rw [e]; simp, hw1⟩

/-! ## The scanner after a trailing comma -/

theorem stateEndTop_top (s : Scanner) (c : UInt8) (hs : s.step = Step.stateEndTop) :
    (stateEndTop s c).1.step = Step.stateEndTop ∨ (stateEndTop s c).1.step = Step.stateError := by
  unfold stateEndTop
  split
  · exact Or.inr rfl
  · exact Or.inl hs

theorem popParseState_top (s : Scanner) (hs : s.endTop = false) :
    s.popParseState.endTop = true →
      s.popParseState.step = Step.stateEndTop ∨ s.popParseState.step = Step.stateError := by
  unfold Scanner.popParseState
  simp only []
  split
  · intro _; exact Or.inl rfl
  · intro h
    rw [hs] at h
    cases h

theorem pushParseState_top (s : Scanner) (next : Step) (p : ParseState) (op : Opcode)
    (hs : s.endTop = false) : (s.pushParseState next p op).1.endTop = false := by
  unfold Scanner.pushParseState
  simp only []
  split
  · exact hs
  · exact hs

theorem stateEndValue_top (s : Scanner) (c : UInt8) (hs : s.endTop = false) :
    (stateEndValue s c).1.endTop = true →
      (stateEndValue s c).1.step = Step.stateEndTop ∨
        (stateEndValue s c).1.step = Step.stateError := by
  rcases s with ⟨st, e, ps⟩
  simp only at hs
  subst hs
  unfold stateEndValue
  cases ps with
  | nil =>
    intro _
    exact stateEndTop_top _ c rfl
  | cons p rest =>
    cases p <;> simp only [] <;> repeat' split
    all_goals first
      | (intro h; cases h)
      | exact popParseState_top _ rfl

theorem stateBeginValue_top (s : Scanner) (c : UInt8) (hs : s.endTop = false) :
    (stateBeginValue s c).1.endTop = false := by
  unfold stateBeginValue
  repeat' split
  all_goals first
    | exact hs
    | exact pushParseState_top _ _ _ _ hs

theorem stateBeginString_top (s : Scanner) (c : UInt8) (hs : s.endTop = false) :
    (stateBeginString s c).1.endTop = false := by
  unfold stateBeginString
  repeat' split
  all_goals exact hs

/-- The field endTop is set only with the state function stateEndTop, or
with an error. -/
theorem next_top (s : Scanner) (c : UInt8)
    (h : s.endTop = true → s.step = Step.stateEndTop ∨ s.step = Step.stateError) :
    (s.next c).1.endTop = true →
      (s.next c).1.step = Step.stateEndTop ∨ (s.next c).1.step = Step.stateError := by
  rcases s with ⟨st, e, ps⟩
  cases e
  case true =>
    intro _
    rcases h rfl with h1 | h1 <;> simp only at h1 <;> subst h1
    · exact stateEndTop_top _ c rfl
    · exact Or.inr rfl
  case false =>
    cases st
    case stateBeginValueOrEmpty =>
      simp only [Scanner.next, stateBeginValueOrEmpty]
      repeat' split
      · intro h; cases h
      · exact stateEndValue_top _ c rfl
      · intro h1; rw [stateBeginValue_top _ c rfl] at h1; cases h1
    case stateBeginValue =>
      intro h1
      have := stateBeginValue_top ⟨Step.stateBeginValue, false, ps⟩ c rfl
      simp only [Scanner.next] at h1
      rw [this] at h1
      cases h1
    case stateBeginStringOrEmpty =>
      simp only [Scanner.next, stateBeginStringOrEmpty]
      repeat' split
      · intro h; cases h
      · exact stateEndValue_top _ c rfl
      · intro h1; rw [stateBeginString_top _ c rfl] at h1; cases h1
    case stateBeginString =>
      intro h1
      have := stateBeginString_top ⟨Step.stateBeginString, false, ps⟩ c rfl
      simp only [Scanner.next] at h1
      rw [this] at h1
      cases h1
    case stateEndValue => exact stateEndValue_top _ c rfl
    case stateEndTop =>
      intro _
      exact stateEndTop_top _ c rfl
    case stateError =>
      intro h1; cases h1
    all_goals
      simp only [Scanner.next, state0, stateESign]
      repeat' split
      all_goals first
        | (intro h; cases h)
        | exact stateEndValue_top _ c rfl

theorem scanBytes_top (l : GoString) (s s1 : Scanner)
    (h : s.endTop = true → s.step = Step.stateEndTop ∨ s.step = Step.stateError)
    (hs : scanBytes s l = some s1) :
    s1.endTop = true → s1.step = Step.stateEndTop ∨ s1.step = Step.stateError := by
  induction l generalizing s with
  | nil =>
    simp only [scanBytes, Option.some.injEq] at hs
    subst hs
    exact h
  | cons c cs ih =>
    rw [scanBytes] at hs
    split at hs
    · cases hs
    · exact ih _ (next_top s c h) hs

/-- A comma is an error, except inside a string, after an element of an
array and after a value of an object. -/
theorem next_comma (s : Scanner)
    (h : s.endTop = true → s.step = Step.stateEndTop ∨ s.step = Step.stateError) :
    (s.next 44).2 = Opcode.scanError ∨ (s.next 44).1.step = Step.stateError ∨
      ((s.next 44).1.step = Step.stateInString ∧ (s.next 44).1.endTop = false) ∨
      (s.next 44).1.step = Step.stateBeginValue ∨ (s.next 44).1.step = Step.stateBeginString := by
  rcases s with ⟨st, e, ps⟩
  have hend : (stateEndValue ⟨st, e, ps⟩ 44).2 = Opcode.scanError ∨
      (stateEndValue ⟨st, e, ps⟩ 44).1.step = Step.stateError ∨
      ((stateEndValue ⟨st, e, ps⟩ 44).1.step = Step.stateInString ∧
        (stateEndValue ⟨st, e, ps⟩ 44).1.endTop = false) ∨
      (stateEndValue ⟨st, e, ps⟩ 44).1.step = Step.stateBeginValue ∨
      (stateEndValue ⟨st, e, ps⟩ 44).1.step = Step.stateBeginString := by
    cases ps with
    | nil => exact Or.inr (Or.inl rfl)
    | cons p rest =>
      cases p
      · exact Or.inl rfl
      · exact Or.inr (Or.inr (Or.inr (Or.inr rfl)))
      · exact Or.inr (Or.inr (Or.inr (Or.inl rfl)))
  cases st
  case stateInString =>
    right; right; left
    refine ⟨rfl, ?_⟩
    show e = false
    cases e
    · rfl
    · rcases h rfl with h1 | h1 <;> cases h1
  case stateEndValue => exact hend
  case state1 => exact hend
  case state0 => exact hend
  case stateDot0 => exact hend
  case stateE0 => exact hend
  case stateEndTop => exact Or.inr (Or.inl rfl)
  case stateBeginValueOrEmpty => exact Or.inl rfl
  case stateBeginValue => exact Or.inl rfl
  case stateBeginStringOrEmpty => exact Or.inl rfl
  case stateBeginString => exact Or.inl rfl
  all_goals exact Or.inl rfl

/-- An ASCII space keeps the scanner where a comma has left it, or is an
error. -/
theorem next_space_after_comma (s : Scanner) (c : UInt8) (hc : asciiSpace c = true)
    (h : s.step = Step.stateError ∨ (s.step = Step.stateInString ∧ s.endTop = false) ∨
      s.step = Step.stateBeginValue ∨ s.step = Step.stateBeginString) :
    (s.next c).2 = Opcode.scanError ∨ (s.next c).1.step = Step.stateError ∨
      ((s.next c).1.step = Step.stateInString ∧ (s.next c).1.endTop = false) ∨
      (s.next c).1.step = Step.stateBeginValue ∨ (s.next c).1.step = Step.stateBeginString := by
  rcases s with ⟨st, e, ps⟩
  rcases h with h | ⟨h, he⟩ | h | h <;> simp only at h <;> subst h
  · exact Or.inl rfl
  · simp only at he
    subst he
    rcases (asciiSpace_iff c).1 hc with h | h | h | h | h | h <;> subst h
    · exact Or.inl rfl
    · exact Or.inl rfl
    · exact Or.inl rfl
    · exact Or.inl rfl
    · exact Or.inl rfl
    · exact Or.inr (Or.inr (Or.inl ⟨rfl, rfl⟩))
  · rcases (asciiSpace_iff c).1 hc with h | h | h | h | h | h <;> subst h
    · exact Or.inr (Or.inr (Or.inr (Or.inl rfl)))
    · exact Or.inr (Or.inr (Or.inr (Or.inl rfl)))
    · exact Or.inl rfl
    · exact Or.inl rfl
    · exact Or.inr (Or.inr (Or.inr (Or.inl rfl)))
    · exact Or.inr (Or.inr (Or.inr (Or.inl rfl)))
  · rcases (asciiSpace_iff c).1 hc with h | h | h | h | h | h <;> subst h
    · exact Or.inr (Or.inr (Or.inr (Or.inr rfl)))
    · exact Or.inr (Or.inr (Or.inr (Or.inr rfl)))
    · exact Or.inl rfl
    · exact Or.inl rfl
    · exact Or.inr (Or.inr (Or.inr (Or.inr rfl)))
    · exact Or.inr (Or.inr (Or.inr (Or.inr rfl)))

/-- A closing bracket where a comma has left the scanner is an error, except
inside a string, where the text cannot end. -/
theorem next_close_after_comma (s : Scanner)
    (h : s.step = Step.stateError ∨ (s.step = Step.stateInString ∧ s.endTop = false) ∨
      s.step = Step.stateBeginValue ∨ s.step = Step.stateBeginString) :
    (s.next 93).2 = Opcode.scanError ∨ (s.next 93).1.eof = false := by
  rcases s with ⟨st, e, ps⟩
  rcases h with h | ⟨h, he⟩ | h | h <;> simp only at h <;> subst h
  · exact Or.inl rfl
  · simp only at he
    subst he
    exact Or.inr rfl
  · exact Or.inl rfl
  · exact Or.inl rfl

theorem scanBytes_after_comma (w : GoString) (hw : ∀ c ∈ w, asciiSpace c = true) (s : Scanner)
    (h : s.step = Step.stateError ∨ (s.step = Step.stateInString ∧ s.endTop = false) ∨
      s.step = Step.stateBeginValue ∨ s.step = Step.stateBeginString) :
    ∀ s1, scanBytes s (w ++ [93]) = some s1 → s1.eof = false := by
  induction w generalizing s with
  | nil =>
    intro s1 hs
    simp only [List.nil_append, scanBytes] at hs
    rcases next_close_after_comma s h with h1 | h1
    · rw [if_pos h1] at hs
      cases hs
    · split at hs
      · cases hs
      · simp only [Option.some.injEq] at hs
        rw [← hs]
        exact h1
  | cons c w ih =>
    intro s1 hs
    rw [List.cons_append, scanBytes] at hs
    rcases next_space_after_comma s c (hw c (List.mem_cons_self _ _)) h with h1 | h1
    · rw [if_pos h1] at hs
      cases hs
    · split at hs
      · cases hs
      · exact ih (fun x hx => hw x (List.mem_cons_of_mem _ hx)) _ h1 s1 hs

/-- A text in brackets that ends with a comma and ASCII spaces is not a JSON
value. -/
theorem checkValid_trailing_comma (head w : GoString) (hw : ∀ c ∈ w, asciiSpace c = true) :
    checkValid (91 :: (head ++ 44 :: w ++ [93])) = false := by
  have e : 91 :: (head ++ 44 :: w ++ [93]) = (91 :: head) ++ ([44] ++ (w ++ [93])) := by simp
  unfold checkValid
  rw [e, scanBytes_append]
  cases h1 : scanBytes Scanner.reset (91 :: head) with
  | none => rfl
  | some s =>
    have hinv := scanBytes_top (91 :: head) Scanner.reset s (by intro h; cases h) h1
    rw [Option.some_bind, scanBytes_append]
    have hcomma : scanBytes s [44] = if (s.next 44).2 = Opcode.scanError then none
        else some (s.next 44).1 := rfl
    rw [hcomma]
    rcases next_comma s hinv with h2 | h2
    · rw [if_pos h2]
      rfl
    · by_cases h4 : (s.next 44).2 = Opcode.scanError
      · rw [if_pos h4]
        rfl
      · rw [if_neg h4, Option.some_bind]
        cases h3 : scanBytes (s.next 44).1 (w ++ [93]) with
        | none => rfl
        | some s1 => exact scanBytes_after_comma w hw _ h2 s1 h3

/-! ## The literal null among the elements of an array -/

/-- The byte `n` begins a literal only where a value may begin, and the
scanner then expects the rest of `null`. -/
theorem next_begin_n (s : Scanner) (h : (s.next 110).2 = Opcode.scanBeginLiteral) :
    (s.next 110).1.step = Step.stateN := by
  rcases s with ⟨st, e, ps⟩
  have hend : (stateEndValue ⟨st, e, ps⟩ 110).2 ≠ Opcode.scanBeginLiteral := by
    cases ps with
    | nil => intro hh; cases hh
    | cons p rest => cases p <;> (intro hh; cases hh)
  cases st
  case stateBeginValueOrEmpty => rfl
  case stateBeginValue => rfl
  case stateEndValue => exact absurd h hend
  case state1 => exact absurd h hend
  case state0 => exact absurd h hend
  case stateDot0 => exact absurd h hend
  case stateE0 => exact absurd h hend
  all_goals cases h

/-- In the middle of `null` the scanner accepts the next byte of the word and
nothing else. -/
theorem next_in_null (st : Step) (e : Bool) (ps : List ParseState) (c : UInt8)
    (hst : st = Step.stateN ∨ st = Step.stateNu ∨ st = Step.stateNul) :
    ((⟨st, e, ps⟩ : Scanner).next c).2 = Opcode.scanError ∨
      (((⟨st, e, ps⟩ : Scanner).next c).2 = Opcode.scanContinue ∧
        ((st = Step.stateN ∧ c = 117 ∧ ((⟨st, e, ps⟩ : Scanner).next c).1.step = Step.stateNu) ∨
          (st = Step.stateNu ∧ c = 108 ∧
            ((⟨st, e, ps⟩ : Scanner).next c).1.step = Step.stateNul) ∨
          (st = Step.stateNul ∧ c = 108 ∧
            ((⟨st, e, ps⟩ : Scanner).next c).1.step = Step.stateEndValue))) := by
  rcases hst with rfl | rfl | rfl
  · by_cases hc : c = 117
    · subst hc
      exact Or.inr ⟨rfl, Or.inl ⟨rfl, rfl, rfl⟩⟩
    · left
      simp only [Scanner.next, hc, if_false]
      rfl
  · by_cases hc : c = 108
    · subst hc
      exact Or.inr ⟨rfl, Or.inr (Or.inl ⟨rfl, rfl, rfl⟩)⟩
    · left
      simp only [Scanner.next, hc, if_false]
      rfl
  · by_cases hc : c = 108
    · subst hc
      exact Or.inr ⟨rfl, Or.inr (Or.inr ⟨rfl, rfl, rfl⟩)⟩
    · left
      simp only [Scanner.next, hc, if_false]
      rfl

theorem Reader_next_scan (r : Reader) (c : UInt8) : (r.next c).scan = (r.scan.next c).1 := by
  unfold Reader.next
  simp only []
  cases (r.scan.next c).2 <;> simp only [] <;> cases r.item <;> rfl

theorem head?_concat (t : GoString) (c : UInt8) (h : t ≠ []) : (t ++ [c]).head? = t.head? := by
  cases t with
  | nil => exact absurd rfl h
  | cons a l => rfl

/-- One byte that the scanner accepts keeps what the reader holds of the
literals that start with `n`. -/
theorem nullsOnly_next (r : Reader) (c : UInt8) (h : r.nullsOnly)
    (hok : (r.scan.next c).2 ≠ Opcode.scanError) : (r.next c).nullsOnly := by
  obtain ⟨ha, hb⟩ := h
  rcases r with ⟨⟨st, e, ps⟩, els, item⟩
  simp only at ha hb hok
  -- the element that is complete when the literal being read ends
  have hclose : ∀ s1 : Scanner, (⟨st, e, ps⟩ : Scanner).next c = (s1, (⟨st, e, ps⟩ :
      Scanner).next c |>.2) →
      ((⟨st, e, ps⟩ : Scanner).next c).2 ≠ Opcode.scanContinue →
      (match item with
        | some t => (⟨s1, els ++ [Elem.literal t], none⟩ : Reader)
        | none => ⟨s1, els, none⟩).nullsOnly := by
    intro s1 _ hne
    cases item with
    | none => exact ⟨ha, fun t ht => by cases ht⟩
    | some t =>
      refine ⟨?_, fun t1 ht => by cases ht⟩
      intro it hit hhead
      simp only [List.mem_append, List.mem_singleton, Elem.literal.injEq] at hit
      rcases hit with hit | rfl
      · exact ha it hit hhead
      · obtain ⟨-, h4⟩ := hb it rfl
        rcases h4 hhead with ⟨h5, -⟩ | ⟨h5, -⟩ | ⟨h5, -⟩ | ⟨-, h6⟩
        · subst h5
          rcases next_in_null Step.stateN e ps c (Or.inl rfl) with h7 | ⟨h7, -⟩
          · exact absurd h7 hok
          · exact absurd h7 hne
        · subst h5
          rcases next_in_null Step.stateNu e ps c (Or.inr (Or.inl rfl)) with h7 | ⟨h7, -⟩
          · exact absurd h7 hok
          · exact absurd h7 hne
        · subst h5
          rcases next_in_null Step.stateNul e ps c (Or.inr (Or.inr rfl)) with h7 | ⟨h7, -⟩
          · exact absurd h7 hok
          · exact absurd h7 hne
        · exact h6
  rcases hsn : (⟨st, e, ps⟩ : Scanner).next c with ⟨s1, op⟩
  have hop : ((⟨st, e, ps⟩ : Scanner).next c).2 = op := by rw [hsn]
  have hs1 : ((⟨st, e, ps⟩ : Scanner).next c).1 = s1 := by rw [hsn]
  have hcl := hclose s1 (by rw [hsn])
  rw [hop] at hcl hok
  cases op
  case scanError => exact absurd rfl hok
  case scanContinue =>
    have e1 : Reader.next ⟨⟨st, e, ps⟩, els, item⟩ c =
        ⟨s1, els, item.map (fun t => t ++ [c])⟩ := by
      simp only [Reader.next, hsn]
    rw [e1]
    refine ⟨ha, ?_⟩
    intro t1 ht1
    cases item with
    | none => cases ht1
    | some t =>
      simp only [Option.map_some', Option.some.injEq] at ht1
      subst ht1
      obtain ⟨hne, h4⟩ := hb t rfl
      refine ⟨by simp, ?_⟩
      intro hhead
      rw [head?_concat t c hne] at hhead
      rcases h4 hhead with ⟨h5, h6⟩ | ⟨h5, h6⟩ | ⟨h5, h6⟩ | ⟨h5, h6⟩
      · subst h5
        rcases next_in_null Step.stateN e ps c (Or.inl rfl) with h7 | ⟨-, h7⟩
        · rw [hop] at h7; cases h7
        · rcases h7 with ⟨-, hc, h8⟩ | ⟨h9, -⟩ | ⟨h9, -⟩
          · rw [hs1] at h8
            subst hc
            rw [h6]
            exact Or.inr (Or.inl ⟨h8, by decide⟩)
          · cases h9
          · cases h9
      · subst h5
        rcases next_in_null Step.stateNu e ps c (Or.inr (Or.inl rfl)) with h7 | ⟨-, h7⟩
        · rw [hop] at h7; cases h7
        · rcases h7 with ⟨h9, -⟩ | ⟨-, hc, h8⟩ | ⟨h9, -⟩
          · cases h9
          · rw [hs1] at h8
            subst hc
            rw [h6]
            exact Or.inr (Or.inr (Or.inl ⟨h8, by decide⟩))
          · cases h9
      · subst h5
        rcases next_in_null Step.stateNul e ps c (Or.inr (Or.inr rfl)) with h7 | ⟨-, h7⟩
        · rw [hop] at h7; cases h7
        · rcases h7 with ⟨h9, -⟩ | ⟨h9, -⟩ | ⟨-, hc, h8⟩
          · cases h9
          · cases h9
          · rw [hs1] at h8
            subst hc
            rw [h6]
            exact Or.inr (Or.inr (Or.inr ⟨h8, by decide⟩))
      · subst h5
        exact absurd hop (stateEndValue_ne_continue _ _)
  case scanBeginLiteral =>
    have e1 : Reader.next ⟨⟨st, e, ps⟩, els, item⟩ c =
        ⟨s1, els, if ps.length = 1 then some [c] else none⟩ := by
      simp only [Reader.next, hsn]
    rw [e1]
    refine ⟨ha, ?_⟩
    intro t1 ht1
    by_cases hd : ps.length = 1
    · rw [if_pos hd] at ht1
      simp only [Option.some.injEq] at ht1
      subst ht1
      refine ⟨by simp, ?_⟩
      intro hhead
      simp only [List.head?_cons, Option.some.injEq] at hhead
      subst hhead
      have := next_begin_n ⟨st, e, ps⟩ hop
      rw [hs1] at this
      exact Or.inl ⟨this, by decide⟩
    · rw [if_neg hd] at ht1
      cases ht1
  case scanBeginArray =>
    have e1 : Reader.next ⟨⟨st, e, ps⟩, els, item⟩ c =
        ⟨s1, if ps.length = 1 then els ++ [Elem.array] else els, none⟩ := by
      simp only [Reader.next, hsn]
    rw [e1]
    refine ⟨?_, fun t1 ht => by cases ht⟩
    intro it hit hhead
    split at hit
    · simp only [List.mem_append, List.mem_singleton] at hit
      rcases hit with hit | hit
      · exact ha it hit hhead
      · cases hit
    · exact ha it hit hhead
  case scanBeginObject =>
    have e1 : Reader.next ⟨⟨st, e, ps⟩, els, item⟩ c =
        ⟨s1, if ps.length = 1 then els ++ [Elem.object] else els, none⟩ := by
      simp only [Reader.next, hsn]
    rw [e1]
    refine ⟨?_, fun t1 ht => by cases ht⟩
    intro it hit hhead
    split at hit
    · simp only [List.mem_append, List.mem_singleton] at hit
      rcases hit with hit | hit
      · exact ha it hit hhead
      · cases hit
    · exact ha it hit hhead
  all_goals
    have e1 : Reader.next ⟨⟨st, e, ps⟩, els, item⟩ c =
        (match item with
          | some t => (⟨s1, els ++ [Elem.literal t], none⟩ : Reader)
          | none => ⟨s1, els, none⟩) := by
      simp only [Reader.next, hsn]
      try rfl
    rw [e1]
    exact hcl (by intro hh; cases hh)

theorem nullsOnly_fold (data : GoString) (r : Reader) (s1 : Scanner) (h : r.nullsOnly)
    (hs : scanBytes r.scan data = some s1) : (data.foldl Reader.next r).nullsOnly := by
  induction data generalizing r with
  | nil => exact h
  | cons c cs ih =>
    rw [scanBytes] at hs
    by_cases hop : (r.scan.next c).2 = Opcode.scanError
    · rw [if_pos hop] at hs
      cases hs
    · rw [if_neg hop] at hs
      rw [List.foldl_cons]
      apply ih (r.next c) (nullsOnly_next r c h hop)
      rw [Reader_next_scan]
      exact hs

/-- In a text that checkValid accepts, an element of the top-level array
that starts with the byte `n` is the literal `null`. -/
theorem arrayElems_null (data : GoString) (h : checkValid data = true) (item : GoString)
    (hmem : Elem.literal item ∈ arrayElems data) (hhead : item.head? = some 110) :
    item = lit "null" := by
  unfold checkValid at h
  cases hs : scanBytes Scanner.reset data with
  | none => rw [hs] at h; cases h
  | some s1 =>
    have hinit : (⟨Scanner.reset, [], none⟩ : Reader).nullsOnly :=
      ⟨fun it hit => (by cases hit), fun t ht => (by cases ht)⟩
    exact (nullsOnly_fold data ⟨Scanner.reset, [], none⟩ s1 hinit hs).1 item hmem hhead

/-- An element of kind Complex64 or Complex128 is never set: the literal is
`null`, recognized by its first byte, and the element stays as it is, or an
error is recorded. -/
theorem storeComplex_cases (k : FloatKind) (item : GoString) :
    (storeComplex k item = Store.keep ∧ item.head? = some 110) ∨
      ((∃ e, storeComplex k item = Store.fail e) ∧ item.head? ≠ some 110) := by
  unfold storeComplex literalStore
  cases item with
  | nil => exact Or.inr ⟨⟨_, rfl⟩, by simp⟩
  | cons c rest =>
    by_cases h1 : c = 110
    · subst h1
      exact Or.inl ⟨rfl, rfl⟩
    · right
      refine ⟨?_, by simpa using h1⟩
      simp only [h1, if_false]
      by_cases h2 : c = 116 ∨ c = 102
      · simp only [h2, if_true]
        exact ⟨_, rfl⟩
      · simp only [h2, if_false]
        by_cases h3 : c = 34
        · simp only [h3, if_true]
          cases unquoteBytes (34 :: rest) with
          | none => exact ⟨_, rfl⟩
          | some t => exact ⟨_, rfl⟩
        · simp only [h3, if_false]
          split
          · exact ⟨_, rfl⟩
          · exact ⟨_, rfl⟩

/-- The decoding of the elements into a sequence of complex numbers: every
entry is the zero value, and no error is recorded exactly when every element
is a literal that starts with the byte `n`. -/
theorem decodeElems_complex (k : FloatKind) (elems : List Elem) :
    (decodeElems (storeComplex k) (k.zero, k.zero) elems).1 =
      List.replicate elems.length (k.zero, k.zero) ∧
    ((decodeElems (storeComplex k) (k.zero, k.zero) elems).2 = none ↔
      ∀ el ∈ elems, ∃ item, el = Elem.literal item ∧ item.head? = some 110) := by
  induction elems with
  | nil => exact ⟨rfl, by simp [decodeElems]⟩
  | cons el els ih =>
    obtain ⟨i1, i2⟩ := ih
    cases el with
    | array =>
      refine ⟨by simp only [decodeElems, i1]; rfl, ?_⟩
      simp only [decodeElems]
      constructor
      · intro hh; cases hh
      · intro hh
        obtain ⟨item, h1, -⟩ := hh _ (List.mem_cons_self _ _)
        cases h1
    | object =>
      refine ⟨by simp only [decodeElems, i1]; rfl, ?_⟩
      simp only [decodeElems]
      constructor
      · intro hh; cases hh
      · intro hh
        obtain ⟨item, h1, -⟩ := hh _ (List.mem_cons_self _ _)
        cases h1
    | literal item =>
      rcases storeComplex_cases k item with ⟨h1, h2⟩ | ⟨⟨e, h1⟩, h2⟩
      · refine ⟨by simp only [decodeElems, h1, i1]; rfl, ?_⟩
        simp only [decodeElems, h1, i2]
        constructor
        · intro hh el hel
          rcases List.mem_cons.1 hel with rfl | hel
          · exact ⟨item, rfl, h2⟩
          · exact hh el hel
        · intro hh el hel
          exact hh el (List.mem_cons_of_mem _ hel)
      · refine ⟨by simp only [decodeElems, h1, i1]; rfl, ?_⟩
        simp only [decodeElems, h1]
        constructor
        · intro hh; cases hh
        · intro hh
          obtain ⟨it, h3, h4⟩ := hh _ (List.mem_cons_self _ _)
          cases h3
          exact absurd h4 h2

/-- After the digits of a number, a sign is an error: the text of `a+bi` does
not start a JSON value. -/
theorem checkValid_complex_token (a : Int) (sign : UInt8) (hs : sign = 43 ∨ sign = 45)
    (rest : GoString) : checkValid (91 :: (Itoa a ++ sign :: rest)) = false := by
  have hn : (Scanner.reset).next 91 =
      (⟨Step.stateBeginValueOrEmpty, false, [ParseState.parseArrayValue]⟩,
        Opcode.scanBeginArray) := by decide
  obtain ⟨st1, hst1, -, i2⟩ := reader_item (Itoa a) (Itoa_isScalar a)
    Step.stateBeginValueOrEmpty (Or.inr rfl) false []
  have herr : ((⟨st1, false, [ParseState.parseArrayValue]⟩ : Scanner).next sign).2 =
      Opcode.scanError := by
    simp only [endsValue, decide_eq_true_eq] at hst1
    rcases hs with rfl | rfl <;> rcases hst1 with rfl | rfl | rfl | rfl | rfl <;> rfl
  have : scanBytes Scanner.reset (91 :: (Itoa a ++ sign :: rest)) = none := by
    simp only [scanBytes, hn]
    rw [if_neg (by intro hh; cases hh), scanBytes_append, i2, Option.some_bind]
    simp only [scanBytes, herr, if_true]
  unfold checkValid
  rw [this]

/-! ## Claims C25 and C28: texts without brackets -/

/-- The scalar conversion AsInt on the text of an int followed by a byte that
is no digit: no value and a syntax error. -/
theorem AsInt_Itoa_tail (v : Int) (hv : -(2 : Int) ^ 63 ≤ v ∧ v < (2 : Int) ^ 63) (c : UInt8)
    (hc : isDigit c = false) (t : GoString) :
    (Result.AsInt ⟨Itoa v ++ c :: t⟩).1 = 0 ∧
    errKind (Result.AsInt ⟨Itoa v ++ c :: t⟩).2 = some ConvErr.ErrSyntax := by
  obtain ⟨ds, hds, hval, hI, hshape⟩ := Itoa_shape v
  have hne : ds ≠ [] := by
    rcases hshape with ⟨d, r, e, -⟩ | ⟨e, -⟩ <;> rw [e] <;> exact List.cons_ne_nil _ _
  obtain ⟨hu1, hu2⟩ := unsign_of_digits ds hds
  have hun : unsign (Itoa v ++ c :: t) = ds ++ c :: t := by
    rw [hI]
    by_cases h0 : v < 0
    · simp only [h0, if_true, List.cons_append, unsign_cons]
      simp
    · simp only [h0, if_false]
      cases ds with
      | nil => exact absurd rfl hne
      | cons d r =>
        have hd : ¬ (d = 43 ∨ d = 45) := by
          have h1 : unsign (d :: r) = d :: r := hu1
          rw [unsign_cons] at h1
          intro hh
          rw [if_pos hh] at h1
          have := congrArg List.length h1
          simp at this
        simp only [List.cons_append, unsign_cons, if_neg hd]
  have htake : (ds ++ c :: t).takeWhile isDigit = ds := by
    rw [List.takeWhile_append_of_pos (by simpa using hds), List.takeWhile_cons_of_neg (by simp [hc])]
    simp
  have hall : ¬ (ds ++ c :: t).all isDigit = true := by
    simp [hc]
  have hbig : ¬ 2 * 2 ^ (64 - 1) - 1 < decVal ds := by
    rw [hval]
    have : (v.natAbs : Int) ≤ 2 ^ 63 := by
      rcases hv with ⟨h1, h2⟩
      omega
    have h3 : v.natAbs ≤ 2 ^ 63 := by exact_mod_cast this
    norm_num at h3 ⊢
    omega
  have hview := signed_view (64, Result.AsInt) (by simp [signedConversions])
    ⟨Itoa v ++ c :: t⟩
  simp only [hun, htake] at hview
  rw [if_neg (by simp), if_neg hbig, if_neg hall] at hview
  exact ⟨(Prod.mk.inj hview).1, (Prod.mk.inj hview).2⟩

/-- C25: scalar conversions do not trim whitespace, sequence conversions do.
For every int `v` (64 bits wide), on the text of `v` followed by a newline,
which is what a callback prints with Println, AsInt returns 0 and a syntax
error, and AsSliceInt returns the sequence of the one element `v` and no
error. -/
theorem C25_scalar_keeps_newline (v : Int) (hv : -(2 : Int) ^ 63 ≤ v ∧ v < (2 : Int) ^ 63) :
    (Result.AsInt ⟨Itoa v ++ lit "\n"⟩).1 = 0 ∧
    (Result.AsInt ⟨Itoa v ++ lit "\n"⟩).2 ≠ none ∧
    errKind (Result.AsInt ⟨Itoa v ++ lit "\n"⟩).2 = some ConvErr.ErrSyntax ∧
    Result.AsSliceInt ⟨Itoa v ++ lit "\n"⟩ = (some [v], none) := by
  have hnl : lit "\n" = [10] := by decide
  rw [hnl]
  obtain ⟨h1, h2⟩ := AsInt_Itoa_tail v hv 10 (by decide) []
  refine ⟨h1, errKind_ne_none _ _ h2, h2, ?_⟩
  have hc := cleanInput_bare [] [10] [v] (by simp) (by
    intro c hc
    simp only [List.mem_singleton] at hc
    subst hc
    decide)
  have e : [] ++ Join ([v].map Itoa) [44] ++ [10] = Itoa v ++ [10] := by simp [Join]
  rw [e] at hc
  obtain ⟨d1, d2⟩ := ints_decode 64 (by simp) [v] (by
    intro x hx
    simp only [List.mem_singleton] at hx
    subst hx
    exact hv)
  show Unmarshal (storeInt intSize) 0 (cleanInput (Itoa v ++ [10])) = _
  rw [hc, Unmarshal_array (storeInt intSize) 0 [] (Or.inl rfl) ([v].map Itoa) (by
    intro y hy
    obtain ⟨x, -, rfl⟩ := List.mem_map.1 hy
    exact Itoa_isScalar x)]
  exact Prod.ext (congrArg some d1) d2

/-- C25 at the int 42: the text is `42` and a newline. -/
theorem C25_scalar_keeps_newline_witness :
    Itoa 42 ++ lit "\n" = lit "42\n" ∧
    (Result.AsInt ⟨lit "42\n"⟩).1 = 0 ∧ (Result.AsInt ⟨lit "42\n"⟩).2 ≠ none ∧
    Result.AsSliceInt ⟨Itoa 42 ++ lit "\n"⟩ = (some [42], none) :=
  ⟨by decide, by decide, by decide,
    (C25_scalar_keeps_newline 42 (by norm_num)).2.2.2⟩

/-- C28: the enclosing brackets are optional for the sequence conversions.
For every list `xs` of ints (64 bits wide), AsSliceInt on the texts of `xs`
joined by commas, with no brackets, returns `xs` and no error; the bare
scalar `42` gives the sequence of the one element 42. The empty string, and
every string made of spaces only (the runes that unicode.IsSpace accepts, in
UTF-8), gives an empty sequence that is not nil, and no error, for every
sequence conversion. -/
theorem C28_brackets_are_optional (xs : List Int)
    (hxs : ∀ x ∈ xs, -(2 : Int) ^ 63 ≤ x ∧ x < (2 : Int) ^ 63)
    (rs : List Nat) (hrs : ∀ r ∈ rs, IsSpace r = true) :
    Result.AsSliceInt ⟨Join (xs.map Itoa) (lit ",")⟩ = (some xs, none) ∧
    Result.AsSliceInt ⟨lit "42"⟩ = (some [42], none) ∧
    everySlice ⟨lit ""⟩ (fun r => r = (some [], none)) ∧
    everySlice ⟨rs.flatMap EncodeRune⟩ (fun r => r = (some [], none)) := by
  have hempty : ∀ rs1 : List Nat, (∀ r ∈ rs1, IsSpace r = true) →
      everySlice ⟨rs1.flatMap EncodeRune⟩ (fun r => r = (some [], none)) := by
    intro rs1 h1
    apply everySlice_of_Unmarshal
    intro α store zero
    show Unmarshal store zero (cleanInput (rs1.flatMap EncodeRune)) = (some [], none)
    rw [cleanInput_unicode_spaces rs1 h1]
    have e : lit "[]" = 91 :: (Join [] (44 :: []) ++ [93]) := by decide
    rw [e, Unmarshal_array store zero [] (Or.inl rfl) [] (by simp)]
    rfl
  have hbare : Result.AsSliceInt ⟨Join (xs.map Itoa) (lit ",")⟩ = (some xs, none) := by
    have hc := cleanInput_bare [] [] xs (by simp) (by simp)
    rw [List.nil_append, List.append_nil] at hc
    obtain ⟨d1, d2⟩ := ints_decode 64 (by simp) xs hxs
    show Unmarshal (storeInt intSize) 0 (cleanInput (Join (xs.map Itoa) (lit ","))) = _
    rw [lit_comma, hc, Unmarshal_array (storeInt intSize) 0 [] (Or.inl rfl) (xs.map Itoa) (by
      intro y hy
      obtain ⟨x, -, rfl⟩ := List.mem_map.1 hy
      exact Itoa_isScalar x)]
    exact Prod.ext (congrArg some d1) d2
  exact ⟨hbare, by decide, hempty [] (by simp), hempty rs hrs⟩

/-- C28 at the list 1, -2, 3 and at the string made of a space, a no-break
space (U+00A0) and a newline. -/
theorem C28_brackets_are_optional_witness :
    Join ([1, -2, 3].map Itoa) (lit ",") = lit "1,-2,3" ∧
    [32, 0xA0, 10].flatMap EncodeRune = [32, 0xC2, 0xA0, 10] ∧
    Result.AsSliceInt ⟨Join ([1, -2, 3].map Itoa) (lit ",")⟩ = (some [1, -2, 3], none) ∧
    Result.AsSliceString ⟨[32, 0xA0, 10].flatMap EncodeRune⟩ = (some [], none) :=
  ⟨by decide, by decide,
    (C28_brackets_are_optional [1, -2, 3]
      (by
        intro x hx
        simp only [List.mem_cons, List.mem_singleton, List.not_mem_nil, or_false] at hx
        rcases hx with rfl | rfl | rfl <;> norm_num)
      [32, 0xA0, 10] (by decide)).1,
    (C28_brackets_are_optional [1, -2, 3]
      (by
        intro x hx
        simp only [List.mem_cons, List.mem_singleton, List.not_mem_nil, or_false] at hx
        rcases hx with rfl | rfl | rfl <;> norm_num)
      [32, 0xA0, 10] (by decide)).2.2.2.2.2.2.2.2.2.2.2.2.2.2.2.2.2.2.2.2.2⟩

/-! ## Claim C27: a trailing comma -/

/-- C27, as stated, fails: the text `[1,, ]`, without its brackets, ends with
a comma followed by a space; the regular expression takes the two commas for
one and leaves the space, so that cleanInput returns `[1, ]`, which does not
end in `,]`. -/
theorem C27_space_after_comma_pair :
    Trim (TrimSpace (lit "[1,, ]")) (lit "[]") = lit "1,, " ∧
    cleanInput (lit "[1,, ]") = lit "[1, ]" ∧
    ¬ (lit ",]" <:+ cleanInput (lit "[1,, ]")) := by
  decide

/-- C27, amended: for every input whose text without brackets ends with a
comma followed by ASCII spaces, none or more, cleanInput returns a text that
ends with a comma, then nothing or the same spaces, then `]`; when no space
follows the comma the text ends in `,]`. Every sequence conversion of that
input returns a nil sequence and a syntax error. -/
theorem C27_trailing_comma_is_kept (input body w : GoString)
    (hstrip : Trim (TrimSpace input) (lit "[]") = body ++ 44 :: w)
    (hw : ∀ c ∈ w, asciiSpace c = true) :
    (∃ head w1, cleanInput input = 91 :: (head ++ 44 :: w1 ++ [93]) ∧ (w1 = [] ∨ w1 = w)) ∧
    (w = [] → lit ",]" <:+ cleanInput input) ∧
    everySlice ⟨input⟩ (fun r => r = (none, some JsonError.SyntaxError)) := by
  have h44 : Contains (body ++ 44 :: w) 44 = true := by simp [Contains]
  obtain ⟨head, w1, e, hw1⟩ := replaceCommas_trailing body w hw none
  have hclean : cleanInput input = 91 :: (head ++ 44 :: w1 ++ [93]) := by
    rw [cleanInput_eq, hstrip]
    unfold separatorRules
    rw [if_neg (fun hh => hh.2 h44), e]
  have hw1s : ∀ c ∈ w1, asciiSpace c = true := by
    rcases hw1 with rfl | rfl
    · simp
    · exact hw
  refine ⟨⟨head, w1, hclean, hw1⟩, ?_, ?_⟩
  · intro h0
    subst h0
    have : w1 = [] := by rcases hw1 with h | h <;> exact h
    subst this
    rw [hclean]
    refine ⟨91 :: head, ?_⟩
    have : lit ",]" = [44, 93] := by decide
    rw [this]
    simp
  · apply everySlice_of_Unmarshal
    intro α store zero
    show Unmarshal store zero (cleanInput input) = (none, some JsonError.SyntaxError)
    rw [hclean]
    exact Unmarshal_invalid store zero _ (checkValid_trailing_comma head w1 hw1s)

/-- C27 at the input `[1,2,3,]`: it is returned as it is, and AsSliceInt
fails. -/
theorem C27_trailing_comma_is_kept_witness :
    Trim (TrimSpace (lit "[1,2,3,]")) (lit "[]") = lit "1,2,3" ++ 44 :: [] ∧
    cleanInput (lit "[1,2,3,]") = lit "[1,2,3,]" ∧
    lit ",]" <:+ cleanInput (lit "[1,2,3,]") ∧
    Result.AsSliceInt ⟨lit "[1,2,3,]"⟩ = (none, some JsonError.SyntaxError) :=
  ⟨by decide, by decide,
    (C27_trailing_comma_is_kept (lit "[1,2,3,]") (lit "1,2,3") [] (by decide) (by simp)).2.1 rfl,
    (C27_trailing_comma_is_kept (lit "[1,2,3,]") (lit "1,2,3") [] (by decide) (by simp)).2.2.1⟩

/-! ## Claim C26: arrays that are well formed already -/

/-- C26, as stated, fails: `[1 ]` and `[ ]` are JSON arrays of integers
(json.Unmarshal alone reads them as the sequence 1 and the empty sequence),
but each has a space and no comma between its brackets, so the normalization
turns the space into a comma, and AsSliceInt returns a nil sequence and a
syntax error. -/
theorem C26_space_inside_brackets :
    Unmarshal (storeInt intSize) 0 (lit "[1 ]") = (some [1], none) ∧
    cleanInput (lit "[1 ]") = lit "[1,]" ∧
    Result.AsSliceInt ⟨lit "[1 ]"⟩ = (none, some JsonError.SyntaxError) ∧
    Unmarshal (storeInt intSize) 0 (lit "[ ]") = (some [], none) ∧
    cleanInput (lit "[ ]") = lit "[,]" ∧
    Result.AsSliceInt ⟨lit "[ ]"⟩ = (none, some JsonError.SyntaxError) := by
  decide

/-- C26, amended: for every JSON array of integers in the int range (64
bits), written in base 10, with any JSON whitespace (spaces, tabs, carriage
returns, newlines) before and after the array, between the brackets of an
empty array, and before and after each element, provided the array has two
elements or more, or has no space character between its brackets: the
normalization returns the array without the whitespace around it, unchanged
between the brackets, and AsSliceInt returns exactly the integers, in order,
and no error. -/
theorem C26_wellformed_array_is_kept (pre inner post : GoString) (items : List Padded)
    (hpre : isJsonSpaces pre = true) (hinner : isJsonSpaces inner = true)
    (hpost : isJsonSpaces post = true)
    (h : ∀ p ∈ items, isJsonSpaces p.before = true ∧ isJsonSpaces p.after = true)
    (hrange : ∀ p ∈ items, -(2 : Int) ^ 63 ≤ p.val ∧ p.val < (2 : Int) ^ 63)
    (hsp : 2 ≤ items.length ∨ (32 : UInt8) ∉ paddedBody inner items) :
    cleanInput (paddedArray pre inner items post) =
      lit "[" ++ paddedBody inner items ++ lit "]" ∧
    Result.AsSliceInt ⟨paddedArray pre inner items post⟩ =
      (some (items.map Padded.val), none) := by
  have hc := cleanInput_padded pre inner post items hpre hinner hpost h hsp
  refine ⟨by rw [hc]; simp [lit_open, lit_close], ?_⟩
  obtain ⟨v1, v2⟩ := reader_padded inner hinner items h
  obtain ⟨d1, d2⟩ := ints_decode 64 (by simp) (items.map Padded.val) (by
    intro x hx
    obtain ⟨p, hp, rfl⟩ := List.mem_map.1 hx
    exact hrange p hp)
  have hel : items.map (fun y => Elem.literal (Itoa y.val)) =
      ((items.map Padded.val).map Itoa).map Elem.literal := by
    simp [List.map_map, Function.comp_def]
  show Unmarshal (storeInt intSize) 0 (cleanInput (paddedArray pre inner items post)) = _
  rw [hc]
  unfold Unmarshal
  rw [v1, v2, hel, decodeElems_literals]
  simp only [intSize, d1, d2]
  simp

/-- C26 at the array of 1, -2 and 3 written on several lines, with spaces
after the commas and around the brackets. -/
theorem C26_wellformed_array_is_kept_witness :
    paddedArray (lit " ") [] [⟨lit "\n  ", 1, []⟩, ⟨lit "\n  ", -2, lit " "⟩,
        ⟨lit "\t", 3, lit "\n"⟩] (lit "\n") =
      lit " [\n  1,\n  -2 ,\t3\n]\n" ∧
    Result.AsSliceInt ⟨paddedArray (lit " ") [] [⟨lit "\n  ", 1, []⟩, ⟨lit "\n  ", -2, lit " "⟩,
        ⟨lit "\t", 3, lit "\n"⟩] (lit "\n")⟩ = (some [1, -2, 3], none) :=
  ⟨by decide,
    (C26_wellformed_array_is_kept (lit " ") [] (lit "\n")
      [⟨lit "\n  ", 1, []⟩, ⟨lit "\n  ", -2, lit " "⟩, ⟨lit "\t", 3, lit "\n"⟩]
      (by decide) (by decide) (by decide) (by decide)
      (by
        intro p hp
        simp only [List.mem_cons, List.mem_singleton, List.not_mem_nil, or_false] at hp
        rcases hp with rfl | rfl | rfl <;> norm_num)
      (Or.inl (by decide))).2⟩

/-! ## Claim C29: sequences of complex numbers -/

/-- The sequence conversion to complex numbers, in terms of the elements of
the normalized text. -/
theorem AsSliceComplex_eq (k : FloatKind) (o : Result) :
    Result.AsSliceComplex64 k o =
      if checkValid (cleanInput o.Value) = true then
        (some (List.replicate (arrayElems (cleanInput o.Value)).length (k.zero, k.zero)),
          (decodeElems (storeComplex k) (k.zero, k.zero) (arrayElems (cleanInput o.Value))).2)
      else (none, some JsonError.SyntaxError) := by
  show Unmarshal (storeComplex k) (k.zero, k.zero) (cleanInput o.Value) = _
  unfold Unmarshal
  by_cases hv : checkValid (cleanInput o.Value) = true
  · have hhead : (cleanInput o.Value).head? = some 91 := by rw [cleanInput_eq]; rfl
    rw [if_neg (by simp [hv]), if_pos hhead, if_pos hv,
      ← (decodeElems_complex k (arrayElems (cleanInput o.Value))).1]
  · rw [if_pos hv, if_neg hv]

/-- C29: the sequence conversions to complex numbers, AsSliceComplex64 and
AsSliceComplex128 (the same function in this embedding), never return a
complex value other than zero. For every input: every entry of a returned
sequence is the zero value; the error is nil exactly when the normalized text
is a JSON array whose elements, if it has any, are all the literal `null`; so
an array with an element that is a number has an error, and a normalized text
that starts with a token `a+b...` or `a-b...` is not a JSON array and gives a
nil sequence and a syntax error. -/
theorem C29_complex_sequences_fail (k : FloatKind) (o : Result) :
    Result.AsSliceComplex128 k o = Result.AsSliceComplex64 k o ∧
    (∀ vs, (Result.AsSliceComplex64 k o).1 = some vs → ∀ v ∈ vs, v = (k.zero, k.zero)) ∧
    ((Result.AsSliceComplex64 k o).2 = none ↔
      checkValid (cleanInput o.Value) = true ∧
        ∀ el ∈ arrayElems (cleanInput o.Value), el = Elem.literal (lit "null")) ∧
    (∀ item, Elem.literal item ∈ arrayElems (cleanInput o.Value) → item ≠ lit "null" →
      (Result.AsSliceComplex64 k o).2 ≠ none) ∧
    (∀ (a : Int) (sign : UInt8) (rest : GoString), sign = 43 ∨ sign = 45 →
      cleanInput o.Value = lit "[" ++ Itoa a ++ sign :: rest →
      Result.AsSliceComplex64 k o = (none, some JsonError.SyntaxError)) ∧
    (∀ xs : List Int, xs ≠ [] →
      (Result.AsSliceComplex64 k ⟨arrayText (xs.map Itoa) (lit ", ")⟩).1 =
        some (xs.map (fun _ => (k.zero, k.zero))) ∧
      (Result.AsSliceComplex64 k ⟨arrayText (xs.map Itoa) (lit ", ")⟩).2 ≠ none) ∧
    Result.AsSliceComplex64 k ⟨lit "[3+4i]"⟩ = (none, some JsonError.SyntaxError) ∧
    Result.AsSliceComplex64 k ⟨lit "[]"⟩ = (some [], none) ∧
    Result.AsSliceComplex64 k ⟨lit "[null, null]"⟩ =
      (some [(k.zero, k.zero), (k.zero, k.zero)], none) := by
  have heq := AsSliceComplex_eq k o
  have hiff : (Result.AsSliceComplex64 k o).2 = none ↔
      checkValid (cleanInput o.Value) = true ∧
        ∀ el ∈ arrayElems (cleanInput o.Value), el = Elem.literal (lit "null") := by
    rw [heq]
    by_cases hv : checkValid (cleanInput o.Value) = true
    · rw [if_pos hv]
      simp only [(decodeElems_complex k (arrayElems (cleanInput o.Value))).2, hv, true_and]
      constructor
      · intro hh el hel
        obtain ⟨item, rfl, hhead⟩ := hh el hel
        rw [arrayElems_null _ hv item hel hhead]
      · intro hh el hel
        exact ⟨lit "null", hh el hel, by decide⟩
    · rw [if_neg hv]
      constructor
      · intro hh; cases hh
      · intro hh; exact absurd hh.1 hv
  have hsyn : ∀ o1 : Result, checkValid (cleanInput o1.Value) = false →
      Result.AsSliceComplex64 k o1 = (none, some JsonError.SyntaxError) := by
    intro o1 h1
    rw [AsSliceComplex_eq, if_neg (by simp [h1])]
  have hval : ∀ (o1 : Result) (n : Nat), checkValid (cleanInput o1.Value) = true →
      (arrayElems (cleanInput o1.Value)) = List.replicate n (Elem.literal (lit "null")) →
      Result.AsSliceComplex64 k o1 = (some (List.replicate n (k.zero, k.zero)), none) := by
    intro o1 n h1 h2
    rw [AsSliceComplex_eq, if_pos h1, h2]
    have := (decodeElems_complex k (List.replicate n (Elem.literal (lit "null")))).2.2 (by
      intro el hel
      rw [List.eq_of_mem_replicate hel]
      exact ⟨lit "null", rfl, by decide⟩)
    rw [this, List.length_replicate]
  refine ⟨rfl, ?_, hiff, ?_, ?_, ?_, hsyn ⟨lit "[3+4i]"⟩ (by decide),
    hval ⟨lit "[]"⟩ 0 (by decide) (by decide), hval ⟨lit "[null, null]"⟩ 2 (by decide) (by decide)⟩
  · intro vs hvs v hv
    rw [heq] at hvs
    by_cases hc : checkValid (cleanInput o.Value) = true
    · rw [if_pos hc] at hvs
      simp only [Option.some.injEq] at hvs
      rw [← hvs] at hv
      exact List.eq_of_mem_replicate hv
    · rw [if_neg hc] at hvs
      cases hvs
  · intro item hmem hne hnone
    have := (hiff.1 hnone).2 _ hmem
    simp only [Elem.literal.injEq] at this
    exact hne this
  · intro a sign rest hs hclean
    apply hsyn
    rw [hclean, lit_open]
    exact checkValid_complex_token a sign hs rest
  · intro xs hxs
    have h := Unmarshal_toks (storeComplex k) (k.zero, k.zero) (fun _ => none) (fun _ _ => rfl)
      (xs.map Tok.num) (storeComplex_tok k)
    have htext : (xs.map Tok.num).map Tok.text = xs.map Itoa := by
      rw [List.map_map]
      rfl
    rw [htext] at h
    constructor
    · have h1 := h.1
      simp only [List.map_map] at h1
      exact h1
    · intro hnone
      have h2 := h.2.1 hnone
      cases xs with
      | nil => exact hxs rfl
      | cons x r => exact absurd (h2 (Tok.num x) (by simp)) (by simp)

/-! ## The special values of the floating-point conversions -/

theorem sameLetter_cases (c b : UInt8) (h : sameLetter c b = true) :
    c = b ∨ ((97 ≤ b.toNat ∧ b.toNat ≤ 122) ∧ c = UInt8.ofNat (b.toNat - 32)) := by
  simp only [sameLetter, Bool.or_eq_true, Bool.and_eq_true, decide_eq_true_eq] at h
  rcases h with h | ⟨hb1, hc⟩
  · exact Or.inl h
  · right
    refine ⟨hb1, ?_⟩
    apply UInt8.toNat.inj
    have hb := UInt8.toNat_lt b
    rw [UInt8.toNat_ofNat_of_lt (by simp only [UInt8.size]; omega)]
    omega

theorem isCasing_cons (s : GoString) (b : UInt8) (name : GoString)
    (h : isCasing s (b :: name) = true) :
    ∃ c rest, s = c :: rest ∧ sameLetter c b = true ∧ isCasing rest name = true := by
  cases s with
  | nil => simp [isCasing] at h
  | cons c rest =>
    simp only [isCasing, Bool.and_eq_true] at h
    exact ⟨c, rest, rfl, h.1, h.2⟩

theorem isCasing_nil (s : GoString) (h : isCasing s [] = true) : s = [] := by
  cases s with
  | nil => rfl
  | cons c rest => simp [isCasing] at h

/-- The byte that `commonPrefixLenIgnoreCase` compares, equal to `p`, is `p`
in either letter case. -/
theorem sameLetter_of_lower (c p : UInt8)
    (h : (if 65 ≤ c.toNat ∧ c.toNat ≤ 90 then c + 32 else c) = p) : sameLetter c p = true := by
  simp only [sameLetter, Bool.or_eq_true, Bool.and_eq_true, decide_eq_true_eq]
  by_cases hu : 65 ≤ c.toNat ∧ c.toNat ≤ 90
  · rw [if_pos hu] at h
    right
    have h1 : (c + 32).toNat = c.toNat + 32 := by
      have : (c + 32).toNat = (c.toNat + 32) % 256 := rfl
      rw [this]
      omega
    rw [← h, h1]
    omega
  · rw [if_neg hu] at h
    exact Or.inl h

theorem commonPrefixLen_le (s pre : GoString) :
    commonPrefixLenIgnoreCase s pre ≤ s.length ∧
      commonPrefixLenIgnoreCase s pre ≤ pre.length := by
  induction s generalizing pre with
  | nil => simp [commonPrefixLenIgnoreCase]
  | cons c s ih =>
    cases pre with
    | nil => simp [commonPrefixLenIgnoreCase]
    | cons p pre =>
      simp only [commonPrefixLenIgnoreCase, List.length_cons]
      by_cases hc : (if 65 ≤ c.toNat ∧ c.toNat ≤ 90 then c + 32 else c) = p
      · rw [if_neg (fun hn => hn hc)]
        have := ih pre
        omega
      · rw [if_pos hc]
        omega

theorem commonPrefixLen_take (s pre : GoString) (k : Nat)
    (h : k ≤ commonPrefixLenIgnoreCase s pre) :
    isCasing (s.take k) (pre.take k) = true := by
  induction k generalizing s pre with
  | zero => simp [isCasing]
  | succ k ih =>
    cases s with
    | nil => simp [commonPrefixLenIgnoreCase] at h
    | cons c s =>
      cases pre with
      | nil => simp [commonPrefixLenIgnoreCase] at h
      | cons p pre =>
        simp only [commonPrefixLenIgnoreCase] at h
        by_cases hc : (if 65 ≤ c.toNat ∧ c.toNat ≤ 90 then c + 32 else c) = p
        · rw [if_neg (fun hn => hn hc)] at h
          simp only [List.take_succ_cons, isCasing, Bool.and_eq_true]
          exact ⟨sameLetter_of_lower c p hc, ih s pre (by omega)⟩
        · rw [if_pos hc] at h
          omega

/-- When `specialInf` finds a name that is the whole text, the text is a
letter-casing of `inf` or of `infinity`. -/
theorem specialInf_whole {R : Type} (sign : Int) (nsign : Nat) (s : GoString)
    (hok : (specialInf sign nsign s : GoFloat R × Nat × Bool).2.2 = true)
    (hn : (specialInf sign nsign s : GoFloat R × Nat × Bool).2.1 = nsign + s.length) :
    isCasing s (lit "inf") = true ∨ isCasing s (lit "infinity") = true := by
  have hle := commonPrefixLen_le s (lit "infinity")
  have htake := commonPrefixLen_take s (lit "infinity")
  have h8 : (lit "infinity").length = 8 := by decide
  have h3 : (lit "infinity").take 3 = lit "inf" := by decide
  simp only [specialInf] at hok hn
  generalize commonPrefixLenIgnoreCase s (lit "infinity") = n0 at hok hn hle htake
  by_cases hmid : 3 < n0 ∧ n0 < 8
  · simp only [hmid, and_self, if_true, true_or] at hn
    omega
  · simp only [hmid, if_false] at hok hn
    by_cases h38 : n0 = 3 ∨ n0 = 8
    · simp only [h38, if_true] at hn
      have hlen : s.length = n0 := by omega
      rcases h38 with h | h
      · left
        have := htake 3 (by omega)
        rwa [List.take_of_length_le (by omega), h3] at this
      · right
        have := htake 8 (by omega)
        rwa [List.take_of_length_le (by omega), List.take_of_length_le (by omega)] at this
    · simp only [h38, if_false] at hok
      exact absurd hok (by simp)

/-- When `special` finds a name that is the whole text, the text is one of
the names of the special values. -/
theorem special_whole {R : Type} (s : GoString)
    (hok : (special s : GoFloat R × Nat × Bool).2.2 = true)
    (hn : (special s : GoFloat R × Nat × Bool).2.1 = s.length) : isSpecialName s = true := by
  cases s with
  | nil => simp [special] at hok
  | cons c rest =>
    simp only [special] at hok hn
    simp only [isSpecialName, Bool.or_eq_true]
    by_cases hs : c = 43 ∨ c = 45
    · simp only [hs, if_true] at hok hn
      have hu : unsign (c :: rest) = rest := by simp only [unsign, hs, if_true]
      rw [hu]
      left
      exact specialInf_whole _ 1 rest hok (by rw [hn, List.length_cons]; omega)
    · simp only [hs, if_false] at hok hn
      have hu : unsign (c :: rest) = c :: rest := by simp only [unsign, hs, if_false]
      rw [hu]
      by_cases hi : c = 105 ∨ c = 73
      · simp only [hi, if_true] at hok hn
        left
        exact specialInf_whole _ 0 (c :: rest) hok (by rw [hn]; omega)
      · simp only [hi, if_false] at hok hn
        by_cases hnn : c = 110 ∨ c = 78
        · simp only [hnn, if_true] at hok hn
          by_cases h3 : commonPrefixLenIgnoreCase (c :: rest) (lit "nan") = 3
          · simp only [h3, if_true] at hn
            right
            have := commonPrefixLen_take (c :: rest) (lit "nan") 3 (by omega)
            rwa [List.take_of_length_le (by omega),
              List.take_of_length_le (by decide)] at this
          · simp only [h3, if_false] at hok
            exact absurd hok (by simp)
        · simp only [hnn, if_false] at hok
          exact absurd hok (by simp)

/-- The digit loop of `readFloat` in base 10 sees no digit in a text that has
none. -/
theorem readDigits_no_digit (m : Int) (cs : GoString) (d : Digits)
    (h : ∀ c ∈ cs, isDigit c = false) (hd : d.sawdigits = false) :
    (readDigits 10 m cs d).sawdigits = false := by
  induction cs generalizing d with
  | nil => simpa [readDigits] using hd
  | cons c cs ih =>
    have hc : ¬ (48 ≤ c.toNat ∧ c.toNat ≤ 57) := by
      have := h c (List.mem_cons_self _ _)
      simpa [isDigit] using this
    have ih1 := fun d1 => ih d1 (fun x hx => h x (List.mem_cons_of_mem _ hx))
    unfold readDigits
    by_cases h95 : c = 95
    · simp only [h95, if_true]
      exact ih1 _ hd
    · simp only [h95, if_false]
      by_cases h46 : c = 46
      · simp only [h46, if_true]
        by_cases hdot : d.sawdot = true
        · simp only [hdot, if_true]; exact hd
        · simp only [hdot, Bool.false_eq_true, if_false]
          exact ih1 _ hd
      · simp only [h46, if_false, hc, show ¬ ((10 : Nat) = 16) by decide, false_and]
        exact hd

theorem getD_no_digit (s : GoString) (i : Nat) (h : ∀ c ∈ s, isDigit c = false) :
    s.getD i 0 ≠ 48 := by
  intro h48
  by_cases hi : i < s.length
  · rw [List.getD_eq_getElem _ _ hi] at h48
    have := h _ (List.getElem_mem hi)
    rw [h48] at this
    exact absurd this (by decide)
  · rw [List.getD_eq_default _ _ (by omega)] at h48
    exact absurd h48 (by decide)

/-- `readFloat` reports a failure on a text without a decimal digit. -/
theorem readFloat_no_digit (s : GoString) (h : ∀ c ∈ s, isDigit c = false) :
    (readFloat s).ok = false := by
  cases s with
  | nil => rfl
  | cons c0 t =>
    have hg := fun i => getD_no_digit (c0 :: t) i h
    have hdig := fun i d => readDigits_no_digit 19 ((c0 :: t).drop i) d
      (fun x hx => h x (List.mem_of_mem_drop hx))
    simp only [readFloat, hg, decide_False, Bool.and_false, Bool.false_and, Bool.false_eq_true,
      if_false]
    rw [hdig _ _ rfl]
    rfl

/-- The conversion of a text without a decimal digit that is not a name of a
special value: zero and a syntax error, at both widths. -/
theorem ParseFloat_no_digit (a : FloatArith) (s : GoString) (bitSize : Nat)
    (h : ∀ c ∈ s, isDigit c = false) (hname : isSpecialName s = false) :
    ParseFloat a s bitSize = (GoFloat.zero, some (syntaxError "ParseFloat" s)) := by
  have hr := readFloat_no_digit s h
  have hsp : ¬ ((special s : GoFloat a.R64 × Nat × Bool).2.2 = true ∧
      (special s : GoFloat a.R64 × Nat × Bool).2.1 = s.length) := by
    rintro ⟨h1, h2⟩
    rw [special_whole s h1 h2] at hname
    exact absurd hname (by simp)
  unfold ParseFloat parseFloatPrefix atof32 atof64
  rcases hsv : (special s : GoFloat a.R64 × Nat × Bool) with ⟨val, n, ok⟩
  rw [hsv] at hsp
  cases ok with
  | true =>
    have hn : n ≠ s.length := fun hn => hsp ⟨rfl, hn⟩
    by_cases hb : bitSize = 32 <;> simp [hb, hn]
  | false =>
    by_cases hb : bitSize = 32 <;>
      simp [hb, hr, syntaxError, FloatArith.float64]

/-- A letter-casing of a name of three letters. -/
theorem isCasing_three (s : GoString) (b0 b1 b2 : UInt8) (h : isCasing s [b0, b1, b2] = true) :
    ∃ c0 c1 c2, s = [c0, c1, c2] ∧ sameLetter c0 b0 = true ∧ sameLetter c1 b1 = true ∧
      sameLetter c2 b2 = true := by
  obtain ⟨c0, r0, rfl, h0, hr0⟩ := isCasing_cons s b0 _ h
  obtain ⟨c1, r1, rfl, h1, hr1⟩ := isCasing_cons r0 b1 _ hr0
  obtain ⟨c2, r2, rfl, h2, hr2⟩ := isCasing_cons r1 b2 _ hr1
  rw [isCasing_nil r2 hr2]
  exact ⟨c0, c1, c2, rfl, h0, h1, h2⟩

/-- C23: for every letter-casing of `inf`, of `-inf` and of `nan`, AsFloat32
and AsFloat64 return no error and the value positive infinity, negative
infinity and NaN respectively. For every text that has no decimal digit and is
not a name of a special value (`inf` or `infinity` in any letter-casing with
or without a sign, `nan` in any letter-casing), such as `invalid`, they return
0 and a syntax error. This holds whatever the arithmetic of the finite
numbers is. -/
theorem C23_special_values_are_recognized (a : FloatArith) :
    (∀ s, isCasing s (lit "inf") = true →
      Result.AsFloat32 a ⟨s⟩ = (GoFloat.posInf, none) ∧
      Result.AsFloat64 a ⟨s⟩ = (GoFloat.posInf, none)) ∧
    (∀ s, isCasing s (lit "-inf") = true →
      Result.AsFloat32 a ⟨s⟩ = (GoFloat.negInf, none) ∧
      Result.AsFloat64 a ⟨s⟩ = (GoFloat.negInf, none)) ∧
    (∀ s, isCasing s (lit "nan") = true →
      Result.AsFloat32 a ⟨s⟩ = (GoFloat.nan, none) ∧
      Result.AsFloat64 a ⟨s⟩ = (GoFloat.nan, none)) ∧
    (∀ s, (∀ c ∈ s, isDigit c = false) → isSpecialName s = false →
      Result.AsFloat32 a ⟨s⟩ = (GoFloat.zero, some (syntaxError "ParseFloat" s)) ∧
      Result.AsFloat64 a ⟨s⟩ = (GoFloat.zero, some (syntaxError "ParseFloat" s))) ∧
    (isCasing (lit "NaN") (lit "nan") = true ∧ isCasing (lit "-Inf") (lit "-inf") = true ∧
      isCasing (lit "ian") (lit "nan") = false ∧ isSpecialName (lit "invalid") = false ∧
      (∀ c ∈ lit "invalid", isDigit c = false)) ∧
    Result.AsFloat32 a ⟨lit "invalid"⟩ =
      (GoFloat.zero, some (syntaxError "ParseFloat" (lit "invalid"))) ∧
    Result.AsFloat64 a ⟨lit "invalid"⟩ =
      (GoFloat.zero, some (syntaxError "ParseFloat" (lit "invalid"))) := by
  refine ⟨?_, ?_, ?_, ?_, by decide, rfl, rfl⟩
  · intro s hs
    rw [show lit "inf" = [105, 110, 102] from by decide] at hs
    obtain ⟨c0, c1, c2, rfl, h0, h1, h2⟩ := isCasing_three s _ _ _ hs
    rcases sameLetter_cases _ _ h0 with rfl | ⟨-, rfl⟩ <;>
      rcases sameLetter_cases _ _ h1 with rfl | ⟨-, rfl⟩ <;>
      rcases sameLetter_cases _ _ h2 with rfl | ⟨-, rfl⟩ <;>
      exact ⟨rfl, rfl⟩
  · intro s hs
    rw [show lit "-inf" = [45, 105, 110, 102] from by decide] at hs
    obtain ⟨c, rest, rfl, hc, hrest⟩ := isCasing_cons s _ _ hs
    obtain ⟨c0, c1, c2, rfl, h0, h1, h2⟩ := isCasing_three rest _ _ _ hrest
    rcases sameLetter_cases _ _ hc with rfl | ⟨⟨hlo, -⟩, -⟩
    · rcases sameLetter_cases _ _ h0 with rfl | ⟨-, rfl⟩ <;>
        rcases sameLetter_cases _ _ h1 with rfl | ⟨-, rfl⟩ <;>
        rcases sameLetter_cases _ _ h2 with rfl | ⟨-, rfl⟩ <;>
        exact ⟨rfl, rfl⟩
    · exact absurd hlo (by decide)
  · intro s hs
    rw [show lit "nan" = [110, 97, 110] from by decide] at hs
    obtain ⟨c0, c1, c2, rfl, h0, h1, h2⟩ := isCasing_three s _ _ _ hs
    rcases sameLetter_cases _ _ h0 with rfl | ⟨-, rfl⟩ <;>
      rcases sameLetter_cases _ _ h1 with rfl | ⟨-, rfl⟩ <;>
      rcases sameLetter_cases _ _ h2 with rfl | ⟨-, rfl⟩ <;>
      exact ⟨rfl, rfl⟩
  · intro s hs hname
    constructor
    · show (a.float32 (ParseFloat a s 32).1, (ParseFloat a s 32).2) = _
      rw [ParseFloat_no_digit a s 32 hs hname]
      rfl
    · show ((ParseFloat a s 64).1, (ParseFloat a s 64).2) = _
      rw [ParseFloat_no_digit a s 64 hs hname]

end GoCapture
